import Mathlib

/-!
# The generated interpreter kernel of `ChartToC`

`ChartToC::writeFSM` emits the C function `scxml_step`, `ChartToC::writeMacros` the bit macros
and constants it uses, `ChartToC::writeHelpers` the byte-wise bitset helpers and
`ChartToC::writeTypes` the descriptor records.  This file embeds that emitted program in Lean
and proves properties of it.

Conventions of the embedding:

* a C `char` array is a map from byte offset to the bit pattern (`0..255`) of the byte;
* the host callbacks act on an abstract host state `H`; every call is appended to a log;
* function pointers that the C code tests against `NULL` are `Option`s;
* a `return err;` inside a loop is the `Flow.ret` constructor.
-/

namespace ChartToC

/-! ## Bit macros (`writeMacros`) -/

/-- A C `char` array indexed by byte offset; a cell holds the bit pattern of the byte. -/
abbrev Bitset := Nat → Nat

/-- Macro `#define BIT_HAS(idx, bitset) ((bitset[idx >> 3] & (1 << (idx & 7))) != 0)` -/
def BIT_HAS (idx : Nat) (bitset : Bitset) : Bool :=
  (bitset (idx >>> 3) &&& (1 <<< (idx &&& 7))) != 0

/-- Macro `#define BIT_SET_AT(idx, bitset) bitset[idx >> 3] |= (1 << (idx & 7));` -/
def BIT_SET_AT (idx : Nat) (bitset : Bitset) : Bitset :=
  Function.update bitset (idx >>> 3) (bitset (idx >>> 3) ||| (1 <<< (idx &&& 7)))

/-- Macro `#define BIT_CLEAR(idx, bitset) bitset[idx >> 3] &= (1 << (idx & 7)) ^ 0xFF;` -/
def BIT_CLEAR (idx : Nat) (bitset : Bitset) : Bitset :=
  Function.update bitset (idx >>> 3) (bitset (idx >>> 3) &&& ((1 <<< (idx &&& 7)) ^^^ 0xFF))

def SCXML_ERR_OK : Int := 0
def SCXML_ERR_IDLE : Int := 1
def SCXML_ERR_DONE : Int := 2
def SCXML_ERR_MISSING_CALLBACK : Int := 3
def SCXML_ERR_FOREACH_DONE : Int := 4
def SCXML_ERR_EXEC_CONTENT : Int := 5
def SCXML_ERR_INVALID_TARGET : Int := 6
def SCXML_ERR_INVALID_TYPE : Int := 7
def SCXML_ERR_UNSUPPORTED : Int := 8

def SCXML_TRANS_SPONTANEOUS : Nat := 0x01
def SCXML_TRANS_TARGETLESS : Nat := 0x02
def SCXML_TRANS_INTERNAL : Nat := 0x04
def SCXML_TRANS_HISTORY : Nat := 0x08
def SCXML_TRANS_INITIAL : Nat := 0x10

def SCXML_STATE_ATOMIC : Nat := 0x01
def SCXML_STATE_PARALLEL : Nat := 0x02
def SCXML_STATE_COMPOUND : Nat := 0x03
def SCXML_STATE_FINAL : Nat := 0x04
def SCXML_STATE_HISTORY_DEEP : Nat := 0x05
def SCXML_STATE_HISTORY_SHALLOW : Nat := 0x06
def SCXML_STATE_INITIAL : Nat := 0x07
def SCXML_STATE_HAS_HISTORY : Nat := 0x80

/-- Macro `#define SCXML_STATE_MASK(t) (t & 0x7F)` -/
def SCXML_STATE_MASK (t : Nat) : Nat := t &&& 0x7F

def SCXML_CTX_PRISTINE : Nat := 0x00
def SCXML_CTX_SPONTANEOUS : Nat := 0x01
def SCXML_CTX_INITIALIZED : Nat := 0x02
def SCXML_CTX_TOP_LEVEL_FINAL : Nat := 0x04
def SCXML_CTX_TRANSITION_FOUND : Nat := 0x08

/-! ## Byte-wise helpers (`writeHelpers`)

Every helper is `while(i--) { ... a[i] ... }`: it visits the offsets `i-1, ..., 0`. -/

/-- Helper `bit_has_and`: `while(i--) { if (a[i] & b[i]) return 1; } return 0;`.  The operands are
`char`s, so only the low eight bits of a cell take part (`% 256`). -/
def bit_has_and (a b : Bitset) : Nat → Bool
  | 0 => false
  | i + 1 => if (a i &&& b i) % 256 != 0 then true else bit_has_and a b i

/-- Helper `bit_clear_all`: `while(i--) { a[i] = 0; }` -/
def bit_clear_all (a : Bitset) : Nat → Bitset
  | 0 => a
  | i + 1 => bit_clear_all (Function.update a i 0) i

/-- The value of a byte pattern read through the C type `char`: the pattern itself when plain
`char` is unsigned, its two's complement reading when plain `char` is signed. -/
def charValue (signedChar : Bool) (b : Nat) : Int :=
  if signedChar && decide (128 ≤ b % 256) then (b % 256 : Int) - 256 else (b % 256 : Int)

/-- Helper `bit_has_any`: `while(i--) { if (a[i] > 0) return 1; } return 0;` on `const char* a`. -/
def bit_has_any (signedChar : Bool) (a : Bitset) : Nat → Bool
  | 0 => false
  | i + 1 => if charValue signedChar (a i) > 0 then true else bit_has_any signedChar a i

/-- Helper `bit_or`: `while(i--) { dest[i] |= mask[i]; }` -/
def bit_or (dest mask : Bitset) : Nat → Bitset
  | 0 => dest
  | i + 1 => bit_or (Function.update dest i (dest i ||| mask i)) mask i

/-- Helper `bit_copy`: `while(i--) { dest[i] = source[i]; }` -/
def bit_copy (dest source : Bitset) : Nat → Bitset
  | 0 => dest
  | i + 1 => bit_copy (Function.update dest i (source i)) source i

/-- Helper `bit_and_not`: `while(i--) { dest[i] &= ~mask[i]; }`; on a byte `~m` is `m ^ 0xFF`. -/
def bit_and_not (dest mask : Bitset) : Nat → Bitset
  | 0 => dest
  | i + 1 => bit_and_not (Function.update dest i (dest i &&& (mask i ^^^ 0xFF))) mask i

/-- Helper `bit_and`: `while(i--) { dest[i] &= mask[i]; }` -/
def bit_and (dest mask : Bitset) : Nat → Bitset
  | 0 => dest
  | i + 1 => bit_and (Function.update dest i (dest i &&& mask i)) mask i

/-! ## Descriptor records (`writeTypes`) -/

/-- The data fields of `struct scxml_ctx`.  The function pointers of the same struct are kept
apart in `scxml_callbacks`, the opaque `user_data` is the host state `H`; `event` is the
`void*` event pointer (`none` is `NULL`). -/
structure scxml_ctx where
  flags : Nat
  config : Bitset
  history : Bitset
  invocations : Bitset
  initialized_data : Bitset
  event : Option Nat

/-- The function pointers of `struct scxml_ctx`.  A callback receives the `const scxml_ctx*`,
its arguments and the host state and returns its `int` (or pointer) result with the new host
state.  Pointers into tables are indices.  The four callbacks that `scxml_step` calls without
a `NULL` test are plain functions, the others are `Option`s.  `signedChar` records whether the
plain `char` of the C implementation is signed. -/
structure scxml_callbacks (H : Type) where
  signedChar : Bool
  dequeue_internal : scxml_ctx → H → Option Nat × H
  dequeue_external : scxml_ctx → H → Option Nat × H
  is_enabled : scxml_ctx → Nat → Option Nat → H → Int × H
  is_true : Option (scxml_ctx → Option String → H → Int × H)
  raise_done_event : scxml_ctx → Nat → Option Nat → H → Int × H
  exec_content_log : Option (scxml_ctx → Option String → Option String → H → Int × H)
  exec_content_raise : Option (scxml_ctx → Option String → H → Int × H)
  exec_content_send : Option (scxml_ctx → Nat → H → Int × H)
  exec_content_foreach_init : Option (scxml_ctx → Nat → H → Int × H)
  exec_content_foreach_next : Option (scxml_ctx → Nat → H → Int × H)
  exec_content_foreach_done : Option (scxml_ctx → Nat → H → Int × H)
  exec_content_assign : Option (scxml_ctx → Option String → Option String → H → Int × H)
  exec_content_init : Option (scxml_ctx → Nat → H → Int × H)
  exec_content_cancel : Option (scxml_ctx → Option String → Option String → H → Int × H)
  exec_content_script : Option (scxml_ctx → Option String → Option String → H → Int × H)
  invoke : Option (scxml_ctx → Nat → Option Nat → Nat → H → Int × H)

/-- Type `typedef int (*exec_content_t)(const scxml_ctx* ctx, const scxml_state* state,
const void* event)`: an emitted program.  It reaches the host through the callbacks of the
context; the state pointer is a state index. -/
abbrev exec_content_t (H : Type) :=
  scxml_callbacks H → scxml_ctx → Nat → Option Nat → H → Int × H

/-- Type `typedef int (*invoke_t)(const scxml_ctx* ctx, const scxml_state* s,
const scxml_elem_invoke* invocation, uint8_t uninvoke)`. -/
abbrev invoke_t (H : Type) :=
  scxml_callbacks H → scxml_ctx → Nat → Option Nat → Nat → H → Int × H

/-- Record `struct scxml_state`. -/
structure scxml_state (H : Type) where
  name : Option String
  parent : Nat
  on_entry : Option (exec_content_t H)
  on_exit : Option (exec_content_t H)
  invoke : Option (invoke_t H)
  children : Bitset
  completion : Bitset
  ancestors : Bitset
  data : Option Nat
  type : Nat

/-- Record `struct scxml_transition`. -/
structure scxml_transition (H : Type) where
  source : Nat
  target : Bitset
  event : Option String
  condition : Option String
  on_transition : Option (exec_content_t H)
  type : Nat
  conflicts : Bitset
  exit_set : Bitset

/-- Record `struct scxml_elem_donedata`; `params` points into the param table. -/
structure scxml_elem_donedata where
  source : Nat
  content : Option String
  contentexpr : Option String
  params : Option Nat

/-- Macro `#define ELEM_DONEDATA_IS_SET(donedata) (donedata->content != NULL ||
donedata->contentexpr != NULL || donedata->params != NULL)` -/
def ELEM_DONEDATA_IS_SET (d : scxml_elem_donedata) : Bool :=
  d.content.isSome || d.contentexpr.isSome || d.params.isSome

/-- Record `struct scxml_machine`.  The state and transition tables are addressed by index; the
donedata table is the emitted array, whose zeroed last record ends every scan. -/
structure scxml_machine (H : Type) where
  flags : Nat
  nr_states : Nat
  nr_transitions : Nat
  name : String
  datamodel : String
  uuid : String
  states : Nat → scxml_state H
  transitions : Nat → scxml_transition H
  parent : Option Nat
  donedata : List scxml_elem_donedata
  script : Option (exec_content_t H)

/-! ## The stepper (`writeFSM`) -/

/-- One entry of the call log: a call that `scxml_step` makes through a function pointer. -/
inductive Call where
  | script
  | dequeue_internal
  | dequeue_external
  | invoke (state : Nat) (uninvoke : Nat)
  | is_enabled (transition : Nat)
  | on_exit (state : Nat)
  | on_transition (transition : Nat) (state : Nat)
  | exec_content_init (state : Nat)
  | on_entry (state : Nat)
  | raise_done_event (state : Nat) (donedata : Option Nat)
  deriving DecidableEq, Repr

/-- The six scratch bitsets on the stack of `scxml_step`. -/
structure Locals where
  conflicts : Bitset
  trans_set : Bitset
  target_set : Bitset
  exit_set : Bitset
  entry_set : Bitset
  tmp_states : Bitset

/-- The state of an execution of `scxml_step`: context, host state, call log so far and the
scratch bitsets. -/
structure Frame (H : Type) where
  ctx : scxml_ctx
  host : H
  log : List Call
  conflicts : Bitset
  trans_set : Bitset
  target_set : Bitset
  exit_set : Bitset
  entry_set : Bitset
  tmp_states : Bitset

/-- Control flow of a loop body: fall through to the next iteration, or `return err;`. -/
inductive Flow (σ : Type) where
  | next (s : σ)
  | ret (err : Int) (s : σ)

/-- A `for` loop whose body may `return`: the indices are visited in the order of the list. -/
def loop {σ : Type} (body : Nat → σ → Flow σ) : List Nat → σ → Flow σ
  | [], s => Flow.next s
  | i :: is, s =>
    match body i s with
    | Flow.next s' => loop body is s'
    | Flow.ret e s' => Flow.ret e s'

/-- Sequencing: run `k` on the frame unless the first part has executed a `return`. -/
def Flow.andThen {σ : Type} (r : Flow σ) (k : σ → Flow σ) : Flow σ :=
  match r with
  | Flow.next s => k s
  | Flow.ret e s => Flow.ret e s

/-- The indices `0, 1, ..., n-1` of `for (i = 0; i < n; i++)`. -/
def upTo (n : Nat) : List Nat := List.range n

/-- The indices `a, a+1, ..., n-1` of `for (k = a; k < n; k++)`. -/
def fromTo (a n : Nat) : List Nat := List.range' a (n - a)

/-- The indices `n-1, ..., 0` of `i = n; while(i-- > 0)`. -/
def downFrom (n : Nat) : List Nat := (List.range n).reverse

/-- A search loop `for (...) { if (p) { ...; break; } }`: the first index of the list at which
`p` holds. -/
def firstIdx (p : Nat → Bool) (l : List Nat) : Option Nat := l.find? p

/-- Local `nr_states_bytes = ((SCXML_NUMBER_STATES + 7) & ~7) >> 3`; `x & ~7` clears the low three
bits of `x`, that is `x - x % 8`. -/
def nr_states_bytes {H : Type} (m : scxml_machine H) : Nat :=
  (m.nr_states + 7 - (m.nr_states + 7) % 8) >>> 3

/-- Local `nr_trans_bytes = ((SCXML_NUMBER_TRANS + 7) & ~7) >> 3`. -/
def nr_trans_bytes {H : Type} (m : scxml_machine H) : Nat :=
  (m.nr_transitions + 7 - (m.nr_transitions + 7) % 8) >>> 3

section Stepper
variable {H : Type}

/-- Statement `if (ctx->machine->states[i].invoke != NULL) ctx->machine->states[i].invoke(ctx,
&ctx->machine->states[i], NULL, uninvoke);`; the result of the call is discarded. -/
def call_invoke (m : scxml_machine H) (cb : scxml_callbacks H) (i uninvoke : Nat)
    (f : Frame H) : Frame H :=
  match (m.states i).invoke with
  | some inv =>
    { f with host := (inv cb f.ctx i none uninvoke f.host).2,
             log := f.log ++ [Call.invoke i uninvoke] }
  | none => f

/-- Block `// manage invocations`, first statement of the loop body (`// uninvoke`). -/
def uninvoke_step (m : scxml_machine H) (cb : scxml_callbacks H) (i : Nat) (f : Frame H) :
    Frame H :=
  if !BIT_HAS i f.ctx.config && BIT_HAS i f.ctx.invocations then
    let f' := call_invoke m cb i 1 f
    { f' with ctx := { f'.ctx with invocations := BIT_CLEAR i f'.ctx.invocations } }
  else f

/-- Block `// manage invocations`, second statement of the loop body (`// invoke`). -/
def invoke_step (m : scxml_machine H) (cb : scxml_callbacks H) (i : Nat) (f : Frame H) :
    Frame H :=
  if BIT_HAS i f.ctx.config && !BIT_HAS i f.ctx.invocations then
    let f' := call_invoke m cb i 0 f
    { f' with ctx := { f'.ctx with invocations := BIT_SET_AT i f'.ctx.invocations } }
  else f

/-- Body of the `// manage invocations` loop. -/
def manage_invocations_body (m : scxml_machine H) (cb : scxml_callbacks H) (i : Nat)
    (f : Frame H) : Frame H :=
  invoke_step m cb i (uninvoke_step m cb i f)

/-- The `// manage invocations` loop `for (i = 0; i < SCXML_NUMBER_STATES; i++)`. -/
def manage_invocations (m : scxml_machine H) (cb : scxml_callbacks H) (f : Frame H) : Frame H :=
  (upTo m.nr_states).foldl (fun f i => manage_invocations_body m cb i f) f

/-- Event acquisition, from the test of `SCXML_CTX_SPONTANEOUS` to the label
`SELECT_TRANSITIONS`; every path ends at that label. -/
def acquire_event (m : scxml_machine H) (cb : scxml_callbacks H) (f : Frame H) : Frame H :=
  if f.ctx.flags &&& SCXML_CTX_SPONTANEOUS != 0 then
    { f with ctx := { f.ctx with event := none } }
  else
    let r := cb.dequeue_internal f.ctx f.host
    let f1 : Frame H :=
      { f with ctx := { f.ctx with event := r.1 }, host := r.2,
               log := f.log ++ [Call.dequeue_internal] }
    if r.1.isSome then f1
    else
      let f2 := manage_invocations m cb f1
      let r2 := cb.dequeue_external f2.ctx f2.host
      { f2 with ctx := { f2.ctx with event := r2.1 }, host := r2.2,
                log := f2.log ++ [Call.dequeue_external] }

/-- Body of the loop of `SELECT_TRANSITIONS`. -/
def select_body (m : scxml_machine H) (cb : scxml_callbacks H) (i : Nat) (f : Frame H) :
    Frame H :=
  -- never select history or initial transitions automatically
  if (m.transitions i).type &&& (SCXML_TRANS_HISTORY ||| SCXML_TRANS_INITIAL) != 0 then f
  -- is the transition active?
  else if BIT_HAS (m.transitions i).source f.ctx.config then
    -- is it non-conflicting?
    if !BIT_HAS i f.conflicts then
      -- is it enabled?
      let r := cb.is_enabled f.ctx i f.ctx.event f.host
      let f1 : Frame H := { f with host := r.2, log := f.log ++ [Call.is_enabled i] }
      if r.1 > 0 then
        { f1 with
          ctx := { f1.ctx with flags := f1.ctx.flags ||| SCXML_CTX_TRANSITION_FOUND },
          conflicts := bit_or f1.conflicts (m.transitions i).conflicts (nr_trans_bytes m),
          target_set := bit_or f1.target_set (m.transitions i).target (nr_states_bytes m),
          exit_set := bit_or f1.exit_set (m.transitions i).exit_set (nr_states_bytes m),
          trans_set := BIT_SET_AT i f1.trans_set }
      else f1
    else f
  else f

/-- The scan of `SELECT_TRANSITIONS` over the first `n` transitions, after the two
`bit_clear_all`. -/
def select_scan (m : scxml_machine H) (cb : scxml_callbacks H) (n : Nat) (f : Frame H) :
    Frame H :=
  (upTo n).foldl (fun f i => select_body m cb i f)
    { f with conflicts := bit_clear_all f.conflicts (nr_trans_bytes m),
             exit_set := bit_clear_all f.exit_set (nr_states_bytes m) }

/-- Label `SELECT_TRANSITIONS:` up to and including `bit_and(exit_set, ctx->config, ...)`. -/
def select_transitions (m : scxml_machine H) (cb : scxml_callbacks H) (f : Frame H) : Frame H :=
  let f1 := select_scan m cb m.nr_transitions f
  { f1 with exit_set := bit_and f1.exit_set f1.ctx.config (nr_states_bytes m) }

/-- The update of the flags after the scan: `if (ctx->flags & SCXML_CTX_TRANSITION_FOUND)
{ flags |= SPONTANEOUS; flags &= ~TRANSITION_FOUND; } else { flags &= ~SPONTANEOUS; }`;
on the `uint8_t` flags `~x` is `x ^ 0xFF`. -/
def update_flags (f : Frame H) : Frame H :=
  if f.ctx.flags &&& SCXML_CTX_TRANSITION_FOUND != 0 then
    { f with ctx := { f.ctx with
        flags := (f.ctx.flags ||| SCXML_CTX_SPONTANEOUS) &&&
                   (SCXML_CTX_TRANSITION_FOUND ^^^ 0xFF) } }
  else
    { f with ctx := { f.ctx with flags := f.ctx.flags &&& (SCXML_CTX_SPONTANEOUS ^^^ 0xFF) } }

/-- Is state `i` a history pseudo-state (shallow or deep)? -/
def isHistoryType (m : scxml_machine H) (i : Nat) : Bool :=
  SCXML_STATE_MASK (m.states i).type == SCXML_STATE_HISTORY_SHALLOW ||
    SCXML_STATE_MASK (m.states i).type == SCXML_STATE_HISTORY_DEEP

/-- Body of the loop of `REMEMBER_HISTORY`. -/
def remember_body (m : scxml_machine H) (i : Nat) (f : Frame H) : Frame H :=
  if isHistoryType m i then
    -- a history state whose parent is about to be exited
    if BIT_HAS (m.states i).parent f.exit_set then
      let tmp := bit_copy f.tmp_states (m.states i).completion (nr_states_bytes m)
      -- set those states who were enabled
      let tmp := bit_and tmp f.ctx.config (nr_states_bytes m)
      -- clear current history with completion mask
      let hist := bit_and_not f.ctx.history (m.states i).completion (nr_states_bytes m)
      -- set history
      let hist := bit_or hist tmp (nr_states_bytes m)
      { f with tmp_states := tmp, ctx := { f.ctx with history := hist } }
    else f
  else f

/-- Label `REMEMBER_HISTORY`: `for (i = 0; i < SCXML_NUMBER_STATES; i++)`. -/
def remember_history (m : scxml_machine H) (f : Frame H) : Frame H :=
  (upTo m.nr_states).foldl (fun f i => remember_body m i f) f

/-- The loop `// iterate for ancestors` of `ESTABLISH_ENTRY_SET`. -/
def ancestor_sweep (m : scxml_machine H) (f : Frame H) : Frame H :=
  (upTo m.nr_states).foldl
    (fun f i =>
      if BIT_HAS i f.entry_set then
        { f with entry_set := bit_or f.entry_set (m.states i).ancestors (nr_states_bytes m) }
      else f) f

/-- Descendant sweep, `case SCXML_STATE_PARALLEL`. -/
def descend_parallel (m : scxml_machine H) (i : Nat) (f : Frame H) : Frame H :=
  { f with entry_set := bit_or f.entry_set (m.states i).completion (nr_states_bytes m) }

/-- Descendant sweep, history case, first branch: nothing set for history, look for a default
transition (the first `j` with `transitions[j].source == i`). -/
def descend_history_default (m : scxml_machine H) (i : Nat) (f : Frame H) : Frame H :=
  match firstIdx (fun j => (m.transitions j).source == i) (upTo m.nr_transitions) with
  | none => f
  | some j =>
    let es := bit_or f.entry_set (m.transitions j).target (nr_states_bytes m)
    let es :=
      if SCXML_STATE_MASK (m.states i).type == SCXML_STATE_HISTORY_DEEP &&
          !bit_has_and (m.transitions j).target (m.states i).children (nr_states_bytes m) then
        match firstIdx (fun k => BIT_HAS k (m.transitions j).target)
            (fromTo (i + 1) m.nr_states) with
        | some k => bit_or es (m.states k).ancestors (nr_states_bytes m)
        | none => es
      else es
    { f with entry_set := es, trans_set := BIT_SET_AT j f.trans_set }

/-- Descendant sweep, history case, second branch: restore from the history bitset. -/
def descend_history_restore (m : scxml_machine H) (i : Nat) (f : Frame H) : Frame H :=
  let tmp := bit_copy f.tmp_states (m.states i).completion (nr_states_bytes m)
  let tmp := bit_and tmp f.ctx.history (nr_states_bytes m)
  let es := bit_or f.entry_set tmp (nr_states_bytes m)
  let es :=
    if (m.states i).type == (SCXML_STATE_HAS_HISTORY ||| SCXML_STATE_HISTORY_DEEP) then
      -- a deep history state with nested histories -> more completion
      (fromTo (i + 1) m.nr_states).foldl
        (fun es j =>
          if BIT_HAS j (m.states i).completion && BIT_HAS j es &&
              ((m.states j).type &&& SCXML_STATE_HAS_HISTORY != 0) then
            (fromTo (j + 1) m.nr_states).foldl
              (fun es k =>
                -- add nested history to entry_set
                if (SCXML_STATE_MASK (m.states k).type == SCXML_STATE_HISTORY_DEEP ||
                    SCXML_STATE_MASK (m.states k).type == SCXML_STATE_HISTORY_SHALLOW) &&
                    BIT_HAS k (m.states j).children then
                  BIT_SET_AT k es
                else es) es
          else es) es
    else es
  { f with tmp_states := tmp, entry_set := es }

/-- Descendant sweep, `case SCXML_STATE_HISTORY_SHALLOW: case SCXML_STATE_HISTORY_DEEP`. -/
def descend_history (m : scxml_machine H) (i : Nat) (f : Frame H) : Frame H :=
  if !bit_has_and (m.states i).completion f.ctx.history (nr_states_bytes m) &&
      !BIT_HAS (m.states i).parent f.ctx.config then
    descend_history_default m i f
  else
    descend_history_restore m i f

/-- Descendant sweep, `case SCXML_STATE_INITIAL`: every transition with source `i`. -/
def descend_initial (m : scxml_machine H) (i : Nat) (f : Frame H) : Frame H :=
  (upTo m.nr_transitions).foldl
    (fun f j =>
      if (m.transitions j).source == i then
        let ts := BIT_SET_AT j f.trans_set
        let es := BIT_CLEAR i f.entry_set
        let es := bit_or es (m.transitions j).target (nr_states_bytes m)
        let es := (fromTo (i + 1) m.nr_states).foldl
          (fun es k =>
            if BIT_HAS k (m.transitions j).target then
              bit_or es (m.states k).ancestors (nr_states_bytes m)
            else es) es
        { f with trans_set := ts, entry_set := es }
      else f) f

/-- The test of `case SCXML_STATE_COMPOUND`: no child is already in `entry_set`, and no child
is in `config` or some child is in `exit_set`. -/
def compound_needs_completion (m : scxml_machine H) (i : Nat) (f : Frame H) : Bool :=
  !bit_has_and f.entry_set (m.states i).children (nr_states_bytes m) &&
    (!bit_has_and f.ctx.config (m.states i).children (nr_states_bytes m) ||
      bit_has_and f.exit_set (m.states i).children (nr_states_bytes m))

/-- Descendant sweep, `case SCXML_STATE_COMPOUND`. -/
def descend_compound (m : scxml_machine H) (i : Nat) (f : Frame H) : Frame H :=
  if compound_needs_completion m i f then
    let es := bit_or f.entry_set (m.states i).completion (nr_states_bytes m)
    let es :=
      if !bit_has_and (m.states i).completion (m.states i).children (nr_states_bytes m) then
        -- deep completion
        match firstIdx (fun j => BIT_HAS j (m.states i).completion)
            (fromTo (i + 1) m.nr_states) with
        | some j => bit_or es (m.states j).ancestors (nr_states_bytes m)
        | none => es
      else es
    { f with entry_set := es }
  else f

/-- Body of the loop `// iterate for descendants`: the `switch` on the masked state type. -/
def descend_body (m : scxml_machine H) (i : Nat) (f : Frame H) : Frame H :=
  if BIT_HAS i f.entry_set then
    if SCXML_STATE_MASK (m.states i).type == SCXML_STATE_PARALLEL then descend_parallel m i f
    else if SCXML_STATE_MASK (m.states i).type == SCXML_STATE_HISTORY_SHALLOW ||
        SCXML_STATE_MASK (m.states i).type == SCXML_STATE_HISTORY_DEEP then descend_history m i f
    else if SCXML_STATE_MASK (m.states i).type == SCXML_STATE_INITIAL then descend_initial m i f
    else if SCXML_STATE_MASK (m.states i).type == SCXML_STATE_COMPOUND then
      descend_compound m i f
    else f
  else f

/-- The descendant sweep over the first `n` states. -/
def descendant_sweep (m : scxml_machine H) (n : Nat) (f : Frame H) : Frame H :=
  (upTo n).foldl (fun f i => descend_body m i f) f

/-- Label `ESTABLISH_ENTRY_SET:` copy of the target set, ancestor sweep, descendant sweep. -/
def establish_entry_set (m : scxml_machine H) (f : Frame H) : Frame H :=
  let f1 : Frame H :=
    { f with entry_set := bit_copy f.entry_set f.target_set (nr_states_bytes m) }
  descendant_sweep m m.nr_states (ancestor_sweep m f1)

/-- Is transition `t` flagged `SCXML_TRANS_HISTORY` or `SCXML_TRANS_INITIAL`? -/
def isPseudoTrans (m : scxml_machine H) (t : Nat) : Bool :=
  (m.transitions t).type &&& (SCXML_TRANS_HISTORY ||| SCXML_TRANS_INITIAL) != 0

/-- Body of the loop of `EXIT_STATES`. -/
def exit_body (m : scxml_machine H) (cb : scxml_callbacks H) (i : Nat) (f : Frame H) :
    Flow (Frame H) :=
  if BIT_HAS i f.exit_set && BIT_HAS i f.ctx.config then
    -- call all on exit handlers
    match (m.states i).on_exit with
    | some prog =>
      let r := prog cb f.ctx i f.ctx.event f.host
      let f1 : Frame H := { f with host := r.2, log := f.log ++ [Call.on_exit i] }
      if r.1 != SCXML_ERR_OK then Flow.ret r.1 f1
      else Flow.next { f1 with ctx := { f1.ctx with config := BIT_CLEAR i f1.ctx.config } }
    | none => Flow.next { f with ctx := { f.ctx with config := BIT_CLEAR i f.ctx.config } }
  else Flow.next f

/-- Label `EXIT_STATES`: `i = SCXML_NUMBER_STATES; while(i-- > 0)`. -/
def exit_states (m : scxml_machine H) (cb : scxml_callbacks H) (f : Frame H) : Flow (Frame H) :=
  loop (exit_body m cb) (downFrom m.nr_states) f

/-- Body of the loop of `TAKE_TRANSITIONS`. -/
def take_body (m : scxml_machine H) (cb : scxml_callbacks H) (i : Nat) (f : Frame H) :
    Flow (Frame H) :=
  if BIT_HAS i f.trans_set && !isPseudoTrans m i then
    -- call executable content in transition
    match (m.transitions i).on_transition with
    | some prog =>
      let r := prog cb f.ctx (m.transitions i).source f.ctx.event f.host
      let f1 : Frame H :=
        { f with host := r.2, log := f.log ++ [Call.on_transition i (m.transitions i).source] }
      if r.1 != SCXML_ERR_OK then Flow.ret r.1 f1 else Flow.next f1
    | none => Flow.next f
  else Flow.next f

/-- Label `TAKE_TRANSITIONS`: `for (i = 0; i < SCXML_NUMBER_TRANS; i++)`. -/
def take_transitions (m : scxml_machine H) (cb : scxml_callbacks H) (f : Frame H) :
    Flow (Frame H) :=
  loop (take_body m cb) (upTo m.nr_transitions) f

/-- Label `ENTER_STATES`, `// initialize data`. -/
def enter_init_data (m : scxml_machine H) (cb : scxml_callbacks H) (i : Nat) (f : Frame H) :
    Frame H :=
  if !BIT_HAS i f.ctx.initialized_data then
    let f1 : Frame H :=
      match (m.states i).data, cb.exec_content_init with
      | some d, some init =>
        { f with host := (init f.ctx d f.host).2, log := f.log ++ [Call.exec_content_init i] }
      | _, _ => f
    { f1 with ctx := { f1.ctx with initialized_data := BIT_SET_AT i f1.ctx.initialized_data } }
  else f

/-- Label `ENTER_STATES`, `// take history and initial transitions`: body of the loop over `j`. -/
def enter_trans_body (m : scxml_machine H) (cb : scxml_callbacks H) (i j : Nat) (f : Frame H) :
    Flow (Frame H) :=
  if BIT_HAS j f.trans_set && isPseudoTrans m j &&
      (m.states (m.transitions j).source).parent == i then
    -- call executable content in transition
    match (m.transitions j).on_transition with
    | some prog =>
      let r := prog cb f.ctx i f.ctx.event f.host
      let f1 : Frame H := { f with host := r.2, log := f.log ++ [Call.on_transition j i] }
      if r.1 != SCXML_ERR_OK then Flow.ret r.1 f1 else Flow.next f1
    | none => Flow.next f
  else Flow.next f

/-- The scan of the donedata table: `while(ELEM_DONEDATA_IS_SET(donedata)) { if
(donedata->source == i) break; donedata++; }` followed by `ELEM_DONEDATA_IS_SET(donedata) ?
donedata : NULL`; `k` is the index of the head of the list in the table. -/
def find_donedata (i : Nat) : List scxml_elem_donedata → Nat → Option Nat
  | [], _ => none
  | d :: ds, k =>
    if ELEM_DONEDATA_IS_SET d then
      if d.source == i then some k else find_donedata i ds (k + 1)
    else none

/-- Label `ENTER_STATES`, parallel done detection: the inner loop over `k` that fills `tmp_states`
for the parallel ancestor `j`. -/
def parallel_remaining (m : scxml_machine H) (j : Nat) (f : Frame H) : Bitset :=
  (upTo m.nr_states).foldl
    (fun tmp k =>
      if BIT_HAS j (m.states k).ancestors && BIT_HAS k f.ctx.config then
        if SCXML_STATE_MASK (m.states k).type == SCXML_STATE_FINAL then
          bit_and_not tmp (m.states k).ancestors (nr_states_bytes m)
        else BIT_SET_AT k tmp
      else tmp)
    (bit_clear_all f.tmp_states (nr_states_bytes m))

/-- Label `ENTER_STATES`, parallel done detection: body of the loop over `j`. -/
def enter_parallel_body (m : scxml_machine H) (cb : scxml_callbacks H) (i j : Nat)
    (f : Frame H) : Frame H :=
  if SCXML_STATE_MASK (m.states j).type == SCXML_STATE_PARALLEL &&
      BIT_HAS j (m.states i).ancestors then
    let tmp := parallel_remaining m j f
    let f1 : Frame H := { f with tmp_states := tmp }
    if !bit_has_any cb.signedChar tmp (nr_states_bytes m) then
      { f1 with host := (cb.raise_done_event f1.ctx j none f1.host).2,
                log := f1.log ++ [Call.raise_done_event j none] }
    else f1
  else f

/-- Label `ENTER_STATES`, `// handle final states`. -/
def enter_final (m : scxml_machine H) (cb : scxml_callbacks H) (i : Nat) (f : Frame H) :
    Frame H :=
  if SCXML_STATE_MASK (m.states i).type == SCXML_STATE_FINAL then
    let f1 : Frame H :=
      if charValue cb.signedChar ((m.states i).ancestors 0) == 0x01 then
        { f with ctx := { f.ctx with flags := f.ctx.flags ||| SCXML_CTX_TOP_LEVEL_FINAL } }
      else
        -- raise done event
        let dd := find_donedata i m.donedata 0
        { f with host := (cb.raise_done_event f.ctx (m.states i).parent dd f.host).2,
                 log := f.log ++ [Call.raise_done_event (m.states i).parent dd] }
    (upTo m.nr_states).foldl (fun f j => enter_parallel_body m cb i j f) f1
  else f

/-- Is state `i` a history or initial pseudo-state (`// these are no proper states`)? -/
def isPseudoState (m : scxml_machine H) (i : Nat) : Bool :=
  SCXML_STATE_MASK (m.states i).type == SCXML_STATE_HISTORY_DEEP ||
    SCXML_STATE_MASK (m.states i).type == SCXML_STATE_HISTORY_SHALLOW ||
    SCXML_STATE_MASK (m.states i).type == SCXML_STATE_INITIAL

/-- Label `ENTER_STATES`, the call of the `on_entry` program of state `i`. -/
def enter_on_entry (m : scxml_machine H) (cb : scxml_callbacks H) (i : Nat) (f : Frame H) :
    Flow (Frame H) :=
  match (m.states i).on_entry with
  | some prog =>
    let r := prog cb f.ctx i f.ctx.event f.host
    let f1 : Frame H := { f with host := r.2, log := f.log ++ [Call.on_entry i] }
    if r.1 != SCXML_ERR_OK then Flow.ret r.1 f1 else Flow.next f1
  | none => Flow.next f

/-- Body of the loop of `ENTER_STATES`. -/
def enter_body (m : scxml_machine H) (cb : scxml_callbacks H) (i : Nat) (f : Frame H) :
    Flow (Frame H) :=
  if BIT_HAS i f.entry_set && !BIT_HAS i f.ctx.config then
    -- these are no proper states
    if isPseudoState m i then Flow.next f
    else
      let f1 : Frame H := { f with ctx := { f.ctx with config := BIT_SET_AT i f.ctx.config } }
      (enter_on_entry m cb i (enter_init_data m cb i f1)).andThen fun f3 =>
        -- take history and initial transitions
        (loop (enter_trans_body m cb i) (upTo m.nr_transitions) f3).andThen fun f4 =>
          -- handle final states
          Flow.next (enter_final m cb i f4)
  else Flow.next f

/-- Label `ENTER_STATES`: `for (i = 0; i < SCXML_NUMBER_STATES; i++)`. -/
def enter_states (m : scxml_machine H) (cb : scxml_callbacks H) (f : Frame H) :
    Flow (Frame H) :=
  loop (enter_body m cb) (upTo m.nr_states) f

/-- The result of `scxml_step`: the returned code and the frame at the `return`. -/
structure StepResult (H : Type) where
  err : Int
  frame : Frame H

/-- From `EXIT_STATES` to `return SCXML_ERR_OK;`. -/
def exit_take_enter (m : scxml_machine H) (cb : scxml_callbacks H) (f : Frame H) :
    StepResult H :=
  match (exit_states m cb f).andThen fun f1 =>
      (take_transitions m cb f1).andThen fun f2 => enter_states m cb f2 with
  | Flow.ret e f3 => ⟨e, f3⟩
  | Flow.next f3 => ⟨SCXML_ERR_OK, f3⟩

/-- The frame of a step at its start: the given context and host state, an empty call log and
whatever the stack holds in the six uninitialised scratch arrays. -/
def Frame.start (stack : Locals) (ctx : scxml_ctx) (h : H) : Frame H :=
  { ctx := ctx, host := h, log := [],
    conflicts := stack.conflicts, trans_set := stack.trans_set,
    target_set := stack.target_set, exit_set := stack.exit_set,
    entry_set := stack.entry_set, tmp_states := stack.tmp_states }

/-- The two `bit_clear_all` at the head of `scxml_step`. -/
def clear_sets (m : scxml_machine H) (f : Frame H) : Frame H :=
  { f with target_set := bit_clear_all f.target_set (nr_states_bytes m),
           trans_set := bit_clear_all f.trans_set (nr_trans_bytes m) }

/-- The branch `if unlikely(ctx->flags == SCXML_CTX_PRISTINE)` up to its
`goto ESTABLISH_ENTRY_SET`; the result of the global script is discarded. -/
def pristine_init (m : scxml_machine H) (cb : scxml_callbacks H) (f : Frame H) : Frame H :=
  let f1 : Frame H :=
    match m.script with
    | some prog =>
      { f with host := (prog cb f.ctx 0 none f.host).2, log := f.log ++ [Call.script] }
    | none => f
  { f1 with
    target_set := bit_or f1.target_set (m.states 0).completion (nr_states_bytes m),
    ctx := { f1.ctx with
      flags := f1.ctx.flags ||| (SCXML_CTX_SPONTANEOUS ||| SCXML_CTX_INITIALIZED) } }

/-- The frame at the label `ESTABLISH_ENTRY_SET` of a step that gets past the test of
`SCXML_CTX_TOP_LEVEL_FINAL`: on a pristine context after the pristine branch, otherwise after
event acquisition, `SELECT_TRANSITIONS`, the flag update and `REMEMBER_HISTORY`. -/
def before_entry_set (m : scxml_machine H) (cb : scxml_callbacks H) (f : Frame H) : Frame H :=
  if f.ctx.flags == SCXML_CTX_PRISTINE then pristine_init m cb (clear_sets m f)
  else
    remember_history m (update_flags (select_transitions m cb (acquire_event m cb
      (clear_sets m f))))

/-- The emitted `int scxml_step(scxml_ctx* ctx)`.  `stack` is the prior content of the six
scratch arrays, `h` the host state. -/
def scxml_step (m : scxml_machine H) (cb : scxml_callbacks H) (stack : Locals)
    (ctx : scxml_ctx) (h : H) : StepResult H :=
  if ctx.flags &&& SCXML_CTX_TOP_LEVEL_FINAL != 0 then
    ⟨SCXML_ERR_DONE, Frame.start stack ctx h⟩
  else
    exit_take_enter m cb
      (establish_entry_set m (before_entry_set m cb (Frame.start stack ctx h)))

end Stepper

/-! ## Concrete machines and hosts used to instantiate the theorems -/

/-- A bitset given by its leading bytes; all further bytes are zero. -/
def bytes (l : List Nat) : Bitset := fun i => l.getD i 0

/-- Scratch arrays holding zeros. -/
def zeroStack : Locals := ⟨bytes [], bytes [], bytes [], bytes [], bytes [], bytes []⟩

/-- Scratch arrays whose first byte has every bit set. -/
def junkStack : Locals :=
  ⟨bytes [255], bytes [255], bytes [255], bytes [255], bytes [255], bytes [255]⟩

/-- A program that appends `tag` to the host state (a list of numbers) and returns
`SCXML_ERR_OK`. -/
def noteProg (tag : Nat) : exec_content_t (List Nat) := fun _ _ _ _ h => (0, h ++ [tag])

/-- A host whose state is a list of numbers: the external queue hands out the events listed in
`queue` one per call (the host state counts the calls by its length), the internal queue is
always empty, and a transition is enabled exactly when an event is present or `always` holds. -/
def listHost (always : Bool) (queue : List Nat) : scxml_callbacks (List Nat) :=
  { signedChar := true
    dequeue_internal := fun _ h => (none, h)
    dequeue_external := fun _ h => (queue.get? h.length, h ++ [0])
    is_enabled := fun _ _ e h => (if e.isSome || always then 1 else 0, h)
    is_true := none
    raise_done_event := fun _ _ _ h => (0, h)
    exec_content_log := none
    exec_content_raise := none
    exec_content_send := none
    exec_content_foreach_init := none
    exec_content_foreach_next := none
    exec_content_foreach_done := none
    exec_content_assign := none
    exec_content_init := none
    exec_content_cancel := none
    exec_content_script := none
    invoke := none }

/-- A state record without programs. -/
def plainState (parent : Nat) (children completion ancestors : List Nat) (type : Nat) :
    scxml_state (List Nat) :=
  { name := none, parent := parent, on_entry := none, on_exit := none, invoke := none,
    children := bytes children, completion := bytes completion, ancestors := bytes ancestors,
    data := none, type := type }

/-- A transition record without program. -/
def plainTrans (source : Nat) (target : List Nat) (type : Nat) (conflicts exit_set : List Nat) :
    scxml_transition (List Nat) :=
  { source := source, target := bytes target, event := none, condition := none,
    on_transition := none, type := type, conflicts := bytes conflicts,
    exit_set := bytes exit_set }

/-- The tables of the chart `<scxml> <state id="A"> <transition event="e" target="B"/> </state>
<state id="B"/> </scxml>`: states root (0), A (1), B (2), one transition A → B. -/
def twoStateMachine : scxml_machine (List Nat) :=
  { flags := 0, nr_states := 3, nr_transitions := 1, name := "", datamodel := "null",
    uuid := "",
    states := fun i =>
      match i with
      | 0 => plainState 0 [0x06] [0x02] [0x00] SCXML_STATE_COMPOUND
      | 1 => plainState 0 [0x00] [0x00] [0x01] SCXML_STATE_ATOMIC
      | _ => plainState 0 [0x00] [0x00] [0x01] SCXML_STATE_ATOMIC
    transitions := fun _ => plainTrans 1 [0x04] 0 [0x01] [0x06]
    parent := none
    donedata := [⟨0, none, none, none⟩]
    script := none }

/-- A context of `twoStateMachine` with the given flags and configuration byte. -/
def ctxOf (flags config : Nat) : scxml_ctx :=
  { flags := flags, config := bytes [config], history := bytes [], invocations := bytes [],
    initialized_data := bytes [], event := none }

/-! ## Auxiliary notions used in the statements -/

section Aux
variable {H : Type}

/-- The decision of the scan of `SELECT_TRANSITIONS` for transition `i` in frame `f`: the
conjunction of the four nested tests of `select_body`. -/
def select_takes (m : scxml_machine H) (cb : scxml_callbacks H) (i : Nat) (f : Frame H) : Bool :=
  !isPseudoTrans m i && BIT_HAS (m.transitions i).source f.ctx.config &&
    !BIT_HAS i f.conflicts && decide ((cb.is_enabled f.ctx i f.ctx.event f.host).1 > 0)

/-- The frame at the label `SELECT_TRANSITIONS` of a step on a context that is neither final
nor pristine. -/
def at_select (m : scxml_machine H) (cb : scxml_callbacks H) (stack : Locals)
    (ctx : scxml_ctx) (h : H) : Frame H :=
  acquire_event m cb (clear_sets m (Frame.start stack ctx h))

/-- The frame after the block `SELECT_TRANSITIONS` of such a step. -/
def selection (m : scxml_machine H) (cb : scxml_callbacks H) (stack : Locals)
    (ctx : scxml_ctx) (h : H) : Frame H :=
  select_transitions m cb (at_select m cb stack ctx h)

/-- The frame of such a step when the scan is about to examine transition `t`. -/
def scan_before (m : scxml_machine H) (cb : scxml_callbacks H) (stack : Locals)
    (ctx : scxml_ctx) (h : H) (t : Nat) : Frame H :=
  select_scan m cb t (at_select m cb stack ctx h)

/-- Transition `t` is selected by the step: its bit is set in `trans_set` after
`SELECT_TRANSITIONS`.  A pristine step does not run the selection and selects nothing. -/
def selected (m : scxml_machine H) (cb : scxml_callbacks H) (stack : Locals)
    (ctx : scxml_ctx) (h : H) (t : Nat) : Bool :=
  if ctx.flags == SCXML_CTX_PRISTINE then false
  else BIT_HAS t (selection m cb stack ctx h).trans_set

end Aux

/-- The calls made by event acquisition. -/
def Call.isAcquire : Call → Bool
  | Call.dequeue_internal => true
  | Call.dequeue_external => true
  | Call.invoke _ _ => true
  | _ => false

/-- The frame carried by a control-flow result. -/
def Flow.state {σ : Type} : Flow σ → σ
  | Flow.next s => s
  | Flow.ret _ s => s

/-- What the management of invocations may change between two frames: `ctx->invocations` and
the host state, and the log by appending calls of event acquisition. -/
def Frame.sameButInvocations {H : Type} (f g : Frame H) : Prop :=
  g.ctx.flags = f.ctx.flags ∧ g.ctx.config = f.ctx.config ∧ g.ctx.history = f.ctx.history ∧
  g.ctx.initialized_data = f.ctx.initialized_data ∧ g.ctx.event = f.ctx.event ∧
  g.conflicts = f.conflicts ∧ g.trans_set = f.trans_set ∧ g.target_set = f.target_set ∧
  g.exit_set = f.exit_set ∧ g.entry_set = f.entry_set ∧ g.tmp_states = f.tmp_states ∧
  ∃ l : List Call, g.log = f.log ++ l ∧ ∀ c ∈ l, c.isAcquire = true

/-- The calls made by the three execution loops `EXIT_STATES`, `TAKE_TRANSITIONS` and
`ENTER_STATES`. -/
def Call.isExec : Call → Bool
  | Call.on_exit _ => true
  | Call.on_transition _ _ => true
  | Call.exec_content_init _ => true
  | Call.on_entry _ => true
  | Call.raise_done_event _ _ => true
  | _ => false

/-- What the execution loops may change between two frames: config, initialized_data,
tmp_states and the host state freely, the flags only by setting `SCXML_CTX_TOP_LEVEL_FINAL`,
the log only by appending calls of the execution loops. -/
def Frame.execStep {H : Type} (f g : Frame H) : Prop :=
  g.ctx.history = f.ctx.history ∧ g.ctx.invocations = f.ctx.invocations ∧
  g.ctx.event = f.ctx.event ∧ g.conflicts = f.conflicts ∧ g.trans_set = f.trans_set ∧
  g.target_set = f.target_set ∧ g.exit_set = f.exit_set ∧ g.entry_set = f.entry_set ∧
  (g.ctx.flags = f.ctx.flags ∨ g.ctx.flags = f.ctx.flags ||| SCXML_CTX_TOP_LEVEL_FINAL) ∧
  ∃ l : List Call, g.log = f.log ++ l ∧ ∀ c ∈ l, c.isExec = true

/-- What `REMEMBER_HISTORY` may change between two frames: `ctx->history` and `tmp_states`. -/
def Frame.histStep {H : Type} (f g : Frame H) : Prop :=
  g.ctx.flags = f.ctx.flags ∧ g.ctx.config = f.ctx.config ∧
  g.ctx.invocations = f.ctx.invocations ∧ g.ctx.initialized_data = f.ctx.initialized_data ∧
  g.ctx.event = f.ctx.event ∧ g.host = f.host ∧ g.log = f.log ∧ g.conflicts = f.conflicts ∧
  g.trans_set = f.trans_set ∧ g.target_set = f.target_set ∧ g.exit_set = f.exit_set ∧
  g.entry_set = f.entry_set

/-- What `ESTABLISH_ENTRY_SET` may change between two frames: `entry_set`, `trans_set` and
`tmp_states`. -/
def Frame.entryStep {H : Type} (f g : Frame H) : Prop :=
  g.ctx = f.ctx ∧ g.host = f.host ∧ g.log = f.log ∧ g.conflicts = f.conflicts ∧
  g.target_set = f.target_set ∧ g.exit_set = f.exit_set

/-- State `i` is exited from frame `f`: it is in `exit_set` and in `config`. -/
def exits_now {H : Type} (f : Frame H) (i : Nat) : Bool :=
  BIT_HAS i f.exit_set && BIT_HAS i f.ctx.config

/-- The `on_exit` calls of `EXIT_STATES` over the indices `l`, started in frame `f`: one call
for every exited state that has an `on_exit` program, in the order of `l`. -/
def exit_calls {H : Type} (m : scxml_machine H) (f : Frame H) (l : List Nat) : List Call :=
  (l.filter (fun i => exits_now f i && (m.states i).on_exit.isSome)).map Call.on_exit

/-- The `on_transition` calls of `TAKE_TRANSITIONS` over the indices `l` in frame `f`: one call
for every transition of `trans_set` without HISTORY and INITIAL flag that has a program. -/
def take_calls {H : Type} (m : scxml_machine H) (f : Frame H) (l : List Nat) : List Call :=
  (l.filter (fun t => BIT_HAS t f.trans_set && !isPseudoTrans m t &&
      (m.transitions t).on_transition.isSome)).map
    (fun t => Call.on_transition t (m.transitions t).source)

/-- The state index of an `on_entry` call. -/
def Call.entryIdx : Call → Option Nat
  | Call.on_entry i => some i
  | _ => none

/-- The calls that `ENTER_STATES` can make: `exec_content_init`, `on_entry`,
`raise_done_event`, and `on_transition` of a transition flagged HISTORY or INITIAL. -/
def isEnterCall {H : Type} (m : scxml_machine H) : Call → Bool
  | Call.exec_content_init _ => true
  | Call.on_entry _ => true
  | Call.raise_done_event _ _ => true
  | Call.on_transition j _ => isPseudoTrans m j
  | _ => false

/-- Two frames of `ENTER_STATES` that agree on config, `entry_set` and `trans_set`, the second
having logged further calls of `ENTER_STATES` none of which is an `on_entry`. -/
def Frame.enterQuiet {H : Type} (m : scxml_machine H) (f g : Frame H) : Prop :=
  g.ctx.config = f.ctx.config ∧ g.entry_set = f.entry_set ∧ g.trans_set = f.trans_set ∧
  ∃ B : List Call, g.log = f.log ++ B ∧
    ∀ c ∈ B, isEnterCall m c = true ∧ c.entryIdx = none

/-- Two frames that differ at most in the host state and the log. -/
def Frame.callStep {H : Type} (f g : Frame H) : Prop :=
  g.ctx = f.ctx ∧ g.conflicts = f.conflicts ∧ g.trans_set = f.trans_set ∧
  g.target_set = f.target_set ∧ g.exit_set = f.exit_set ∧ g.entry_set = f.entry_set ∧
  g.tmp_states = f.tmp_states

/-- State `i` is entered from frame `f`: it is in `entry_set`, not in `config`, and no
history or initial pseudo-state. -/
def enters_now {H : Type} (m : scxml_machine H) (f : Frame H) (i : Nat) : Bool :=
  BIT_HAS i f.entry_set && !BIT_HAS i f.ctx.config && !isPseudoState m i

/-- A `return` inside a loop carries a code different from `SCXML_ERR_OK` (every `return err;`
of the loops is guarded by `err != SCXML_ERR_OK`). -/
def Flow.errNonzero {σ : Type} (r : Flow σ) : Prop :=
  ∀ e s, r = Flow.ret e s → e ≠ SCXML_ERR_OK

/-- The frame at `EXIT_STATES` of a step on a context that is not final. -/
def at_exit {H : Type} (m : scxml_machine H) (cb : scxml_callbacks H) (stack : Locals)
    (ctx : scxml_ctx) (h : H) : Frame H :=
  establish_entry_set m (before_entry_set m cb (Frame.start stack ctx h))

/-- The calls made before `EXIT_STATES`: the global script, the dequeue callbacks, `invoke`
programs and `is_enabled`. -/
def Call.isPre : Call → Bool
  | Call.script => true
  | Call.dequeue_internal => true
  | Call.dequeue_external => true
  | Call.invoke _ _ => true
  | Call.is_enabled _ => true
  | _ => false

/-- History pseudo-state `i` is captured in frame `f`: its parent is in `exit_set`. -/
def captured {H : Type} (m : scxml_machine H) (f : Frame H) (i : Nat) : Bool :=
  isHistoryType m i && BIT_HAS (m.states i).parent f.exit_set

/-- The frame after `SELECT_TRANSITIONS` and the flag update, at `REMEMBER_HISTORY`. -/
def at_remember {H : Type} (m : scxml_machine H) (cb : scxml_callbacks H) (stack : Locals)
    (ctx : scxml_ctx) (h : H) : Frame H :=
  update_flags (selection m cb stack ctx h)

/-- A host like `listHost` whose events are transition numbers: `is_enabled` answers 1 exactly
for the transition whose index is the current event. -/
def triggerHost (queue : List Nat) : scxml_callbacks (List Nat) :=
  { listHost false queue with
    is_enabled := fun _ t e h => (if e == some t then 1 else 0, h) }

/-- The tables of the history scenario of the specification:
`<scxml> <state id="C"> <history id="H"> <transition target="A"/> </history> <state id="A">
<transition event="e1" target="B"/> </state> <state id="B"/> <transition event="e2"
target="D"/> </state> <state id="D"> <transition event="e3" target="H"/> </state> </scxml>`.
States: root 0, C 1, H 2, A 3, B 4, D 5.  Transitions: 0 is the default transition of H,
1 is A → B, 2 is C → D, 3 is D → H.  `historyType` is `SCXML_STATE_HISTORY_SHALLOW` or
`SCXML_STATE_HISTORY_DEEP`; with the flat children of C both give the same completion. -/
def historyMachine (historyType : Nat) : scxml_machine (List Nat) :=
  { flags := 0, nr_states := 6, nr_transitions := 4, name := "", datamodel := "null",
    uuid := "",
    states := fun i =>
      match i with
      | 0 => plainState 0 [0x22] [0x02] [0x00] SCXML_STATE_COMPOUND
      | 1 => plainState 0 [0x1c] [0x08] [0x01] (SCXML_STATE_COMPOUND ||| SCXML_STATE_HAS_HISTORY)
      | 2 => plainState 1 [0x00] [0x18] [0x03] historyType
      | 3 => plainState 1 [0x00] [0x00] [0x03] SCXML_STATE_ATOMIC
      | 4 => plainState 1 [0x00] [0x00] [0x03] SCXML_STATE_ATOMIC
      | _ => plainState 0 [0x00] [0x00] [0x01] SCXML_STATE_ATOMIC
    transitions := fun t =>
      match t with
      | 0 => plainTrans 2 [0x08] (SCXML_TRANS_HISTORY ||| SCXML_TRANS_SPONTANEOUS) [0x0f] [0x1c]
      | 1 => plainTrans 3 [0x10] 0 [0x0f] [0x1c]
      | 2 => plainTrans 1 [0x20] 0 [0x0f] [0x3e]
      | _ => plainTrans 5 [0x04] 0 [0x0f] [0x3e]
    parent := none
    donedata := [⟨0, none, none, none⟩]
    script := none }

/-- A context with the given flags, configuration byte and history byte. -/
def ctxWith (flags config history : Nat) : scxml_ctx :=
  { flags := flags, config := bytes [config], history := bytes [history],
    invocations := bytes [], initialized_data := bytes [], event := none }

/-- Some state whose bit is set in `children[i]` (within the bytes the stepper reads) is in
the bitset `s`. -/
def childIn {H : Type} (m : scxml_machine H) (i : Nat) (s : Bitset) : Prop :=
  ∃ b, b / 8 < nr_states_bytes m ∧ BIT_HAS b s = true ∧ BIT_HAS b (m.states i).children = true

/-- A frame with the given config, `entry_set` and `exit_set` bytes and nothing else. -/
def frameWith (config entry exit : Nat) : Frame (List Nat) :=
  { Frame.start zeroStack (ctxOf 2 config) [] with
    entry_set := bytes [entry], exit_set := bytes [exit] }

/-- The ancestor sweep over the first `k` states. -/
def ancestor_sweep_upto {H : Type} (m : scxml_machine H) (k : Nat) (f : Frame H) : Frame H :=
  (upTo k).foldl
    (fun f i =>
      if BIT_HAS i f.entry_set then
        { f with entry_set := bit_or f.entry_set (m.states i).ancestors (nr_states_bytes m) }
      else f) f

/-- The call that the body of the `// manage invocations` loop makes for state `i` when it
finds the config and invocations of `ctx`: `invoke(ctx, &states[i], NULL, 1)` for a state in
invocations and not in config, `invoke(ctx, &states[i], NULL, 0)` for a state in config and not
in invocations, both only when `states[i].invoke != NULL`. -/
def invoke_call {H : Type} (m : scxml_machine H) (ctx : scxml_ctx) (i : Nat) : List Call :=
  if (m.states i).invoke.isSome then
    if !BIT_HAS i ctx.config && BIT_HAS i ctx.invocations then [Call.invoke i 1]
    else if BIT_HAS i ctx.config && !BIT_HAS i ctx.invocations then [Call.invoke i 0]
    else []
  else []

/-- The calls of the `// manage invocations` loop over the states `0, ..., k-1`. -/
def invoke_calls {H : Type} (m : scxml_machine H) (ctx : scxml_ctx) : Nat → List Call
  | 0 => []
  | k + 1 => invoke_calls m ctx k ++ invoke_call m ctx k


/-- The two-state machine in which every state has an `invoke` program; the program appends
`100 + uninvoke` to the host state. -/
def invokeMachine : scxml_machine (List Nat) :=
  { twoStateMachine with
    states := fun i =>
      { twoStateMachine.states i with
        invoke := some (fun _ _ _ _ u h => (0, h ++ [100 + u])) } }

/-- A context with the given flags, configuration byte and invocations byte. -/
def ctxInv (flags config invocations : Nat) : scxml_ctx :=
  { flags := flags, config := bytes [config], history := bytes [],
    invocations := bytes [invocations], initialized_data := bytes [], event := none }


/-- The tables of the chart `<scxml initial="S8"> <state id="S1"/> ... <state id="S7"/>
<state id="S8"> <final id="F"/> </state> </scxml>`: states root (0), S1 .. S7 (1 .. 7),
S8 (8) and the final state F (9), whose parent is S8; no transitions.  `ancBools` of F is
`1000000010`, emitted as the bytes `0x01, 0x01`. -/
def nestedFinalMachine : scxml_machine (List Nat) :=
  { flags := 0, nr_states := 10, nr_transitions := 0, name := "", datamodel := "null",
    uuid := "",
    states := fun i =>
      match i with
      | 0 => plainState 0 [0xfe, 0x01] [0x00, 0x01] [0x00, 0x00] SCXML_STATE_COMPOUND
      | 8 => plainState 0 [0x00, 0x02] [0x00, 0x02] [0x01, 0x00] SCXML_STATE_COMPOUND
      | 9 => plainState 8 [0x00, 0x00] [0x00, 0x00] [0x01, 0x01] SCXML_STATE_FINAL
      | _ => plainState 0 [0x00, 0x00] [0x00, 0x00] [0x01, 0x00] SCXML_STATE_ATOMIC
    transitions := fun _ => plainTrans 0 [] 0 [] []
    parent := none
    donedata := [⟨0, none, none, none⟩]
    script := none }


/-- Is the call a `raise_done_event`? -/
def Call.isDone : Call → Bool
  | Call.raise_done_event _ _ => true
  | _ => false

/-- The donedata records that a scan of the table can reach: those before the first record for
which `ELEM_DONEDATA_IS_SET` fails (the zeroed record that ends the emitted array). -/
def donedata_records {H : Type} (m : scxml_machine H) : List scxml_elem_donedata :=
  m.donedata.takeWhile ELEM_DONEDATA_IS_SET


/-- The second frame has logged further calls, none of them a `raise_done_event`. -/
def Frame.noDone {H : Type} (f g : Frame H) : Prop :=
  ∃ B : List Call, g.log = f.log ++ B ∧ ∀ c ∈ B, c.isDone = false

/-- The tables of the chart `<scxml> <state id="C"> <final id="F"> <donedata>
<content>x</content> </donedata> </final> </state> </scxml>`: states root (0), C (1), F (2);
the donedata table holds the record of F and the zeroed last record. -/
def donedataMachine : scxml_machine (List Nat) :=
  { flags := 0, nr_states := 3, nr_transitions := 0, name := "", datamodel := "null",
    uuid := "",
    states := fun i =>
      match i with
      | 0 => plainState 0 [0x02] [0x02] [0x00] SCXML_STATE_COMPOUND
      | 1 => plainState 0 [0x04] [0x04] [0x01] SCXML_STATE_COMPOUND
      | _ => plainState 1 [0x00] [0x00] [0x03] SCXML_STATE_FINAL
    transitions := fun _ => plainTrans 0 [] 0 [] []
    parent := none
    donedata := [⟨2, some "x", none, none⟩, ⟨0, none, none, none⟩]
    script := none }

/-- The frame of `donedataMachine` in `ENTER_STATES` when root and C have been entered and F is
next: `entry_set` = {root, C, F}, config = {root, C}. -/
def donedataFrame : Frame (List Nat) :=
  { Frame.start zeroStack (ctxOf 3 0x03) [] with entry_set := bytes [0x07] }


/-- What a sequence of calls of `scxml_step` leaves behind: the context and host state after
the last call, all calls made, and the codes returned, oldest first. -/
structure RunState (H : Type) where
  ctx : scxml_ctx
  host : H
  log : List Call
  errs : List Int

/-- A sequence of calls of `scxml_step` on one context, one call for every entry of `stacks`
(the content that call finds in its scratch arrays); each call works on the context and host
state that the call before it left, whatever code that call returned. -/
def run {H : Type} (m : scxml_machine H) (cb : scxml_callbacks H) :
    List Locals → scxml_ctx → H → RunState H
  | [], ctx, h => ⟨ctx, h, [], []⟩
  | s :: ss, ctx, h =>
    let r := scxml_step m cb s ctx h
    let rest := run m cb ss r.frame.ctx r.frame.host
    ⟨rest.ctx, rest.host, r.frame.log ++ rest.log, r.err :: rest.errs⟩

/-- A never-stepped context: flags `SCXML_CTX_PRISTINE` and all bitsets empty. -/
def pristineCtx : scxml_ctx :=
  { flags := SCXML_CTX_PRISTINE, config := bytes [], history := bytes [],
    invocations := bytes [], initialized_data := bytes [], event := none }

/-- The tables of the chart `<scxml> <parallel id="P"> <state id="R1"> <state id="X">
<transition event="e" target="F"/> </state> <final id="F"/> </state> <state id="R2">
<final id="F2"/> </state> <state id="A"/> </parallel> </scxml>`: states root (0), P (1),
R1 (2), X (3), F (4), R2 (5), F2 (6), A (7); one transition X → F with domain R1. -/
def regionMachine : scxml_machine (List Nat) :=
  { flags := 0, nr_states := 8, nr_transitions := 1, name := "", datamodel := "null",
    uuid := "",
    states := fun i =>
      match i with
      | 0 => plainState 0 [0x02] [0x02] [0x00] SCXML_STATE_COMPOUND
      | 1 => plainState 0 [0xa4] [0xa4] [0x01] SCXML_STATE_PARALLEL
      | 2 => plainState 1 [0x18] [0x08] [0x03] SCXML_STATE_COMPOUND
      | 3 => plainState 2 [0x00] [0x00] [0x07] SCXML_STATE_ATOMIC
      | 4 => plainState 2 [0x00] [0x00] [0x07] SCXML_STATE_FINAL
      | 5 => plainState 1 [0x40] [0x40] [0x03] SCXML_STATE_COMPOUND
      | 6 => plainState 5 [0x00] [0x00] [0x23] SCXML_STATE_FINAL
      | _ => plainState 1 [0x00] [0x00] [0x03] SCXML_STATE_ATOMIC
    transitions := fun _ => plainTrans 3 [0x10] 0 [0x01] [0x18]
    parent := none
    donedata := [⟨0, none, none, none⟩]
    script := none }

/-- The tables of scenario 4 of the specification, `<scxml> <parallel id="P"> <state id="R1">
<state id="X"> <transition event="e" target="F"/> </state> <final id="F"/> </state>
<state id="R2"> <state id="M"> <transition event="e" target="F2"/> </state> <final id="F2"/>
</state> </parallel> </scxml>`: states root (0), P (1), R1 (2), X (3), F (4), R2 (5), M (6),
F2 (7); transitions 0: X → F and 1: M → F2. -/
def twoRegionMachine : scxml_machine (List Nat) :=
  { flags := 0, nr_states := 8, nr_transitions := 2, name := "", datamodel := "null",
    uuid := "",
    states := fun i =>
      match i with
      | 0 => plainState 0 [0x02] [0x02] [0x00] SCXML_STATE_COMPOUND
      | 1 => plainState 0 [0x24] [0x24] [0x01] SCXML_STATE_PARALLEL
      | 2 => plainState 1 [0x18] [0x08] [0x03] SCXML_STATE_COMPOUND
      | 3 => plainState 2 [0x00] [0x00] [0x07] SCXML_STATE_ATOMIC
      | 4 => plainState 2 [0x00] [0x00] [0x07] SCXML_STATE_FINAL
      | 5 => plainState 1 [0xc0] [0x40] [0x03] SCXML_STATE_COMPOUND
      | 6 => plainState 5 [0x00] [0x00] [0x23] SCXML_STATE_ATOMIC
      | _ => plainState 5 [0x00] [0x00] [0x23] SCXML_STATE_FINAL
    transitions := fun t =>
      match t with
      | 0 => plainTrans 3 [0x10] 0 [0x01] [0x18]
      | _ => plainTrans 6 [0x80] 0 [0x02] [0xc0]
    parent := none
    donedata := [⟨0, none, none, none⟩]
    script := none }

/-- The host `listHost false queue` on an implementation whose plain `char` is unsigned. -/
def unsignedHost (queue : List Nat) : scxml_callbacks (List Nat) :=
  { listHost false queue with signedChar := false }


/-- The state index of an `exec_content_init` call. -/
def Call.initIdx : Call → Option Nat
  | Call.exec_content_init i => some i
  | _ => none

/-- Two frames with the same `initialized_data` and `entry_set`, the second having logged
further calls none of which is an `exec_content_init`. -/
def Frame.initKeep {H : Type} (f g : Frame H) : Prop :=
  g.ctx.initialized_data = f.ctx.initialized_data ∧ g.entry_set = f.entry_set ∧
  ∃ B : List Call, g.log = f.log ++ B ∧ ∀ c ∈ B, c.initIdx = none

/-- What `ENTER_STATES` does to `initialized_data` between two frames: no bit of config or of
`initialized_data` is cleared, and every `exec_content_init` call logged is for a different
state, one that is entered from the first frame, has a data block, had its bit clear in the
first frame and has it set in the second. -/
def Frame.initStep {H : Type} (m : scxml_machine H) (cb : scxml_callbacks H)
    (f g : Frame H) : Prop :=
  g.entry_set = f.entry_set ∧
  (∀ j, BIT_HAS j f.ctx.config = true → BIT_HAS j g.ctx.config = true) ∧
  (∀ j, BIT_HAS j f.ctx.initialized_data = true →
    BIT_HAS j g.ctx.initialized_data = true) ∧
  ∃ E : List Call, g.log = f.log ++ E ∧ (E.filterMap Call.initIdx).Nodup ∧
    ∀ i ∈ E.filterMap Call.initIdx,
      enters_now m f i = true ∧ BIT_HAS i f.ctx.initialized_data = false ∧
      BIT_HAS i g.ctx.initialized_data = true ∧ (m.states i).data.isSome = true ∧
      cb.exec_content_init.isSome = true

/-- The frame of a step at `ENTER_STATES` (or at the `return err;` of `EXIT_STATES` or
`TAKE_TRANSITIONS` when one of their programs fails). -/
def at_enter {H : Type} (m : scxml_machine H) (cb : scxml_callbacks H) (stack : Locals)
    (ctx : scxml_ctx) (h : H) : Frame H :=
  ((exit_states m cb (at_exit m cb stack ctx h)).andThen
    fun f1 => take_transitions m cb f1).state


/-- The loop over `l` started in `s` reaches the index `i` in state `s1`: `i` is in the list
and the body has fallen through at every index before it. -/
def loop_reaches {σ : Type} (body : Nat → σ → Flow σ) (l : List Nat) (s : σ) (i : Nat)
    (s1 : σ) : Prop :=
  ∃ l1 l2 : List Nat, l = l1 ++ i :: l2 ∧ loop body l1 s = Flow.next s1

/-- `EXIT_STATES`, started in frame `f`, reaches state `i` in frame `f1`. -/
def reaches_exit {H : Type} (m : scxml_machine H) (cb : scxml_callbacks H) (f : Frame H)
    (i : Nat) (f1 : Frame H) : Prop :=
  loop_reaches (exit_body m cb) (downFrom m.nr_states) f i f1

/-- `TAKE_TRANSITIONS` of the execution started in frame `f` reaches transition `t` in frame
`f1`: `EXIT_STATES` has run to its end before. -/
def reaches_take {H : Type} (m : scxml_machine H) (cb : scxml_callbacks H) (f : Frame H)
    (t : Nat) (f1 : Frame H) : Prop :=
  ∃ fx : Frame H, exit_states m cb f = Flow.next fx ∧
    loop_reaches (take_body m cb) (upTo m.nr_transitions) fx t f1

/-- `ENTER_STATES` of the execution started in frame `f` reaches state `i` in frame `f1`:
`EXIT_STATES` and `TAKE_TRANSITIONS` have run to their ends before. -/
def reaches_enter {H : Type} (m : scxml_machine H) (cb : scxml_callbacks H) (f : Frame H)
    (i : Nat) (f1 : Frame H) : Prop :=
  ∃ fx ft : Frame H, exit_states m cb f = Flow.next fx ∧
    take_transitions m cb fx = Flow.next ft ∧
    loop_reaches (enter_body m cb) (upTo m.nr_states) ft i f1

/-- The frame in which the iteration of `ENTER_STATES` for the entered state `i`, started in
`f1`, calls the `on_entry` program: the config bit is set and the data is initialised. -/
def before_on_entry {H : Type} (m : scxml_machine H) (cb : scxml_callbacks H) (i : Nat)
    (f1 : Frame H) : Frame H :=
  enter_init_data m cb i { f1 with ctx := { f1.ctx with config := BIT_SET_AT i f1.ctx.config } }

/-- The frame `f` extended by a call of a program that returned the host state `x`. -/
def Frame.called {H : Type} (f : Frame H) (c : Call) (x : H) : Frame H :=
  { f with host := x, log := f.log ++ [c] }


/-- The two-state machine whose state A has an `on_exit` program that fails with
`SCXML_ERR_EXEC_CONTENT` (and notes 1 in the host state). -/
def failingExitMachine : scxml_machine (List Nat) :=
  { twoStateMachine with
    states := fun i =>
      if i = 1 then
        { twoStateMachine.states 1 with
          on_exit := some (fun _ _ _ _ h => (SCXML_ERR_EXEC_CONTENT, h ++ [1])) }
      else twoStateMachine.states i }

/-- The machine `donedataMachine` in which every state has a data block and an `on_entry`
program that succeeds. -/
def dataMachine : scxml_machine (List Nat) :=
  { donedataMachine with
    states := fun i =>
      { donedataMachine.states i with data := some i, on_entry := some (noteProg i) } }

/-- A host whose `exec_content_init` and `raise_done_event` callbacks fail with
`SCXML_ERR_EXEC_CONTENT`. -/
def failingHost : scxml_callbacks (List Nat) :=
  { listHost false [] with
    raise_done_event := fun _ _ _ h => (SCXML_ERR_EXEC_CONTENT, h)
    exec_content_init := some (fun _ _ h => (SCXML_ERR_EXEC_CONTENT, h)) }


/-! ## Lowered executable content (`writeExecContent`) -/

/-- The opening of a branch of an `<if>` element: the `<if>` or an `<elseif>` with its `cond`
attribute (`if (ctx->is_true(ctx, cond)) {`, `} else if (ctx->is_true(ctx, cond)) {`), or an
`<else/>` (`} else {`). -/
inductive Guard where
  | test (cond : Option String)
  | otherwise

/-- An element of executable content, as `writeExecContent` tells them apart by tag name.
`send` and `foreach` carry the index of their descriptor; `foreach` holds its children;
`ifElse` holds the branches in document order, the first being that of the `<if>` itself. -/
inductive Action where
  | script (src content : Option String)
  | log (label expr : Option String)
  | foreach (idx : Nat) (body : List Action)
  | ifElse (blocks : List (Guard × List Action))
  | assign (location expr : Option String)
  | raise (event : Option String)
  | send (idx : Nat)
  | cancel (sendid sendidexpr : Option String)

/-- How the execution of emitted statements ends: control falls through with the local `err`
and the host state, a `return` statement is executed, or the fuel of the model is used up
(a `while` loop of a `foreach` that the host never ends). -/
inductive Outcome (H : Type) where
  | fall (err : Int) (h : H)
  | ret (code : Int) (h : H)
  | stuck

/-- The statement emitted for an action with one callback `f`:
`if likely(f != NULL) { if unlikely((f(...)) != SCXML_ERR_OK) return err; } else { return
SCXML_ERR_MISSING_CALLBACK; }`.  The result of the callback is compared, not assigned: the
`return err;` returns the local `err` as it was. -/
def call_unassigned {H : Type} (f : Option (H → Int × H)) (err : Int) (h : H) : Outcome H :=
  match f with
  | some g => if (g h).1 != SCXML_ERR_OK then Outcome.ret err (g h).2 else Outcome.fall err (g h).2
  | none => Outcome.ret SCXML_ERR_MISSING_CALLBACK h

/-- The statement emitted for `<script>`: `if likely(ctx->exec_content_script != NULL) { if
unlikely((err = ctx->exec_content_script(ctx, src, content)) != SCXML_ERR_OK) return err; }
else { return SCXML_ERR_MISSING_CALLBACK; }`. -/
def call_assigned {H : Type} (f : Option (H → Int × H)) (h : H) : Outcome H :=
  match f with
  | some g =>
    if (g h).1 != SCXML_ERR_OK then Outcome.ret (g h).1 (g h).2 else Outcome.fall (g h).1 (g h).2
  | none => Outcome.ret SCXML_ERR_MISSING_CALLBACK h

mutual

/-- The statements emitted for a list of sibling elements, executed in order. -/
def exec_list {H : Type} (cb : scxml_callbacks H) (ctx : scxml_ctx) :
    Nat → List Action → Int → H → Outcome H
  | 0, _, _, _ => Outcome.stuck
  | _ + 1, [], err, h => Outcome.fall err h
  | fuel + 1, a :: rest, err, h =>
    match exec_action cb ctx fuel a err h with
    | Outcome.fall err1 h1 => exec_list cb ctx fuel rest err1 h1
    | Outcome.ret c h1 => Outcome.ret c h1
    | Outcome.stuck => Outcome.stuck

/-- The statement emitted for one element. -/
def exec_action {H : Type} (cb : scxml_callbacks H) (ctx : scxml_ctx) :
    Nat → Action → Int → H → Outcome H
  | 0, _, _, _ => Outcome.stuck
  | _ + 1, Action.script src content, _, h =>
    call_assigned (cb.exec_content_script.map fun g => g ctx src content) h
  | _ + 1, Action.log label expr, err, h =>
    call_unassigned (cb.exec_content_log.map fun g => g ctx label expr) err h
  | fuel + 1, Action.foreach idx body, err, h =>
    match cb.exec_content_foreach_init, cb.exec_content_foreach_next,
        cb.exec_content_foreach_done with
    | some ini, some nxt, some don =>
      if (ini ctx idx h).1 != SCXML_ERR_OK then Outcome.ret err (ini ctx idx h).2
      else
        match exec_while cb ctx fuel (nxt ctx idx) body err (ini ctx idx h).2 with
        | Outcome.fall err1 h1 =>
          if (don ctx idx h1).1 != SCXML_ERR_OK then Outcome.ret err1 (don ctx idx h1).2
          else Outcome.fall err1 (don ctx idx h1).2
        | Outcome.ret c h1 => Outcome.ret c h1
        | Outcome.stuck => Outcome.stuck
    | _, _, _ => Outcome.ret SCXML_ERR_MISSING_CALLBACK h
  | fuel + 1, Action.ifElse blocks, err, h =>
    match cb.is_true with
    | some tr => exec_branches cb ctx fuel tr blocks err h
    | none => Outcome.ret SCXML_ERR_MISSING_CALLBACK h
  | _ + 1, Action.assign location expr, err, h =>
    call_unassigned (cb.exec_content_assign.map fun g => g ctx location expr) err h
  | _ + 1, Action.raise event, err, h =>
    call_unassigned (cb.exec_content_raise.map fun g => g ctx event) err h
  | _ + 1, Action.send idx, err, h =>
    call_unassigned (cb.exec_content_send.map fun g => g ctx idx) err h
  | _ + 1, Action.cancel sendid sendidexpr, err, h =>
    call_unassigned (cb.exec_content_cancel.map fun g => g ctx sendid sendidexpr) err h

/-- The loop `while (ctx->exec_content_foreach_next(ctx, &foreachs[idx]) == SCXML_ERR_OK)
{ body }` of a `foreach`. -/
def exec_while {H : Type} (cb : scxml_callbacks H) (ctx : scxml_ctx) :
    Nat → (H → Int × H) → List Action → Int → H → Outcome H
  | 0, _, _, _, _ => Outcome.stuck
  | fuel + 1, nxt, body, err, h =>
    if (nxt h).1 == SCXML_ERR_OK then
      match exec_list cb ctx fuel body err (nxt h).2 with
      | Outcome.fall err1 h1 => exec_while cb ctx fuel nxt body err1 h1
      | Outcome.ret c h1 => Outcome.ret c h1
      | Outcome.stuck => Outcome.stuck
    else Outcome.fall err (nxt h).2

/-- The chain `if (is_true(c0)) { ... } else if (is_true(c1)) { ... } else { ... }` emitted
for the branches of an `<if>`: the guards are evaluated in order until one holds. -/
def exec_branches {H : Type} (cb : scxml_callbacks H) (ctx : scxml_ctx) :
    Nat → (scxml_ctx → Option String → H → Int × H) → List (Guard × List Action) → Int → H →
      Outcome H
  | 0, _, _, _, _ => Outcome.stuck
  | _ + 1, _, [], err, h => Outcome.fall err h
  | fuel + 1, tr, (Guard.test cond, block) :: rest, err, h =>
    if (tr ctx cond h).1 != 0 then exec_list cb ctx fuel block err (tr ctx cond h).2
    else exec_branches cb ctx fuel tr rest err (tr ctx cond h).2
  | fuel + 1, _, (Guard.otherwise, block) :: _, err, h => exec_list cb ctx fuel block err h

end

/-- The function emitted for one `<onentry>` or `<onexit>` element (`_on_entry_<j>`,
`_on_exit_<j>`), for the executable content of a `<transition>` (`_on_trans`, referenced from
the transition table) and for a `<finalize>` (referenced from the invoke descriptor):
`int err = SCXML_ERR_OK; <statements of the children> return SCXML_ERR_OK;`.  The result is
`none` when the fuel does not suffice. -/
def lowered_block {H : Type} (fuel : Nat) (actions : List Action) (cb : scxml_callbacks H)
    (ctx : scxml_ctx) (h : H) : Option (Int × H) :=
  match exec_list cb ctx fuel actions SCXML_ERR_OK h with
  | Outcome.fall _ h1 => some (SCXML_ERR_OK, h1)
  | Outcome.ret c h1 => some (c, h1)
  | Outcome.stuck => none

/-- The function `_on_entry` or `_on_exit` emitted for a state, the one the state table
references: it calls the functions of the state's `<onentry>` (`<onexit>`) elements in order as
expression statements `_on_entry_<j>(ctx, state, event);` and ends with
`return SCXML_ERR_OK;`. -/
def lowered_handlers {H : Type} (fuel : Nat) (cb : scxml_callbacks H) (ctx : scxml_ctx) :
    List (List Action) → H → Option (Int × H)
  | [], h => some (SCXML_ERR_OK, h)
  | block :: rest, h =>
    match lowered_block fuel block cb ctx h with
    | some r => lowered_handlers fuel cb ctx rest r.2
    | none => none


/-- A host all of whose executable-content callbacks are present, note their call in the host
state and return `code`; `exec_content_foreach_next` ends every loop at once. -/
def actionHost (code : Int) : scxml_callbacks (List Nat) :=
  { listHost false [] with
    exec_content_log := some (fun _ _ _ h => (code, h ++ [1]))
    exec_content_raise := some (fun _ _ h => (code, h ++ [2]))
    exec_content_send := some (fun _ _ h => (code, h ++ [3]))
    exec_content_foreach_init := some (fun _ _ h => (code, h ++ [4]))
    exec_content_foreach_next := some (fun _ _ h => (SCXML_ERR_FOREACH_DONE, h ++ [5]))
    exec_content_foreach_done := some (fun _ _ h => (code, h ++ [6]))
    exec_content_assign := some (fun _ _ _ h => (code, h ++ [7]))
    exec_content_cancel := some (fun _ _ _ h => (code, h ++ [8]))
    exec_content_script := some (fun _ _ _ h => (code, h ++ [9])) }

/-- A lowered function as an entry of the state or transition table.  The fuel of the model is
chosen by the caller; the default result is not used when the fuel suffices. -/
def table_entry {H : Type} (p : scxml_callbacks H → scxml_ctx → H → Option (Int × H)) :
    exec_content_t H :=
  fun cb ctx _ _ h => (p cb ctx h).getD (SCXML_ERR_OK, h)

/-- The tables of `<scxml> <state id="A"> <onentry> <script>x</script> </onentry> </state>
</scxml>`: states root (0) and A (1); the `on_entry` entry of A is the emitted function
`_on_entry`, which calls `_on_entry_0`. -/
def scriptEntryMachine : scxml_machine (List Nat) :=
  { flags := 0, nr_states := 2, nr_transitions := 0, name := "", datamodel := "null",
    uuid := "",
    states := fun i =>
      match i with
      | 0 => plainState 0 [0x02] [0x02] [0x00] SCXML_STATE_COMPOUND
      | _ =>
        { plainState 0 [0x00] [0x00] [0x01] SCXML_STATE_ATOMIC with
          on_entry := some (table_entry fun cb ctx h =>
            lowered_handlers 3 cb ctx [[Action.script none (some "x")]] h) }
    transitions := fun _ => plainTrans 0 [] 0 [] []
    parent := none
    donedata := [⟨0, none, none, none⟩]
    script := none }


/-- The tables of the chart `<scxml> <state id="C" initial="A"> <history id="H"> <transition
target="B"/> </history> <state id="A"> <transition event="e" target="H"/> </state>
<state id="B"/> </state> </scxml>`: states root (0), C (1), H (2), A (3), B (4); transitions
0: the default transition of H and 1: A → H.  Both transitions have the domain C, so their
exit sets are the descendants H, A, B of C. -/
def ownHistoryMachine : scxml_machine (List Nat) :=
  { flags := 0, nr_states := 5, nr_transitions := 2, name := "", datamodel := "null",
    uuid := "",
    states := fun i =>
      match i with
      | 0 => plainState 0 [0x02] [0x02] [0x00] SCXML_STATE_COMPOUND
      | 1 => plainState 0 [0x1c] [0x08] [0x01] (SCXML_STATE_COMPOUND ||| SCXML_STATE_HAS_HISTORY)
      | 2 => plainState 1 [0x00] [0x18] [0x03] SCXML_STATE_HISTORY_SHALLOW
      | 3 => plainState 1 [0x00] [0x00] [0x03] SCXML_STATE_ATOMIC
      | _ => plainState 1 [0x00] [0x00] [0x03] SCXML_STATE_ATOMIC
    transitions := fun t =>
      match t with
      | 0 => plainTrans 2 [0x10] (SCXML_TRANS_HISTORY ||| SCXML_TRANS_SPONTANEOUS) [0x03] [0x1c]
      | _ => plainTrans 3 [0x04] 0 [0x03] [0x1c]
    parent := none
    donedata := [⟨0, none, none, none⟩]
    script := none }


/-! ## Tables of a compiled chart and legal contexts -/

/-- The tables of the chart `<scxml> <parallel id="P"> <history id="H"> <transition
target="R1"/> </history> <state id="R1"/> <state id="R2"/> </parallel> </scxml>`: states root
(0), P (1), H (2), R1 (3), R2 (4); transition 0 is the default transition of H, with the root
as its domain.  `children[P]` names H, R1 and R2: `prepare` sets the bit of every element
whose parent node is the state, a history element included.  `completionP` is the completion
byte of P, `0x1c` if the child states of a parallel state count its history element and `0x18`
if they do not. -/
def parallelHistoryMachine (completionP : Nat) : scxml_machine (List Nat) :=
  { flags := 0, nr_states := 5, nr_transitions := 1, name := "", datamodel := "null",
    uuid := "",
    states := fun i =>
      match i with
      | 0 => plainState 0 [0x02] [0x02] [0x00] SCXML_STATE_COMPOUND
      | 1 => plainState 0 [0x1c] [completionP] [0x01]
          (SCXML_STATE_PARALLEL ||| SCXML_STATE_HAS_HISTORY)
      | 2 => plainState 1 [0x00] [0x18] [0x03] SCXML_STATE_HISTORY_SHALLOW
      | 3 => plainState 1 [0x00] [0x00] [0x03] SCXML_STATE_ATOMIC
      | _ => plainState 1 [0x00] [0x00] [0x03] SCXML_STATE_ATOMIC
    transitions := fun _ =>
      plainTrans 2 [0x08] (SCXML_TRANS_HISTORY ||| SCXML_TRANS_SPONTANEOUS) [0x01] [0x1e]
    parent := none
    donedata := [⟨0, none, none, none⟩]
    script := none }

/-- What the tables that `prepare` computes for a chart have in common, as far as the entry
set expansion relies on it.  All indices range over the states and transitions of the machine.
`ancestors_before`: the ancestors of a state precede it in document order, are no
pseudo-states, and the ancestors of an ancestor are ancestors.  `ancestors_chain`: two
ancestors of a state are ancestors of one another.  `children_ancestors`: the ancestors of a
child are its parent and the ancestors of the parent.  `parallel_completion`: the completion
of a parallel state names children only, and every child that is no history element.
`parallel_regions`: no child of a parallel state is an initial element.
`compound_completion`: the completion of a compound state names children, or one single
descendant (the case the deep completion of the sweep is written for).  `history_parent`,
`initial_parent`: a history or initial element is a child of its parent.
`history_completion`: the completion of a history element names states after it or initial
elements, and with a state its ancestors below the parent.  `history_disjoint`: only
history elements with the same parent share a completion state (the `covered` sets of
`setHistoryCompletion`).  `history_default`: a transition of a history element targets states
after it, children of the parent or, for a deep history, one single descendant of the parent.
`initial_target`: a transition of an initial element targets descendants of the parent after
it.  `exit_set_closed`: an exit set holds, with a state, its descendants, and with a child of a
parallel state the parallel state itself, unless the parallel state is an ancestor of a target
of the transition (the domain of a transition is no parallel state, except possibly the
source of an internal transition). -/
structure WellFormedTables {H : Type} (m : scxml_machine H) : Prop where
  ancestors_before : ∀ x, x < m.nr_states → ∀ a, a < m.nr_states →
    BIT_HAS a (m.states x).ancestors = true →
      a < x ∧ isPseudoState m a = false ∧
      ∀ b, b < m.nr_states → BIT_HAS b (m.states a).ancestors = true →
        BIT_HAS b (m.states x).ancestors = true
  ancestors_chain : ∀ x, x < m.nr_states → ∀ a, a < m.nr_states → ∀ b, b < m.nr_states →
    BIT_HAS a (m.states x).ancestors = true → BIT_HAS b (m.states x).ancestors = true →
      a = b ∨ BIT_HAS b (m.states a).ancestors = true ∨ BIT_HAS a (m.states b).ancestors = true
  children_ancestors : ∀ s, s < m.nr_states → ∀ c, c < m.nr_states →
    BIT_HAS c (m.states s).children = true → ∀ a, a < m.nr_states →
      (BIT_HAS a (m.states c).ancestors = true ↔
        (a = s ∨ BIT_HAS a (m.states s).ancestors = true))
  parallel_completion : ∀ s, s < m.nr_states →
    SCXML_STATE_MASK (m.states s).type = SCXML_STATE_PARALLEL → ∀ c, c < m.nr_states →
      (BIT_HAS c (m.states s).completion = true → BIT_HAS c (m.states s).children = true) ∧
      (BIT_HAS c (m.states s).children = true → isHistoryType m c = false →
        BIT_HAS c (m.states s).completion = true)
  parallel_regions : ∀ s, s < m.nr_states →
    SCXML_STATE_MASK (m.states s).type = SCXML_STATE_PARALLEL → ∀ c, c < m.nr_states →
      BIT_HAS c (m.states s).children = true →
        SCXML_STATE_MASK (m.states c).type ≠ SCXML_STATE_INITIAL
  compound_completion : ∀ i, i < m.nr_states →
    SCXML_STATE_MASK (m.states i).type = SCXML_STATE_COMPOUND → ∀ x, x < m.nr_states →
      BIT_HAS x (m.states i).completion = true →
        BIT_HAS x (m.states i).children = true ∨
        (bit_has_and (m.states i).completion (m.states i).children (nr_states_bytes m) = false ∧
          BIT_HAS i (m.states x).ancestors = true ∧
          ∀ y, y < m.nr_states → BIT_HAS y (m.states i).completion = true → y = x)
  history_parent : ∀ hs, hs < m.nr_states → isHistoryType m hs = true →
    (m.states hs).parent < m.nr_states ∧
      BIT_HAS hs (m.states (m.states hs).parent).children = true
  history_completion : ∀ hs, hs < m.nr_states → isHistoryType m hs = true →
    ∀ x, x < m.nr_states → BIT_HAS x (m.states hs).completion = true →
      (hs < x ∨ SCXML_STATE_MASK (m.states x).type = SCXML_STATE_INITIAL) ∧
      ∀ a, a < m.nr_states → BIT_HAS a (m.states x).ancestors = true →
        a = (m.states hs).parent ∨
        BIT_HAS a (m.states (m.states hs).parent).ancestors = true ∨
        BIT_HAS a (m.states hs).completion = true
  history_disjoint : ∀ hs, hs < m.nr_states → ∀ ks, ks < m.nr_states →
    isHistoryType m hs = true → isHistoryType m ks = true → ∀ x, x < m.nr_states →
      BIT_HAS x (m.states hs).completion = true → BIT_HAS x (m.states ks).completion = true →
        (m.states hs).parent = (m.states ks).parent
  history_default : ∀ t, t < m.nr_transitions → (m.transitions t).source < m.nr_states →
    isHistoryType m (m.transitions t).source = true → ∀ y, y < m.nr_states →
      BIT_HAS y (m.transitions t).target = true →
        (m.transitions t).source < y ∧
        (BIT_HAS y (m.states (m.states (m.transitions t).source).parent).children = true ∨
          (SCXML_STATE_MASK (m.states (m.transitions t).source).type =
              SCXML_STATE_HISTORY_DEEP ∧
            bit_has_and (m.transitions t).target (m.states (m.transitions t).source).children
              (nr_states_bytes m) = false ∧
            BIT_HAS (m.states (m.transitions t).source).parent (m.states y).ancestors = true ∧
            (∀ a, a < m.nr_states → BIT_HAS a (m.states y).ancestors = true →
              BIT_HAS (m.states (m.transitions t).source).parent (m.states a).ancestors = true →
                (m.transitions t).source < a) ∧
            ∀ z, z < m.nr_states → BIT_HAS z (m.transitions t).target = true → z = y))
  initial_parent : ∀ i, i < m.nr_states →
    SCXML_STATE_MASK (m.states i).type = SCXML_STATE_INITIAL →
      (m.states i).parent < m.nr_states ∧
        BIT_HAS i (m.states (m.states i).parent).children = true
  initial_target : ∀ t, t < m.nr_transitions → (m.transitions t).source < m.nr_states →
    SCXML_STATE_MASK (m.states (m.transitions t).source).type = SCXML_STATE_INITIAL →
      ∀ y, y < m.nr_states → BIT_HAS y (m.transitions t).target = true →
        (m.transitions t).source < y ∧
        ∀ a, a < m.nr_states → BIT_HAS a (m.states y).ancestors = true →
          a = (m.states (m.transitions t).source).parent ∨
          BIT_HAS a (m.states (m.states (m.transitions t).source).parent).ancestors = true ∨
          (m.transitions t).source < a
  exit_set_closed : ∀ t, t < m.nr_transitions → ∀ x, x < m.nr_states →
    BIT_HAS x (m.transitions t).exit_set = true →
      (∀ y, y < m.nr_states → BIT_HAS x (m.states y).ancestors = true →
        BIT_HAS y (m.transitions t).exit_set = true) ∧
      (∀ s, s < m.nr_states → SCXML_STATE_MASK (m.states s).type = SCXML_STATE_PARALLEL →
        BIT_HAS x (m.states s).children = true →
          BIT_HAS s (m.transitions t).exit_set = true ∨
          ∃ y, y < m.nr_states ∧ BIT_HAS y (m.transitions t).target = true ∧
            BIT_HAS s (m.states y).ancestors = true)

/-- A set of states holds, with a state, the ancestors of the state. -/
def ancestorClosed {H : Type} (m : scxml_machine H) (s : Bitset) : Prop :=
  ∀ x, x < m.nr_states → BIT_HAS x s = true → ∀ a, a < m.nr_states →
    BIT_HAS a (m.states x).ancestors = true → BIT_HAS a s = true

/-- A set of states holds, with a parallel state below index `k`, the children of the parallel
state that are no history or initial pseudo-states. -/
def parallelsFilled {H : Type} (m : scxml_machine H) (k : Nat) (s : Bitset) : Prop :=
  ∀ p, p < m.nr_states → p < k →
    SCXML_STATE_MASK (m.states p).type = SCXML_STATE_PARALLEL → BIT_HAS p s = true →
      ∀ c, c < m.nr_states → BIT_HAS c (m.states p).children = true →
        isPseudoState m c = false → BIT_HAS c s = true

/-- The recorded part of the completion of every history element holds, with a state, the
ancestors of the state that the completion names. -/
def historyClosed {H : Type} (m : scxml_machine H) (history : Bitset) : Prop :=
  ∀ hs, hs < m.nr_states → isHistoryType m hs = true → ∀ x, x < m.nr_states →
    BIT_HAS x (m.states hs).completion = true → BIT_HAS x history = true →
      ∀ a, a < m.nr_states → BIT_HAS a (m.states x).ancestors = true →
        BIT_HAS a (m.states hs).completion = true → BIT_HAS a history = true

/-- The contexts that a run of steps returning `SCXML_ERR_OK` keeps to: the flags are pristine
or carry `SCXML_CTX_INITIALIZED`; a pristine context has an empty config; config holds the
proper children of its parallel states and the ancestors of its states; the history bitset is
closed in the sense of `historyClosed`. -/
structure Legal {H : Type} (m : scxml_machine H) (ctx : scxml_ctx) : Prop where
  started : ctx.flags = SCXML_CTX_PRISTINE ∨ ctx.flags &&& SCXML_CTX_INITIALIZED ≠ 0
  fresh : ctx.flags = SCXML_CTX_PRISTINE →
    ∀ i, i < m.nr_states → BIT_HAS i ctx.config = false
  parallel_children : parallelsFilled m m.nr_states ctx.config
  ancestors_active : ancestorClosed m ctx.config
  history_closed : historyClosed m ctx.history


/-- What an iteration of the descendant sweep for state `i` makes of the entry set `es` it
starts with: the proper states of `es` stay, the set is closed under ancestors, and its new
states come after `i` or are initial elements. -/
def sweepGrown {H : Type} (m : scxml_machine H) (i : Nat) (es cur : Bitset) : Prop :=
  (∀ x, x < m.nr_states → BIT_HAS x es = true → isPseudoState m x = false →
    BIT_HAS x cur = true) ∧
  ancestorClosed m cur ∧
  (∀ x, x < m.nr_states → BIT_HAS x cur = true →
    BIT_HAS x es = true ∨ i < x ∨ SCXML_STATE_MASK (m.states x).type = SCXML_STATE_INITIAL)


/-- The tables of the chart `<scxml> <parallel id="P"> <state id="R1"> <onentry> ...
</onentry> </state> <state id="R2"/> </parallel> </scxml>`: states root (0), P (1), R1 (2),
R2 (3), no transition.  The `on_entry` program of R1 fails with `SCXML_ERR_EXEC_CONTENT`. -/
def abortedEntryMachine : scxml_machine (List Nat) :=
  { flags := 0, nr_states := 4, nr_transitions := 0, name := "", datamodel := "null",
    uuid := "",
    states := fun i =>
      match i with
      | 0 => plainState 0 [0x02] [0x02] [0x00] SCXML_STATE_COMPOUND
      | 1 => plainState 0 [0x0c] [0x0c] [0x01] SCXML_STATE_PARALLEL
      | 2 => { plainState 1 [0x00] [0x00] [0x03] SCXML_STATE_ATOMIC with
               on_entry := some (fun _ _ _ _ h => (SCXML_ERR_EXEC_CONTENT, h)) }
      | _ => plainState 1 [0x00] [0x00] [0x03] SCXML_STATE_ATOMIC
    transitions := fun _ => plainTrans 0 [] 0 [] []
    parent := none
    donedata := [⟨0, none, none, none⟩]
    script := none }


/-- The tables of the chart `<scxml> <state id="C" initial="a Q"> <parallel id="P0">
<state id="R1"> <state id="a"/> </state> <state id="R"> <state id="m0"/> <parallel id="S">
<state id="T1"> <state id="Q" initial="qq"> <state id="U"> <state id="qq"/> </state> </state>
</state> <state id="T2"> <state id="t2"/> </state> </parallel> </state> </parallel> </state>
</scxml>`: states root (0), C (1), P0 (2), R1 (3), a (4), R (5), m0 (6), S (7), T1 (8), Q (9),
U (10), qq (11), T2 (12), t2 (13), no transition.  The `initial` attribute of C names two
states, so `completion[C]` is {a, Q}. -/
def splitInitialMachine : scxml_machine (List Nat) :=
  { flags := 0, nr_states := 14, nr_transitions := 0, name := "", datamodel := "null",
    uuid := "",
    states := fun i =>
      match i with
      | 0 => plainState 0 [0x02, 0x00] [0x02, 0x00] [0x00, 0x00] SCXML_STATE_COMPOUND
      | 1 => plainState 0 [0x04, 0x00] [0x10, 0x02] [0x01, 0x00] SCXML_STATE_COMPOUND
      | 2 => plainState 1 [0x28, 0x00] [0x28, 0x00] [0x03, 0x00] SCXML_STATE_PARALLEL
      | 3 => plainState 2 [0x10, 0x00] [0x10, 0x00] [0x07, 0x00] SCXML_STATE_COMPOUND
      | 4 => plainState 3 [0x00, 0x00] [0x00, 0x00] [0x0f, 0x00] SCXML_STATE_ATOMIC
      | 5 => plainState 2 [0xc0, 0x00] [0x40, 0x00] [0x07, 0x00] SCXML_STATE_COMPOUND
      | 6 => plainState 5 [0x00, 0x00] [0x00, 0x00] [0x27, 0x00] SCXML_STATE_ATOMIC
      | 7 => plainState 5 [0x00, 0x11] [0x00, 0x11] [0x27, 0x00] SCXML_STATE_PARALLEL
      | 8 => plainState 7 [0x00, 0x02] [0x00, 0x02] [0xa7, 0x00] SCXML_STATE_COMPOUND
      | 9 => plainState 8 [0x00, 0x04] [0x00, 0x08] [0xa7, 0x01] SCXML_STATE_COMPOUND
      | 10 => plainState 9 [0x00, 0x08] [0x00, 0x08] [0xa7, 0x03] SCXML_STATE_COMPOUND
      | 11 => plainState 10 [0x00, 0x00] [0x00, 0x00] [0xa7, 0x07] SCXML_STATE_ATOMIC
      | 12 => plainState 7 [0x00, 0x20] [0x00, 0x20] [0xa7, 0x00] SCXML_STATE_COMPOUND
      | _ => plainState 12 [0x00, 0x00] [0x00, 0x00] [0xa7, 0x10] SCXML_STATE_ATOMIC
    transitions := fun _ => plainTrans 0 [] 0 [] []
    parent := none
    donedata := [⟨0, none, none, none⟩]
    script := none }


/-- A state record without programs, for any host. -/
def bareState {H : Type} (parent : Nat) (children completion ancestors : List Nat)
    (type : Nat) : scxml_state H :=
  { name := none, parent := parent, on_entry := none, on_exit := none, invoke := none,
    children := bytes children, completion := bytes completion, ancestors := bytes ancestors,
    data := none, type := type }

/-- A transition record without program, for any host. -/
def bareTrans {H : Type} (source : Nat) (target : List Nat) (type : Nat)
    (conflicts exit_set : List Nat) : scxml_transition H :=
  { source := source, target := bytes target, event := none, condition := none,
    on_transition := none, type := type, conflicts := bytes conflicts,
    exit_set := bytes exit_set }

/-- The tables of scenario 6 of the specification, `<scxml> <state id="S0"> <transition
target="S1"/> </state> <state id="S1"> <transition target="S2"/> </state> <final id="S2"/>
</scxml>`: states root (0), S0 (1), S1 (2), S2 (3); transitions 0: S0 → S1 and 1: S1 → S2, both
without event and with the root as domain. -/
def chainMachine (H : Type) : scxml_machine H :=
  { flags := 0, nr_states := 4, nr_transitions := 2, name := "", datamodel := "null",
    uuid := "",
    states := fun i =>
      match i with
      | 0 => bareState 0 [0x0e] [0x02] [0x00] SCXML_STATE_COMPOUND
      | 1 => bareState 0 [0x00] [0x00] [0x01] SCXML_STATE_ATOMIC
      | 2 => bareState 0 [0x00] [0x00] [0x01] SCXML_STATE_ATOMIC
      | _ => bareState 0 [0x00] [0x00] [0x01] SCXML_STATE_FINAL
    transitions := fun t =>
      match t with
      | 0 => bareTrans 1 [0x04] SCXML_TRANS_SPONTANEOUS [0x03] [0x0e]
      | _ => bareTrans 2 [0x08] SCXML_TRANS_SPONTANEOUS [0x03] [0x0e]
    parent := none
    donedata := [⟨0, none, none, none⟩]
    script := none }

/-- Locals of `writeCharArrayInitList`: the string `charArray` (one byte pattern per
character), `index` and `currChar`. -/
structure PackState where
  charArray : List Nat
  index : Nat
  currChar : Nat

/-- One iteration of the first loop of `writeCharArrayInitList`:
`if (*bIter == '1') currChar |= 1 << index; index++;
 if (index == 8) { charArray += currChar; currChar = 0; index = 0; }`
with `currChar` a `char`, kept as its bit pattern. -/
def packStep (st : PackState) (c : Char) : PackState :=
  let currChar := if c = '1' then (st.currChar ||| (1 <<< st.index)) % 256 else st.currChar
  let index := st.index + 1
  if index = 8 then ⟨st.charArray ++ [currChar], 0, 0⟩ else ⟨st.charArray, index, currChar⟩

/-- The string `charArray` built by `writeCharArrayInitList`: the loop over `boolString`, then
`if (index != 0) charArray += currChar;`. -/
def charArrayOf (boolString : List Char) : List Nat :=
  let st := boolString.foldl packStep ⟨[], 0, 0⟩
  if st.index ≠ 0 then st.charArray ++ [st.currChar] else st.charArray

/-- One byte as printed by `"0x" << std::setw(2) << std::setfill('0') << std::hex <<
int(*cIter & 0xFF)`. -/
def hexByte (b : Nat) : String :=
  "0x" ++ String.mk [Nat.digitChar (b % 256 / 16), Nat.digitChar (b % 16)]

/-- Text written by `writeCharArrayInitList`: the bytes of `charArray`, separated by `", "`. -/
def writeCharArrayInitList (boolString : List Char) : String :=
  ", ".intercalate ((charArrayOf boolString).map hexByte)

/-- State of the packing loop after a prefix `b`. -/
structure PackInv (b : List Char) (st : PackState) : Prop where
  index_eq : st.index = b.length % 8
  length_eq : st.charArray.length = b.length / 8
  full : ∀ j r, j < st.charArray.length → r < 8 →
    (st.charArray.getD j 0).testBit r = decide (b.getD (8 * j + r) '0' = '1')
  high : ∀ j r, j < st.charArray.length → 8 ≤ r → (st.charArray.getD j 0).testBit r = false
  curr : ∀ r, st.currChar.testBit r =
    (decide (r < st.index) && decide (b.getD (8 * (b.length / 8) + r) '0' = '1'))

/-! ### The compiler: document tree, `prepare`, `setStateCompletion`, `setHistoryCompletion`

The document is a tree of DOM nodes.  A node handle is the list of child positions on the way
from the document node `[]` down to the node; the document element `_scxml` is `[0]`.  The tree
is the one `prepare` works on after its call of `resortStates`. -/

/-- A DOM node: an element with tag name, attributes and child nodes, or a node of another kind
(text, comment). -/
inductive Node where
  | element (tag : String) (attrs : List (String × String)) (childNodes : List Node) : Node
  | other : Node

/-- Handle of a node: the child positions from the document node down to it. -/
abbrev NodeRef := List Nat

/-- DOM `getChildNodes()` of a node. -/
def Node.getChildNodes : Node → List Node
  | Node.element _ _ cs => cs
  | Node.other => []

/-- The node reached from `n` along the child positions `q`. -/
def descend : Node → List Nat → Option Node
  | n, [] => some n
  | n, i :: q =>
    match n.getChildNodes.get? i with
    | some c => descend c q
    | none => none

/-- The element behind a handle; the document element `scxml` has the handle `[0]`. -/
def nodeAt (scxml : Node) : NodeRef → Option Node
  | 0 :: q => descend scxml q
  | _ => none

/-- Whether a node is an element whose tag name is in `elements`. -/
def hasTagIn (elements : List String) : Option Node → Bool
  | some (Node.element tag _ _) => decide (tag ∈ elements)
  | _ => false

mutual
/-- Modelled from the spec: `DOMUtils::inDocumentOrder` (not in this file), "a single pre-order
walk": the element itself when its tag is in `elements`, then the walks of its children from
first to last. -/
def inDocumentOrderNode (elements : List String) : Node → NodeRef → List NodeRef
  | Node.other, _ => []
  | Node.element tag _ cs, p =>
    (if tag ∈ elements then [p] else []) ++ inDocumentOrderList elements cs p 0
/-- The pre-order walks of the children `cs` of `p`, the first of them at position `i`. -/
def inDocumentOrderList (elements : List String) : List Node → NodeRef → Nat → List NodeRef
  | [], _, _ => []
  | c :: cs, p, i =>
    inDocumentOrderNode elements c (p ++ [i]) ++ inDocumentOrderList elements cs p (i + 1)
end

mutual
/-- Modelled from the spec: `DOMUtils::inPostFixOrder` (not in this file), the "post-order" walk:
the walks of the children from first to last, then the element itself when its tag is in
`elements`. -/
def inPostFixOrderNode (elements : List String) : Node → NodeRef → List NodeRef
  | Node.other, _ => []
  | Node.element tag _ cs, p =>
    inPostFixOrderList elements cs p 0 ++ (if tag ∈ elements then [p] else [])
/-- The post-order walks of the children `cs` of `p`, the first of them at position `i`. -/
def inPostFixOrderList (elements : List String) : List Node → NodeRef → Nat → List NodeRef
  | [], _, _ => []
  | c :: cs, p, i =>
    inPostFixOrderNode elements c (p ++ [i]) ++ inPostFixOrderList elements cs p (i + 1)
end

/-- Call `DOMUtils::inDocumentOrder(elements, _scxml)`. -/
def inDocumentOrder (elements : List String) (scxml : Node) : List NodeRef :=
  inDocumentOrderNode elements scxml [0]

/-- Call `DOMUtils::inPostFixOrder(elements, _scxml)`. -/
def inPostFixOrder (elements : List String) (scxml : Node) : List NodeRef :=
  inPostFixOrderNode elements scxml [0]

/-- The set `elements` of `prepare`: tag names of the state-like elements (`parallel` is
inserted twice there). -/
def stateElements : List String := ["scxml", "state", "final", "parallel", "history", "initial"]

/-- Member `_states` as `prepare` sets it: `DOMUtils::inDocumentOrder(elements, _scxml)`. -/
def _states (scxml : Node) : List NodeRef := inDocumentOrder stateElements scxml

/-- Member `_transitions` as `prepare` leaves it: the transitions in post-fix order. -/
def _transitions (scxml : Node) : List NodeRef := inPostFixOrder ["transition"] scxml

/-- DOM `getParentNode()` of an element: the parent element, or the document node `[]` for the
document element.  It is only asked of elements. -/
def getParentNode (r : NodeRef) : NodeRef := r.dropLast

/-- Modelled from the spec: macro `TAGNAME` (its header is not in this file), the tag name of an
element; empty for a node that is no element. -/
def TAGNAME (scxml : Node) (r : NodeRef) : String :=
  match nodeAt scxml r with
  | some (Node.element tag _ _) => tag
  | _ => ""

/-- DOM `getAttribute(name)` with `hasAttribute(name)`: the value, when the element carries the
attribute. -/
def getAttribute (scxml : Node) (r : NodeRef) (name : String) : Option String :=
  match nodeAt scxml r with
  | some (Node.element _ attrs _) => attrs.lookup name
  | _ => none

/-- Modelled from the spec: macro `HAS_ATTR` (its header is not in this file), whether the
element carries the attribute. -/
def HAS_ATTR (scxml : Node) (r : NodeRef) (name : String) : Bool :=
  (getAttribute scxml r name).isSome

/-- Modelled from the spec: macro `ATTR` (its header is not in this file), the value of the
attribute, empty when the element does not carry it. -/
def ATTR (scxml : Node) (r : NodeRef) (name : String) : String :=
  (getAttribute scxml r name).getD ""

/-- Library function `iequals`: equality of strings up to the case of letters. -/
def iequals (a b : String) : Bool := a.data.map Char.toLower == b.data.map Char.toLower

/-- Modelled from the spec: `isDescendant(s1, s2)` (not in this file), whether `s2` is "a proper
ancestor" of `s1`: `s2` lies on the way from the document node to `s1` and is not `s1`. -/
def isDescendant (s1 s2 : NodeRef) : Bool := s2.isPrefixOf s1 && s2 != s1

/-- Modelled from the spec: `isHistory` (not in this file), whether the element is a "history
pseudo-state", a `history` element. -/
def isHistory (scxml : Node) (r : NodeRef) : Bool := TAGNAME scxml r == "history"

/-- Modelled from the spec: `isParallel` (not in this file), whether the element is a "parallel
state", a `parallel` element. -/
def isParallel (scxml : Node) (r : NodeRef) : Bool := TAGNAME scxml r == "parallel"

/-- Modelled from the spec: `isMember(node, set)` (not in this file), whether the node is one of
the nodes of the set. -/
def isMember (node : NodeRef) (set : List NodeRef) : Bool := set.contains node

/-- Modelled from the spec: `hasIntersection(a, b)` (not in this file), whether the two node
sets "intersect": some node of `a` is in `b`. -/
def hasIntersection (a b : List NodeRef) : Bool := a.any (fun x => b.contains x)

/-- Whether the handle is that of an element (`getNodeType() == Node_base::ELEMENT_NODE`). -/
def isElement (scxml : Node) (r : NodeRef) : Bool :=
  match nodeAt scxml r with
  | some (Node.element _ _ _) => true
  | _ => false

/-- DOM `getChildNodes()` of the node behind a handle, as handles, first child first. -/
def getChildNodes (scxml : Node) (r : NodeRef) : List NodeRef :=
  match nodeAt scxml r with
  | some n => (List.range n.getChildNodes.length).map (fun i => r ++ [i])
  | none => []

/-- Modelled from the spec: `filterChildElements(tagName, node)` (not in this file), the child
elements of `node` with the tag name, first child first (the spec's "first `<initial>` child"
is its first entry). -/
def filterChildElements (scxml : Node) (tagName : String) (node : NodeRef) : List NodeRef :=
  (getChildNodes scxml node).filter (fun c => isElement scxml c && TAGNAME scxml c == tagName)

/-- Modelled from the spec: `getChildStates(state)` (not in this file), the child states of a
state, read as the spec's "For a parallel state p, `completion[p] = children[p]`" has it: the
child elements that are state-like, history and initial elements included. -/
def getChildStates (scxml : Node) (state : NodeRef) : List NodeRef :=
  (getChildNodes scxml state).filter (fun c => decide (TAGNAME scxml c ∈ stateElements))

/-- Functions of the interpreter that the compiler calls and this file does not define, taken as
parameters: `isState`, `getStates`, `tokenizeIdRefs`, `isTargetless`, `getTransitionDomain` (a
null handle is `none`), `getSourceState`, `isFinal`, `isAtomic`, `isCompound`. -/
structure Helpers where
  isState : NodeRef → Bool
  getStates : List String → List NodeRef
  tokenizeIdRefs : String → List String
  isTargetless : NodeRef → Bool
  getTransitionDomain : NodeRef → Option NodeRef
  getSourceState : NodeRef → NodeRef
  isFinal : NodeRef → Bool
  isAtomic : NodeRef → Bool
  isCompound : NodeRef → Bool

/-- A string of `'1'` and `'0'`, one character per node: the loops of `prepare` that append
`"1"` or `"0"` for every entry of `_states` or `_transitions`. -/
def boolString (p : NodeRef → Bool) (nodes : List NodeRef) : List Char :=
  nodes.map (fun s => if p s then '1' else '0')

/-- Attribute `childBools` of a state (`prepare`): `_states[j].getParentNode() == state`. -/
def childBools (scxml : Node) (state : NodeRef) : List Char :=
  boolString (fun s => getParentNode s == state) (_states scxml)

/-- Local `hasHistoryChild` of `prepare`: some entry of `_states` has `state` as its parent
node and is a history element. -/
def hasHistoryChild (scxml : Node) (state : NodeRef) : Bool :=
  (_states scxml).any (fun s => getParentNode s == state && isHistory scxml s)

/-- Attribute `ancBools` of a state (`prepare`): `isDescendant(state, _states[j])`. -/
def ancBools (scxml : Node) (state : NodeRef) : List Char :=
  boolString (fun s => isDescendant state s) (_states scxml)

/-- Method `computeExitSet`: empty for a targetless transition or a null domain, else the
entries of `_states` that are descendants of the transition domain. -/
def computeExitSet (hp : Helpers) (scxml : Node) (transition : NodeRef) : List NodeRef :=
  if !hp.isTargetless transition then
    match hp.getTransitionDomain transition with
    | none => []
    | some domain => (_states scxml).filter (fun s => isDescendant s domain)
  else []

/-- Attribute `conflictBools` of a transition (`prepare`): for every `t2` of `_transitions`,
whether the exit sets intersect, the source states are the same, or one source state is a
descendant of the other. -/
def conflictBools (hp : Helpers) (scxml : Node) (transition : NodeRef) : List Char :=
  boolString (fun t2 =>
    hasIntersection (computeExitSet hp scxml transition) (computeExitSet hp scxml t2) ||
    hp.getSourceState transition == hp.getSourceState t2 ||
    isDescendant (hp.getSourceState transition) (hp.getSourceState t2) ||
    isDescendant (hp.getSourceState t2) (hp.getSourceState transition)) (_transitions scxml)

/-- Locals of `setHistoryCompletion` that live across its loop (`covered`, `perParentcovered`,
`parent`, a null handle being `none`), with the attributes it has set so far: `completionBools`
per history element and the history elements given `hasHistoryChild`. -/
structure HistoryPass where
  covered : List NodeRef
  perParentcovered : List NodeRef
  parent : Option NodeRef
  completionBools : List (NodeRef × List Char)
  hasHistoryChild : List NodeRef

/-- Local `deep` of `setHistoryCompletion`:
`HAS_ATTR(history, "type") && iequals(ATTR(history, "type"), "deep")`. -/
def isDeep (scxml : Node) (history : NodeRef) : Bool :=
  HAS_ATTR scxml history "type" && iequals (ATTR scxml history "type") "deep"

/-- Set `completion` built by the inner loop of `setHistoryCompletion`: the entries of `_states`
other than `history` that are not in `covered` and are, for a deep history, descendants of the
parent of `history` and no history elements, else children of that parent and no history
elements. -/
def historyCompletion (scxml : Node) (covered : List NodeRef) (history : NodeRef) :
    List NodeRef :=
  (_states scxml).filter (fun s =>
    s != history && !isMember s covered &&
    (if isDeep scxml history then
      isDescendant s (getParentNode history) && !isHistory scxml s
    else getParentNode s == getParentNode history && !isHistory scxml s))

/-- Test of the inner loop of `setHistoryCompletion` that gives `history` the attribute
`hasHistoryChild`: some other entry of `_states` is a descendant of the parent of `history` and
a history element. -/
def nestedHistory (scxml : Node) (history : NodeRef) : Bool :=
  (_states scxml).any (fun s => s != history &&
    isDescendant s (getParentNode history) && isHistory scxml s)

/-- One iteration of the outer loop of `setHistoryCompletion`, for the element `history`. -/
def historyStep (scxml : Node) (st : HistoryPass) (history : NodeRef) : HistoryPass :=
  let moved := st.parent != some (getParentNode history)
  let covered := if moved then st.covered ++ st.perParentcovered else st.covered
  let perParentcovered := if moved then [] else st.perParentcovered
  let completion := historyCompletion scxml covered history
  { covered := covered
    perParentcovered := perParentcovered ++ completion
    parent := some (getParentNode history)
    completionBools := st.completionBools ++
      [(history, boolString (fun s => isMember s completion) (_states scxml))]
    hasHistoryChild :=
      if nestedHistory scxml history then st.hasHistoryChild ++ [history]
      else st.hasHistoryChild }

/-- Method `setHistoryCompletion`: the loop over the history elements in post-fix order. -/
def setHistoryCompletion (scxml : Node) : HistoryPass :=
  (inPostFixOrder ["history"] scxml).foldl (historyStep scxml) ⟨[], [], none, [], []⟩

/-- Set `completion` that `setStateCompletion` builds for a state that is no history element:
the child states of a parallel state; else the states named by the attribute `initial`; else
the first `initial` child element itself, unless it is marked `generated="true"`; else the first
child element that `isState` accepts (the loop with `break`). -/
def stateCompletion (hp : Helpers) (scxml : Node) (state : NodeRef) : List NodeRef :=
  if isParallel scxml state then getChildStates scxml state
  else if HAS_ATTR scxml state "initial" then
    hp.getStates (hp.tokenizeIdRefs (ATTR scxml state "initial"))
  else
    let initElems := filterChildElements scxml "initial" state
    if 0 < initElems.length && !iequals (ATTR scxml (initElems.getD 0 []) "generated") "true" then
      [initElems.getD 0 []]
    else
      ((getChildNodes scxml state).find?
        (fun c => isElement scxml c && hp.isState c)).toList

/-- Attribute `completionBools` of a state after `setStateCompletion`: set by
`setHistoryCompletion` for a history element (empty when it was not set), by the loop of
`setStateCompletion` for every other state. -/
def completionBools (hp : Helpers) (scxml : Node) (state : NodeRef) : List Char :=
  if isHistory scxml state then
    (((setHistoryCompletion scxml).completionBools.lookup state).getD [])
  else boolString (fun s => isMember s (stateCompletion hp scxml state)) (_states scxml)

/-- Position of the first entry of `nodes` that is `r`. -/
def indexIn (r : NodeRef) : List NodeRef → Option Nat
  | [] => none
  | x :: xs => if x = r then some 0 else (indexIn r xs).map (fun k => k + 1)

/-- Attribute `documentOrder` of a node after `prepare`: the position in `_states` for a
state-like element, the position among the transitions in document order for a transition,
absent otherwise (the source document is taken not to carry an attribute of this name). -/
def documentOrder (scxml : Node) (r : NodeRef) : Option Nat :=
  match indexIn r (_states scxml) with
  | some k => some k
  | none => indexIn r (inDocumentOrder ["transition"] scxml)

/-- Field `type` that `writeStates` emits for a state: the kind of the state, with
`SCXML_STATE_HAS_HISTORY` when the element carries the attribute `hasHistoryChild`, which
`prepare` or `setHistoryCompletion` may have set. -/
def stateType (hp : Helpers) (scxml : Node) (state : NodeRef) : Nat :=
  (if iequals (TAGNAME scxml state) "initial" then SCXML_STATE_INITIAL
   else if hp.isFinal state then SCXML_STATE_FINAL
   else if isHistory scxml state then
     (if isDeep scxml state then SCXML_STATE_HISTORY_DEEP else SCXML_STATE_HISTORY_SHALLOW)
   else if hp.isAtomic state then SCXML_STATE_ATOMIC
   else if isParallel scxml state then SCXML_STATE_PARALLEL
   else if hp.isCompound state then SCXML_STATE_COMPOUND
   else SCXML_STATE_COMPOUND) |||
  (if hasHistoryChild scxml state || isMember state (setHistoryCompletion scxml).hasHistoryChild
   then SCXML_STATE_HAS_HISTORY else 0)

/-- Fields of one entry of the state table that `writeStates` emits: `parent` (absent when the
text is empty), the bytes of `children`, `completion` and `ancestors`, and `type`. -/
structure StateRow where
  parent : Option Nat
  children : List Nat
  completion : List Nat
  ancestors : List Nat
  type : Nat

/-- Entry number `i` of the state table emitted by `writeStates`. -/
def stateRow (hp : Helpers) (scxml : Node) (i : Nat) : StateRow :=
  let state := (_states scxml).getD i []
  { parent := if i = 0 then some 0 else documentOrder scxml (getParentNode state)
    children := charArrayOf (childBools scxml state)
    completion := charArrayOf (completionBools hp scxml state)
    ancestors := charArrayOf (ancBools scxml state)
    type := stateType hp scxml state }

/-- Method `writeStates`: one entry per element of `_states`. -/
def writeStates (hp : Helpers) (scxml : Node) : List StateRow :=
  (List.range (_states scxml).length).map (stateRow hp scxml)

/-- Field `conflicts` of entry number `t` of the transition table emitted by
`writeTransitions`. -/
def transConflicts (hp : Helpers) (scxml : Node) (t : Nat) : List Nat :=
  charArrayOf (conflictBools hp scxml ((_transitions scxml).getD t []))

/-- Emitted parent index of state `i`, 0 when the field is empty. -/
def stateParent (hp : Helpers) (scxml : Node) (i : Nat) : Nat :=
  ((stateRow hp scxml i).parent).getD 0

/-- Every state-like element other than the document element has a state-like element as its
parent node, as in a valid chart. -/
@[reducible] def WellNested (scxml : Node) : Prop :=
  ∀ r, r ∈ _states scxml → r ≠ [0] → getParentNode r ∈ _states scxml

/-- Parent of an element, the document element `[0]` staying where it is. -/
def upward (r : NodeRef) : NodeRef := if r = [0] then [0] else r.dropLast

/-- State of `setHistoryCompletion` after its first `m` iterations over `histories`. -/
def passAt (scxml : Node) (histories : List NodeRef) (m : Nat) : HistoryPass :=
  (histories.take m).foldl (historyStep scxml) ⟨[], [], none, [], []⟩

/-- Set `covered` as iteration `k` of `setHistoryCompletion` uses it. -/
def coveredAt (scxml : Node) (histories : List NodeRef) (k : Nat) : List NodeRef :=
  if (passAt scxml histories k).parent != some (getParentNode (histories.getD k [])) then
    (passAt scxml histories k).covered ++ (passAt scxml histories k).perParentcovered
  else (passAt scxml histories k).covered

/-- Set `completion` that iteration `k` of `setHistoryCompletion` builds. -/
def completionAt (scxml : Node) (histories : List NodeRef) (k : Nat) : List NodeRef :=
  historyCompletion scxml (coveredAt scxml histories k) (histories.getD k [])

/-- Between positions `j` and `k` of `histories` the parent changes: some element at a position
from `j` up to `k - 1` has another parent than the element at position `k`. -/
def separated (histories : List NodeRef) (j k : Nat) : Prop :=
  ∃ x, j ≤ x ∧ x < k ∧
    getParentNode (histories.getD x []) ≠ getParentNode (histories.getD k [])

/-- Invariant of the loop of `setHistoryCompletion` after `m` iterations: `parent` is the parent
of the last element handled, `covered` holds the completions built before the last change of
parent, `perParentcovered` those built since. -/
structure PassInv (scxml : Node) (hs : List NodeRef) (m : Nat) : Prop where
  start : m = 0 → (passAt scxml hs m).parent = none ∧ (passAt scxml hs m).covered = [] ∧
    (passAt scxml hs m).perParentcovered = []
  parent_eq : 0 < m → (passAt scxml hs m).parent = some (getParentNode (hs.getD (m - 1) []))
  covered_iff : 0 < m → ∀ s, s ∈ (passAt scxml hs m).covered ↔
    ∃ j, j < m ∧ separated hs j (m - 1) ∧ s ∈ completionAt scxml hs j
  per_parent_iff : 0 < m → ∀ s, s ∈ (passAt scxml hs m).perParentcovered ↔
    ∃ j, j < m ∧ ¬ separated hs j (m - 1) ∧ s ∈ completionAt scxml hs j

/-- Modelled from the spec: the interpreter helpers (not in this file) in a simple reading, used
to evaluate the compiler on the example charts: `isState` accepts `scxml`, `state`, `parallel`
and `final` elements, `getStates` finds states by their `id`, `tokenizeIdRefs` splits at blanks,
a transition is targetless without a `target` attribute, the transition domain is the parent of
the element that holds the transition (right for a transition between sibling states), the
source state is the parent element, a final state is a `final` element, a state is atomic
without child states and compound with them. -/
def tagHelpers (scxml : Node) : Helpers :=
  { isState := fun r => decide (TAGNAME scxml r ∈ ["scxml", "state", "parallel", "final"])
    getStates := fun ids => (_states scxml).filter (fun s =>
      HAS_ATTR scxml s "id" && ids.contains (ATTR scxml s "id"))
    tokenizeIdRefs := fun s => s.splitOn " "
    isTargetless := fun t => !HAS_ATTR scxml t "target"
    getTransitionDomain := fun t => some (getParentNode (getParentNode t))
    getSourceState := fun t => getParentNode t
    isFinal := fun r => TAGNAME scxml r == "final"
    isAtomic := fun r => (getChildStates scxml r).isEmpty
    isCompound := fun r => !(getChildStates scxml r).isEmpty }

/-- Element `<state id="..">` with the given child nodes. -/
def stateElem (id : String) (cs : List Node) : Node := Node.element "state" [("id", id)] cs

/-- Chart `<scxml> <state id="C"> <initial> <transition target="B"/> </initial> text
<state id="A"> <transition event="e" target="B"/> </state> <state id="B"/> </state> </scxml>`. -/
def initialChart : Node :=
  Node.element "scxml" [] [
    Node.element "state" [("id", "C")] [
      Node.element "initial" [] [Node.element "transition" [("target", "B")] []],
      Node.other,
      stateElem "A" [Node.element "transition" [("event", "e"), ("target", "B")] []],
      stateElem "B" []]]

/-- Chart `<scxml> <state id="S"> <history id="H1"/> <history id="H2"/> <state id="A"/>
</state> </scxml>`. -/
def twoHistoriesChart : Node :=
  Node.element "scxml" [] [
    Node.element "state" [("id", "S")] [
      Node.element "history" [("id", "H1")] [],
      Node.element "history" [("id", "H2")] [],
      stateElem "A" []]]

/-- Chart `<scxml> <state id="P"> <history id="H1" type="deep"/> <state id="A">
<history id="H2"/> <state id="B"/> <state id="C"/> </state> </state> </scxml>`. -/
def nestedHistoryChart : Node :=
  Node.element "scxml" [] [
    Node.element "state" [("id", "P")] [
      Node.element "history" [("id", "H1"), ("type", "deep")] [],
      Node.element "state" [("id", "A")] [
        Node.element "history" [("id", "H2")] [],
        stateElem "B" [],
        stateElem "C" []]]]

/-- Chart `<scxml> <parallel id="P"> <history id="H"/> <state id="R1"/> <state id="R2"/>
</parallel> </scxml>`. -/
def parallelChart : Node :=
  Node.element "scxml" [] [
    Node.element "parallel" [("id", "P")] [
      Node.element "history" [("id", "H")] [],
      stateElem "R1" [],
      stateElem "R2" []]]

/-! ### Frames that differ in scratch bytes only -/

/-- Two byte arrays hold the same first `n` bytes. -/
def agree (n : Nat) (a b : Bitset) : Prop := ∀ j, j < n → a j = b j

/-- Two frames of a step with the same context, host state and call log. -/
structure SameCore {H : Type} (f g : Frame H) : Prop where
  ctx_eq : f.ctx = g.ctx
  host_eq : f.host = g.host
  log_eq : f.log = g.log

/-- Frames that differ in scratch bytes no later statement reads: same context, host state and
log, and the same `trans_set` and `target_set` on the bytes the step uses. -/
structure SimA {H : Type} (m : scxml_machine H) (f g : Frame H) : Prop where
  core : SameCore f g
  trans : agree (nr_trans_bytes m) f.trans_set g.trans_set
  target : agree (nr_states_bytes m) f.target_set g.target_set

/-- As `SimA`, with `conflicts` and `exit_set` (inside `SELECT_TRANSITIONS`). -/
structure SimB {H : Type} (m : scxml_machine H) (f g : Frame H) : Prop where
  base : SimA m f g
  conflicts : agree (nr_trans_bytes m) f.conflicts g.conflicts
  exit : agree (nr_states_bytes m) f.exit_set g.exit_set

/-- The `exit_set` of the two frames is the same on the bytes the step uses, or `config` is
empty there (the pristine path, which leaves `exit_set` as it found it). -/
def exitOrEmpty {H : Type} (m : scxml_machine H) (f g : Frame H) : Prop :=
  agree (nr_states_bytes m) f.exit_set g.exit_set ∨
    ∀ j, j < nr_states_bytes m → f.ctx.config j = 0

/-- As `SimA`, at the label `ESTABLISH_ENTRY_SET`. -/
structure SimD {H : Type} (m : scxml_machine H) (f g : Frame H) : Prop where
  base : SimA m f g
  exit : exitOrEmpty m f g

/-- Frames inside and after `ESTABLISH_ENTRY_SET`: same context, host state and log, and the
same `trans_set` and `entry_set` on the bytes the step uses. -/
structure SimE {H : Type} (m : scxml_machine H) (f g : Frame H) : Prop where
  core : SameCore f g
  trans : agree (nr_trans_bytes m) f.trans_set g.trans_set
  entry : agree (nr_states_bytes m) f.entry_set g.entry_set
  exit : exitOrEmpty m f g

/-- As `SimE`, without `exit_set` (after `EXIT_STATES`). -/
structure SimX {H : Type} (m : scxml_machine H) (f g : Frame H) : Prop where
  core : SameCore f g
  trans : agree (nr_trans_bytes m) f.trans_set g.trans_set
  entry : agree (nr_states_bytes m) f.entry_set g.entry_set

/-- Two results of a loop body agree: both fall through, with related frames, or both return
the same code, with frames of the same context, host state and log. -/
def FlowRel {H : Type} (R : Frame H → Frame H → Prop) (r r2 : Flow (Frame H)) : Prop :=
  match r, r2 with
  | Flow.next s, Flow.next s2 => R s s2
  | Flow.ret e s, Flow.ret e2 s2 => e = e2 ∧ SameCore s s2
  | _, _ => False

/-- As `SimA`, with `exit_set` (from the end of `SELECT_TRANSITIONS` on). -/
structure SimC {H : Type} (m : scxml_machine H) (f g : Frame H) : Prop where
  base : SimA m f g
  exit : agree (nr_states_bytes m) f.exit_set g.exit_set

/-! ## Integer types of the counters (`prepare`, `writeMacros`) -/

/-- Member `_stateDataType` as `prepare` sets it from `_states.size()`:
`if (_states.size() < (1UL << 8)) "uint8_t" else if (... < (1UL << 16)) "uint16_t"
else if (... < (1UL << 32)) "uint32_t" else "uint64_t"`. -/
def _stateDataType (statesSize : Nat) : String :=
  if statesSize < 1 <<< 8 then "uint8_t"
  else if statesSize < 1 <<< 16 then "uint16_t"
  else if statesSize < 1 <<< 32 then "uint32_t"
  else "uint64_t"

/-- Member `_transDataType` as `prepare` sets it from `_transitions.size()`, by the same
cascade. -/
def _transDataType (transSize : Nat) : String :=
  if transSize < 1 <<< 8 then "uint8_t"
  else if transSize < 1 <<< 16 then "uint16_t"
  else if transSize < 1 <<< 32 then "uint32_t"
  else "uint64_t"

/-- The two type macros as `writeMacros` writes them for a machine with `statesSize` states and
`transSize` transitions:
`"#  define SCXML_NR_STATES_TYPE " << _stateDataType` and
`"#  define SCXML_NR_TRANS_TYPE " << _stateDataType`. -/
def writeMacros (statesSize _transSize : Nat) : List String :=
  ["#ifndef SCXML_NR_STATES_TYPE ",
   "#  define SCXML_NR_STATES_TYPE " ++ _stateDataType statesSize,
   "#endif ",
   "",
   "#ifndef SCXML_NR_TRANS_TYPE ",
   "#  define SCXML_NR_TRANS_TYPE " ++ _stateDataType statesSize,
   "#endif ",
   ""]

/-- The type of the loop variables of `scxml_step` as `writeFSM` writes it:
`(_states.size() > _transitions.size() ? "SCXML_NR_STATES_TYPE" : "SCXML_NR_TRANS_TYPE")`. -/
def loopVariableType (statesSize transSize : Nat) : String :=
  if statesSize > transSize then "SCXML_NR_STATES_TYPE" else "SCXML_NR_TRANS_TYPE"

/-- Number of values of the C type with the given name (`uintN_t` has `2^N`). -/
def typeRange (name : String) : Nat :=
  if name = "uint8_t" then 2 ^ 8
  else if name = "uint16_t" then 2 ^ 16
  else if name = "uint32_t" then 2 ^ 32
  else 2 ^ 64

/-- The second frame has no history or initial pseudo-state in config that the first has
not. -/
def Frame.pseudoStep {H : Type} (m : scxml_machine H) (f g : Frame H) : Prop :=
  ∀ i, isPseudoState m i = true → BIT_HAS i g.ctx.config = true →
    BIT_HAS i f.ctx.config = true

/-! ## The param table (`writeElementInfo`) -/

/-- One entry of the emitted table `_elem_params`, `{ name, expr, location }`; `none` is
`NULL`. -/
structure ParamRow where
  name : Option String
  expr : Option String
  location : Option String
  deriving DecidableEq

/-- The entry `{ NULL, NULL, NULL }`. -/
def nullParam : ParamRow := ⟨none, none, none⟩

/-- The entry written for a `param` element: each field is the attribute when
`HAS_ATTR(param, ..)`, else `NULL`. -/
def paramRow (scxml : Node) (param : NodeRef) : ParamRow :=
  ⟨getAttribute scxml param "name", getAttribute scxml param "expr",
    getAttribute scxml param "location"⟩

/-- What the loop over `params` in `writeElementInfo` has done so far: the local `parent`
(`none` is the null node), the entries written to the stream and the attributes `paramIndex`
set, the latest first. -/
structure ParamState where
  parent : Option NodeRef
  rows : List ParamRow
  paramIndex : List (NodeRef × Nat)

/-- One iteration of the loop `for (size_t i = 0; i < params.size(); i++)`:
`if (param.getParentNode() != parent) { parent-element.setAttribute("paramIndex", toStr(i));
if (i > 0) stream << "{ NULL, NULL, NULL },"; parent = param.getParentNode(); }`, then the
entry of the param. -/
def paramStep (scxml : Node) (st : ParamState) (ip : Nat × NodeRef) : ParamState :=
  let st1 : ParamState :=
    if some (getParentNode ip.2) != st.parent then
      { parent := some (getParentNode ip.2),
        rows := if ip.1 > 0 then st.rows ++ [nullParam] else st.rows,
        paramIndex := (getParentNode ip.2, ip.1) :: st.paramIndex }
    else st
  { st1 with rows := st1.rows ++ [paramRow scxml ip.2] }

/-- The node set `params` of `writeElementInfo`, `filterChildElements("param", _scxml, true)`:
all `param` elements of the document, in document order. -/
def paramElements (scxml : Node) : List NodeRef := inDocumentOrder ["param"] scxml

/-- The param loop of `writeElementInfo` with the closing `{ NULL, NULL, NULL }`. -/
def writeParams (scxml : Node) : ParamState :=
  let st := (paramElements scxml).enum.foldl (paramStep scxml) ⟨none, [], []⟩
  { st with rows := st.rows ++ [nullParam] }

/-- The emitted table `_elem_params`. -/
def elem_params (scxml : Node) : List ParamRow := (writeParams scxml).rows

/-- The field `params` of the descriptor of a `send`, `invoke` or `donedata` element:
`HAS_ATTR(e, "paramIndex") ? &_elem_params[ATTR(e, "paramIndex")] : NULL`, as an index into
the table. -/
def paramsPointer (scxml : Node) (e : NodeRef) : Option Nat :=
  (writeParams scxml).paramIndex.lookup e

/-- The entries of the table from position `k` up to the next entry with a `NULL` name. -/
def paramsFrom (table : List ParamRow) (k : Nat) : List ParamRow :=
  (table.drop k).takeWhile (fun r => r.name.isSome)

/-- The entries of the `param` children of an element, in document order. -/
def ownParams (scxml : Node) (e : NodeRef) : List ParamRow :=
  (filterChildElements scxml "param" e).map (paramRow scxml)

/-- Element `<send event=".."> <param name=".." expr=".."/> </send>`. -/
def sendElem (event name expr : String) : Node :=
  Node.element "send" [("event", event)]
    [Node.element "param" [("name", name), ("expr", expr)] []]

/-- Chart `<scxml> <state id="A"> <onentry> <send event="e1"> <param name="a" expr="1"/>
</send> <send event="e2"> <param name="b" expr="2"/> </send> <send event="e3">
<param name="c" expr="3"/> </send> </onentry> </state> </scxml>`. -/
def threeSendsChart : Node :=
  Node.element "scxml" [] [
    Node.element "state" [("id", "A")] [
      Node.element "onentry" [] [sendElem "e1" "a" "1", sendElem "e2" "b" "2",
        sendElem "e3" "c" "3"]]]

/-! ## Reordering of the children (`resortStates`) -/

/-- Whether a node is an element with the tag name `t`
(`child.getNodeType() == Node_base::ELEMENT_NODE && TAGNAME_CAST(child) == t`). -/
def isTagged (t : String) : Node → Bool
  | Node.element tag _ _ => tag == t
  | Node.other => false

/-- Test of the first loop of `resortStates` for the child `c` of an element with the
attributes `attrs`: `c` is a `history` element and
`(!HAS_ATTR(element, "type") || iequals(ATTR(element, "type"), "shallow"))`. -/
def shallowTest (attrs : List (String × String)) (c : Node) : Bool :=
  isTagged "history" c &&
    (!(attrs.lookup "type").isSome || iequals ((attrs.lookup "type").getD "") "shallow")

/-- Test of the second loop of `resortStates`: `c` is a `history` element and
`HAS_ATTR(element, "type") && iequals(ATTR(element, "type"), "deep")`. -/
def deepTest (attrs : List (String × String)) (c : Node) : Bool :=
  isTagged "history" c &&
    ((attrs.lookup "type").isSome && iequals ((attrs.lookup "type").getD "") "deep")

/-- One loop `child = element.getFirstChild(); while(child) { resortStates(child); if (test)
{ tmp = child.getNextSibling(); if (child != element.getFirstChild())
element.insertBefore(child, element.getFirstChild()); child = tmp; } else child =
child.getNextSibling(); }`.  The child nodes of the element are `front ++ kept ++ todo`:
`front` are the children moved to the first place so far, `kept` the visited children left in
place, `todo` the children from `child` on.  `R` is the recursive call. -/
def passLoop (R : Node → Node) (test : Node → Bool) :
    List Node → List Node → List Node → List Node
  | front, kept, [] => front ++ kept
  | front, kept, c :: todo =>
    if test (R c) then passLoop R test (R c :: front) kept todo
    else passLoop R test front (kept ++ [R c]) todo

/-- Function `resortStates` with a bound on the depth of the recursion: a node that is no
element is left alone; on an element the three loops run one after the other, each calling
`resortStates` on every child it visits. -/
def resortFuel : Nat → Node → Node
  | 0, n => n
  | _ + 1, Node.other => Node.other
  | f + 1, Node.element tag attrs cs =>
    -- shallow history states to top
    let c1 := passLoop (resortFuel f) (shallowTest attrs) [] [] cs
    -- deep history states to top
    let c2 := passLoop (resortFuel f) (deepTest attrs) [] [] c1
    -- initial states on top of histories even
    let c3 := passLoop (resortFuel f) (isTagged "initial") [] [] c2
    Node.element tag attrs c3

mutual
/-- Number of element levels of a tree: 0 for a node that is no element. -/
def Node.depth : Node → Nat
  | Node.other => 0
  | Node.element _ _ cs => depthList cs + 1
/-- The largest `depth` among the nodes of a list. -/
def depthList : List Node → Nat
  | [] => 0
  | c :: cs => max c.depth (depthList cs)
end

/-- Function `resortStates`: the recursion is as deep as the tree. -/
def resortStates (n : Node) : Node := resortFuel n.depth n

/-- What one loop of `resortStates` makes of a list of children already resorted: the
children that pass the test in the reverse of their order, then the others in their order. -/
def toFront (test : Node → Bool) (l : List Node) : List Node :=
  (l.filter test).reverse ++ l.filter (fun c => !test c)

/-- The three loops of `resortStates` on the children of an element with the attributes
`attrs`. -/
def arrange (attrs : List (String × String)) (l : List Node) : List Node :=
  toFront (isTagged "initial") (toFront (deepTest attrs) (toFront (shallowTest attrs) l))

mutual
/-- The tree that `resortStates` computes, by recursion on the tree: every child resorted,
then the children arranged by the three loops. -/
def hoistRev : Node → Node
  | Node.other => Node.other
  | Node.element tag attrs cs => Node.element tag attrs (arrange attrs (hoistRevList cs))
/-- The function `hoistRev` on every node of a list. -/
def hoistRevList : List Node → List Node
  | [] => []
  | c :: cs => hoistRev c :: hoistRevList cs
end

/-- Whether the history children of an element with the attributes `attrs` are moved by the
first or the second loop: the element has no attribute `type`, or its `type` is `shallow` or
`deep`. -/
def hoistsHistories (attrs : List (String × String)) : Bool :=
  !(attrs.lookup "type").isSome || iequals ((attrs.lookup "type").getD "") "shallow" ||
    iequals ((attrs.lookup "type").getD "") "deep"

mutual
/-- Whether no element of the tree has two `initial` children or two `history` children. -/
def singleHoists : Node → Bool
  | Node.other => true
  | Node.element _ _ cs =>
    decide ((cs.filter (isTagged "initial")).length ≤ 1) &&
      decide ((cs.filter (isTagged "history")).length ≤ 1) && singleHoistsList cs
/-- The test `singleHoists` on every node of a list. -/
def singleHoistsList : List Node → Bool
  | [] => true
  | c :: cs => singleHoists c && singleHoistsList cs
end

/-- Chart `<scxml> <state id="S"> <state id="A"/> <history id="H1" type="deep"/> <state
id="B"/> <history id="H2"/> <initial/> </state> </scxml>`. -/
def lateHistoriesChart : Node :=
  Node.element "scxml" [] [
    Node.element "state" [("id", "S")] [
      stateElem "A" [],
      Node.element "history" [("id", "H1"), ("type", "deep")] [],
      stateElem "B" [],
      Node.element "history" [("id", "H2")] [],
      Node.element "initial" [] []]]

mutual
/-- The attributes `id` of the elements of a tree in document order (empty for an element
without one). -/
def idsOf : Node → List String
  | Node.other => []
  | Node.element _ attrs cs => (attrs.lookup "id").getD "" :: idsOfList cs
/-- The walk `idsOf` over the nodes of a list. -/
def idsOfList : List Node → List String
  | [] => []
  | c :: cs => idsOf c ++ idsOfList cs
end

/-- The test under which either the first or the second loop of `resortStates` moves the
child `c` of an element with the attributes `attrs`. -/
def historyTest (attrs : List (String × String)) (c : Node) : Bool :=
  isTagged "history" c && hoistsHistories attrs

/-! ## Nested machines (`ChartToC::ChartToC`, `findNestedMachines`, `writeMachineInfo`)

A `ChartToC` object is known by its position in the list of all objects allocated, oldest
first.  Of a document only its content hash and its `invoke` elements matter here. -/

/-- An `invoke` element outside the embedded documents, with its attribute `type`: `bare`
when it has no `src` and no `<content>` with an `<scxml>` child, else `document` with the
content hash and the `invoke` elements of the document that `Interpreter::fromURL` or
`Interpreter::fromDOM` yields for it. -/
inductive Invoke where
  | bare (type : Option String) : Invoke
  | document (type : Option String) (md5 : String) (invokes : List Invoke) : Invoke

/-- The members of a `ChartToC` object that the linking of machines reads and writes;
`md5sum` holds the attribute `md5sum` set on the `invoke` elements of its document, by
position. -/
structure Machine where
  _md5 : String
  _topMostMachine : Option Nat
  _parentMachine : Option Nat
  _nestedMachines : List Nat
  _allMachines : List Nat
  md5sum : List (Nat × String)

/-- The object at the end of the member initialisers and the first lines of the constructor:
`_topMostMachine(NULL), _parentMachine(NULL)`, `_md5 = md5(ss.str())`,
`_allMachines.push_back(this)`. -/
def Machine.fresh (md5 : String) (this : Nat) : Machine :=
  { _md5 := md5, _topMostMachine := none, _parentMachine := none, _nestedMachines := [],
    _allMachines := [this], md5sum := [] }

/-- The object `i` of the heap; an absent object reads as a fresh one without hash. -/
def objectAt (heap : List Machine) (i : Nat) : Machine := heap.getD i (Machine.fresh "" i)

/-- A write to the members of object `i`. -/
def writeObject (heap : List Machine) (i : Nat) (f : Machine → Machine) : List Machine :=
  heap.modify f i

/-- The test `HAS_ATTR(invoke, "type") && ATTR(invoke, "type") != "scxml" &&
ATTR(invoke, "type") != "http://www.w3.org/TR/scxml/"` under which the loop of
`findNestedMachines` skips the element. -/
def foreignType (type : Option String) : Bool :=
  type.isSome && type.getD "" != "scxml" && type.getD "" != "http://www.w3.org/TR/scxml/"

/-- The block `if (c2c != NULL) { ... }` of `findNestedMachines` in object `this`, for the
invoke at position `i` and the new object `c2c`:
`invoke.setAttribute("md5sum", c2c->_md5);
 ChartToC* topMostMachine = (_topMostMachine == NULL ? this : _topMostMachine);
 c2c->_topMostMachine = topMostMachine; c2c->_parentMachine = this;
 _nestedMachines.push_back(c2c); topMostMachine->_allMachines.push_back(c2c);`. -/
def linkNested (this i c2c : Nat) (heap : List Machine) : List Machine :=
  let h1 := writeObject heap this
    (fun m => { m with md5sum := m.md5sum ++ [(i, (objectAt heap c2c)._md5)] })
  let topMostMachine :=
    match (objectAt h1 this)._topMostMachine with
    | none => this
    | some t => t
  let h2 := writeObject h1 c2c
    (fun m => { m with _topMostMachine := some topMostMachine, _parentMachine := some this })
  let h3 := writeObject h2 this (fun m => { m with _nestedMachines := m._nestedMachines ++ [c2c] })
  writeObject h3 topMostMachine (fun m => { m with _allMachines := m._allMachines ++ [c2c] })

mutual
/-- The expression `new ChartToC(...)` for the document of an `invoke` element: the object is
allocated at the end of the heap and its constructor runs to its end, `findNestedMachines`
included. -/
def newChartToC : Invoke → List Machine → List Machine
  | Invoke.bare _, heap => heap
  | Invoke.document _ md5 invokes, heap =>
    findNestedLoop heap.length invokes 0 (heap ++ [Machine.fresh md5 heap.length])
/-- The loop of `findNestedMachines` in object `this` over the `invoke` elements from
position `i` on. -/
def findNestedLoop (this : Nat) : List Invoke → Nat → List Machine → List Machine
  | [], _, heap => heap
  | Invoke.bare _ :: rest, i, heap => findNestedLoop this rest (i + 1) heap
  | Invoke.document type md5 invokes :: rest, i, heap =>
    if foreignType type then findNestedLoop this rest (i + 1) heap
    else
      findNestedLoop this rest (i + 1)
        (linkNested this i heap.length
          (newChartToC (Invoke.document type md5 invokes) heap))
end

/-- The heap after `new ChartToC(...)` for a top-level document with the content hash `md5`
and the given `invoke` elements: the top-level object is object 0. -/
def compileChart (md5 : String) (invokes : List Invoke) : List Machine :=
  newChartToC (Invoke.document none md5 invokes) []

/-- One record of the emitted array `scxml_machines`, as far as the linking goes: the `uuid`
(`none` is `NULL`), the index written for `parent`, and the object the record was written
from. -/
structure MachineRow where
  uuid : Option String
  parent : Option Nat
  source : Option Nat
  deriving DecidableEq

/-- The closing record `{0, 0, 0, NULL, NULL, NULL, NULL, NULL, NULL }`. -/
def zeroRow : MachineRow := ⟨none, none, none⟩

/-- The records of `scxml_machines` that `writeMachineInfo` writes in object `this`: nothing
when `_topMostMachine != NULL`, else one record for every object of `_allMachines`, its parent
looked up in `_allMachines`, and the closing record. -/
def writeMachineInfo (heap : List Machine) (this : Nat) : Option (List MachineRow) :=
  if (objectAt heap this)._topMostMachine.isSome then none
  else
    some ((objectAt heap this)._allMachines.map (fun m =>
        { uuid := some (objectAt heap m)._md5,
          parent := (objectAt heap m)._parentMachine.bind (fun p =>
            let k := (objectAt heap this)._allMachines.indexOf p
            if k < (objectAt heap this)._allMachines.length then some k else none),
          source := some m }) ++ [zeroRow])

/-- The field `machine` of the descriptor that `writeElementInfoInvocation` writes in object
`this` for the invoke at position `i`: with the attribute `md5sum`, the index of the first
object of the `_allMachines` of `this` with that `_md5`, as in `&scxml_machines[machIdx]`;
`none` is `NULL`. -/
def machinePointer (heap : List Machine) (this i : Nat) : Option Nat :=
  match (objectAt heap this).md5sum.lookup i with
  | some md5sum =>
    let k := (objectAt heap this)._allMachines.findIdx
      (fun m => (objectAt heap m)._md5 == md5sum)
    if k < (objectAt heap this)._allMachines.length then some k else none
  | none => none

/-- The objects whose tables `writeTo` writes when called on object `this`: `_allMachines`. -/
def writtenMachines (heap : List Machine) (this : Nat) : List Nat :=
  (objectAt heap this)._allMachines

/-- A top-level document (hash `t`) with `<invoke>` of a document (hash `a`) that has an
`<invoke>` of a third document (hash `b`). -/
def chainInvokes : List Invoke :=
  [Invoke.document (some "scxml") "a" [Invoke.document none "b" []]]

/-- What every step of the construction keeps: the top-level object exists and its
`_topMostMachine` is `NULL`. -/
def TopMost (heap : List Machine) : Prop :=
  1 ≤ heap.length ∧ (objectAt heap 0)._topMostMachine = none

/-- A `history` element of the kind that the comment of `resortStates` lists as "deep
histories": its own attribute `type` is `deep`. -/
def deepHistory : Node → Bool
  | Node.element tag attrs _ =>
    tag == "history" &&
      ((attrs.lookup "type").isSome && iequals ((attrs.lookup "type").getD "") "deep")
  | Node.other => false

/-- A `history` element of the kind that the comment of `resortStates` lists as "shallow
histories": it has no attribute `type`, or its `type` is `shallow`. -/
def shallowHistory : Node → Bool
  | Node.element tag attrs _ =>
    tag == "history" &&
      (!(attrs.lookup "type").isSome || iequals ((attrs.lookup "type").getD "") "shallow")
  | Node.other => false


/-- The tables of the chart `<scxml initial="S8"> <state id="S1"/> ... <state id="S7"/>
<state id="S8"> <final id="F"> <donedata> <content>x</content> </donedata> </final> </state>
</scxml>`: those of `nestedFinalMachine` with a donedata record for F (state 9) before the
zeroed end record. -/
def nestedDonedataMachine : scxml_machine (List Nat) :=
  { nestedFinalMachine with
    donedata := [⟨9, some "x", none, none⟩, ⟨0, none, none, none⟩] }

/-! ### Byte-level and bit-level facts about the helpers -/

theorem BIT_HAS_eq_testBit (idx : Nat) (bs : Bitset) :
    BIT_HAS idx bs = (bs (idx / 8)).testBit (idx % 8) := by
  have h3 : idx >>> 3 = idx / 8 := by rw [Nat.shiftRight_eq_div_pow]
  have h7 : idx &&& 7 = idx % 8 := by
    have := Nat.and_pow_two_sub_one_eq_mod idx 3
    simpa using this
  unfold BIT_HAS
  rw [h3, h7, Nat.one_shiftLeft]
  cases hb : (bs (idx / 8)).testBit (idx % 8)
  · have : bs (idx / 8) &&& 2 ^ (idx % 8) = 0 := by
      apply Nat.eq_of_testBit_eq
      intro j
      rw [Nat.testBit_and, Nat.testBit_two_pow, Nat.zero_testBit]
      by_cases hj : idx % 8 = j
      · subst hj; simp [hb]
      · simp [hj]
    simp [this]
  · have : bs (idx / 8) &&& 2 ^ (idx % 8) ≠ 0 := by
      intro h0
      have := congrArg (fun x => Nat.testBit x (idx % 8)) h0
      simp [Nat.testBit_and, Nat.testBit_two_pow, hb] at this
    simpa using this

theorem BIT_HAS_iff (idx : Nat) (bs : Bitset) :
    BIT_HAS idx bs = true ↔ (bs (idx / 8)).testBit (idx % 8) = true := by
  rw [BIT_HAS_eq_testBit]

theorem idx_shift (idx : Nat) : idx >>> 3 = idx / 8 := by
  rw [Nat.shiftRight_eq_div_pow]

theorem idx_mask (idx : Nat) : idx &&& 7 = idx % 8 := by
  have := Nat.and_pow_two_sub_one_eq_mod idx 3
  simpa using this

theorem idx_eq_of_div_mod {i j : Nat} (h1 : i / 8 = j / 8) (h2 : i % 8 = j % 8) : i = j := by
  omega

theorem bit_or_apply (dest mask : Bitset) (n j : Nat) :
    bit_or dest mask n j = if j < n then dest j ||| mask j else dest j := by
  induction n generalizing dest with
  | zero => simp [bit_or]
  | succ n ih =>
    rw [bit_or, ih]
    by_cases h : j < n
    · have h1 : j ≠ n := by omega
      have h2 : j < n + 1 := by omega
      simp [h, h2, Function.update_noteq h1]
    · by_cases h2 : j = n
      · subst h2; simp
      · have h3 : ¬ j < n + 1 := by omega
        simp [h, h3, Function.update_noteq h2]

theorem bit_and_apply (dest mask : Bitset) (n j : Nat) :
    bit_and dest mask n j = if j < n then dest j &&& mask j else dest j := by
  induction n generalizing dest with
  | zero => simp [bit_and]
  | succ n ih =>
    rw [bit_and, ih]
    by_cases h : j < n
    · have h1 : j ≠ n := by omega
      have h2 : j < n + 1 := by omega
      simp [h, h2, Function.update_noteq h1]
    · by_cases h2 : j = n
      · subst h2; simp
      · have h3 : ¬ j < n + 1 := by omega
        simp [h, h3, Function.update_noteq h2]

theorem bit_and_not_apply (dest mask : Bitset) (n j : Nat) :
    bit_and_not dest mask n j = if j < n then dest j &&& (mask j ^^^ 0xFF) else dest j := by
  induction n generalizing dest with
  | zero => simp [bit_and_not]
  | succ n ih =>
    rw [bit_and_not, ih]
    by_cases h : j < n
    · have h1 : j ≠ n := by omega
      have h2 : j < n + 1 := by omega
      simp [h, h2, Function.update_noteq h1]
    · by_cases h2 : j = n
      · subst h2; simp
      · have h3 : ¬ j < n + 1 := by omega
        simp [h, h3, Function.update_noteq h2]

theorem bit_copy_apply (dest source : Bitset) (n j : Nat) :
    bit_copy dest source n j = if j < n then source j else dest j := by
  induction n generalizing dest with
  | zero => simp [bit_copy]
  | succ n ih =>
    rw [bit_copy, ih]
    by_cases h : j < n
    · have h2 : j < n + 1 := by omega
      simp [h, h2]
    · by_cases h2 : j = n
      · subst h2; simp
      · have h3 : ¬ j < n + 1 := by omega
        simp [h, h3, Function.update_noteq h2]

theorem bit_clear_all_apply (a : Bitset) (n j : Nat) :
    bit_clear_all a n j = if j < n then 0 else a j := by
  induction n generalizing a with
  | zero => simp [bit_clear_all]
  | succ n ih =>
    rw [bit_clear_all, ih]
    by_cases h : j < n
    · have h2 : j < n + 1 := by omega
      simp [h, h2]
    · by_cases h2 : j = n
      · subst h2; simp
      · have h3 : ¬ j < n + 1 := by omega
        simp [h, h3, Function.update_noteq h2]

theorem testBit_xor_FF (m k : Nat) (hk : k < 8) : (m ^^^ 0xFF).testBit k = !m.testBit k := by
  have h : Nat.testBit 0xFF k = true := by
    interval_cases k <;> rfl
  rw [Nat.testBit_xor, h]
  cases m.testBit k <;> rfl

theorem BIT_HAS_bit_or (d m : Bitset) (n i : Nat) :
    BIT_HAS i (bit_or d m n) = if i / 8 < n then (BIT_HAS i d || BIT_HAS i m) else BIT_HAS i d := by
  simp only [BIT_HAS_eq_testBit, bit_or_apply]
  split <;> simp

theorem BIT_HAS_bit_and (d m : Bitset) (n i : Nat) :
    BIT_HAS i (bit_and d m n) = if i / 8 < n then (BIT_HAS i d && BIT_HAS i m) else BIT_HAS i d := by
  simp only [BIT_HAS_eq_testBit, bit_and_apply]
  split <;> simp

theorem BIT_HAS_bit_and_not (d m : Bitset) (n i : Nat) :
    BIT_HAS i (bit_and_not d m n) =
      if i / 8 < n then (BIT_HAS i d && !BIT_HAS i m) else BIT_HAS i d := by
  simp only [BIT_HAS_eq_testBit, bit_and_not_apply]
  split
  · rw [Nat.testBit_and, testBit_xor_FF _ _ (Nat.mod_lt _ (by decide))]
  · rfl

theorem BIT_HAS_bit_copy (d s : Bitset) (n i : Nat) :
    BIT_HAS i (bit_copy d s n) = if i / 8 < n then BIT_HAS i s else BIT_HAS i d := by
  simp only [BIT_HAS_eq_testBit, bit_copy_apply]
  split <;> simp

theorem BIT_HAS_bit_clear_all (a : Bitset) (n i : Nat) :
    BIT_HAS i (bit_clear_all a n) = if i / 8 < n then false else BIT_HAS i a := by
  simp only [BIT_HAS_eq_testBit, bit_clear_all_apply]
  split <;> simp

theorem BIT_HAS_BIT_SET_AT (i j : Nat) (bs : Bitset) :
    BIT_HAS i (BIT_SET_AT j bs) = (decide (i = j) || BIT_HAS i bs) := by
  simp only [BIT_HAS_eq_testBit, BIT_SET_AT, idx_shift, idx_mask, Nat.one_shiftLeft]
  by_cases h : i / 8 = j / 8
  · rw [h, Function.update_same, Nat.testBit_or, Nat.testBit_two_pow]
    by_cases h2 : j % 8 = i % 8
    · have : i = j := idx_eq_of_div_mod h h2.symm
      simp [h2, this]
    · have : i ≠ j := fun e => h2 (by rw [e])
      simp [h2, this, Bool.or_comm]
  · have : i ≠ j := fun e => h (by rw [e])
    rw [Function.update_noteq h]
    simp [this]

theorem BIT_HAS_BIT_CLEAR (i j : Nat) (bs : Bitset) :
    BIT_HAS i (BIT_CLEAR j bs) = (!decide (i = j) && BIT_HAS i bs) := by
  simp only [BIT_HAS_eq_testBit, BIT_CLEAR, idx_shift, idx_mask, Nat.one_shiftLeft]
  by_cases h : i / 8 = j / 8
  · rw [h, Function.update_same, Nat.testBit_and,
      testBit_xor_FF _ _ (Nat.mod_lt _ (by decide)), Nat.testBit_two_pow]
    by_cases h2 : j % 8 = i % 8
    · have : i = j := idx_eq_of_div_mod h h2.symm
      simp [h2, this]
    · have : i ≠ j := fun e => h2 (by rw [e])
      simp [h2, this, Bool.and_comm]
  · have : i ≠ j := fun e => h (by rw [e])
    rw [Function.update_noteq h]
    simp [this]

theorem byte_ne_zero_iff (x : Nat) : x % 256 ≠ 0 ↔ ∃ k, k < 8 ∧ x.testBit k = true := by
  constructor
  · intro h
    obtain ⟨k, hk⟩ := Nat.ne_zero_implies_bit_true h
    have h256 : (256 : Nat) = 2 ^ 8 := by norm_num
    rw [h256, Nat.testBit_mod_two_pow] at hk
    simp at hk
    exact ⟨k, hk.1, hk.2⟩
  · rintro ⟨k, hk, hb⟩ h0
    have h256 : (256 : Nat) = 2 ^ 8 := by norm_num
    have := congrArg (fun y => Nat.testBit y k) h0
    simp only [h256, Nat.testBit_mod_two_pow, Nat.zero_testBit] at this
    simp [hk, hb] at this

theorem bit_has_and_iff (a b : Bitset) (n : Nat) :
    bit_has_and a b n = true ↔
      ∃ i, i / 8 < n ∧ BIT_HAS i a = true ∧ BIT_HAS i b = true := by
  induction n with
  | zero => simp [bit_has_and]
  | succ n ih =>
    rw [bit_has_and]
    by_cases h : (a n &&& b n) % 256 ≠ 0
    · have hb : ((a n &&& b n) % 256 != 0) = true := by simpa using h
      rw [hb]
      simp only [if_true, true_iff]
      obtain ⟨k, hk, ht⟩ := (byte_ne_zero_iff _).1 h
      rw [Nat.testBit_and] at ht
      have h1 : (8 * n + k) / 8 = n := by omega
      have h2 : (8 * n + k) % 8 = k := by omega
      refine ⟨8 * n + k, by omega, ?_, ?_⟩
      · rw [BIT_HAS_iff, h1, h2]; simp at ht; exact ht.1
      · rw [BIT_HAS_iff, h1, h2]; simp at ht; exact ht.2
    · have hb : ((a n &&& b n) % 256 != 0) = false := by simpa using h
      rw [hb]
      simp only [Bool.false_eq_true, if_false]
      rw [ih]
      constructor
      · rintro ⟨i, hi, h1, h2⟩
        exact ⟨i, by omega, h1, h2⟩
      · rintro ⟨i, hi, h1, h2⟩
        by_cases hin : i / 8 = n
        · exfalso
          apply h
          rw [byte_ne_zero_iff]
          refine ⟨i % 8, Nat.mod_lt _ (by decide), ?_⟩
          rw [BIT_HAS_iff, hin] at h1 h2
          rw [Nat.testBit_and, h1, h2]; rfl
        · exact ⟨i, by omega, h1, h2⟩

/-! ## Properties of `scxml_step` -/

section StepTheorems
variable {H : Type}

theorem nr_states_bytes_eq (m : scxml_machine H) : nr_states_bytes m = (m.nr_states + 7) / 8 := by
  unfold nr_states_bytes
  rw [Nat.shiftRight_eq_div_pow]
  omega

theorem nr_trans_bytes_eq (m : scxml_machine H) :
    nr_trans_bytes m = (m.nr_transitions + 7) / 8 := by
  unfold nr_trans_bytes
  rw [Nat.shiftRight_eq_div_pow]
  omega

theorem state_byte_lt (m : scxml_machine H) {i : Nat} (hi : i < m.nr_states) :
    i / 8 < nr_states_bytes m := by
  rw [nr_states_bytes_eq]; omega

theorem trans_byte_lt (m : scxml_machine H) {i : Nat} (hi : i < m.nr_transitions) :
    i / 8 < nr_trans_bytes m := by
  rw [nr_trans_bytes_eq]; omega

theorem scxml_step_final (m : scxml_machine H) (cb : scxml_callbacks H)
    (stack : Locals) (ctx : scxml_ctx) (h : H)
    (hfinal : ctx.flags &&& SCXML_CTX_TOP_LEVEL_FINAL ≠ 0) :
    scxml_step m cb stack ctx h = ⟨SCXML_ERR_DONE, Frame.start stack ctx h⟩ := by
  have hb : (ctx.flags &&& SCXML_CTX_TOP_LEVEL_FINAL != 0) = true := by simpa using hfinal
  unfold scxml_step
  rw [if_pos hb]

/-- C1: on a context whose flags have `SCXML_CTX_TOP_LEVEL_FINAL` set, `scxml_step` returns
`SCXML_ERR_DONE` (2), makes no call through any function pointer (the call log stays empty and
the host state is untouched) and leaves the whole context (flags, config, history,
invocations, initialized_data) unchanged. -/
theorem scxml_step_top_level_final (m : scxml_machine H) (cb : scxml_callbacks H)
    (stack : Locals) (ctx : scxml_ctx) (h : H)
    (hfinal : ctx.flags &&& SCXML_CTX_TOP_LEVEL_FINAL ≠ 0) :
    (scxml_step m cb stack ctx h).err = SCXML_ERR_DONE ∧
    SCXML_ERR_DONE = 2 ∧
    (scxml_step m cb stack ctx h).frame.log = [] ∧
    (scxml_step m cb stack ctx h).frame.host = h ∧
    (scxml_step m cb stack ctx h).frame.ctx = ctx ∧
    (scxml_step m cb stack ctx h).frame.ctx.config = ctx.config ∧
    (scxml_step m cb stack ctx h).frame.ctx.history = ctx.history ∧
    (scxml_step m cb stack ctx h).frame.ctx.invocations = ctx.invocations ∧
    (scxml_step m cb stack ctx h).frame.ctx.initialized_data = ctx.initialized_data ∧
    (scxml_step m cb stack ctx h).frame.ctx.flags = ctx.flags := by
  rw [scxml_step_final m cb stack ctx h hfinal]
  exact ⟨rfl, rfl, rfl, rfl, rfl, rfl, rfl, rfl, rfl, rfl⟩

/-- Instance of C1: the two-state machine in the context with flags `INITIALIZED |
TOP_LEVEL_FINAL`, a host that would enable every transition, and dirty scratch arrays. -/
theorem scxml_step_top_level_final_witness :
    (ctxOf 6 5).flags &&& SCXML_CTX_TOP_LEVEL_FINAL ≠ 0 ∧
    (scxml_step twoStateMachine (listHost true [7]) junkStack (ctxOf 6 5) []).err = 2 ∧
    (scxml_step twoStateMachine (listHost true [7]) junkStack (ctxOf 6 5) []).frame.log = [] :=
  have hf : (ctxOf 6 5).flags &&& SCXML_CTX_TOP_LEVEL_FINAL ≠ 0 := by decide
  have h := scxml_step_top_level_final twoStateMachine (listHost true [7]) junkStack
    (ctxOf 6 5) [] hf
  ⟨hf, h.1.trans h.2.1, h.2.2.1⟩

end StepTheorems

section SelectLemmas
variable {H : Type}

theorem upTo_succ (n : Nat) : upTo (n + 1) = upTo n ++ [n] := by
  simp [upTo, List.range_succ]

theorem select_scan_zero (m : scxml_machine H) (cb : scxml_callbacks H) (f : Frame H) :
    select_scan m cb 0 f =
      { f with conflicts := bit_clear_all f.conflicts (nr_trans_bytes m),
               exit_set := bit_clear_all f.exit_set (nr_states_bytes m) } := by
  simp [select_scan, upTo]

theorem select_scan_succ (m : scxml_machine H) (cb : scxml_callbacks H) (n : Nat)
    (f : Frame H) :
    select_scan m cb (n + 1) f = select_body m cb n (select_scan m cb n f) := by
  simp [select_scan, upTo_succ, List.foldl_append]

theorem select_body_eq (m : scxml_machine H) (cb : scxml_callbacks H) (i : Nat) (f : Frame H) :
    select_body m cb i f =
      if select_takes m cb i f then
        { f with
          host := (cb.is_enabled f.ctx i f.ctx.event f.host).2,
          log := f.log ++ [Call.is_enabled i],
          ctx := { f.ctx with flags := f.ctx.flags ||| SCXML_CTX_TRANSITION_FOUND },
          conflicts := bit_or f.conflicts (m.transitions i).conflicts (nr_trans_bytes m),
          target_set := bit_or f.target_set (m.transitions i).target (nr_states_bytes m),
          exit_set := bit_or f.exit_set (m.transitions i).exit_set (nr_states_bytes m),
          trans_set := BIT_SET_AT i f.trans_set }
      else if !isPseudoTrans m i && BIT_HAS (m.transitions i).source f.ctx.config &&
          !BIT_HAS i f.conflicts then
        { f with host := (cb.is_enabled f.ctx i f.ctx.event f.host).2,
                 log := f.log ++ [Call.is_enabled i] }
      else f := by
  unfold select_body select_takes isPseudoTrans
  by_cases h1 : ((m.transitions i).type &&& (SCXML_TRANS_HISTORY ||| SCXML_TRANS_INITIAL) != 0)
      = true
  · simp [h1]
  · by_cases h2 : BIT_HAS (m.transitions i).source f.ctx.config = true
    · by_cases h3 : BIT_HAS i f.conflicts = true
      · simp [h1, h2, h3]
      · by_cases h4 : (cb.is_enabled f.ctx i f.ctx.event f.host).1 > 0
        · simp [h1, h2, h3, h4]
        · simp [h1, h2, h3, h4]
    · simp [h1, h2]

end SelectLemmas

section ScanLemmas
variable {H : Type}

theorem select_body_config (m : scxml_machine H) (cb : scxml_callbacks H) (i : Nat)
    (f : Frame H) :
    (select_body m cb i f).ctx.config = f.ctx.config ∧
    (select_body m cb i f).ctx.event = f.ctx.event ∧
    (select_body m cb i f).ctx.history = f.ctx.history ∧
    (select_body m cb i f).ctx.invocations = f.ctx.invocations ∧
    (select_body m cb i f).ctx.initialized_data = f.ctx.initialized_data ∧
    (select_body m cb i f).entry_set = f.entry_set ∧
    (select_body m cb i f).tmp_states = f.tmp_states := by
  rw [select_body_eq]
  split
  · exact ⟨rfl, rfl, rfl, rfl, rfl, rfl, rfl⟩
  · split <;> exact ⟨rfl, rfl, rfl, rfl, rfl, rfl, rfl⟩

theorem select_scan_config (m : scxml_machine H) (cb : scxml_callbacks H) (n : Nat)
    (f : Frame H) :
    (select_scan m cb n f).ctx.config = f.ctx.config ∧
    (select_scan m cb n f).ctx.event = f.ctx.event ∧
    (select_scan m cb n f).ctx.history = f.ctx.history ∧
    (select_scan m cb n f).ctx.invocations = f.ctx.invocations ∧
    (select_scan m cb n f).ctx.initialized_data = f.ctx.initialized_data ∧
    (select_scan m cb n f).entry_set = f.entry_set ∧
    (select_scan m cb n f).tmp_states = f.tmp_states := by
  induction n with
  | zero => rw [select_scan_zero]; exact ⟨rfl, rfl, rfl, rfl, rfl, rfl, rfl⟩
  | succ n ih =>
    rw [select_scan_succ]
    have hb := select_body_config m cb n (select_scan m cb n f)
    obtain ⟨h1, h2, h3, h4, h5, h6, h7⟩ := hb
    obtain ⟨i1, i2, i3, i4, i5, i6, i7⟩ := ih
    exact ⟨h1.trans i1, h2.trans i2, h3.trans i3, h4.trans i4, h5.trans i5, h6.trans i6,
      h7.trans i7⟩

theorem select_body_trans_set (m : scxml_machine H) (cb : scxml_callbacks H) (i t : Nat)
    (f : Frame H) :
    BIT_HAS t (select_body m cb i f).trans_set =
      ((decide (t = i) && select_takes m cb i f) || BIT_HAS t f.trans_set) := by
  rw [select_body_eq]
  by_cases h : select_takes m cb i f = true
  · rw [if_pos h]
    simp only [h, Bool.and_true]
    exact BIT_HAS_BIT_SET_AT t i f.trans_set
  · rw [if_neg h]
    have h' : select_takes m cb i f = false := by simpa using h
    split <;> simp [h']

theorem select_scan_trans_set_ge (m : scxml_machine H) (cb : scxml_callbacks H) (n t : Nat)
    (f : Frame H) (ht : n ≤ t) :
    BIT_HAS t (select_scan m cb n f).trans_set = BIT_HAS t f.trans_set := by
  induction n with
  | zero => rw [select_scan_zero]
  | succ n ih =>
    rw [select_scan_succ, select_body_trans_set, ih (by omega)]
    have : t ≠ n := by omega
    simp [this]

theorem select_scan_trans_set_stable (m : scxml_machine H) (cb : scxml_callbacks H)
    (n k t : Nat) (f : Frame H) (ht : t < n) (hk : n ≤ k) :
    BIT_HAS t (select_scan m cb k f).trans_set = BIT_HAS t (select_scan m cb n f).trans_set := by
  induction k with
  | zero => omega
  | succ k ih =>
    by_cases hkn : n = k + 1
    · rw [hkn]
    · rw [select_scan_succ, select_body_trans_set, ih (by omega)]
      have : t ≠ k := by omega
      simp [this]

/-- The bit of `t` in `trans_set` after a scan that went past `t` is the decision taken when
`t` was examined, provided the bit was clear at the start. -/
theorem select_scan_trans_set_lt (m : scxml_machine H) (cb : scxml_callbacks H)
    (n t : Nat) (f : Frame H) (ht : t < n) (h0 : BIT_HAS t f.trans_set = false) :
    BIT_HAS t (select_scan m cb n f).trans_set = select_takes m cb t (select_scan m cb t f) := by
  rw [select_scan_trans_set_stable m cb (t + 1) n t f (by omega) (by omega), select_scan_succ,
    select_body_trans_set, select_scan_trans_set_ge m cb t t f (le_refl t), h0]
  simp

theorem select_scan_conflicts (m : scxml_machine H) (cb : scxml_callbacks H) (n k : Nat)
    (f : Frame H) (hk : k / 8 < nr_trans_bytes m) :
    BIT_HAS k (select_scan m cb n f).conflicts = true ↔
      ∃ u, u < n ∧ select_takes m cb u (select_scan m cb u f) = true ∧
        BIT_HAS k (m.transitions u).conflicts = true := by
  induction n with
  | zero =>
    rw [select_scan_zero]
    simp [BIT_HAS_bit_clear_all, hk]
  | succ n ih =>
    rw [select_scan_succ, select_body_eq]
    by_cases h : select_takes m cb n (select_scan m cb n f) = true
    · rw [if_pos h]
      simp only [BIT_HAS_bit_or, hk, if_true, Bool.or_eq_true, ih]
      constructor
      · rintro (⟨u, hu, h1, h2⟩ | h2)
        · exact ⟨u, by omega, h1, h2⟩
        · exact ⟨n, by omega, h, h2⟩
      · rintro ⟨u, hu, h1, h2⟩
        by_cases hun : u = n
        · subst hun; exact Or.inr h2
        · exact Or.inl ⟨u, by omega, h1, h2⟩
    · rw [if_neg h]
      have hc : BIT_HAS k (if (!isPseudoTrans m n &&
            BIT_HAS (m.transitions n).source (select_scan m cb n f).ctx.config &&
            !BIT_HAS n (select_scan m cb n f).conflicts) = true then
          { select_scan m cb n f with
            host := (cb.is_enabled (select_scan m cb n f).ctx n
              (select_scan m cb n f).ctx.event (select_scan m cb n f).host).2,
            log := (select_scan m cb n f).log ++ [Call.is_enabled n] }
          else select_scan m cb n f).conflicts = BIT_HAS k (select_scan m cb n f).conflicts := by
        split <;> rfl
      rw [hc, ih]
      constructor
      · rintro ⟨u, hu, h1, h2⟩
        exact ⟨u, by omega, h1, h2⟩
      · rintro ⟨u, hu, h1, h2⟩
        by_cases hun : u = n
        · subst hun; exact absurd h1 h
        · exact ⟨u, by omega, h1, h2⟩

end ScanLemmas

section ScanLemmas2
variable {H : Type}

theorem select_body_sets (m : scxml_machine H) (cb : scxml_callbacks H) (i : Nat)
    (f : Frame H) :
    (select_body m cb i f).conflicts =
      (if select_takes m cb i f then
        bit_or f.conflicts (m.transitions i).conflicts (nr_trans_bytes m) else f.conflicts) ∧
    (select_body m cb i f).exit_set =
      (if select_takes m cb i f then
        bit_or f.exit_set (m.transitions i).exit_set (nr_states_bytes m) else f.exit_set) ∧
    (select_body m cb i f).target_set =
      (if select_takes m cb i f then
        bit_or f.target_set (m.transitions i).target (nr_states_bytes m) else f.target_set) ∧
    (select_body m cb i f).ctx.flags =
      (if select_takes m cb i f then f.ctx.flags ||| SCXML_CTX_TRANSITION_FOUND
        else f.ctx.flags) := by
  rw [select_body_eq]
  by_cases h : select_takes m cb i f = true
  · simp only [h, if_true, and_self]
  · have h' : select_takes m cb i f = false := by simpa using h
    simp only [h', Bool.false_eq_true, if_false]
    split <;> exact ⟨rfl, rfl, rfl, rfl⟩

theorem select_scan_exit_set (m : scxml_machine H) (cb : scxml_callbacks H) (n k : Nat)
    (f : Frame H) (hk : k / 8 < nr_states_bytes m) :
    BIT_HAS k (select_scan m cb n f).exit_set = true ↔
      ∃ u, u < n ∧ select_takes m cb u (select_scan m cb u f) = true ∧
        BIT_HAS k (m.transitions u).exit_set = true := by
  induction n with
  | zero =>
    rw [select_scan_zero]
    simp [BIT_HAS_bit_clear_all, hk]
  | succ n ih =>
    rw [select_scan_succ, (select_body_sets m cb n _).2.1]
    by_cases h : select_takes m cb n (select_scan m cb n f) = true
    · rw [if_pos h]
      simp only [BIT_HAS_bit_or, hk, if_true, Bool.or_eq_true, ih]
      constructor
      · rintro (⟨u, hu, h1, h2⟩ | h2)
        · exact ⟨u, by omega, h1, h2⟩
        · exact ⟨n, by omega, h, h2⟩
      · rintro ⟨u, hu, h1, h2⟩
        by_cases hun : u = n
        · subst hun; exact Or.inr h2
        · exact Or.inl ⟨u, by omega, h1, h2⟩
    · rw [if_neg h, ih]
      constructor
      · rintro ⟨u, hu, h1, h2⟩
        exact ⟨u, by omega, h1, h2⟩
      · rintro ⟨u, hu, h1, h2⟩
        by_cases hun : u = n
        · subst hun; exact absurd h1 h
        · exact ⟨u, by omega, h1, h2⟩

theorem select_scan_target_set (m : scxml_machine H) (cb : scxml_callbacks H) (n k : Nat)
    (f : Frame H) (hk : k / 8 < nr_states_bytes m) :
    BIT_HAS k (select_scan m cb n f).target_set = true ↔
      BIT_HAS k f.target_set = true ∨
      ∃ u, u < n ∧ select_takes m cb u (select_scan m cb u f) = true ∧
        BIT_HAS k (m.transitions u).target = true := by
  induction n with
  | zero =>
    rw [select_scan_zero]
    simp
  | succ n ih =>
    rw [select_scan_succ, (select_body_sets m cb n _).2.2.1]
    by_cases h : select_takes m cb n (select_scan m cb n f) = true
    · rw [if_pos h]
      simp only [BIT_HAS_bit_or, hk, if_true, Bool.or_eq_true, ih]
      constructor
      · rintro ((h0 | ⟨u, hu, h1, h2⟩) | h2)
        · exact Or.inl h0
        · exact Or.inr ⟨u, by omega, h1, h2⟩
        · exact Or.inr ⟨n, by omega, h, h2⟩
      · rintro (h0 | ⟨u, hu, h1, h2⟩)
        · exact Or.inl (Or.inl h0)
        · by_cases hun : u = n
          · subst hun; exact Or.inr h2
          · exact Or.inl (Or.inr ⟨u, by omega, h1, h2⟩)
    · rw [if_neg h, ih]
      constructor
      · rintro (h0 | ⟨u, hu, h1, h2⟩)
        · exact Or.inl h0
        · exact Or.inr ⟨u, by omega, h1, h2⟩
      · rintro (h0 | ⟨u, hu, h1, h2⟩)
        · exact Or.inl h0
        · by_cases hun : u = n
          · subst hun; exact absurd h1 h
          · exact Or.inr ⟨u, by omega, h1, h2⟩

theorem or_found_idem (x : Nat) :
    (x ||| SCXML_CTX_TRANSITION_FOUND) ||| SCXML_CTX_TRANSITION_FOUND =
      x ||| SCXML_CTX_TRANSITION_FOUND := by
  rw [Nat.lor_assoc, Nat.or_self]

theorem select_scan_flags_none (m : scxml_machine H) (cb : scxml_callbacks H) (n : Nat)
    (f : Frame H)
    (hn : ∀ u, u < n → select_takes m cb u (select_scan m cb u f) = false) :
    (select_scan m cb n f).ctx.flags = f.ctx.flags := by
  induction n with
  | zero => rw [select_scan_zero]
  | succ n ih =>
    rw [select_scan_succ, (select_body_sets m cb n _).2.2.2, hn n (by omega)]
    simp only [Bool.false_eq_true, if_false]
    exact ih (fun u hu => hn u (by omega))

theorem select_scan_flags_some (m : scxml_machine H) (cb : scxml_callbacks H) (n : Nat)
    (f : Frame H)
    (hn : ∃ u, u < n ∧ select_takes m cb u (select_scan m cb u f) = true) :
    (select_scan m cb n f).ctx.flags = f.ctx.flags ||| SCXML_CTX_TRANSITION_FOUND := by
  induction n with
  | zero => obtain ⟨u, hu, _⟩ := hn; omega
  | succ n ih =>
    rw [select_scan_succ, (select_body_sets m cb n _).2.2.2]
    by_cases h : select_takes m cb n (select_scan m cb n f) = true
    · rw [if_pos h]
      by_cases hp : ∃ u, u < n ∧ select_takes m cb u (select_scan m cb u f) = true
      · rw [ih hp, or_found_idem]
      · have : ∀ u, u < n → select_takes m cb u (select_scan m cb u f) = false := by
          intro u hu
          by_contra hc
          exact hp ⟨u, hu, by simpa using hc⟩
        rw [select_scan_flags_none m cb n f this]
    · rw [if_neg h]
      apply ih
      obtain ⟨u, hu, h1⟩ := hn
      by_cases hun : u = n
      · subst hun; exact absurd h1 h
      · exact ⟨u, by omega, h1⟩

/-- The calls made by the scan are `is_enabled` calls on strictly ascending transition
indices. -/
theorem select_scan_log (m : scxml_machine H) (cb : scxml_callbacks H) (n : Nat)
    (f : Frame H) :
    ∃ l : List Nat, l.Sorted (· < ·) ∧ (∀ u ∈ l, u < n) ∧
      (select_scan m cb n f).log = f.log ++ l.map Call.is_enabled := by
  induction n with
  | zero => exact ⟨[], List.sorted_nil, by simp, by rw [select_scan_zero]; simp⟩
  | succ n ih =>
    obtain ⟨l, hs, hl, hlog⟩ := ih
    have hext : (l ++ [n]).Sorted (· < ·) := by
      rw [List.Sorted, List.pairwise_append]
      refine ⟨hs, List.pairwise_singleton _ _, ?_⟩
      intro a ha b hb
      rw [List.mem_singleton] at hb
      rw [hb]; exact hl a ha
    rw [select_scan_succ, select_body_eq]
    split
    · refine ⟨l ++ [n], hext, ?_, ?_⟩
      · intro u hu
        rcases List.mem_append.1 hu with h | h
        · have := hl u h; omega
        · rw [List.mem_singleton] at h; omega
      · simp [hlog]
    · split
      · refine ⟨l ++ [n], hext, ?_, ?_⟩
        · intro u hu
          rcases List.mem_append.1 hu with h | h
          · have := hl u h; omega
          · rw [List.mem_singleton] at h; omega
        · simp [hlog]
      · exact ⟨l, hs, fun u hu => by have := hl u hu; omega, hlog⟩

end ScanLemmas2

section AcquireLemmas
variable {H : Type}

theorem foldl_preserves {σ α : Type} (R : σ → σ → Prop) (hrefl : ∀ s, R s s)
    (htrans : ∀ a b c, R a b → R b c → R a c) (body : σ → α → σ)
    (hb : ∀ s a, R s (body s a)) (l : List α) (s : σ) : R s (l.foldl body s) := by
  induction l generalizing s with
  | nil => exact hrefl s
  | cons a l ih => exact htrans _ _ _ (hb s a) (ih (body s a))

theorem loop_preserves {σ : Type} (R : σ → σ → Prop) (hrefl : ∀ s, R s s)
    (htrans : ∀ a b c, R a b → R b c → R a c) (body : Nat → σ → Flow σ)
    (hb : ∀ i s, R s (body i s).state) (l : List Nat) (s : σ) :
    R s (loop body l s).state := by
  induction l generalizing s with
  | nil => exact hrefl s
  | cons a l ih =>
    rw [loop]
    have h1 := hb a s
    cases hbody : body a s with
    | next s' =>
      rw [hbody] at h1
      exact htrans _ _ _ h1 (ih s')
    | ret e s' =>
      rw [hbody] at h1
      exact h1

theorem sameButInvocations_refl (f : Frame H) : f.sameButInvocations f :=
  ⟨rfl, rfl, rfl, rfl, rfl, rfl, rfl, rfl, rfl, rfl, rfl, [], by simp, by simp⟩

theorem sameButInvocations_trans (a b c : Frame H) (h1 : a.sameButInvocations b)
    (h2 : b.sameButInvocations c) : a.sameButInvocations c := by
  obtain ⟨fst1, fst2, fst3, fst4, fst5, fst6, fst7, fst8, fst9, fst10, fst11, l1, fst12, fst13⟩ := h1
  obtain ⟨snd1, snd2, snd3, snd4, snd5, snd6, snd7, snd8, snd9, snd10, snd11, l2, snd12, snd13⟩ := h2
  refine ⟨snd1.trans fst1, snd2.trans fst2, snd3.trans fst3, snd4.trans fst4, snd5.trans fst5, snd6.trans fst6,
    snd7.trans fst7, snd8.trans fst8, snd9.trans fst9, snd10.trans fst10, snd11.trans fst11, l1 ++ l2, ?_, ?_⟩
  · rw [snd12, fst12, List.append_assoc]
  · intro c hc
    rcases List.mem_append.1 hc with h | h
    · exact fst13 c h
    · exact snd13 c h

theorem sameButInvocations_set (f : Frame H) (inv : Bitset) :
    f.sameButInvocations { f with ctx := { f.ctx with invocations := inv } } :=
  ⟨rfl, rfl, rfl, rfl, rfl, rfl, rfl, rfl, rfl, rfl, rfl, [], by simp, by simp⟩

theorem call_invoke_frame (m : scxml_machine H) (cb : scxml_callbacks H) (i u : Nat)
    (f : Frame H) : f.sameButInvocations (call_invoke m cb i u f) := by
  unfold call_invoke
  split
  · exact ⟨rfl, rfl, rfl, rfl, rfl, rfl, rfl, rfl, rfl, rfl, rfl, [Call.invoke i u], rfl,
      by simp [Call.isAcquire]⟩
  · exact sameButInvocations_refl f

theorem uninvoke_step_frame (m : scxml_machine H) (cb : scxml_callbacks H) (i : Nat)
    (f : Frame H) : f.sameButInvocations (uninvoke_step m cb i f) := by
  unfold uninvoke_step
  split
  · exact sameButInvocations_trans _ _ _ (call_invoke_frame m cb i 1 f)
      (sameButInvocations_set _ _)
  · exact sameButInvocations_refl f

theorem invoke_step_frame (m : scxml_machine H) (cb : scxml_callbacks H) (i : Nat)
    (f : Frame H) : f.sameButInvocations (invoke_step m cb i f) := by
  unfold invoke_step
  split
  · exact sameButInvocations_trans _ _ _ (call_invoke_frame m cb i 0 f)
      (sameButInvocations_set _ _)
  · exact sameButInvocations_refl f

theorem manage_invocations_body_frame (m : scxml_machine H) (cb : scxml_callbacks H) (i : Nat)
    (f : Frame H) : f.sameButInvocations (manage_invocations_body m cb i f) :=
  sameButInvocations_trans _ _ _ (uninvoke_step_frame m cb i f) (invoke_step_frame m cb i _)

theorem manage_invocations_frame (m : scxml_machine H) (cb : scxml_callbacks H) (f : Frame H) :
    f.sameButInvocations (manage_invocations m cb f) := by
  unfold manage_invocations
  apply foldl_preserves Frame.sameButInvocations sameButInvocations_refl
    sameButInvocations_trans
  intro s a
  exact manage_invocations_body_frame m cb a s

/-- Event acquisition writes only `ctx->event`, `ctx->invocations`, the host state and the
log, to which it appends calls of the two dequeue callbacks and of `invoke` programs. -/
theorem acquire_event_frame (m : scxml_machine H) (cb : scxml_callbacks H) (f : Frame H) :
    (acquire_event m cb f).ctx.flags = f.ctx.flags ∧
    (acquire_event m cb f).ctx.config = f.ctx.config ∧
    (acquire_event m cb f).ctx.history = f.ctx.history ∧
    (acquire_event m cb f).ctx.initialized_data = f.ctx.initialized_data ∧
    (acquire_event m cb f).conflicts = f.conflicts ∧
    (acquire_event m cb f).trans_set = f.trans_set ∧
    (acquire_event m cb f).target_set = f.target_set ∧
    (acquire_event m cb f).exit_set = f.exit_set ∧
    (acquire_event m cb f).entry_set = f.entry_set ∧
    (acquire_event m cb f).tmp_states = f.tmp_states ∧
    ∃ l : List Call, (acquire_event m cb f).log = f.log ++ l ∧
      ∀ c ∈ l, c.isAcquire = true := by
  unfold acquire_event
  split
  · exact ⟨rfl, rfl, rfl, rfl, rfl, rfl, rfl, rfl, rfl, rfl, [], by simp, by simp⟩
  · simp only []
    split
    · exact ⟨rfl, rfl, rfl, rfl, rfl, rfl, rfl, rfl, rfl, rfl, [Call.dequeue_internal], rfl,
        by simp [Call.isAcquire]⟩
    · obtain ⟨a1, a2, a3, a4, _, a6, a7, a8, a9, a10, a11, l, a12, a13⟩ :=
        manage_invocations_frame m cb
          { f with ctx := { f.ctx with event := (cb.dequeue_internal f.ctx f.host).1 },
                   host := (cb.dequeue_internal f.ctx f.host).2,
                   log := f.log ++ [Call.dequeue_internal] }
      refine ⟨a1, a2, a3, a4, a6, a7, a8, a9, a10, a11,
        [Call.dequeue_internal] ++ l ++ [Call.dequeue_external], ?_, ?_⟩
      · show (manage_invocations m cb _).log ++ [Call.dequeue_external] = _
        rw [a12]
        simp
      · intro c hc
        simp only [List.mem_append, List.mem_singleton] at hc
        rcases hc with (hc | hc) | hc
        · rw [hc]; rfl
        · exact a13 c hc
        · rw [hc]; rfl

theorem at_select_frame (m : scxml_machine H) (cb : scxml_callbacks H) (stack : Locals)
    (ctx : scxml_ctx) (h : H) :
    (at_select m cb stack ctx h).ctx.flags = ctx.flags ∧
    (at_select m cb stack ctx h).ctx.config = ctx.config ∧
    (at_select m cb stack ctx h).ctx.history = ctx.history ∧
    (at_select m cb stack ctx h).ctx.initialized_data = ctx.initialized_data ∧
    (at_select m cb stack ctx h).trans_set =
      bit_clear_all stack.trans_set (nr_trans_bytes m) ∧
    (at_select m cb stack ctx h).target_set =
      bit_clear_all stack.target_set (nr_states_bytes m) := by
  obtain ⟨a1, a2, a3, a4, _, a6, a7, _, _, _, _⟩ :=
    acquire_event_frame m cb (clear_sets m (Frame.start stack ctx h))
  exact ⟨a1, a2, a3, a4, a6, a7⟩

theorem at_select_log (m : scxml_machine H) (cb : scxml_callbacks H) (stack : Locals)
    (ctx : scxml_ctx) (h : H) :
    ∀ c ∈ (at_select m cb stack ctx h).log, c.isAcquire = true := by
  obtain ⟨_, _, _, _, _, _, _, _, _, _, l, hl, hc⟩ :=
    acquire_event_frame m cb (clear_sets m (Frame.start stack ctx h))
  unfold at_select
  rw [hl]
  intro c hm
  rcases List.mem_append.1 hm with h1 | h1
  · exact absurd h1 (List.not_mem_nil c)
  · exact hc c h1

theorem at_select_trans_clear (m : scxml_machine H) (cb : scxml_callbacks H) (stack : Locals)
    (ctx : scxml_ctx) (h : H) (t : Nat) (ht : t < m.nr_transitions) :
    BIT_HAS t (at_select m cb stack ctx h).trans_set = false := by
  rw [(at_select_frame m cb stack ctx h).2.2.2.2.1, BIT_HAS_bit_clear_all,
    if_pos (trans_byte_lt m ht)]

theorem flags_ne_pristine {flags : Nat} (hinit : flags &&& SCXML_CTX_INITIALIZED ≠ 0) :
    (flags == SCXML_CTX_PRISTINE) = false := by
  have : flags ≠ 0 := by
    intro h0
    apply hinit
    rw [h0]; rfl
  simpa [SCXML_CTX_PRISTINE] using this

/-- A step on a context that is neither final nor pristine runs event acquisition,
`SELECT_TRANSITIONS`, the flag update, `REMEMBER_HISTORY`, `ESTABLISH_ENTRY_SET` and the three
execution loops. -/
theorem scxml_step_not_pristine (m : scxml_machine H) (cb : scxml_callbacks H) (stack : Locals)
    (ctx : scxml_ctx) (h : H)
    (hnp : (ctx.flags == SCXML_CTX_PRISTINE) = false)
    (hnf : ctx.flags &&& SCXML_CTX_TOP_LEVEL_FINAL = 0) :
    scxml_step m cb stack ctx h =
      exit_take_enter m cb (establish_entry_set m (remember_history m
        (update_flags (selection m cb stack ctx h)))) := by
  have hb : (ctx.flags &&& SCXML_CTX_TOP_LEVEL_FINAL != 0) = false := by simp [hnf]
  unfold scxml_step before_entry_set
  rw [hb]
  simp only [Bool.false_eq_true, if_false]
  have hp : ((Frame.start stack ctx h).ctx.flags == SCXML_CTX_PRISTINE) = false :=
    hnp
  rw [hp]
  rfl

theorem selected_eq (m : scxml_machine H) (cb : scxml_callbacks H) (stack : Locals)
    (ctx : scxml_ctx) (h : H) (hnp : (ctx.flags == SCXML_CTX_PRISTINE) = false) (t : Nat) :
    selected m cb stack ctx h t =
      BIT_HAS t (select_scan m cb m.nr_transitions (at_select m cb stack ctx h)).trans_set := by
  unfold selected
  rw [hnp]
  rfl

theorem selected_eq_takes (m : scxml_machine H) (cb : scxml_callbacks H) (stack : Locals)
    (ctx : scxml_ctx) (h : H) (hnp : (ctx.flags == SCXML_CTX_PRISTINE) = false) (t : Nat)
    (ht : t < m.nr_transitions) :
    selected m cb stack ctx h t = select_takes m cb t (scan_before m cb stack ctx h t) := by
  rw [selected_eq m cb stack ctx h hnp]
  exact select_scan_trans_set_lt m cb m.nr_transitions t _ ht
    (at_select_trans_clear m cb stack ctx h t ht)

end AcquireLemmas

section SelectionTheorem
variable {H : Type}

/-- C2: in a step on an initialized, non-final context the block `SELECT_TRANSITIONS` is run;
its scan examines the transitions in ascending index (each prefix of the scan extends the
previous one by the next index, and the `is_enabled` calls it logs have strictly ascending
transition indices); transition `t` is selected exactly when it has neither the HISTORY nor the
INITIAL flag, its source is in `config`, it is in `conflicts[u]` for no transition `u`
selected earlier in the scan, and the call `is_enabled(ctx, t, event)` made at that point of
the scan returns a value `> 0`; hence no selected transition lies in the conflict set of an
earlier selected one. -/
theorem select_transitions_spec (m : scxml_machine H) (cb : scxml_callbacks H) (stack : Locals)
    (ctx : scxml_ctx) (h : H)
    (hinit : ctx.flags &&& SCXML_CTX_INITIALIZED ≠ 0)
    (hnf : ctx.flags &&& SCXML_CTX_TOP_LEVEL_FINAL = 0) :
    scxml_step m cb stack ctx h =
      exit_take_enter m cb (establish_entry_set m (remember_history m
        (update_flags (selection m cb stack ctx h)))) ∧
    (∀ t, scan_before m cb stack ctx h (t + 1) =
      select_body m cb t (scan_before m cb stack ctx h t)) ∧
    (∃ l : List Nat, l.Sorted (· < ·) ∧ (∀ u ∈ l, u < m.nr_transitions) ∧
      (selection m cb stack ctx h).log =
        (at_select m cb stack ctx h).log ++ l.map Call.is_enabled) ∧
    (∀ t, t < m.nr_transitions →
      (scan_before m cb stack ctx h t).ctx.config = ctx.config ∧
      (selected m cb stack ctx h t = true ↔
        (isPseudoTrans m t = false ∧
         BIT_HAS (m.transitions t).source ctx.config = true ∧
         (∀ u, u < t → selected m cb stack ctx h u = true →
            BIT_HAS t (m.transitions u).conflicts = false) ∧
         (cb.is_enabled (scan_before m cb stack ctx h t).ctx t
            (scan_before m cb stack ctx h t).ctx.event
            (scan_before m cb stack ctx h t).host).1 > 0))) ∧
    (∀ u t, u < t → t < m.nr_transitions → selected m cb stack ctx h u = true →
      selected m cb stack ctx h t = true → BIT_HAS t (m.transitions u).conflicts = false) := by
  have hnp := flags_ne_pristine hinit
  have hcfg : ∀ t, (scan_before m cb stack ctx h t).ctx.config = ctx.config := fun t =>
    (select_scan_config m cb t _).1.trans (at_select_frame m cb stack ctx h).2.1
  have hmain : ∀ t, t < m.nr_transitions →
      (selected m cb stack ctx h t = true ↔
        (isPseudoTrans m t = false ∧
         BIT_HAS (m.transitions t).source ctx.config = true ∧
         (∀ u, u < t → selected m cb stack ctx h u = true →
            BIT_HAS t (m.transitions u).conflicts = false) ∧
         (cb.is_enabled (scan_before m cb stack ctx h t).ctx t
            (scan_before m cb stack ctx h t).ctx.event
            (scan_before m cb stack ctx h t).host).1 > 0)) := by
    intro t ht
    rw [selected_eq_takes m cb stack ctx h hnp t ht]
    have hconf : BIT_HAS t (scan_before m cb stack ctx h t).conflicts = false ↔
        ∀ u, u < t → selected m cb stack ctx h u = true →
          BIT_HAS t (m.transitions u).conflicts = false := by
      have hc := select_scan_conflicts m cb t t (at_select m cb stack ctx h)
        (trans_byte_lt m ht)
      constructor
      · intro h0 u hu hsel
        rw [selected_eq_takes m cb stack ctx h hnp u (by omega)] at hsel
        by_contra hne
        have h1 : BIT_HAS t (m.transitions u).conflicts = true := by simpa using hne
        have := hc.2 ⟨u, hu, hsel, h1⟩
        unfold scan_before at h0
        rw [h0] at this
        exact Bool.false_ne_true this
      · intro hall
        by_contra hne
        have h1 : BIT_HAS t (scan_before m cb stack ctx h t).conflicts = true := by
          simpa using hne
        obtain ⟨u, hu, htk, hb⟩ := hc.1 h1
        have hsel : selected m cb stack ctx h u = true := by
          rw [selected_eq_takes m cb stack ctx h hnp u (by omega)]; exact htk
        rw [hall u hu hsel] at hb
        exact Bool.false_ne_true hb
    unfold select_takes
    rw [hcfg t]
    simp only [Bool.and_eq_true, Bool.not_eq_true', decide_eq_true_eq]
    rw [hconf]
    tauto
  refine ⟨scxml_step_not_pristine m cb stack ctx h hnp hnf, ?_, ?_, ?_, ?_⟩
  · intro t
    exact select_scan_succ m cb t _
  · obtain ⟨l, hs, hl, hlog⟩ := select_scan_log m cb m.nr_transitions (at_select m cb stack ctx h)
    exact ⟨l, hs, hl, hlog⟩
  · intro t ht
    exact ⟨hcfg t, hmain t ht⟩
  · intro u t hut ht hu hsel
    exact ((hmain t ht).1 hsel).2.2.1 u hut hu

/-- Instance of C2: the two-state machine in configuration {root, A} with the event 7 waiting
in the external queue; the only transition is selected because its four conditions hold. -/
theorem select_transitions_spec_witness :
    (ctxOf 2 3).flags &&& SCXML_CTX_INITIALIZED ≠ 0 ∧
    (ctxOf 2 3).flags &&& SCXML_CTX_TOP_LEVEL_FINAL = 0 ∧
    selected twoStateMachine (listHost false [7]) junkStack (ctxOf 2 3) [] 0 = true :=
  have h1 : (ctxOf 2 3).flags &&& SCXML_CTX_INITIALIZED ≠ 0 := by decide
  have h2 : (ctxOf 2 3).flags &&& SCXML_CTX_TOP_LEVEL_FINAL = 0 := by decide
  ⟨h1, h2,
    ((select_transitions_spec twoStateMachine (listHost false [7]) junkStack (ctxOf 2 3) []
      h1 h2).2.2.2.1 0 (by decide)).2.2
      ⟨by decide, by decide, fun u hu => absurd hu (Nat.not_lt_zero u), by decide⟩⟩

end SelectionTheorem

section ExecLemmas
variable {H : Type}

theorem execStep_refl (f : Frame H) : f.execStep f :=
  ⟨rfl, rfl, rfl, rfl, rfl, rfl, rfl, rfl, Or.inl rfl, [], by simp, by simp⟩

theorem execStep_trans (a b c : Frame H) (h1 : a.execStep b) (h2 : b.execStep c) :
    a.execStep c := by
  obtain ⟨fst1, fst2, fst3, fst4, fst5, fst6, fst7, fst8, fst9, l1, fst10, fst11⟩ := h1
  obtain ⟨snd1, snd2, snd3, snd4, snd5, snd6, snd7, snd8, snd9, l2, snd10, snd11⟩ := h2
  refine ⟨snd1.trans fst1, snd2.trans fst2, snd3.trans fst3, snd4.trans fst4, snd5.trans fst5, snd6.trans fst6,
    snd7.trans fst7, snd8.trans fst8, ?_, l1 ++ l2, ?_, ?_⟩
  · rcases fst9 with fst9 | fst9 <;> rcases snd9 with snd9 | snd9
    · exact Or.inl (snd9.trans fst9)
    · exact Or.inr (by rw [snd9, fst9])
    · exact Or.inr (by rw [snd9, fst9])
    · exact Or.inr (by rw [snd9, fst9, Nat.lor_assoc, Nat.or_self])
  · rw [snd10, fst10, List.append_assoc]
  · intro c hc
    rcases List.mem_append.1 hc with h | h
    · exact fst11 c h
    · exact snd11 c h

/-- A frame that differs from `f` only in config, initialized_data, tmp_states, the host state
and one appended call of the execution loops. -/
theorem execStep_call (f : Frame H) (cfg ini tmp : Bitset) (x : H) (c : Call)
    (hc : c.isExec = true) :
    f.execStep { f with ctx := { f.ctx with config := cfg, initialized_data := ini },
                        host := x, log := f.log ++ [c], tmp_states := tmp } :=
  ⟨rfl, rfl, rfl, rfl, rfl, rfl, rfl, rfl, Or.inl rfl, [c], rfl, by simpa using hc⟩

theorem execStep_quiet (f : Frame H) (cfg ini tmp : Bitset) :
    f.execStep { f with ctx := { f.ctx with config := cfg, initialized_data := ini },
                        tmp_states := tmp } :=
  ⟨rfl, rfl, rfl, rfl, rfl, rfl, rfl, rfl, Or.inl rfl, [], by simp, by simp⟩

theorem exit_body_execStep (m : scxml_machine H) (cb : scxml_callbacks H) (i : Nat)
    (f : Frame H) : f.execStep (exit_body m cb i f).state := by
  unfold exit_body
  split
  · split
    · simp only []
      split
      · exact execStep_call f f.ctx.config f.ctx.initialized_data f.tmp_states _ _ rfl
      · exact execStep_call f _ f.ctx.initialized_data f.tmp_states _ _ rfl
    · exact execStep_quiet f _ f.ctx.initialized_data f.tmp_states
  · exact execStep_refl f

theorem take_body_execStep (m : scxml_machine H) (cb : scxml_callbacks H) (i : Nat)
    (f : Frame H) : f.execStep (take_body m cb i f).state := by
  unfold take_body
  split
  · split
    · simp only []
      split
      · exact execStep_call f f.ctx.config f.ctx.initialized_data f.tmp_states _ _ rfl
      · exact execStep_call f f.ctx.config f.ctx.initialized_data f.tmp_states _ _ rfl
    · exact execStep_refl f
  · exact execStep_refl f

theorem enter_trans_body_execStep (m : scxml_machine H) (cb : scxml_callbacks H) (i j : Nat)
    (f : Frame H) : f.execStep (enter_trans_body m cb i j f).state := by
  unfold enter_trans_body
  split
  · split
    · simp only []
      split
      · exact execStep_call f f.ctx.config f.ctx.initialized_data f.tmp_states _ _ rfl
      · exact execStep_call f f.ctx.config f.ctx.initialized_data f.tmp_states _ _ rfl
    · exact execStep_refl f
  · exact execStep_refl f

theorem enter_init_data_execStep (m : scxml_machine H) (cb : scxml_callbacks H) (i : Nat)
    (f : Frame H) : f.execStep (enter_init_data m cb i f) := by
  unfold enter_init_data
  split
  · split
    · exact execStep_call f f.ctx.config _ f.tmp_states _ _ rfl
    · exact execStep_quiet f f.ctx.config _ f.tmp_states
  · exact execStep_refl f

theorem enter_parallel_body_execStep (m : scxml_machine H) (cb : scxml_callbacks H)
    (i j : Nat) (f : Frame H) : f.execStep (enter_parallel_body m cb i j f) := by
  unfold enter_parallel_body
  split
  · simp only []
    split
    · exact execStep_call f f.ctx.config f.ctx.initialized_data _ _ _ rfl
    · exact execStep_quiet f f.ctx.config f.ctx.initialized_data _
  · exact execStep_refl f

theorem enter_final_execStep (m : scxml_machine H) (cb : scxml_callbacks H) (i : Nat)
    (f : Frame H) : f.execStep (enter_final m cb i f) := by
  unfold enter_final
  split
  · apply execStep_trans f _ _ _
      (foldl_preserves Frame.execStep execStep_refl execStep_trans _
        (fun s a => enter_parallel_body_execStep m cb i a s) _ _)
    split
    · exact ⟨rfl, rfl, rfl, rfl, rfl, rfl, rfl, rfl, Or.inr rfl, [], by simp, by simp⟩
    · exact execStep_call f f.ctx.config f.ctx.initialized_data f.tmp_states _ _ rfl
  · exact execStep_refl f

theorem andThen_preserves {σ : Type} (R : σ → σ → Prop)
    (htrans : ∀ a b c, R a b → R b c → R a c) (s : σ) (r : Flow σ) (k : σ → Flow σ)
    (h1 : R s r.state) (h2 : ∀ s', R s' (k s').state) : R s (r.andThen k).state := by
  cases r with
  | next s' => exact htrans _ _ _ h1 (h2 s')
  | ret e s' => exact h1

theorem enter_on_entry_execStep (m : scxml_machine H) (cb : scxml_callbacks H) (i : Nat)
    (f : Frame H) : f.execStep (enter_on_entry m cb i f).state := by
  unfold enter_on_entry
  split
  · simp only []
    split
    · exact execStep_call f f.ctx.config f.ctx.initialized_data f.tmp_states _ _ rfl
    · exact execStep_call f f.ctx.config f.ctx.initialized_data f.tmp_states _ _ rfl
  · exact execStep_refl f

theorem enter_body_execStep (m : scxml_machine H) (cb : scxml_callbacks H) (i : Nat)
    (f : Frame H) : f.execStep (enter_body m cb i f).state := by
  unfold enter_body
  split
  · split
    · exact execStep_refl f
    · apply andThen_preserves Frame.execStep execStep_trans
      · exact execStep_trans _ _ _ (execStep_quiet f _ f.ctx.initialized_data f.tmp_states)
          (execStep_trans _ _ _ (enter_init_data_execStep m cb i _)
            (enter_on_entry_execStep m cb i _))
      · intro f3
        apply andThen_preserves Frame.execStep execStep_trans
        · exact loop_preserves Frame.execStep execStep_refl execStep_trans
            (enter_trans_body m cb i) (fun j s => enter_trans_body_execStep m cb i j s) _ f3
        · intro f4
          exact enter_final_execStep m cb i f4
  · exact execStep_refl f

/-- The three execution loops only make calls of their own kind, leave history, invocations,
event and the scratch sets alone, and change the flags at most by setting
`SCXML_CTX_TOP_LEVEL_FINAL`. -/
theorem exit_take_enter_execStep (m : scxml_machine H) (cb : scxml_callbacks H)
    (f : Frame H) : f.execStep (exit_take_enter m cb f).frame := by
  have h : f.execStep ((exit_states m cb f).andThen fun f1 =>
      (take_transitions m cb f1).andThen fun f2 => enter_states m cb f2).state := by
    apply andThen_preserves Frame.execStep execStep_trans
    · exact loop_preserves Frame.execStep execStep_refl execStep_trans _
        (fun i s => exit_body_execStep m cb i s) _ f
    · intro f1
      apply andThen_preserves Frame.execStep execStep_trans
      · exact loop_preserves Frame.execStep execStep_refl execStep_trans _
          (fun i s => take_body_execStep m cb i s) _ f1
      · intro f2
        exact loop_preserves Frame.execStep execStep_refl execStep_trans _
          (fun i s => enter_body_execStep m cb i s) _ f2
  unfold exit_take_enter
  cases hr : ((exit_states m cb f).andThen fun f1 =>
      (take_transitions m cb f1).andThen fun f2 => enter_states m cb f2) with
  | next f3 => rw [hr] at h; exact h
  | ret e f3 => rw [hr] at h; exact h

end ExecLemmas

section PhaseFrames
variable {H : Type}

theorem histStep_refl (f : Frame H) : f.histStep f :=
  ⟨rfl, rfl, rfl, rfl, rfl, rfl, rfl, rfl, rfl, rfl, rfl, rfl⟩

theorem histStep_trans (a b c : Frame H) (h1 : a.histStep b) (h2 : b.histStep c) :
    a.histStep c := by
  obtain ⟨fst1, fst2, fst3, fst4, fst5, fst6, fst7, fst8, fst9, fst10, fst11, fst12⟩ := h1
  obtain ⟨snd1, snd2, snd3, snd4, snd5, snd6, snd7, snd8, snd9, snd10, snd11, snd12⟩ := h2
  exact ⟨snd1.trans fst1, snd2.trans fst2, snd3.trans fst3, snd4.trans fst4, snd5.trans fst5, snd6.trans fst6,
    snd7.trans fst7, snd8.trans fst8, snd9.trans fst9, snd10.trans fst10, snd11.trans fst11, snd12.trans fst12⟩

theorem remember_body_histStep (m : scxml_machine H) (i : Nat) (f : Frame H) :
    f.histStep (remember_body m i f) := by
  unfold remember_body
  split
  · split
    · exact ⟨rfl, rfl, rfl, rfl, rfl, rfl, rfl, rfl, rfl, rfl, rfl, rfl⟩
    · exact histStep_refl f
  · exact histStep_refl f

theorem remember_history_histStep (m : scxml_machine H) (f : Frame H) :
    f.histStep (remember_history m f) := by
  unfold remember_history
  exact foldl_preserves Frame.histStep histStep_refl histStep_trans _
    (fun s a => remember_body_histStep m a s) _ f

theorem entryStep_refl (f : Frame H) : f.entryStep f := ⟨rfl, rfl, rfl, rfl, rfl, rfl⟩

theorem entryStep_trans (a b c : Frame H) (h1 : a.entryStep b) (h2 : b.entryStep c) :
    a.entryStep c := by
  obtain ⟨fst1, fst2, fst3, fst4, fst5, fst6⟩ := h1
  obtain ⟨snd1, snd2, snd3, snd4, snd5, snd6⟩ := h2
  exact ⟨snd1.trans fst1, snd2.trans fst2, snd3.trans fst3, snd4.trans fst4, snd5.trans fst5, snd6.trans fst6⟩

theorem entryStep_sets (f : Frame H) (es ts tmp : Bitset) :
    f.entryStep { f with entry_set := es, trans_set := ts, tmp_states := tmp } :=
  ⟨rfl, rfl, rfl, rfl, rfl, rfl⟩

theorem descend_body_entryStep (m : scxml_machine H) (i : Nat) (f : Frame H) :
    f.entryStep (descend_body m i f) := by
  unfold descend_body
  split
  · split
    · exact entryStep_sets f _ f.trans_set f.tmp_states
    · split
      · unfold descend_history
        split
        · unfold descend_history_default
          split
          · exact entryStep_refl f
          · exact entryStep_sets f _ _ f.tmp_states
        · exact entryStep_sets f _ f.trans_set _
      · split
        · unfold descend_initial
          apply foldl_preserves Frame.entryStep entryStep_refl entryStep_trans
          intro s a
          simp only []
          split
          · exact entryStep_sets s _ _ s.tmp_states
          · exact entryStep_refl s
        · split
          · unfold descend_compound
            split
            · exact entryStep_sets f _ f.trans_set f.tmp_states
            · exact entryStep_refl f
          · exact entryStep_refl f
  · exact entryStep_refl f

theorem ancestor_sweep_entryStep (m : scxml_machine H) (f : Frame H) :
    f.entryStep (ancestor_sweep m f) := by
  unfold ancestor_sweep
  apply foldl_preserves Frame.entryStep entryStep_refl entryStep_trans
  intro s a
  split
  · exact entryStep_sets s _ s.trans_set s.tmp_states
  · exact entryStep_refl s

theorem descendant_sweep_entryStep (m : scxml_machine H) (n : Nat) (f : Frame H) :
    f.entryStep (descendant_sweep m n f) := by
  unfold descendant_sweep
  exact foldl_preserves Frame.entryStep entryStep_refl entryStep_trans _
    (fun s a => descend_body_entryStep m a s) _ f

theorem establish_entry_set_entryStep (m : scxml_machine H) (f : Frame H) :
    f.entryStep (establish_entry_set m f) := by
  unfold establish_entry_set
  exact entryStep_trans _ _ _ (entryStep_sets f _ f.trans_set f.tmp_states)
    (entryStep_trans _ _ _ (ancestor_sweep_entryStep m _) (descendant_sweep_entryStep m _ _))

theorem testBit_iff_land (x k : Nat) : x &&& 2 ^ k ≠ 0 ↔ x.testBit k = true := by
  constructor
  · intro h
    by_contra hb
    apply h
    apply Nat.eq_of_testBit_eq
    intro j
    rw [Nat.testBit_and, Nat.testBit_two_pow, Nat.zero_testBit]
    by_cases hj : k = j
    · subst hj; simp [hb]
    · simp [hj]
  · intro hb h0
    have := congrArg (fun y => Nat.testBit y k) h0
    simp [Nat.testBit_and, Nat.testBit_two_pow, hb] at this

end PhaseFrames

section FlagTheorems
variable {H : Type}

theorem selection_flags (m : scxml_machine H) (cb : scxml_callbacks H) (stack : Locals)
    (ctx : scxml_ctx) (h : H) :
    (selection m cb stack ctx h).ctx.flags =
      (select_scan m cb m.nr_transitions (at_select m cb stack ctx h)).ctx.flags := rfl

/-- The flags at the return of a step on an initialized, non-final context are the flags
after the flag update, possibly with `SCXML_CTX_TOP_LEVEL_FINAL` added. -/
theorem step_flags (m : scxml_machine H) (cb : scxml_callbacks H) (stack : Locals)
    (ctx : scxml_ctx) (h : H)
    (hnp : (ctx.flags == SCXML_CTX_PRISTINE) = false)
    (hnf : ctx.flags &&& SCXML_CTX_TOP_LEVEL_FINAL = 0) :
    (scxml_step m cb stack ctx h).frame.ctx.flags =
        (update_flags (selection m cb stack ctx h)).ctx.flags ∨
    (scxml_step m cb stack ctx h).frame.ctx.flags =
        (update_flags (selection m cb stack ctx h)).ctx.flags ||| SCXML_CTX_TOP_LEVEL_FINAL := by
  rw [scxml_step_not_pristine m cb stack ctx h hnp hnf]
  have h1 := (remember_history_histStep m (update_flags (selection m cb stack ctx h))).1
  have h2 := (establish_entry_set_entryStep m
    (remember_history m (update_flags (selection m cb stack ctx h)))).1
  have h3 := (exit_take_enter_execStep m cb (establish_entry_set m
    (remember_history m (update_flags (selection m cb stack ctx h))))).2.2.2.2.2.2.2.2.1
  rw [h2, h1] at h3
  exact h3

theorem flag_bits_selected (x : Nat) :
    Nat.testBit (((x ||| SCXML_CTX_TRANSITION_FOUND) ||| SCXML_CTX_SPONTANEOUS) &&&
      (SCXML_CTX_TRANSITION_FOUND ^^^ 0xFF)) 0 = true ∧
    Nat.testBit (((x ||| SCXML_CTX_TRANSITION_FOUND) ||| SCXML_CTX_SPONTANEOUS) &&&
      (SCXML_CTX_TRANSITION_FOUND ^^^ 0xFF)) 3 = false := by
  have h1 : Nat.testBit (SCXML_CTX_TRANSITION_FOUND ^^^ 0xFF) 0 = true := by decide
  have h2 : Nat.testBit (SCXML_CTX_TRANSITION_FOUND ^^^ 0xFF) 3 = false := by decide
  have h3 : Nat.testBit SCXML_CTX_SPONTANEOUS 0 = true := by decide
  constructor
  · rw [Nat.testBit_and, Nat.testBit_or, h1, h3]; simp
  · rw [Nat.testBit_and, h2]; simp

theorem flag_bits_unselected (x : Nat) :
    Nat.testBit (x &&& (SCXML_CTX_SPONTANEOUS ^^^ 0xFF)) 0 = false ∧
    Nat.testBit (x &&& (SCXML_CTX_SPONTANEOUS ^^^ 0xFF)) 3 = Nat.testBit x 3 := by
  have h1 : Nat.testBit (SCXML_CTX_SPONTANEOUS ^^^ 0xFF) 0 = false := by decide
  have h2 : Nat.testBit (SCXML_CTX_SPONTANEOUS ^^^ 0xFF) 3 = true := by decide
  constructor
  · rw [Nat.testBit_and, h1]; simp
  · rw [Nat.testBit_and, h2]; simp

theorem flag_found_set (x : Nat) : (x ||| SCXML_CTX_TRANSITION_FOUND) &&&
    SCXML_CTX_TRANSITION_FOUND ≠ 0 := by
  have : SCXML_CTX_TRANSITION_FOUND = 2 ^ 3 := rfl
  rw [this, testBit_iff_land, Nat.testBit_or, Nat.testBit_two_pow_self]
  simp

theorem testBit_or_final (x k : Nat) (hk : k ≠ 2) :
    Nat.testBit (x ||| SCXML_CTX_TOP_LEVEL_FINAL) k = Nat.testBit x k := by
  have : SCXML_CTX_TOP_LEVEL_FINAL = 2 ^ 2 := rfl
  rw [Nat.testBit_or, this, Nat.testBit_two_pow]
  have : ¬ (2 = k) := fun e => hk e.symm
  simp [this]

/-- C9: for a step on an initialized, non-final context that enters with
`SCXML_CTX_TRANSITION_FOUND` clear, at the return `SCXML_CTX_SPONTANEOUS` is set if and only
if at least one transition was selected in the step, and `SCXML_CTX_TRANSITION_FOUND` is
clear (whatever code the step returns). -/
theorem step_spontaneous_iff_selected (m : scxml_machine H) (cb : scxml_callbacks H)
    (stack : Locals) (ctx : scxml_ctx) (h : H)
    (hinit : ctx.flags &&& SCXML_CTX_INITIALIZED ≠ 0)
    (hnf : ctx.flags &&& SCXML_CTX_TOP_LEVEL_FINAL = 0)
    (hfound : ctx.flags &&& SCXML_CTX_TRANSITION_FOUND = 0) :
    ((scxml_step m cb stack ctx h).frame.ctx.flags &&& SCXML_CTX_SPONTANEOUS ≠ 0 ↔
      ∃ t, t < m.nr_transitions ∧ selected m cb stack ctx h t = true) ∧
    (scxml_step m cb stack ctx h).frame.ctx.flags &&& SCXML_CTX_TRANSITION_FOUND = 0 := by
  have hnp := flags_ne_pristine hinit
  have hS : SCXML_CTX_SPONTANEOUS = 2 ^ 0 := rfl
  have hF : SCXML_CTX_TRANSITION_FOUND = 2 ^ 3 := rfl
  have hf0 : (at_select m cb stack ctx h).ctx.flags = ctx.flags :=
    (at_select_frame m cb stack ctx h).1
  have hx3 : Nat.testBit ctx.flags 3 = false := by
    by_contra hc
    have hc' : Nat.testBit ctx.flags 3 = true := by simpa using hc
    have := (testBit_iff_land ctx.flags 3).2 hc'
    rw [← hF] at this
    exact this hfound
  -- the flags after the update, by cases on whether something was selected
  have hU : (∃ t, t < m.nr_transitions ∧ selected m cb stack ctx h t = true) ∧
        Nat.testBit (update_flags (selection m cb stack ctx h)).ctx.flags 0 = true ∧
        Nat.testBit (update_flags (selection m cb stack ctx h)).ctx.flags 3 = false ∨
      (¬ ∃ t, t < m.nr_transitions ∧ selected m cb stack ctx h t = true) ∧
        Nat.testBit (update_flags (selection m cb stack ctx h)).ctx.flags 0 = false ∧
        Nat.testBit (update_flags (selection m cb stack ctx h)).ctx.flags 3 = false := by
    by_cases hsel : ∃ t, t < m.nr_transitions ∧ selected m cb stack ctx h t = true
    · left
      refine ⟨hsel, ?_⟩
      obtain ⟨t, ht, hst⟩ := hsel
      rw [selected_eq_takes m cb stack ctx h hnp t ht] at hst
      have hfl := select_scan_flags_some m cb m.nr_transitions (at_select m cb stack ctx h)
        ⟨t, ht, hst⟩
      rw [hf0] at hfl
      have hb : ((selection m cb stack ctx h).ctx.flags &&& SCXML_CTX_TRANSITION_FOUND != 0)
          = true := by
        rw [selection_flags, hfl]
        simpa using flag_found_set ctx.flags
      unfold update_flags
      rw [if_pos hb]
      show Nat.testBit (((selection m cb stack ctx h).ctx.flags ||| SCXML_CTX_SPONTANEOUS) &&&
          (SCXML_CTX_TRANSITION_FOUND ^^^ 0xFF)) 0 = true ∧
        Nat.testBit (((selection m cb stack ctx h).ctx.flags ||| SCXML_CTX_SPONTANEOUS) &&&
          (SCXML_CTX_TRANSITION_FOUND ^^^ 0xFF)) 3 = false
      rw [selection_flags, hfl]
      exact flag_bits_selected ctx.flags
    · right
      refine ⟨hsel, ?_⟩
      have hnone : ∀ u, u < m.nr_transitions →
          select_takes m cb u (select_scan m cb u (at_select m cb stack ctx h)) = false := by
        intro u hu
        by_contra hc
        apply hsel
        refine ⟨u, hu, ?_⟩
        rw [selected_eq_takes m cb stack ctx h hnp u hu]
        simpa using hc
      have hfl := select_scan_flags_none m cb m.nr_transitions (at_select m cb stack ctx h)
        hnone
      rw [hf0] at hfl
      have hb : ((selection m cb stack ctx h).ctx.flags &&& SCXML_CTX_TRANSITION_FOUND != 0)
          = false := by
        rw [selection_flags, hfl]
        simp [hfound]
      unfold update_flags
      rw [hb]
      simp only [Bool.false_eq_true, if_false]
      show Nat.testBit ((selection m cb stack ctx h).ctx.flags &&&
          (SCXML_CTX_SPONTANEOUS ^^^ 0xFF)) 0 = false ∧
        Nat.testBit ((selection m cb stack ctx h).ctx.flags &&&
          (SCXML_CTX_SPONTANEOUS ^^^ 0xFF)) 3 = false
      rw [selection_flags, hfl]
      have := flag_bits_unselected ctx.flags
      rw [hx3] at this
      exact this
  -- the execution loops keep bits 0 and 3
  have hbits : ∀ k, k ≠ 2 →
      Nat.testBit (scxml_step m cb stack ctx h).frame.ctx.flags k =
        Nat.testBit (update_flags (selection m cb stack ctx h)).ctx.flags k := by
    intro k hk
    rcases step_flags m cb stack ctx h hnp hnf with e | e
    · rw [e]
    · rw [e, testBit_or_final _ _ hk]
  rw [hS, hF, testBit_iff_land, hbits 0 (by decide)]
  have h3 : (scxml_step m cb stack ctx h).frame.ctx.flags &&& 2 ^ 3 = 0 := by
    by_contra hc
    have := (testBit_iff_land _ 3).1 hc
    rw [hbits 3 (by decide)] at this
    rcases hU with ⟨_, _, hu⟩ | ⟨_, _, hu⟩ <;> rw [hu] at this <;> exact Bool.false_ne_true this
  refine ⟨?_, h3⟩
  rcases hU with ⟨hs, h0, _⟩ | ⟨hs, h0, _⟩
  · exact ⟨fun _ => hs, fun _ => h0⟩
  · constructor
    · intro hc; rw [h0] at hc; exact absurd hc Bool.false_ne_true
    · intro hc; exact absurd hc hs

/-- Instance of C9: the two-state machine in configuration {root, A} with event 7 queued; the
transition is selected and the step returns with `SCXML_CTX_SPONTANEOUS` set. -/
theorem step_spontaneous_iff_selected_witness :
    (ctxOf 2 3).flags &&& SCXML_CTX_INITIALIZED ≠ 0 ∧
    (ctxOf 2 3).flags &&& SCXML_CTX_TOP_LEVEL_FINAL = 0 ∧
    (ctxOf 2 3).flags &&& SCXML_CTX_TRANSITION_FOUND = 0 ∧
    (scxml_step twoStateMachine (listHost false [7]) junkStack (ctxOf 2 3) []).frame.ctx.flags
      &&& SCXML_CTX_TRANSITION_FOUND = 0 ∧
    (scxml_step twoStateMachine (listHost false [7]) junkStack (ctxOf 2 3) []).frame.ctx.flags
      = 3 :=
  have h1 : (ctxOf 2 3).flags &&& SCXML_CTX_INITIALIZED ≠ 0 := by decide
  have h2 : (ctxOf 2 3).flags &&& SCXML_CTX_TOP_LEVEL_FINAL = 0 := by decide
  have h3 : (ctxOf 2 3).flags &&& SCXML_CTX_TRANSITION_FOUND = 0 := by decide
  ⟨h1, h2, h3,
    (step_spontaneous_iff_selected twoStateMachine (listHost false [7]) junkStack (ctxOf 2 3) []
      h1 h2 h3).2, by decide⟩

end FlagTheorems

section QuietStep
variable {H : Type}

theorem loop_skip {σ : Type} (body : Nat → σ → Flow σ) (l : List Nat) (s : σ)
    (hb : ∀ i ∈ l, body i s = Flow.next s) : loop body l s = Flow.next s := by
  induction l with
  | nil => rfl
  | cons a l ih =>
    rw [loop, hb a (List.mem_cons_self a l)]
    exact ih (fun i hi => hb i (List.mem_cons_of_mem a hi))

theorem foldl_skip {σ α : Type} (body : σ → α → σ) (l : List α) (s : σ)
    (hb : ∀ i ∈ l, body s i = s) : l.foldl body s = s := by
  induction l with
  | nil => rfl
  | cons a l ih =>
    rw [List.foldl_cons, hb a (List.mem_cons_self a l)]
    exact ih (fun i hi => hb i (List.mem_cons_of_mem a hi))

theorem mem_upTo {i n : Nat} : i ∈ upTo n ↔ i < n := by
  simp [upTo]

theorem mem_downFrom {i n : Nat} : i ∈ downFrom n ↔ i < n := by
  simp [downFrom]

/-- With no state in the target set, `ESTABLISH_ENTRY_SET` only copies the target set. -/
theorem establish_entry_set_empty (m : scxml_machine H) (f : Frame H)
    (ht : ∀ i, i < m.nr_states → BIT_HAS i f.target_set = false) :
    establish_entry_set m f =
      { f with entry_set := bit_copy f.entry_set f.target_set (nr_states_bytes m) } := by
  have he : ∀ i, i < m.nr_states →
      BIT_HAS i (bit_copy f.entry_set f.target_set (nr_states_bytes m)) = false := by
    intro i hi
    rw [BIT_HAS_bit_copy, if_pos (state_byte_lt m hi)]
    exact ht i hi
  unfold establish_entry_set
  have h1 : ancestor_sweep m
      { f with entry_set := bit_copy f.entry_set f.target_set (nr_states_bytes m) } =
      { f with entry_set := bit_copy f.entry_set f.target_set (nr_states_bytes m) } := by
    unfold ancestor_sweep
    apply foldl_skip
    intro i hi
    have := he i (mem_upTo.1 hi)
    simp only []
    rw [if_neg]
    simp [this]
  simp only []
  rw [h1]
  unfold descendant_sweep
  apply foldl_skip
  intro i hi
  have := he i (mem_upTo.1 hi)
  unfold descend_body
  rw [if_neg]
  simp [this]

/-- With no state in `exit_set`, no transition in `trans_set` and no state in `entry_set`, the
three execution loops do nothing and the step returns `SCXML_ERR_OK`. -/
theorem exit_take_enter_idle (m : scxml_machine H) (cb : scxml_callbacks H) (f : Frame H)
    (hx : ∀ i, i < m.nr_states → BIT_HAS i f.exit_set = false)
    (ht : ∀ t, t < m.nr_transitions → BIT_HAS t f.trans_set = false)
    (he : ∀ i, i < m.nr_states → BIT_HAS i f.entry_set = false) :
    exit_take_enter m cb f = ⟨SCXML_ERR_OK, f⟩ := by
  have h1 : exit_states m cb f = Flow.next f := by
    unfold exit_states
    apply loop_skip
    intro i hi
    unfold exit_body
    rw [if_neg]
    simp [hx i (mem_downFrom.1 hi)]
  have h2 : take_transitions m cb f = Flow.next f := by
    unfold take_transitions
    apply loop_skip
    intro i hi
    unfold take_body
    rw [if_neg]
    simp [ht i (mem_upTo.1 hi)]
  have h3 : enter_states m cb f = Flow.next f := by
    unfold enter_states
    apply loop_skip
    intro i hi
    unfold enter_body
    rw [if_neg]
    simp [he i (mem_upTo.1 hi)]
  unfold exit_take_enter
  rw [h1]
  simp only [Flow.andThen]
  rw [h2]
  simp only []
  rw [h3]

/-- The sets after `SELECT_TRANSITIONS` when the scan selects nothing. -/
theorem selection_none (m : scxml_machine H) (cb : scxml_callbacks H) (stack : Locals)
    (ctx : scxml_ctx) (h : H)
    (hnp : (ctx.flags == SCXML_CTX_PRISTINE) = false)
    (hnone : ∀ t, t < m.nr_transitions → selected m cb stack ctx h t = false) :
    (∀ i, i < m.nr_states → BIT_HAS i (selection m cb stack ctx h).exit_set = false) ∧
    (∀ t, t < m.nr_transitions → BIT_HAS t (selection m cb stack ctx h).trans_set = false) ∧
    (∀ i, i < m.nr_states → BIT_HAS i (selection m cb stack ctx h).target_set = false) := by
  have htk : ∀ u, u < m.nr_transitions →
      select_takes m cb u (select_scan m cb u (at_select m cb stack ctx h)) = false := by
    intro u hu
    rw [← hnone u hu, selected_eq_takes m cb stack ctx h hnp u hu]
    rfl
  refine ⟨?_, ?_, ?_⟩
  · intro i hi
    have hb := state_byte_lt m hi
    show BIT_HAS i (bit_and _ _ (nr_states_bytes m)) = false
    rw [BIT_HAS_bit_and, if_pos hb]
    have : BIT_HAS i (select_scan m cb m.nr_transitions
        (at_select m cb stack ctx h)).exit_set = false := by
      by_contra hc
      obtain ⟨u, hu, h1, _⟩ := (select_scan_exit_set m cb m.nr_transitions i _ hb).1
        (by simpa using hc)
      rw [htk u hu] at h1
      exact Bool.false_ne_true h1
    rw [this]; rfl
  · intro t ht
    rw [← hnone t ht, selected_eq m cb stack ctx h hnp]
    rfl
  · intro i hi
    have hb := state_byte_lt m hi
    show BIT_HAS i (select_scan m cb m.nr_transitions
        (at_select m cb stack ctx h)).target_set = false
    by_contra hc
    rcases (select_scan_target_set m cb m.nr_transitions i _ hb).1 (by simpa using hc) with
      h0 | ⟨u, hu, h1, _⟩
    · rw [(at_select_frame m cb stack ctx h).2.2.2.2.2, BIT_HAS_bit_clear_all, if_pos hb] at h0
      exact Bool.false_ne_true h0
    · rw [htk u hu] at h1
      exact Bool.false_ne_true h1

/-- A step on an initialized, non-final context that selects no transition runs none of the
three execution loops' bodies and returns `SCXML_ERR_OK` with the frame it had after
`REMEMBER_HISTORY` (and the copied, empty entry set). -/
theorem step_none_selected (m : scxml_machine H) (cb : scxml_callbacks H) (stack : Locals)
    (ctx : scxml_ctx) (h : H)
    (hnp : (ctx.flags == SCXML_CTX_PRISTINE) = false)
    (hnf : ctx.flags &&& SCXML_CTX_TOP_LEVEL_FINAL = 0)
    (hnone : ∀ t, t < m.nr_transitions → selected m cb stack ctx h t = false) :
    scxml_step m cb stack ctx h =
      ⟨SCXML_ERR_OK, establish_entry_set m (remember_history m
        (update_flags (selection m cb stack ctx h)))⟩ := by
  obtain ⟨hx, ht, hg⟩ := selection_none m cb stack ctx h hnp hnone
  rw [scxml_step_not_pristine m cb stack ctx h hnp hnf]
  have hu : (update_flags (selection m cb stack ctx h)).exit_set =
        (selection m cb stack ctx h).exit_set ∧
      (update_flags (selection m cb stack ctx h)).trans_set =
        (selection m cb stack ctx h).trans_set ∧
      (update_flags (selection m cb stack ctx h)).target_set =
        (selection m cb stack ctx h).target_set := by
    unfold update_flags
    split <;> exact ⟨rfl, rfl, rfl⟩
  obtain ⟨_, _, _, _, _, _, _, _, r9, r10, r11, _⟩ :=
    remember_history_histStep m (update_flags (selection m cb stack ctx h))
  have htgt : ∀ i, i < m.nr_states → BIT_HAS i (remember_history m
      (update_flags (selection m cb stack ctx h))).target_set = false := by
    intro i hi; rw [r10, hu.2.2]; exact hg i hi
  have hest := establish_entry_set_empty m _ htgt
  apply exit_take_enter_idle
  · intro i hi
    rw [hest]
    show BIT_HAS i (remember_history m (update_flags (selection m cb stack ctx h))).exit_set
      = false
    rw [r11, hu.1]; exact hx i hi
  · intro t ht'
    rw [hest]
    show BIT_HAS t (remember_history m (update_flags (selection m cb stack ctx h))).trans_set
      = false
    rw [r9, hu.2.1]; exact ht t ht'
  · intro i hi
    rw [hest]
    show BIT_HAS i (bit_copy _ _ (nr_states_bytes m)) = false
    rw [BIT_HAS_bit_copy, if_pos (state_byte_lt m hi)]
    exact htgt i hi

end QuietStep

section IdleStep
variable {H : Type}

theorem at_select_event_none (m : scxml_machine H) (cb : scxml_callbacks H) (stack : Locals)
    (ctx : scxml_ctx) (h : H)
    (hdi : ∀ c x, (cb.dequeue_internal c x).1 = none)
    (hde : ∀ c x, (cb.dequeue_external c x).1 = none) :
    (at_select m cb stack ctx h).ctx.event = none := by
  unfold at_select acquire_event
  split
  · rfl
  · simp only []
    split
    · exact hdi _ _
    · exact hde _ _

/-- C10 as amended: a step on an initialized, non-final context with `SCXML_CTX_SPONTANEOUS`
clear, both dequeue callbacks returning `NULL` and `is_enabled` returning a value `<= 0` for
every transition without event returns `SCXML_ERR_OK` (0); it does not return
`SCXML_ERR_IDLE` (1), selects nothing and calls none of the three execution loops'
programs. -/
theorem step_idle_returns_ok (m : scxml_machine H) (cb : scxml_callbacks H) (stack : Locals)
    (ctx : scxml_ctx) (h : H)
    (hinit : ctx.flags &&& SCXML_CTX_INITIALIZED ≠ 0)
    (hnf : ctx.flags &&& SCXML_CTX_TOP_LEVEL_FINAL = 0)
    (_hspont : ctx.flags &&& SCXML_CTX_SPONTANEOUS = 0)
    (hdi : ∀ c x, (cb.dequeue_internal c x).1 = none)
    (hde : ∀ c x, (cb.dequeue_external c x).1 = none)
    (hen : ∀ c t x, (cb.is_enabled c t none x).1 ≤ 0) :
    (scxml_step m cb stack ctx h).err = SCXML_ERR_OK ∧
    SCXML_ERR_OK = 0 ∧
    (scxml_step m cb stack ctx h).err ≠ SCXML_ERR_IDLE ∧
    (∀ t, t < m.nr_transitions → selected m cb stack ctx h t = false) ∧
    (∀ c ∈ (scxml_step m cb stack ctx h).frame.log, c.isExec = false) := by
  have hnp := flags_ne_pristine hinit
  have hnone : ∀ t, t < m.nr_transitions → selected m cb stack ctx h t = false := by
    intro t ht
    rw [selected_eq_takes m cb stack ctx h hnp t ht]
    unfold select_takes
    have hev : (scan_before m cb stack ctx h t).ctx.event = none :=
      (select_scan_config m cb t _).2.1.trans (at_select_event_none m cb stack ctx h hdi hde)
    rw [hev]
    have := hen (scan_before m cb stack ctx h t).ctx t (scan_before m cb stack ctx h t).host
    simp only [Bool.and_eq_false_iff, decide_eq_false_iff_not, not_lt]
    exact Or.inr this
  have hstep := step_none_selected m cb stack ctx h hnp hnf hnone
  have hne : SCXML_ERR_OK ≠ SCXML_ERR_IDLE := by decide
  refine ⟨by rw [hstep], rfl, by rw [hstep]; exact hne, hnone, ?_⟩
  rw [hstep]
  show ∀ c ∈ (establish_entry_set m (remember_history m
    (update_flags (selection m cb stack ctx h)))).log, c.isExec = false
  rw [(establish_entry_set_entryStep m _).2.2.1,
    (remember_history_histStep m _).2.2.2.2.2.2.1]
  have hul : (update_flags (selection m cb stack ctx h)).log =
      (selection m cb stack ctx h).log := by
    unfold update_flags
    split <;> rfl
  rw [hul]
  obtain ⟨l, _, _, hlog⟩ := select_scan_log m cb m.nr_transitions (at_select m cb stack ctx h)
  show ∀ c ∈ (select_scan m cb m.nr_transitions (at_select m cb stack ctx h)).log,
    c.isExec = false
  rw [hlog]
  intro c hc
  rcases List.mem_append.1 hc with h1 | h1
  · have := at_select_log m cb stack ctx h c h1
    cases c <;> simp [Call.isAcquire] at this <;> rfl
  · obtain ⟨u, _, hu⟩ := List.mem_map.1 h1
    rw [← hu]; rfl

/-- Counterexample to C10 as stated: the two-state machine in configuration {root, A}, flags
`INITIALIZED`, both queues empty and no transition enabled.  The step asks both queues and
`is_enabled`, and returns `SCXML_ERR_OK` (0), not `SCXML_ERR_IDLE` (1). -/
theorem step_idle_counterexample :
    (ctxOf 2 3).flags &&& SCXML_CTX_INITIALIZED ≠ 0 ∧
    (ctxOf 2 3).flags &&& SCXML_CTX_TOP_LEVEL_FINAL = 0 ∧
    (ctxOf 2 3).flags &&& SCXML_CTX_SPONTANEOUS = 0 ∧
    (∀ c x, ((listHost false []).dequeue_internal c x).1 = none) ∧
    (∀ c x, ((listHost false []).dequeue_external c x).1 = none) ∧
    (∀ c t x, ((listHost false []).is_enabled c t none x).1 ≤ 0) ∧
    (scxml_step twoStateMachine (listHost false []) zeroStack (ctxOf 2 3) []).frame.log =
      [Call.dequeue_internal, Call.dequeue_external, Call.is_enabled 0] ∧
    (scxml_step twoStateMachine (listHost false []) zeroStack (ctxOf 2 3) []).err = 0 ∧
    (scxml_step twoStateMachine (listHost false []) zeroStack (ctxOf 2 3) []).err ≠
      SCXML_ERR_IDLE :=
  ⟨by decide, by decide, by decide, fun _ _ => rfl, fun _ _ => rfl,
    fun _ _ _ => by simp [listHost], by decide, by decide, by decide⟩

/-- Instance of the amended C10 on the same input. -/
theorem step_idle_returns_ok_witness :
    (ctxOf 2 3).flags &&& SCXML_CTX_INITIALIZED ≠ 0 ∧
    (ctxOf 2 3).flags &&& SCXML_CTX_TOP_LEVEL_FINAL = 0 ∧
    (ctxOf 2 3).flags &&& SCXML_CTX_SPONTANEOUS = 0 ∧
    (scxml_step twoStateMachine (listHost false []) zeroStack (ctxOf 2 3) []).err =
      SCXML_ERR_OK :=
  have h1 : (ctxOf 2 3).flags &&& SCXML_CTX_INITIALIZED ≠ 0 := by decide
  have h2 : (ctxOf 2 3).flags &&& SCXML_CTX_TOP_LEVEL_FINAL = 0 := by decide
  have h3 : (ctxOf 2 3).flags &&& SCXML_CTX_SPONTANEOUS = 0 := by decide
  ⟨h1, h2, h3,
    (step_idle_returns_ok twoStateMachine (listHost false []) zeroStack (ctxOf 2 3) []
      h1 h2 h3 (fun _ _ => rfl) (fun _ _ => rfl) (fun _ _ _ => by simp [listHost])).1⟩

end IdleStep

section ExitLoop
variable {H : Type}

theorem exit_body_spec (m : scxml_machine H) (cb : scxml_callbacks H) (i : Nat) (f : Frame H) :
    (exit_body m cb i f).state.log = f.log ++ exit_calls m f [i] ∧
    (∀ j, j ≠ i →
      BIT_HAS j (exit_body m cb i f).state.ctx.config = BIT_HAS j f.ctx.config) ∧
    (∀ g, exit_body m cb i f = Flow.next g →
      BIT_HAS i g.ctx.config = (BIT_HAS i f.ctx.config && !BIT_HAS i f.exit_set)) := by
  unfold exit_body exit_calls exits_now
  by_cases hx : (BIT_HAS i f.exit_set && BIT_HAS i f.ctx.config) = true
  · rw [if_pos hx]
    have hx' := hx
    simp only [Bool.and_eq_true] at hx'
    cases hoe : (m.states i).on_exit with
    | none =>
      simp only [List.filter_cons, hx, hoe, Option.isSome_none, Bool.and_false,
        Bool.false_eq_true, if_false, List.filter_nil, List.map_nil, List.append_nil]
      refine ⟨rfl, ?_, ?_⟩
      · intro j hj
        show BIT_HAS j (BIT_CLEAR i f.ctx.config) = _
        rw [BIT_HAS_BIT_CLEAR]; simp [hj]
      · intro g hg
        cases hg
        show BIT_HAS i (BIT_CLEAR i f.ctx.config) = _
        rw [BIT_HAS_BIT_CLEAR]; simp [hx'.1]
    | some prog =>
      simp only [List.filter_cons, hx, hoe, Option.isSome_some, Bool.and_true, if_true,
        List.filter_nil, List.map_cons, List.map_nil]
      split
      · refine ⟨rfl, fun j _ => rfl, ?_⟩
        intro g hg
        cases hg
      · refine ⟨rfl, ?_, ?_⟩
        · intro j hj
          show BIT_HAS j (BIT_CLEAR i f.ctx.config) = _
          rw [BIT_HAS_BIT_CLEAR]; simp [hj]
        · intro g hg
          cases hg
          show BIT_HAS i (BIT_CLEAR i f.ctx.config) = _
          rw [BIT_HAS_BIT_CLEAR]; simp [hx'.1]
  · rw [if_neg hx]
    have hx' : (BIT_HAS i f.exit_set && BIT_HAS i f.ctx.config) = false := by simpa using hx
    simp only [List.filter_cons, hx', Bool.false_and, Bool.false_eq_true, if_false,
      List.filter_nil, List.map_nil, List.append_nil]
    refine ⟨rfl, fun j _ => rfl, ?_⟩
    intro g hg
    cases hg
    by_cases hc : BIT_HAS i f.ctx.config = true
    · have : BIT_HAS i f.exit_set = false := by
        simpa [hc] using hx'
      simp [hc, this]
    · have hc' : BIT_HAS i f.ctx.config = false := by simpa using hc
      simp [hc']

theorem exit_calls_congr (m : scxml_machine H) (f g : Frame H) (l : List Nat)
    (hx : g.exit_set = f.exit_set)
    (hc : ∀ i ∈ l, BIT_HAS i g.ctx.config = BIT_HAS i f.ctx.config) :
    exit_calls m g l = exit_calls m f l := by
  unfold exit_calls
  congr 1
  apply List.filter_congr
  intro i hi
  unfold exits_now
  rw [hx, hc i hi]

theorem exit_calls_cons (m : scxml_machine H) (f : Frame H) (a : Nat) (l : List Nat) :
    exit_calls m f (a :: l) = exit_calls m f [a] ++ exit_calls m f l := by
  unfold exit_calls
  rw [← List.map_append, ← List.filter_append]
  rfl

/-- The loop of `EXIT_STATES` over a duplicate-free list of indices: the calls it logs are the
`on_exit` calls of a prefix of the list (all of it unless a program returned an error), and
when it runs to its end the config has lost exactly the states of the list that were in
`exit_set`. -/
theorem exit_loop_spec (m : scxml_machine H) (cb : scxml_callbacks H) (l : List Nat)
    (hl : l.Nodup) (f : Frame H) :
    (∃ l', l' <+: l ∧
      (loop (exit_body m cb) l f).state.log = f.log ++ exit_calls m f l' ∧
      (∀ g, loop (exit_body m cb) l f = Flow.next g → l' = l)) ∧
    (∀ g, loop (exit_body m cb) l f = Flow.next g →
      ∀ i, BIT_HAS i g.ctx.config =
        (BIT_HAS i f.ctx.config && !(decide (i ∈ l) && BIT_HAS i f.exit_set))) := by
  induction l generalizing f with
  | nil =>
    refine ⟨⟨[], List.prefix_refl _, by simp [loop, Flow.state, exit_calls], fun _ _ => rfl⟩, ?_⟩
    intro g hg i
    cases hg
    simp
  | cons a l ih =>
    obtain ⟨hlog, hcfg, hnext⟩ := exit_body_spec m cb a f
    have hxs := (exit_body_execStep m cb a f).2.2.2.2.2.2.1
    have ha : a ∉ l := (List.nodup_cons.1 hl).1
    rw [loop]
    cases hb : exit_body m cb a f with
    | ret e f' =>
      rw [hb] at hlog
      refine ⟨⟨[a], ?_, hlog, ?_⟩, ?_⟩
      · exact List.prefix_cons_inj a |>.2 List.nil_prefix
      · intro g hg; cases hg
      · intro g hg; cases hg
    | next f' =>
      rw [hb] at hlog hcfg hxs
      simp only [Flow.state] at hlog hcfg hxs
      obtain ⟨⟨l', hpre, hl'log, hl'next⟩, hl'cfg⟩ := ih (List.nodup_cons.1 hl).2 f'
      have hcongr : ∀ l'', l'' <+: l → exit_calls m f' l'' = exit_calls m f l'' := by
        intro l'' hp
        apply exit_calls_congr m f f' l'' hxs
        intro i hi
        apply hcfg
        intro hia
        exact ha (hia ▸ hp.sublist.subset hi)
      refine ⟨⟨a :: l', (List.prefix_cons_inj a).2 hpre, ?_, ?_⟩, ?_⟩
      · show (loop (exit_body m cb) l f').state.log = _
        rw [hl'log, hlog, exit_calls_cons m f a l', hcongr l' hpre, List.append_assoc]
      · intro g hg
        rw [hl'next g hg]
      · intro g hg i
        rw [hl'cfg g hg i, hxs]
        by_cases hia : i = a
        · subst hia
          have := hnext f' hb
          rw [this]
          simp [ha]
        · rw [hcfg i hia]
          simp [hia]

theorem downFrom_nodup (n : Nat) : (downFrom n).Nodup := by
  unfold downFrom
  exact List.nodup_reverse.2 (List.nodup_range n)

end ExitLoop

section TakeEnterLoops
variable {H : Type}

theorem callStep_refl (f : Frame H) : f.callStep f := ⟨rfl, rfl, rfl, rfl, rfl, rfl, rfl⟩

theorem callStep_trans (a b c : Frame H) (h1 : a.callStep b) (h2 : b.callStep c) :
    a.callStep c := by
  obtain ⟨p1, p2, p3, p4, p5, p6, p7⟩ := h1
  obtain ⟨q1, q2, q3, q4, q5, q6, q7⟩ := h2
  exact ⟨q1.trans p1, q2.trans p2, q3.trans p3, q4.trans p4, q5.trans p5, q6.trans p6,
    q7.trans p7⟩

theorem take_body_spec (m : scxml_machine H) (cb : scxml_callbacks H) (i : Nat) (f : Frame H) :
    (take_body m cb i f).state.log = f.log ++ take_calls m f [i] ∧
    f.callStep (take_body m cb i f).state := by
  unfold take_body take_calls
  by_cases hx : (BIT_HAS i f.trans_set && !isPseudoTrans m i) = true
  · rw [if_pos hx]
    cases hot : (m.transitions i).on_transition with
    | none =>
      simp only [List.filter_cons, hx, hot, Option.isSome_none, Bool.and_false,
        Bool.false_eq_true, if_false, List.filter_nil, List.map_nil, List.append_nil]
      exact ⟨rfl, callStep_refl f⟩
    | some prog =>
      simp only [List.filter_cons, hx, hot, Option.isSome_some, Bool.and_true, if_true,
        List.filter_nil, List.map_cons, List.map_nil]
      split
      · exact ⟨rfl, rfl, rfl, rfl, rfl, rfl, rfl, rfl⟩
      · exact ⟨rfl, rfl, rfl, rfl, rfl, rfl, rfl, rfl⟩
  · rw [if_neg hx]
    have hx' : (BIT_HAS i f.trans_set && !isPseudoTrans m i) = false := by simpa using hx
    simp only [List.filter_cons, hx', Bool.false_and, Bool.false_eq_true, if_false,
      List.filter_nil, List.map_nil, List.append_nil]
    exact ⟨rfl, callStep_refl f⟩

theorem take_calls_cons (m : scxml_machine H) (f : Frame H) (a : Nat) (l : List Nat) :
    take_calls m f (a :: l) = take_calls m f [a] ++ take_calls m f l := by
  unfold take_calls
  rw [← List.map_append, ← List.filter_append]
  rfl

/-- The loop of `TAKE_TRANSITIONS`: it changes only host state and log; the calls it logs are
the `on_transition` calls of a prefix of the index list (all of it unless a program returned
an error). -/
theorem take_loop_spec (m : scxml_machine H) (cb : scxml_callbacks H) (l : List Nat)
    (f : Frame H) :
    f.callStep (loop (take_body m cb) l f).state ∧
    ∃ l', l' <+: l ∧
      (loop (take_body m cb) l f).state.log = f.log ++ take_calls m f l' ∧
      (∀ g, loop (take_body m cb) l f = Flow.next g → l' = l) := by
  induction l generalizing f with
  | nil =>
    exact ⟨callStep_refl f, [], List.prefix_refl _, by simp [loop, Flow.state, take_calls],
      fun _ _ => rfl⟩
  | cons a l ih =>
    obtain ⟨hlog, hcs⟩ := take_body_spec m cb a f
    rw [loop]
    cases hb : take_body m cb a f with
    | ret e f' =>
      rw [hb] at hlog hcs
      refine ⟨hcs, [a], (List.prefix_cons_inj a).2 List.nil_prefix, hlog, ?_⟩
      intro g hg; cases hg
    | next f' =>
      rw [hb] at hlog hcs
      simp only [Flow.state] at hlog hcs
      obtain ⟨hcs', l', hpre, hl'log, hl'next⟩ := ih f'
      have hsame : take_calls m f' l' = take_calls m f l' := by
        unfold take_calls
        rw [hcs.2.2.1]
      refine ⟨callStep_trans _ _ _ hcs hcs', a :: l', (List.prefix_cons_inj a).2 hpre, ?_, ?_⟩
      · show (loop (take_body m cb) l f').state.log = _
        rw [hl'log, hlog, take_calls_cons m f a l', hsame, List.append_assoc]
      · intro g hg
        rw [hl'next g hg]

theorem enterQuiet_refl (m : scxml_machine H) (f : Frame H) : f.enterQuiet m f :=
  ⟨rfl, rfl, rfl, [], by simp, by simp⟩

theorem enterQuiet_trans (m : scxml_machine H) (a b c : Frame H) (h1 : a.enterQuiet m b)
    (h2 : b.enterQuiet m c) : a.enterQuiet m c := by
  obtain ⟨p1, p2, p3, l1, p4, p5⟩ := h1
  obtain ⟨q1, q2, q3, l2, q4, q5⟩ := h2
  refine ⟨q1.trans p1, q2.trans p2, q3.trans p3, l1 ++ l2, ?_, ?_⟩
  · rw [q4, p4, List.append_assoc]
  · intro c hc
    rcases List.mem_append.1 hc with h | h
    · exact p5 c h
    · exact q5 c h

theorem enterQuiet_call (m : scxml_machine H) (f : Frame H) (flags : Nat) (ini tmp : Bitset)
    (x : H) (c : Call) (hc : isEnterCall m c = true) (he : c.entryIdx = none) :
    f.enterQuiet m { f with ctx := { f.ctx with flags := flags, initialized_data := ini },
                            host := x, log := f.log ++ [c], tmp_states := tmp } :=
  ⟨rfl, rfl, rfl, [c], rfl, by simpa using ⟨hc, he⟩⟩

theorem enterQuiet_silent (m : scxml_machine H) (f : Frame H) (flags : Nat)
    (ini tmp : Bitset) :
    f.enterQuiet m { f with ctx := { f.ctx with flags := flags, initialized_data := ini },
                            tmp_states := tmp } :=
  ⟨rfl, rfl, rfl, [], by simp, by simp⟩

theorem enter_init_data_quiet (m : scxml_machine H) (cb : scxml_callbacks H) (i : Nat)
    (f : Frame H) : f.enterQuiet m (enter_init_data m cb i f) := by
  unfold enter_init_data
  split
  · split
    · exact enterQuiet_call m f f.ctx.flags _ f.tmp_states _ _ rfl rfl
    · exact enterQuiet_silent m f f.ctx.flags _ f.tmp_states
  · exact enterQuiet_refl m f

theorem enter_trans_body_quiet (m : scxml_machine H) (cb : scxml_callbacks H) (i j : Nat)
    (f : Frame H) : f.enterQuiet m (enter_trans_body m cb i j f).state := by
  unfold enter_trans_body
  split
  · rename_i hc
    have hp : isPseudoTrans m j = true := by
      simp only [Bool.and_eq_true] at hc
      exact hc.1.2
    split
    · simp only []
      split
      · exact enterQuiet_call m f f.ctx.flags f.ctx.initialized_data f.tmp_states _ _ hp rfl
      · exact enterQuiet_call m f f.ctx.flags f.ctx.initialized_data f.tmp_states _ _ hp rfl
    · exact enterQuiet_refl m f
  · exact enterQuiet_refl m f

theorem enter_parallel_body_quiet (m : scxml_machine H) (cb : scxml_callbacks H)
    (i j : Nat) (f : Frame H) : f.enterQuiet m (enter_parallel_body m cb i j f) := by
  unfold enter_parallel_body
  split
  · simp only []
    split
    · exact enterQuiet_call m f f.ctx.flags f.ctx.initialized_data _ _ _ rfl rfl
    · exact enterQuiet_silent m f f.ctx.flags f.ctx.initialized_data _
  · exact enterQuiet_refl m f

theorem enter_final_quiet (m : scxml_machine H) (cb : scxml_callbacks H) (i : Nat)
    (f : Frame H) : f.enterQuiet m (enter_final m cb i f) := by
  unfold enter_final
  split
  · apply enterQuiet_trans m f _ _ _
      (foldl_preserves (Frame.enterQuiet m) (enterQuiet_refl m) (enterQuiet_trans m) _
        (fun s a => enter_parallel_body_quiet m cb i a s) _ _)
    split
    · exact enterQuiet_silent m f _ f.ctx.initialized_data f.tmp_states
    · exact enterQuiet_call m f f.ctx.flags f.ctx.initialized_data f.tmp_states _ _ rfl rfl
  · exact enterQuiet_refl m f

theorem enter_on_entry_spec (m : scxml_machine H) (cb : scxml_callbacks H) (i : Nat)
    (f : Frame H) :
    (enter_on_entry m cb i f).state.ctx.config = f.ctx.config ∧
    (enter_on_entry m cb i f).state.entry_set = f.entry_set ∧
    (enter_on_entry m cb i f).state.trans_set = f.trans_set ∧
    ((enter_on_entry m cb i f).state.log = f.log ∨
     (enter_on_entry m cb i f).state.log = f.log ++ [Call.on_entry i]) := by
  unfold enter_on_entry
  split
  · simp only []
    split
    · exact ⟨rfl, rfl, rfl, Or.inr rfl⟩
    · exact ⟨rfl, rfl, rfl, Or.inr rfl⟩
  · exact ⟨rfl, rfl, rfl, Or.inl rfl⟩

end TakeEnterLoops

section EnterLoop
variable {H : Type}

theorem enter_rest_quiet (m : scxml_machine H) (cb : scxml_callbacks H) (i : Nat)
    (f3 : Frame H) :
    f3.enterQuiet m ((loop (enter_trans_body m cb i) (upTo m.nr_transitions) f3).andThen
      fun f4 => Flow.next (enter_final m cb i f4)).state := by
  apply andThen_preserves (Frame.enterQuiet m) (enterQuiet_trans m)
  · exact loop_preserves (Frame.enterQuiet m) (enterQuiet_refl m) (enterQuiet_trans m)
      (enter_trans_body m cb i) (fun j s => enter_trans_body_quiet m cb i j s) _ f3
  · intro f4
    exact enter_final_quiet m cb i f4

theorem filterMap_entryIdx_quiet (B : List Call) (hB : ∀ c ∈ B, c.entryIdx = none) :
    B.filterMap Call.entryIdx = [] := by
  induction B with
  | nil => rfl
  | cons c B ih =>
    rw [List.filterMap_cons, hB c (List.mem_cons_self c B)]
    exact ih (fun c' hc' => hB c' (List.mem_cons_of_mem c hc'))

/-- One iteration of `ENTER_STATES`: the bit of `i` in `config` is set exactly when `i` is
entered, no other bit changes, and the calls logged are calls of `ENTER_STATES` with at most
one `on_entry`, which is for `i`. -/
theorem enter_body_spec (m : scxml_machine H) (cb : scxml_callbacks H) (i : Nat)
    (f : Frame H) :
    (enter_body m cb i f).state.entry_set = f.entry_set ∧
    (enter_body m cb i f).state.trans_set = f.trans_set ∧
    (∀ j, j ≠ i → BIT_HAS j (enter_body m cb i f).state.ctx.config = BIT_HAS j f.ctx.config) ∧
    BIT_HAS i (enter_body m cb i f).state.ctx.config =
      (BIT_HAS i f.ctx.config || enters_now m f i) ∧
    ∃ B : List Call, (enter_body m cb i f).state.log = f.log ++ B ∧
      (∀ c ∈ B, isEnterCall m c = true) ∧
      (B.filterMap Call.entryIdx = [] ∨
        (B.filterMap Call.entryIdx = [i] ∧ enters_now m f i = true)) := by
  unfold enter_body enters_now
  by_cases h1 : (BIT_HAS i f.entry_set && !BIT_HAS i f.ctx.config) = true
  · rw [if_pos h1]
    by_cases h2 : isPseudoState m i = true
    · rw [if_pos h2]
      refine ⟨rfl, rfl, fun _ _ => rfl, ?_, [], by simp [Flow.state], by simp, Or.inl rfl⟩
      simp [Flow.state, h2]
    · rw [if_neg h2]
      have h2' : isPseudoState m i = false := by simpa using h2
      simp only []
      -- the frames of the iteration
      have q1 := enter_init_data_quiet m cb i
        { f with ctx := { f.ctx with config := BIT_SET_AT i f.ctx.config } }
      generalize enter_init_data m cb i
        { f with ctx := { f.ctx with config := BIT_SET_AT i f.ctx.config } } = f2 at q1
      obtain ⟨c2, e2, t2, B2, l2, b2⟩ := q1
      obtain ⟨c3, e3, t3, l3⟩ := enter_on_entry_spec m cb i f2
      have hcfg : ∀ g : Frame H, g.ctx.config = BIT_SET_AT i f.ctx.config →
          (∀ j, j ≠ i → BIT_HAS j g.ctx.config = BIT_HAS j f.ctx.config) ∧
          BIT_HAS i g.ctx.config =
            (BIT_HAS i f.ctx.config || (BIT_HAS i f.entry_set && !BIT_HAS i f.ctx.config &&
              !isPseudoState m i)) := by
        intro g hg
        rw [hg]
        refine ⟨fun j hj => ?_, ?_⟩
        · rw [BIT_HAS_BIT_SET_AT]; simp [hj]
        · rw [BIT_HAS_BIT_SET_AT]; simp [h1, h2']
      have hen : (BIT_HAS i f.entry_set && !BIT_HAS i f.ctx.config && !isPseudoState m i)
          = true := by simp [h1, h2']
      have hB2 : B2.filterMap Call.entryIdx = [] :=
        filterMap_entryIdx_quiet B2 (fun c hc => (b2 c hc).2)
      cases hr : enter_on_entry m cb i f2 with
      | ret e f3 =>
        rw [hr] at c3 e3 t3 l3
        simp only [Flow.state] at c3 e3 t3 l3
        simp only [Flow.andThen, Flow.state]
        obtain ⟨hc1, hc2⟩ := hcfg f3 (c3.trans c2)
        refine ⟨e3.trans e2, t3.trans t2, hc1, hc2, ?_⟩
        rcases l3 with l3 | l3
        · exact ⟨B2, by rw [l3, l2], fun c hc => (b2 c hc).1, Or.inl hB2⟩
        · refine ⟨B2 ++ [Call.on_entry i], by rw [l3, l2, List.append_assoc], ?_, Or.inr ⟨?_, hen⟩⟩
          · intro c hc
            rcases List.mem_append.1 hc with h | h
            · exact (b2 c h).1
            · rw [List.mem_singleton] at h; rw [h]; rfl
          · rw [List.filterMap_append, hB2]; rfl
      | next f3 =>
        rw [hr] at c3 e3 t3 l3
        simp only [Flow.state] at c3 e3 t3 l3
        simp only [Flow.andThen]
        obtain ⟨c4, e4, t4, B4, l4, b4⟩ := enter_rest_quiet m cb i f3
        simp only [Flow.andThen] at c4 e4 t4 l4
        obtain ⟨hc1, hc2⟩ := hcfg _ (c4.trans (c3.trans c2))
        have hB4 : B4.filterMap Call.entryIdx = [] :=
          filterMap_entryIdx_quiet B4 (fun c hc => (b4 c hc).2)
        refine ⟨e4.trans (e3.trans e2), t4.trans (t3.trans t2), hc1, hc2, ?_⟩
        rcases l3 with l3 | l3
        · refine ⟨B2 ++ B4, by rw [l4, l3, l2, List.append_assoc], ?_, Or.inl ?_⟩
          · intro c hc
            rcases List.mem_append.1 hc with h | h
            · exact (b2 c h).1
            · exact (b4 c h).1
          · rw [List.filterMap_append, hB2, hB4]; rfl
        · refine ⟨B2 ++ [Call.on_entry i] ++ B4,
            by rw [l4, l3, l2, List.append_assoc, List.append_assoc, List.append_assoc], ?_,
            Or.inr ⟨?_, hen⟩⟩
          · intro c hc
            rcases List.mem_append.1 hc with h | h
            · rcases List.mem_append.1 h with h | h
              · exact (b2 c h).1
              · rw [List.mem_singleton] at h; rw [h]; rfl
            · exact (b4 c h).1
          · rw [List.filterMap_append, List.filterMap_append, hB2, hB4]; rfl
  · rw [if_neg h1]
    have h1' : (BIT_HAS i f.entry_set && !BIT_HAS i f.ctx.config) = false := by simpa using h1
    refine ⟨rfl, rfl, fun _ _ => rfl, ?_, [], by simp [Flow.state], by simp, Or.inl rfl⟩
    simp [Flow.state, h1']

/-- The loop of `ENTER_STATES` over a duplicate-free list of indices: when it runs to its end
the config has gained exactly the entered states of the list; the calls it logs are calls of
`ENTER_STATES` whose `on_entry` calls are for entered states, in the order of the list. -/
theorem enter_loop_spec (m : scxml_machine H) (cb : scxml_callbacks H) (l : List Nat)
    (hl : l.Nodup) (f : Frame H) :
    (loop (enter_body m cb) l f).state.entry_set = f.entry_set ∧
    (loop (enter_body m cb) l f).state.trans_set = f.trans_set ∧
    (∀ g, loop (enter_body m cb) l f = Flow.next g →
      ∀ i, BIT_HAS i g.ctx.config =
        (BIT_HAS i f.ctx.config || (decide (i ∈ l) && enters_now m f i))) ∧
    (∀ i, i ∉ l →
      BIT_HAS i (loop (enter_body m cb) l f).state.ctx.config = BIT_HAS i f.ctx.config) ∧
    ∃ E : List Call, (loop (enter_body m cb) l f).state.log = f.log ++ E ∧
      (∀ c ∈ E, isEnterCall m c = true) ∧
      (E.filterMap Call.entryIdx).Sublist l ∧
      (∀ i ∈ E.filterMap Call.entryIdx, enters_now m f i = true) := by
  induction l generalizing f with
  | nil =>
    refine ⟨rfl, rfl, ?_, fun _ _ => rfl, [], by simp [loop, Flow.state], by simp, by simp,
      by simp⟩
    intro g hg i
    cases hg
    simp
  | cons a l ih =>
    obtain ⟨he, ht, hcfg, hca, B, hlog, hB, hidx⟩ := enter_body_spec m cb a f
    have ha : a ∉ l := (List.nodup_cons.1 hl).1
    have hsub : (B.filterMap Call.entryIdx).Sublist [a] := by
      rcases hidx with h | h
      · rw [h]; exact List.nil_sublist _
      · rw [h.1]
    have hmem : ∀ i ∈ B.filterMap Call.entryIdx, enters_now m f i = true := by
      intro i hi
      rcases hidx with h | h
      · rw [h] at hi; exact absurd hi (List.not_mem_nil i)
      · rw [h.1, List.mem_singleton] at hi; rw [hi]; exact h.2
    rw [loop]
    cases hb : enter_body m cb a f with
    | ret e f' =>
      rw [hb] at he ht hcfg hca hlog
      simp only [Flow.state] at he ht hcfg hca hlog ⊢
      refine ⟨he, ht, ?_, ?_, B, hlog, hB, hsub.trans (by simp), hmem⟩
      · intro g hg; cases hg
      · intro i hi
        exact hcfg i (fun e => hi (e ▸ List.mem_cons_self a l))
    | next f' =>
      rw [hb] at he ht hcfg hca hlog
      simp only [Flow.state] at he ht hcfg hca hlog
      obtain ⟨he', ht', hcfg', hout', E, hlog', hE, hsub', hmem'⟩ :=
        ih (List.nodup_cons.1 hl).2 f'
      have hen : ∀ i, i ≠ a → enters_now m f' i = enters_now m f i := by
        intro i hi
        unfold enters_now
        rw [he, hcfg i hi]
      refine ⟨he'.trans he, ht'.trans ht, ?_, ?_, B ++ E, ?_, ?_, ?_, ?_⟩
      · intro g hg i
        rw [hcfg' g hg i]
        by_cases hia : i = a
        · subst hia
          rw [hca]
          simp [ha]
        · rw [hcfg i hia, hen i hia]
          simp [hia]
      · intro i hi
        have hia : i ≠ a := fun e => hi (e ▸ List.mem_cons_self a l)
        have hil : i ∉ l := fun e => hi (List.mem_cons_of_mem a e)
        show BIT_HAS i (loop (enter_body m cb) l f').state.ctx.config = _
        rw [hout' i hil, hcfg i hia]
      · show (loop (enter_body m cb) l f').state.log = _
        rw [hlog', hlog, List.append_assoc]
      · intro c hc
        rcases List.mem_append.1 hc with h | h
        · exact hB c h
        · exact hE c h
      · rw [List.filterMap_append]
        exact List.Sublist.append hsub hsub'
      · intro i hi
        rw [List.filterMap_append] at hi
        rcases List.mem_append.1 hi with h | h
        · exact hmem i h
        · have hil : i ∈ l := hsub'.subset h
          have hia : i ≠ a := fun e => ha (e ▸ hil)
          rw [← hen i hia]
          exact hmem' i h

end EnterLoop

section ExecSpec
variable {H : Type}

theorem loop_errNonzero {σ : Type} (body : Nat → σ → Flow σ)
    (hb : ∀ i s, (body i s).errNonzero) (l : List Nat) (s : σ) :
    (loop body l s).errNonzero := by
  induction l generalizing s with
  | nil => intro e s' h; cases h
  | cons a l ih =>
    rw [loop]
    cases hbody : body a s with
    | next s' => exact ih s'
    | ret e s' =>
      intro e' s'' h
      cases h
      exact hb a s e s' hbody

theorem andThen_errNonzero {σ : Type} (r : Flow σ) (k : σ → Flow σ)
    (h1 : r.errNonzero) (h2 : ∀ s, (k s).errNonzero) : (r.andThen k).errNonzero := by
  cases r with
  | next s => exact h2 s
  | ret e s =>
    intro e' s' h
    cases h
    exact h1 e s rfl

theorem exit_body_errNonzero (m : scxml_machine H) (cb : scxml_callbacks H) (i : Nat)
    (f : Frame H) : (exit_body m cb i f).errNonzero := by
  unfold exit_body
  intro e s
  split
  · split
    · simp only []
      split
      · rename_i hne
        intro h
        cases h
        simpa using hne
      · intro h; cases h
    · intro h; cases h
  · intro h; cases h

theorem take_body_errNonzero (m : scxml_machine H) (cb : scxml_callbacks H) (i : Nat)
    (f : Frame H) : (take_body m cb i f).errNonzero := by
  unfold take_body
  intro e s
  split
  · split
    · simp only []
      split
      · rename_i hne
        intro h
        cases h
        simpa using hne
      · intro h; cases h
    · intro h; cases h
  · intro h; cases h

theorem enter_trans_body_errNonzero (m : scxml_machine H) (cb : scxml_callbacks H)
    (i j : Nat) (f : Frame H) : (enter_trans_body m cb i j f).errNonzero := by
  unfold enter_trans_body
  intro e s
  split
  · split
    · simp only []
      split
      · rename_i hne
        intro h
        cases h
        simpa using hne
      · intro h; cases h
    · intro h; cases h
  · intro h; cases h

theorem enter_on_entry_errNonzero (m : scxml_machine H) (cb : scxml_callbacks H) (i : Nat)
    (f : Frame H) : (enter_on_entry m cb i f).errNonzero := by
  unfold enter_on_entry
  intro e s
  split
  · simp only []
    split
    · rename_i hne
      intro h
      cases h
      simpa using hne
    · intro h; cases h
  · intro h; cases h

theorem enter_body_errNonzero (m : scxml_machine H) (cb : scxml_callbacks H) (i : Nat)
    (f : Frame H) : (enter_body m cb i f).errNonzero := by
  unfold enter_body
  split
  · split
    · intro e s h; cases h
    · apply andThen_errNonzero _ _ (enter_on_entry_errNonzero m cb i _)
      intro f3
      apply andThen_errNonzero _ _
        (loop_errNonzero _ (fun j s => enter_trans_body_errNonzero m cb i j s) _ _)
      intro f4 e s h
      cases h
  · intro e s h; cases h

theorem bool_enter_identity (c x e p : Bool) :
    ((c && !x) || (e && !(c && !x) && !p)) = ((c && !x) || (e && !p)) := by
  cases c <;> cases x <;> cases e <;> cases p <;> rfl

/-- The three execution loops started in frame `f`: the log is extended by the `on_exit` calls
of a prefix of the descending state indices, then the `on_transition` calls of a prefix of the
ascending transition indices, then calls of `ENTER_STATES` whose `on_entry` indices form a
sublist of the ascending state indices.  When `SCXML_ERR_OK` is returned all three loops ran
to their end, the exit loop cleared exactly the states with `exits_now`, and the final config
is what is left after the exits together with the non-pseudo states of `entry_set`. -/
theorem exit_take_enter_spec (m : scxml_machine H) (cb : scxml_callbacks H) (f : Frame H) :
    (∃ (xs ts : List Nat) (E : List Call),
      xs <+: downFrom m.nr_states ∧ ts <+: upTo m.nr_transitions ∧
      (exit_take_enter m cb f).frame.log =
        f.log ++ exit_calls m f xs ++ take_calls m f ts ++ E ∧
      (∀ c ∈ E, isEnterCall m c = true) ∧
      (E.filterMap Call.entryIdx).Sublist (upTo m.nr_states) ∧
      ((exit_take_enter m cb f).err = SCXML_ERR_OK →
        xs = downFrom m.nr_states ∧ ts = upTo m.nr_transitions)) ∧
    ((exit_take_enter m cb f).err = SCXML_ERR_OK →
      (∃ g, exit_states m cb f = Flow.next g ∧
        (∀ i, BIT_HAS i g.ctx.config =
          (BIT_HAS i f.ctx.config && !(decide (i < m.nr_states) && BIT_HAS i f.exit_set))) ∧
        g.log = f.log ++ exit_calls m f (downFrom m.nr_states)) ∧
      ∀ i, BIT_HAS i (exit_take_enter m cb f).frame.ctx.config =
        ((BIT_HAS i f.ctx.config && !(decide (i < m.nr_states) && BIT_HAS i f.exit_set)) ||
          (decide (i < m.nr_states) && BIT_HAS i f.entry_set && !isPseudoState m i))) := by
  obtain ⟨⟨xs, hxs, hxlog, hxnext⟩, hxcfg⟩ :=
    exit_loop_spec m cb (downFrom m.nr_states) (downFrom_nodup m.nr_states) f
  have hxerr := loop_errNonzero _ (fun i s => exit_body_errNonzero m cb i s)
    (downFrom m.nr_states) f
  have hxstep := loop_preserves Frame.execStep execStep_refl execStep_trans _
    (fun i s => exit_body_execStep m cb i s) (downFrom m.nr_states) f
  unfold exit_take_enter exit_states take_transitions enter_states
  cases hx : loop (exit_body m cb) (downFrom m.nr_states) f with
  | ret e f1 =>
    rw [hx] at hxlog
    simp only [Flow.andThen, Flow.state] at hxlog ⊢
    refine ⟨⟨xs, [], [], hxs, List.nil_prefix, ?_, by simp, by simp, ?_⟩, ?_⟩
    · rw [hxlog]; simp [take_calls]
    · intro hok; exact absurd hok (hxerr e f1 hx)
    · intro hok; exact absurd hok (hxerr e f1 hx)
  | next f1 =>
    rw [hx] at hxlog hxstep
    simp only [Flow.state] at hxlog hxstep
    have hxs' : xs = downFrom m.nr_states := hxnext f1 hx
    have hc1 := hxcfg f1 hx
    obtain ⟨htstep, ts, hts, htlog, htnext⟩ := take_loop_spec m cb (upTo m.nr_transitions) f1
    have hterr := loop_errNonzero _ (fun i s => take_body_errNonzero m cb i s)
      (upTo m.nr_transitions) f1
    have htc : take_calls m f1 ts = take_calls m f ts := by
      unfold take_calls
      rw [hxstep.2.2.2.2.1]
    simp only [Flow.andThen]
    cases ht : loop (take_body m cb) (upTo m.nr_transitions) f1 with
    | ret e f2 =>
      rw [ht] at htlog
      simp only [Flow.state] at htlog ⊢
      refine ⟨⟨xs, ts, [], hxs, hts, ?_, by simp, by simp, ?_⟩, ?_⟩
      · rw [htlog, hxlog, htc]; simp
      · intro hok; exact absurd hok (hterr e f2 ht)
      · intro hok; exact absurd hok (hterr e f2 ht)
    | next f2 =>
      rw [ht] at htlog htstep
      simp only [Flow.state] at htlog htstep
      have hts' : ts = upTo m.nr_transitions := htnext f2 ht
      obtain ⟨hee, _, hecfg, _, E, helog, hE, hEsub, _⟩ :=
        enter_loop_spec m cb (upTo m.nr_states) (List.nodup_range m.nr_states) f2
      have heerr := loop_errNonzero _ (fun i s => enter_body_errNonzero m cb i s)
        (upTo m.nr_states) f2
      have hlogall : ∀ r : Flow (Frame H), r.state.log = f2.log ++ E →
          r.state.log = f.log ++ exit_calls m f xs ++ take_calls m f ts ++ E := by
        intro r hr
        rw [hr, htlog, hxlog, htc]
      simp only []
      cases he : loop (enter_body m cb) (upTo m.nr_states) f2 with
      | ret e f3 =>
        rw [he] at helog
        simp only [Flow.state] at helog ⊢
        refine ⟨⟨xs, ts, E, hxs, hts, ?_, hE, hEsub, ?_⟩, ?_⟩
        · have := hlogall (Flow.ret e f3) helog
          exact this
        · intro hok; exact absurd hok (heerr e f3 he)
        · intro hok; exact absurd hok (heerr e f3 he)
      | next f3 =>
        rw [he] at helog
        simp only [Flow.state] at helog ⊢
        refine ⟨⟨xs, ts, E, hxs, hts, ?_, hE, hEsub, fun _ => ⟨hxs', hts'⟩⟩, ?_⟩
        · have := hlogall (Flow.next f3) helog
          exact this
        · intro _
          have hdown : ∀ i, decide (i ∈ downFrom m.nr_states) = decide (i < m.nr_states) := by
            intro i
            simp [mem_downFrom]
          have hup : ∀ i, decide (i ∈ upTo m.nr_states) = decide (i < m.nr_states) := by
            intro i
            simp [mem_upTo]
          refine ⟨⟨f1, rfl, ?_, ?_⟩, ?_⟩
          · intro i
            rw [hc1 i, hdown]
          · rw [hxlog, hxs']
          · intro i
            have h3 := hecfg f3 he i
            rw [h3, hup]
            unfold enters_now
            have hcfg2 : f2.ctx.config = f1.ctx.config := by rw [htstep.1]
            have hes2 : f2.entry_set = f.entry_set := by
              rw [htstep.2.2.2.2.2.1, hxstep.2.2.2.2.2.2.2.1]
            rw [hcfg2, hes2, hc1 i, hdown]
            by_cases hi : i < m.nr_states
            · simp only [hi, decide_True, Bool.true_and]
              exact bool_enter_identity _ _ _ _
            · simp [hi]

end ExecSpec

section PrePhase
variable {H : Type}

theorem foldl_invariant {σ α : Type} (P : σ → Prop) (body : σ → α → σ)
    (hb : ∀ s a, P s → P (body s a)) (l : List α) (s : σ) (h0 : P s) :
    P (l.foldl body s) := by
  induction l generalizing s with
  | nil => exact h0
  | cons a l ih => exact ih (body s a) (hb s a h0)

/-- A step on a context that is not final runs the three execution loops on the frame
`at_exit`. -/
theorem scxml_step_not_final (m : scxml_machine H) (cb : scxml_callbacks H) (stack : Locals)
    (ctx : scxml_ctx) (h : H) (hnf : ctx.flags &&& SCXML_CTX_TOP_LEVEL_FINAL = 0) :
    scxml_step m cb stack ctx h = exit_take_enter m cb (at_exit m cb stack ctx h) := by
  have hb : (ctx.flags &&& SCXML_CTX_TOP_LEVEL_FINAL != 0) = false := by simp [hnf]
  unfold scxml_step at_exit
  rw [hb]
  simp

theorem before_entry_set_pristine (m : scxml_machine H) (cb : scxml_callbacks H)
    (stack : Locals) (ctx : scxml_ctx) (h : H) (hp : ctx.flags = SCXML_CTX_PRISTINE) :
    before_entry_set m cb (Frame.start stack ctx h) =
      pristine_init m cb (clear_sets m (Frame.start stack ctx h)) := by
  unfold before_entry_set
  have : ((Frame.start stack ctx h).ctx.flags == SCXML_CTX_PRISTINE) = true := by
    show (ctx.flags == SCXML_CTX_PRISTINE) = true
    rw [hp]; rfl
  rw [if_pos this]

theorem before_entry_set_not_pristine (m : scxml_machine H) (cb : scxml_callbacks H)
    (stack : Locals) (ctx : scxml_ctx) (h : H)
    (hnp : (ctx.flags == SCXML_CTX_PRISTINE) = false) :
    before_entry_set m cb (Frame.start stack ctx h) =
      remember_history m (update_flags (selection m cb stack ctx h)) := by
  unfold before_entry_set
  have : ((Frame.start stack ctx h).ctx.flags == SCXML_CTX_PRISTINE) = false := hnp
  rw [this]
  rfl

theorem pristine_init_spec (m : scxml_machine H) (cb : scxml_callbacks H) (f : Frame H) :
    (pristine_init m cb f).ctx.config = f.ctx.config ∧
    (pristine_init m cb f).ctx.history = f.ctx.history ∧
    (pristine_init m cb f).ctx.initialized_data = f.ctx.initialized_data ∧
    (pristine_init m cb f).ctx.flags =
      f.ctx.flags ||| (SCXML_CTX_SPONTANEOUS ||| SCXML_CTX_INITIALIZED) ∧
    (pristine_init m cb f).trans_set = f.trans_set ∧
    (pristine_init m cb f).exit_set = f.exit_set ∧
    (pristine_init m cb f).target_set =
      bit_or f.target_set (m.states 0).completion (nr_states_bytes m) ∧
    ((pristine_init m cb f).log = f.log ∨ (pristine_init m cb f).log = f.log ++ [Call.script])
    := by
  unfold pristine_init
  cases m.script with
  | none => exact ⟨rfl, rfl, rfl, rfl, rfl, rfl, rfl, Or.inl rfl⟩
  | some prog => exact ⟨rfl, rfl, rfl, rfl, rfl, rfl, rfl, Or.inr rfl⟩

theorem update_flags_spec (f : Frame H) :
    (update_flags f).ctx.config = f.ctx.config ∧
    (update_flags f).ctx.history = f.ctx.history ∧
    (update_flags f).ctx.initialized_data = f.ctx.initialized_data ∧
    (update_flags f).log = f.log ∧
    (update_flags f).trans_set = f.trans_set ∧
    (update_flags f).exit_set = f.exit_set ∧
    (update_flags f).target_set = f.target_set ∧
    (update_flags f).host = f.host := by
  unfold update_flags
  split <;> exact ⟨rfl, rfl, rfl, rfl, rfl, rfl, rfl, rfl⟩

theorem selection_log (m : scxml_machine H) (cb : scxml_callbacks H) (stack : Locals)
    (ctx : scxml_ctx) (h : H) : ∀ c ∈ (selection m cb stack ctx h).log, c.isPre = true := by
  obtain ⟨l, _, _, hlog⟩ := select_scan_log m cb m.nr_transitions (at_select m cb stack ctx h)
  show ∀ c ∈ (select_scan m cb m.nr_transitions (at_select m cb stack ctx h)).log,
    c.isPre = true
  rw [hlog]
  intro c hc
  rcases List.mem_append.1 hc with h1 | h1
  · have := at_select_log m cb stack ctx h c h1
    cases c <;> simp [Call.isAcquire] at this <;> rfl
  · obtain ⟨u, _, hu⟩ := List.mem_map.1 h1
    rw [← hu]; rfl

/-- The frame at `EXIT_STATES`: config, history and initialized_data are still those of the
context and only calls of the phases before `EXIT_STATES` have been logged. -/
theorem at_exit_ctx (m : scxml_machine H) (cb : scxml_callbacks H) (stack : Locals)
    (ctx : scxml_ctx) (h : H) :
    (at_exit m cb stack ctx h).ctx.config = ctx.config ∧
    (at_exit m cb stack ctx h).ctx.initialized_data = ctx.initialized_data ∧
    ∀ c ∈ (at_exit m cb stack ctx h).log, c.isPre = true := by
  unfold at_exit
  obtain ⟨e1, _, e3, _, _, _⟩ := establish_entry_set_entryStep m
    (before_entry_set m cb (Frame.start stack ctx h))
  rw [e1, e3]
  by_cases hp : ctx.flags = SCXML_CTX_PRISTINE
  · rw [before_entry_set_pristine m cb stack ctx h hp]
    obtain ⟨p1, _, p3, _, _, _, _, p8⟩ :=
      pristine_init_spec m cb (clear_sets m (Frame.start stack ctx h))
    refine ⟨p1, p3, ?_⟩
    rcases p8 with p8 | p8 <;> rw [p8] <;> intro c hc
    · exact absurd hc (List.not_mem_nil c)
    · have : c = Call.script := by simpa [clear_sets, Frame.start] using hc
      rw [this]; rfl
  · have hnp : (ctx.flags == SCXML_CTX_PRISTINE) = false := by simpa using hp
    rw [before_entry_set_not_pristine m cb stack ctx h hnp]
    obtain ⟨_, r2, _, r4, _, _, r7, _⟩ :=
      remember_history_histStep m (update_flags (selection m cb stack ctx h))
    obtain ⟨u1, _, u3, u4, _⟩ := update_flags_spec (selection m cb stack ctx h)
    refine ⟨?_, ?_, ?_⟩
    · rw [r2, u1]
      exact (select_scan_config m cb _ _).1.trans (at_select_frame m cb stack ctx h).2.1
    · rw [r4, u3]
      exact (select_scan_config m cb _ _).2.2.2.2.1.trans
        (at_select_frame m cb stack ctx h).2.2.2.1
    · rw [r7, u4]
      exact selection_log m cb stack ctx h

/-- The local `exit_set` at `EXIT_STATES` of a step that ran the selection: state `i` is in it
exactly when it is in `config` and in the exit set of a selected transition. -/
theorem at_exit_exit_set (m : scxml_machine H) (cb : scxml_callbacks H) (stack : Locals)
    (ctx : scxml_ctx) (h : H) (hnp : (ctx.flags == SCXML_CTX_PRISTINE) = false)
    (i : Nat) (hi : i < m.nr_states) :
    BIT_HAS i (at_exit m cb stack ctx h).exit_set = true ↔
      BIT_HAS i ctx.config = true ∧
      ∃ t, t < m.nr_transitions ∧ selected m cb stack ctx h t = true ∧
        BIT_HAS i (m.transitions t).exit_set = true := by
  unfold at_exit
  rw [(establish_entry_set_entryStep m _).2.2.2.2.2,
    before_entry_set_not_pristine m cb stack ctx h hnp,
    (remember_history_histStep m _).2.2.2.2.2.2.2.2.2.2.1,
    (update_flags_spec _).2.2.2.2.2.1]
  show BIT_HAS i (bit_and (select_scan m cb m.nr_transitions
    (at_select m cb stack ctx h)).exit_set (select_scan m cb m.nr_transitions
    (at_select m cb stack ctx h)).ctx.config (nr_states_bytes m)) = true ↔ _
  rw [BIT_HAS_bit_and, if_pos (state_byte_lt m hi), Bool.and_eq_true,
    select_scan_exit_set m cb _ i _ (state_byte_lt m hi),
    (select_scan_config m cb _ _).1, (at_select_frame m cb stack ctx h).2.1]
  constructor
  · rintro ⟨⟨u, hu, h1, h2⟩, hc⟩
    refine ⟨hc, u, hu, ?_, h2⟩
    rw [selected_eq_takes m cb stack ctx h hnp u hu]; exact h1
  · rintro ⟨hc, u, hu, h1, h2⟩
    refine ⟨⟨u, hu, ?_, h2⟩, hc⟩
    rw [selected_eq_takes m cb stack ctx h hnp u hu] at h1; exact h1

end PrePhase

section ConfigTheorem
variable {H : Type}

/-- C3: if a step returns `SCXML_ERR_OK`, then for every state index `i` the new config
contains `i` exactly when `i` was in config and not in `E`, or `i` is in the expanded entry set
and is no history (deep or shallow) and no initial pseudo-state; here `E` is config
intersected with the union of `exit_set[t]` over the transitions `t` selected in the step, the
expanded entry set is the local `entry_set` after `ESTABLISH_ENTRY_SET` (still in place at the
return), and exactly the states of `E` are exited: `EXIT_STATES` runs to its end, clears exactly
their config bits and calls exactly their `on_exit` programs.  A context with pristine flags is
taken to have an empty config. -/
theorem step_config_update (m : scxml_machine H) (cb : scxml_callbacks H) (stack : Locals)
    (ctx : scxml_ctx) (h : H)
    (hnf : ctx.flags &&& SCXML_CTX_TOP_LEVEL_FINAL = 0)
    (hfresh : ctx.flags = SCXML_CTX_PRISTINE →
      ∀ i, i < m.nr_states → BIT_HAS i ctx.config = false)
    (hok : (scxml_step m cb stack ctx h).err = SCXML_ERR_OK) :
    (scxml_step m cb stack ctx h).frame.entry_set = (at_exit m cb stack ctx h).entry_set ∧
    (∀ i, i < m.nr_states →
      (exits_now (at_exit m cb stack ctx h) i = true ↔
        (BIT_HAS i ctx.config = true ∧
          ∃ t, t < m.nr_transitions ∧ selected m cb stack ctx h t = true ∧
            BIT_HAS i (m.transitions t).exit_set = true))) ∧
    (∃ g, exit_states m cb (at_exit m cb stack ctx h) = Flow.next g ∧
      (∀ i, i < m.nr_states →
        BIT_HAS i g.ctx.config =
          (BIT_HAS i ctx.config && !exits_now (at_exit m cb stack ctx h) i)) ∧
      g.log = (at_exit m cb stack ctx h).log ++
        exit_calls m (at_exit m cb stack ctx h) (downFrom m.nr_states)) ∧
    (∀ i, i < m.nr_states →
      (BIT_HAS i (scxml_step m cb stack ctx h).frame.ctx.config = true ↔
        ((BIT_HAS i ctx.config = true ∧
          ¬ (BIT_HAS i ctx.config = true ∧
            ∃ t, t < m.nr_transitions ∧ selected m cb stack ctx h t = true ∧
              BIT_HAS i (m.transitions t).exit_set = true)) ∨
        (BIT_HAS i (scxml_step m cb stack ctx h).frame.entry_set = true ∧
          isPseudoState m i = false)))) := by
  have hstep := scxml_step_not_final m cb stack ctx h hnf
  have hcfg := (at_exit_ctx m cb stack ctx h).1
  have hes : (scxml_step m cb stack ctx h).frame.entry_set =
      (at_exit m cb stack ctx h).entry_set := by
    rw [hstep]
    exact (exit_take_enter_execStep m cb _).2.2.2.2.2.2.2.1
  have hE : ∀ i, i < m.nr_states →
      (exits_now (at_exit m cb stack ctx h) i = true ↔
        (BIT_HAS i ctx.config = true ∧
          ∃ t, t < m.nr_transitions ∧ selected m cb stack ctx h t = true ∧
            BIT_HAS i (m.transitions t).exit_set = true)) := by
    intro i hi
    unfold exits_now
    rw [hcfg]
    by_cases hp : ctx.flags = SCXML_CTX_PRISTINE
    · have hc := hfresh hp i hi
      have hsel : ∀ t, selected m cb stack ctx h t = false := by
        intro t
        unfold selected
        rw [hp]; rfl
      rw [hc]
      simp [hsel]
    · have hnp : (ctx.flags == SCXML_CTX_PRISTINE) = false := by simpa using hp
      rw [Bool.and_eq_true, at_exit_exit_set m cb stack ctx h hnp i hi]
      tauto
  rw [hstep] at hok
  obtain ⟨⟨g, hg, hgc, hgl⟩, hfin⟩ := (exit_take_enter_spec m cb (at_exit m cb stack ctx h)).2 hok
  refine ⟨hes, hE, ⟨g, hg, ?_, hgl⟩, ?_⟩
  · intro i hi
    rw [hgc i, hcfg]
    unfold exits_now
    rw [hcfg]
    simp only [hi, decide_True, Bool.true_and]
    cases BIT_HAS i ctx.config <;> cases BIT_HAS i (at_exit m cb stack ctx h).exit_set <;> rfl
  · intro i hi
    rw [hes, ← hE i hi, hstep, hfin i, hcfg]
    unfold exits_now
    rw [hcfg]
    simp only [hi, decide_True, Bool.true_and]
    cases BIT_HAS i ctx.config <;> cases BIT_HAS i (at_exit m cb stack ctx h).exit_set <;>
      cases BIT_HAS i (at_exit m cb stack ctx h).entry_set <;> cases isPseudoState m i <;>
      simp

/-- Instance of C3: the two-state machine in configuration {root, A} with event 7 queued; the
step returns `SCXML_ERR_OK`, B is in the expanded entry set and is therefore in the new
config. -/
theorem step_config_update_witness :
    (ctxOf 2 3).flags &&& SCXML_CTX_TOP_LEVEL_FINAL = 0 ∧
    ((ctxOf 2 3).flags = SCXML_CTX_PRISTINE →
      ∀ i, i < twoStateMachine.nr_states → BIT_HAS i (ctxOf 2 3).config = false) ∧
    (scxml_step twoStateMachine (listHost false [7]) junkStack (ctxOf 2 3) []).err =
      SCXML_ERR_OK ∧
    BIT_HAS 2 (scxml_step twoStateMachine (listHost false [7]) junkStack
      (ctxOf 2 3) []).frame.ctx.config = true :=
  have h1 : (ctxOf 2 3).flags &&& SCXML_CTX_TOP_LEVEL_FINAL = 0 := by decide
  have h2 : (ctxOf 2 3).flags = SCXML_CTX_PRISTINE →
      ∀ i, i < twoStateMachine.nr_states → BIT_HAS i (ctxOf 2 3).config = false :=
    fun hp => absurd hp (by decide)
  have h3 : (scxml_step twoStateMachine (listHost false [7]) junkStack (ctxOf 2 3) []).err =
      SCXML_ERR_OK := by decide
  ⟨h1, h2, h3,
    ((step_config_update twoStateMachine (listHost false [7]) junkStack (ctxOf 2 3) []
      h1 h2 h3).2.2.2 2 (by decide)).2 (Or.inr ⟨by decide, by decide⟩)⟩

end ConfigTheorem

section EntryTransSet
variable {H : Type}

theorem firstIdx_some {p : Nat → Bool} {l : List Nat} {a : Nat}
    (h : firstIdx p l = some a) : p a = true ∧ a ∈ l := by
  unfold firstIdx at h
  exact ⟨List.find?_some h, List.mem_of_find?_eq_some h⟩

theorem isPseudoState_of_initial (m : scxml_machine H) (i : Nat)
    (h : (SCXML_STATE_MASK (m.states i).type == SCXML_STATE_INITIAL) = true) :
    isPseudoState m i = true := by
  unfold isPseudoState
  simp only [Bool.or_eq_true]
  exact Or.inr h

end EntryTransSet

section OrderTheorem
variable {H : Type}

end OrderTheorem

section HistoryCapture
variable {H : Type}

theorem remember_body_eq (m : scxml_machine H) (i : Nat) (f : Frame H) :
    (remember_body m i f).exit_set = f.exit_set ∧
    (remember_body m i f).ctx.config = f.ctx.config ∧
    (captured m f i = false → (remember_body m i f).ctx.history = f.ctx.history) ∧
    (captured m f i = true → ∀ b, b / 8 < nr_states_bytes m →
      BIT_HAS b (remember_body m i f).ctx.history =
        ((BIT_HAS b f.ctx.history && !BIT_HAS b (m.states i).completion) ||
          (BIT_HAS b (m.states i).completion && BIT_HAS b f.ctx.config))) ∧
    (∀ b, ¬ b / 8 < nr_states_bytes m →
      BIT_HAS b (remember_body m i f).ctx.history = BIT_HAS b f.ctx.history) := by
  unfold remember_body captured
  by_cases h1 : isHistoryType m i = true
  · by_cases h2 : BIT_HAS (m.states i).parent f.exit_set = true
    · rw [if_pos h1, if_pos h2]
      refine ⟨rfl, rfl, ?_, ?_, ?_⟩
      · intro hc; simp [h1, h2] at hc
      · intro _ b hb
        show BIT_HAS b (bit_or (bit_and_not _ _ _) (bit_and (bit_copy _ _ _) _ _) _) = _
        rw [BIT_HAS_bit_or, if_pos hb, BIT_HAS_bit_and_not, if_pos hb, BIT_HAS_bit_and,
          if_pos hb, BIT_HAS_bit_copy, if_pos hb]
      · intro b hb
        show BIT_HAS b (bit_or (bit_and_not _ _ _) (bit_and (bit_copy _ _ _) _ _) _) = _
        rw [BIT_HAS_bit_or, if_neg hb, BIT_HAS_bit_and_not, if_neg hb]
    · rw [if_pos h1, if_neg h2]
      refine ⟨rfl, rfl, fun _ => rfl, ?_, fun _ _ => rfl⟩
      intro hc; simp [h1, h2] at hc
  · rw [if_neg h1]
    refine ⟨rfl, rfl, fun _ => rfl, ?_, fun _ _ => rfl⟩
    intro hc; simp [h1] at hc

/-- The history after the first `k` iterations of `REMEMBER_HISTORY`: a bit inside the
completion of a captured history state holds the config bit, every other bit is unchanged. -/
theorem remember_prefix_spec (m : scxml_machine H) (k : Nat) (f : Frame H) :
    ((upTo k).foldl (fun g i => remember_body m i g) f).exit_set = f.exit_set ∧
    ((upTo k).foldl (fun g i => remember_body m i g) f).ctx.config = f.ctx.config ∧
    ∀ b,
      ((∃ i, i < k ∧ captured m f i = true ∧ b / 8 < nr_states_bytes m ∧
          BIT_HAS b (m.states i).completion = true) →
        BIT_HAS b ((upTo k).foldl (fun g i => remember_body m i g) f).ctx.history =
          BIT_HAS b f.ctx.config) ∧
      ((¬ ∃ i, i < k ∧ captured m f i = true ∧ b / 8 < nr_states_bytes m ∧
          BIT_HAS b (m.states i).completion = true) →
        BIT_HAS b ((upTo k).foldl (fun g i => remember_body m i g) f).ctx.history =
          BIT_HAS b f.ctx.history) := by
  induction k with
  | zero =>
    refine ⟨rfl, rfl, fun b => ⟨?_, fun _ => rfl⟩⟩
    rintro ⟨i, hi, _⟩
    omega
  | succ k ih =>
    obtain ⟨ihx, ihc, ihb⟩ := ih
    rw [upTo_succ, List.foldl_append, List.foldl_cons, List.foldl_nil]
    generalize (upTo k).foldl (fun g i => remember_body m i g) f = g at ihx ihc ihb
    obtain ⟨bx, bc, bno, byes, bout⟩ := remember_body_eq m k g
    have hcap : captured m g k = captured m f k := by
      unfold captured; rw [ihx]
    refine ⟨bx.trans ihx, bc.trans ihc, fun b => ?_⟩
    by_cases hk : captured m f k = true ∧ b / 8 < nr_states_bytes m ∧
        BIT_HAS b (m.states k).completion = true
    · -- iteration k rewrites bit b with the config bit
      obtain ⟨hk1, hk2, hk3⟩ := hk
      have hval : BIT_HAS b (remember_body m k g).ctx.history = BIT_HAS b f.ctx.config := by
        rw [byes (hcap.trans hk1) b hk2, hk3, ihc]
        simp
      refine ⟨fun _ => hval, fun hne => ?_⟩
      exact absurd ⟨k, by omega, hk1, hk2, hk3⟩ hne
    · -- iteration k leaves bit b alone
      have hsame : BIT_HAS b (remember_body m k g).ctx.history = BIT_HAS b g.ctx.history := by
        by_cases hc : captured m f k = true
        · by_cases hb : b / 8 < nr_states_bytes m
          · have h3 : BIT_HAS b (m.states k).completion = false := by
              by_contra h3
              exact hk ⟨hc, hb, by simpa using h3⟩
            rw [byes (hcap.trans hc) b hb, h3]
            simp
          · exact bout b hb
        · have hc' : captured m g k = false := by rw [hcap]; simpa using hc
          rw [bno hc']
      rw [hsame]
      constructor
      · rintro ⟨i, hi, h1, h2, h3⟩
        have hik : i ≠ k := by
          intro e
          subst e
          exact hk ⟨h1, h2, h3⟩
        exact (ihb b).1 ⟨i, by omega, h1, h2, h3⟩
      · intro hne
        apply (ihb b).2
        rintro ⟨i, hi, h1, h2, h3⟩
        exact hne ⟨i, by omega, h1, h2, h3⟩

theorem remember_history_bits (m : scxml_machine H) (f : Frame H) (b : Nat) :
    ((∃ i, i < m.nr_states ∧ captured m f i = true ∧ b / 8 < nr_states_bytes m ∧
        BIT_HAS b (m.states i).completion = true) →
      BIT_HAS b (remember_history m f).ctx.history = BIT_HAS b f.ctx.config) ∧
    ((¬ ∃ i, i < m.nr_states ∧ captured m f i = true ∧ b / 8 < nr_states_bytes m ∧
        BIT_HAS b (m.states i).completion = true) →
      BIT_HAS b (remember_history m f).ctx.history = BIT_HAS b f.ctx.history) :=
  (remember_prefix_spec m m.nr_states f).2.2 b

theorem remember_history_none (m : scxml_machine H) (f : Frame H)
    (hnone : ∀ i, i < m.nr_states → captured m f i = false) :
    remember_history m f = f := by
  unfold remember_history
  apply foldl_skip
  intro i hi
  have hc := hnone i (mem_upTo.1 hi)
  unfold captured at hc
  unfold remember_body
  by_cases h1 : isHistoryType m i = true
  · rw [h1, Bool.true_and] at hc
    rw [if_pos h1, hc]
    rfl
  · rw [if_neg h1]

end HistoryCapture

set_option maxRecDepth 100000

section HistoryTheorem
variable {H : Type}

/-- C6: in a step that runs the selection (context neither final nor pristine),
`REMEMBER_HISTORY` starts from the config and history of the context and the exit set of the
step.  Each iteration for a history pseudo-state whose parent is in the exit set turns the
history bitset into `(history \ completion[h]) ∪ (completion[h] ∩ config)`, every other
iteration leaves it alone.  So at the return of the step a history bit inside the completion
of such a history state equals the config bit, every history bit outside the completion of
all of them is unchanged, and when no history state's parent is in the exit set the history
bitset is unchanged. -/
theorem history_capture (m : scxml_machine H) (cb : scxml_callbacks H) (stack : Locals)
    (ctx : scxml_ctx) (h : H)
    (hnf : ctx.flags &&& SCXML_CTX_TOP_LEVEL_FINAL = 0)
    (hnp : ctx.flags ≠ SCXML_CTX_PRISTINE) :
    (at_remember m cb stack ctx h).ctx.config = ctx.config ∧
    (at_remember m cb stack ctx h).ctx.history = ctx.history ∧
    (at_remember m cb stack ctx h).exit_set = (at_exit m cb stack ctx h).exit_set ∧
    (scxml_step m cb stack ctx h).frame.ctx.history =
      (remember_history m (at_remember m cb stack ctx h)).ctx.history ∧
    (∀ i g, captured m g i = true → ∀ b, b / 8 < nr_states_bytes m →
      BIT_HAS b (remember_body m i g).ctx.history =
        ((BIT_HAS b g.ctx.history && !BIT_HAS b (m.states i).completion) ||
          (BIT_HAS b (m.states i).completion && BIT_HAS b g.ctx.config))) ∧
    (∀ i g, captured m g i = false → (remember_body m i g).ctx.history = g.ctx.history) ∧
    (∀ b, (∃ i, i < m.nr_states ∧ captured m (at_remember m cb stack ctx h) i = true ∧
        b / 8 < nr_states_bytes m ∧ BIT_HAS b (m.states i).completion = true) →
      BIT_HAS b (scxml_step m cb stack ctx h).frame.ctx.history = BIT_HAS b ctx.config) ∧
    (∀ b, (¬ ∃ i, i < m.nr_states ∧ captured m (at_remember m cb stack ctx h) i = true ∧
        b / 8 < nr_states_bytes m ∧ BIT_HAS b (m.states i).completion = true) →
      BIT_HAS b (scxml_step m cb stack ctx h).frame.ctx.history = BIT_HAS b ctx.history) ∧
    ((∀ i, i < m.nr_states → captured m (at_remember m cb stack ctx h) i = false) →
      (scxml_step m cb stack ctx h).frame.ctx.history = ctx.history) := by
  have hnp' : (ctx.flags == SCXML_CTX_PRISTINE) = false := by simpa using hnp
  obtain ⟨u1, u2, _, _, _, u6, _, _⟩ := update_flags_spec (selection m cb stack ctx h)
  have hcfg : (at_remember m cb stack ctx h).ctx.config = ctx.config := by
    unfold at_remember
    rw [u1]
    exact (select_scan_config m cb _ _).1.trans (at_select_frame m cb stack ctx h).2.1
  have hhist : (at_remember m cb stack ctx h).ctx.history = ctx.history := by
    unfold at_remember
    rw [u2]
    exact (select_scan_config m cb _ _).2.2.1.trans (at_select_frame m cb stack ctx h).2.2.1
  have hx : (at_remember m cb stack ctx h).exit_set = (at_exit m cb stack ctx h).exit_set := by
    unfold at_exit
    rw [(establish_entry_set_entryStep m _).2.2.2.2.2,
      before_entry_set_not_pristine m cb stack ctx h hnp',
      (remember_history_histStep m _).2.2.2.2.2.2.2.2.2.2.1]
    rfl
  have hfinal : (scxml_step m cb stack ctx h).frame.ctx.history =
      (remember_history m (at_remember m cb stack ctx h)).ctx.history := by
    rw [scxml_step_not_pristine m cb stack ctx h hnp' hnf,
      (exit_take_enter_execStep m cb _).1, (establish_entry_set_entryStep m _).1]
    rfl
  have hbits := remember_history_bits m (at_remember m cb stack ctx h)
  refine ⟨hcfg, hhist, hx, hfinal, ?_, ?_, ?_, ?_, ?_⟩
  · intro i g hc b hb
    exact (remember_body_eq m i g).2.2.2.1 hc b hb
  · intro i g hc
    exact (remember_body_eq m i g).2.2.1 hc
  · intro b hex
    rw [hfinal, ← hcfg]
    exact (hbits b).1 hex
  · intro b hex
    rw [hfinal, ← hhist]
    exact (hbits b).2 hex
  · intro hnone
    rw [hfinal, remember_history_none m _ hnone, hhist]

/-- Instance of C6: the history machine in configuration {root, C, B} with empty history and
the event of transition C → D queued.  C is exited, its history child H is captured, and the
history bit of B is set at the return. -/
theorem history_capture_witness :
    (ctxWith 2 0x13 0).flags &&& SCXML_CTX_TOP_LEVEL_FINAL = 0 ∧
    (ctxWith 2 0x13 0).flags ≠ SCXML_CTX_PRISTINE ∧
    BIT_HAS 4 (scxml_step (historyMachine SCXML_STATE_HISTORY_SHALLOW) (triggerHost [2])
      junkStack (ctxWith 2 0x13 0) []).frame.ctx.history = true :=
  have h1 : (ctxWith 2 0x13 0).flags &&& SCXML_CTX_TOP_LEVEL_FINAL = 0 := by decide
  have h2 : (ctxWith 2 0x13 0).flags ≠ SCXML_CTX_PRISTINE := by decide
  ⟨h1, h2,
    ((history_capture (historyMachine SCXML_STATE_HISTORY_SHALLOW) (triggerHost [2])
      junkStack (ctxWith 2 0x13 0) [] h1 h2).2.2.2.2.2.2.1 4
      ⟨2, by decide, by decide, by decide, by decide⟩).trans (by decide)⟩

end HistoryTheorem

section CompoundTheorem
variable {H : Type}

theorem descendant_sweep_succ (m : scxml_machine H) (n : Nat) (f : Frame H) :
    descendant_sweep m (n + 1) f = descend_body m n (descendant_sweep m n f) := by
  simp [descendant_sweep, upTo_succ, List.foldl_append]

theorem compound_needs_completion_iff (m : scxml_machine H) (i : Nat) (f : Frame H) :
    compound_needs_completion m i f = true ↔
      (¬ childIn m i f.entry_set ∧
        (¬ childIn m i f.ctx.config ∨ childIn m i f.exit_set)) := by
  unfold compound_needs_completion childIn
  simp only [Bool.and_eq_true, Bool.or_eq_true, Bool.not_eq_true', ← Bool.not_eq_true,
    bit_has_and_iff]

/-- C7: in the descendant sweep of entry-set expansion, the iteration for a compound state `i`
that is in `entry_set` adds `completion[i]` to `entry_set` if and only if no child of `i` is
already in `entry_set` and (no child of `i` is in `config` or some child of `i` is in
`exit_set`); otherwise the iteration changes nothing.  When it adds the completion, the new
`entry_set` is the old one or-ed with `completion[i]` and, if the completion names no child of
`i`, also with the ancestors of the first state after `i` named by the completion. -/
theorem descend_compound_spec (m : scxml_machine H) (i : Nat) (f : Frame H)
    (hin : BIT_HAS i f.entry_set = true)
    (hty : SCXML_STATE_MASK (m.states i).type = SCXML_STATE_COMPOUND) :
    (∀ f0, descendant_sweep m (i + 1) f0 = descend_body m i (descendant_sweep m i f0)) ∧
    ((¬ childIn m i f.entry_set ∧ (¬ childIn m i f.ctx.config ∨ childIn m i f.exit_set)) →
      (∀ b, b / 8 < nr_states_bytes m →
        (BIT_HAS b (m.states i).completion = true ∨ BIT_HAS b f.entry_set = true) →
        BIT_HAS b (descend_body m i f).entry_set = true) ∧
      (descend_body m i f).entry_set =
        (if bit_has_and (m.states i).completion (m.states i).children (nr_states_bytes m) then
          bit_or f.entry_set (m.states i).completion (nr_states_bytes m)
        else
          match firstIdx (fun j => BIT_HAS j (m.states i).completion)
              (fromTo (i + 1) m.nr_states) with
          | some j => bit_or (bit_or f.entry_set (m.states i).completion (nr_states_bytes m))
              (m.states j).ancestors (nr_states_bytes m)
          | none => bit_or f.entry_set (m.states i).completion (nr_states_bytes m)) ∧
      (descend_body m i f).trans_set = f.trans_set ∧
      (descend_body m i f).ctx = f.ctx) ∧
    (¬ (¬ childIn m i f.entry_set ∧ (¬ childIn m i f.ctx.config ∨ childIn m i f.exit_set)) →
      descend_body m i f = f) := by
  have hdisp : descend_body m i f = descend_compound m i f := by
    unfold descend_body
    rw [if_pos hin, hty]
    rfl
  refine ⟨fun f0 => descendant_sweep_succ m i f0, ?_, ?_⟩
  · intro hcond
    have hc := (compound_needs_completion_iff m i f).2 hcond
    rw [hdisp]
    unfold descend_compound
    rw [if_pos hc]
    have heq : (if (!bit_has_and (m.states i).completion (m.states i).children
          (nr_states_bytes m)) = true then
        match firstIdx (fun j => BIT_HAS j (m.states i).completion)
            (fromTo (i + 1) m.nr_states) with
        | some j => bit_or (bit_or f.entry_set (m.states i).completion (nr_states_bytes m))
            (m.states j).ancestors (nr_states_bytes m)
        | none => bit_or f.entry_set (m.states i).completion (nr_states_bytes m)
        else bit_or f.entry_set (m.states i).completion (nr_states_bytes m)) =
        (if bit_has_and (m.states i).completion (m.states i).children (nr_states_bytes m) then
          bit_or f.entry_set (m.states i).completion (nr_states_bytes m)
        else
          match firstIdx (fun j => BIT_HAS j (m.states i).completion)
              (fromTo (i + 1) m.nr_states) with
          | some j => bit_or (bit_or f.entry_set (m.states i).completion (nr_states_bytes m))
              (m.states j).ancestors (nr_states_bytes m)
          | none => bit_or f.entry_set (m.states i).completion (nr_states_bytes m)) := by
      cases bit_has_and (m.states i).completion (m.states i).children (nr_states_bytes m) <;>
        rfl
    refine ⟨?_, heq, rfl, rfl⟩
    intro b hb hor
    have hbase : BIT_HAS b (bit_or f.entry_set (m.states i).completion (nr_states_bytes m))
        = true := by
      rw [BIT_HAS_bit_or, if_pos hb, Bool.or_eq_true]
      exact hor.symm
    show BIT_HAS b (if (!bit_has_and (m.states i).completion (m.states i).children
          (nr_states_bytes m)) = true then
        match firstIdx (fun j => BIT_HAS j (m.states i).completion)
            (fromTo (i + 1) m.nr_states) with
        | some j => bit_or (bit_or f.entry_set (m.states i).completion (nr_states_bytes m))
            (m.states j).ancestors (nr_states_bytes m)
        | none => bit_or f.entry_set (m.states i).completion (nr_states_bytes m)
        else bit_or f.entry_set (m.states i).completion (nr_states_bytes m)) = true
    split
    · split
      · rw [BIT_HAS_bit_or, if_pos hb, hbase]; rfl
      · exact hbase
    · exact hbase
  · intro hcond
    have hc : compound_needs_completion m i f = false := by
      by_contra hne
      exact hcond ((compound_needs_completion_iff m i f).1 (by simpa using hne))
    rw [hdisp]
    unfold descend_compound
    rw [hc]
    rfl

/-- Instance of C7: in the history machine with `entry_set` = {root, C}, empty config and
empty exit set, the iteration for the compound state C adds its completion, the state A. -/
theorem descend_compound_spec_witness :
    BIT_HAS 1 (frameWith 0 0x03 0).entry_set = true ∧
    SCXML_STATE_MASK ((historyMachine SCXML_STATE_HISTORY_SHALLOW).states 1).type =
      SCXML_STATE_COMPOUND ∧
    BIT_HAS 3 (descend_body (historyMachine SCXML_STATE_HISTORY_SHALLOW) 1
      (frameWith 0 0x03 0)).entry_set = true ∧
    descend_body (historyMachine SCXML_STATE_HISTORY_SHALLOW) 1 (frameWith 0x13 0x13 0) =
      frameWith 0x13 0x13 0 :=
  have h1 : BIT_HAS 1 (frameWith 0 0x03 0).entry_set = true := by decide
  have h2 : SCXML_STATE_MASK ((historyMachine SCXML_STATE_HISTORY_SHALLOW).states 1).type =
      SCXML_STATE_COMPOUND := by decide
  have h3 : BIT_HAS 1 (frameWith 0x13 0x13 0).entry_set = true := by decide
  ⟨h1, h2,
    ((descend_compound_spec (historyMachine SCXML_STATE_HISTORY_SHALLOW) 1
      (frameWith 0 0x03 0) h1 h2).2.1
      ⟨by
          rintro ⟨b, hb, hb1, hb2⟩
          have hb8 : b < 8 := by
            have : nr_states_bytes (historyMachine SCXML_STATE_HISTORY_SHALLOW) = 1 := by decide
            rw [this] at hb; omega
          interval_cases b <;> revert hb1 hb2 <;> decide,
        Or.inl (by
          rintro ⟨b, hb, hb1, hb2⟩
          have hb8 : b < 8 := by
            have : nr_states_bytes (historyMachine SCXML_STATE_HISTORY_SHALLOW) = 1 := by decide
            rw [this] at hb; omega
          interval_cases b <;> revert hb1 hb2 <;> decide)⟩).1 3 (by decide)
      (Or.inl (by decide)),
    (descend_compound_spec (historyMachine SCXML_STATE_HISTORY_SHALLOW) 1
      (frameWith 0x13 0x13 0) h3 h2).2.2
      (fun hc => hc.1 ⟨4, by decide, by decide, by decide⟩)⟩

end CompoundTheorem

section PristineTheorem
variable {H : Type}

/-- C8: on a pristine context (flags = 0, empty config) the step calls neither
`dequeue_internal`, `dequeue_external` nor `is_enabled`; it does not run the selection, so no
transition is selected and `trans_set` is empty when entry-set expansion starts; the target set
of the expansion is `states[0].completion`; no state is exited; and at the return both
`SCXML_CTX_SPONTANEOUS` and `SCXML_CTX_INITIALIZED` are set. -/
theorem pristine_step (m : scxml_machine H) (cb : scxml_callbacks H) (stack : Locals)
    (ctx : scxml_ctx) (h : H)
    (hp : ctx.flags = SCXML_CTX_PRISTINE)
    (hempty : ∀ i, i < m.nr_states → BIT_HAS i ctx.config = false) :
    (∀ c ∈ (scxml_step m cb stack ctx h).frame.log,
      c ≠ Call.dequeue_internal ∧ c ≠ Call.dequeue_external ∧ ∀ t, c ≠ Call.is_enabled t) ∧
    (∀ t, selected m cb stack ctx h t = false) ∧
    (∀ t, t / 8 < nr_trans_bytes m →
      BIT_HAS t (before_entry_set m cb (Frame.start stack ctx h)).trans_set = false) ∧
    (∀ i, i / 8 < nr_states_bytes m →
      BIT_HAS i (before_entry_set m cb (Frame.start stack ctx h)).target_set =
        BIT_HAS i (m.states 0).completion) ∧
    scxml_step m cb stack ctx h =
      exit_take_enter m cb
        (establish_entry_set m (before_entry_set m cb (Frame.start stack ctx h))) ∧
    exit_states m cb (at_exit m cb stack ctx h) = Flow.next (at_exit m cb stack ctx h) ∧
    (scxml_step m cb stack ctx h).frame.ctx.flags &&& SCXML_CTX_SPONTANEOUS ≠ 0 ∧
    (scxml_step m cb stack ctx h).frame.ctx.flags &&& SCXML_CTX_INITIALIZED ≠ 0 := by
  have hnf : ctx.flags &&& SCXML_CTX_TOP_LEVEL_FINAL = 0 := by rw [hp]; rfl
  have hstep := scxml_step_not_final m cb stack ctx h hnf
  have hbefore := before_entry_set_pristine m cb stack ctx h hp
  obtain ⟨p1, _, _, p4, p5, _, p7, p8⟩ :=
    pristine_init_spec m cb (clear_sets m (Frame.start stack ctx h))
  obtain ⟨_, _, _, _, _, _, _, _, x9, lx, x10, x11⟩ :=
    exit_take_enter_execStep m cb (at_exit m cb stack ctx h)
  refine ⟨?_, ?_, ?_, ?_, ?_, ?_, ?_⟩
  · rw [hstep, x10]
    intro c hc
    have hkind : c = Call.script ∨ c.isExec = true := by
      rcases List.mem_append.1 hc with h1 | h1
      · left
        unfold at_exit at h1
        rw [(establish_entry_set_entryStep m _).2.2.1, hbefore] at h1
        rcases p8 with p8 | p8 <;> rw [p8] at h1
        · exact absurd h1 (List.not_mem_nil c)
        · simpa [clear_sets, Frame.start] using h1
      · exact Or.inr (x11 c h1)
    rcases hkind with hk | hk
    · rw [hk]
      exact ⟨by decide, by decide, fun t => by simp⟩
    · refine ⟨?_, ?_, ?_⟩
      · intro e; rw [e] at hk; exact absurd hk (by decide)
      · intro e; rw [e] at hk; exact absurd hk (by decide)
      · intro t e; rw [e] at hk; simp [Call.isExec] at hk
  · intro t
    unfold selected
    rw [hp]; rfl
  · intro t ht
    rw [hbefore, p5]
    show BIT_HAS t (bit_clear_all _ (nr_trans_bytes m)) = false
    rw [BIT_HAS_bit_clear_all, if_pos ht]
  · intro i hi
    rw [hbefore, p7, BIT_HAS_bit_or, if_pos hi]
    show (BIT_HAS i (bit_clear_all _ (nr_states_bytes m)) || _) = _
    rw [BIT_HAS_bit_clear_all, if_pos hi]
    rfl
  · rw [hstep]; rfl
  · unfold exit_states
    apply loop_skip
    intro i hi
    unfold exit_body
    rw [if_neg]
    rw [(at_exit_ctx m cb stack ctx h).1, hempty i (mem_downFrom.1 hi)]
    simp
  · have hfl : (at_exit m cb stack ctx h).ctx.flags = 3 := by
      unfold at_exit
      rw [(establish_entry_set_entryStep m _).1, hbefore, p4]
      show ctx.flags ||| _ = 3
      rw [hp]; rfl
    rw [hstep]
    rcases x9 with x9 | x9 <;> rw [x9, hfl] <;> exact ⟨by decide, by decide⟩

/-- Instance of C8: the first step of the history machine from the pristine context with dirty
scratch arrays enters root, C and A and returns with flags `SPONTANEOUS | INITIALIZED`. -/
theorem pristine_step_witness :
    (ctxWith 0 0 0).flags = SCXML_CTX_PRISTINE ∧
    (∀ i, i < (historyMachine SCXML_STATE_HISTORY_SHALLOW).nr_states →
      BIT_HAS i (ctxWith 0 0 0).config = false) ∧
    (scxml_step (historyMachine SCXML_STATE_HISTORY_SHALLOW) (triggerHost []) junkStack
      (ctxWith 0 0 0) []).frame.ctx.flags &&& SCXML_CTX_SPONTANEOUS ≠ 0 ∧
    (scxml_step (historyMachine SCXML_STATE_HISTORY_SHALLOW) (triggerHost []) junkStack
      (ctxWith 0 0 0) []).frame.ctx.config 0 = 0x0b :=
  have h1 : (ctxWith 0 0 0).flags = SCXML_CTX_PRISTINE := rfl
  have h2 : ∀ i, i < (historyMachine SCXML_STATE_HISTORY_SHALLOW).nr_states →
      BIT_HAS i (ctxWith 0 0 0).config = false := by
    intro i hi
    have h6 : i < 6 := hi
    interval_cases i <;> decide
  ⟨h1, h2,
    (pristine_step (historyMachine SCXML_STATE_HISTORY_SHALLOW) (triggerHost []) junkStack
      (ctxWith 0 0 0) [] h1 h2).2.2.2.2.2.2.1, by decide⟩

end PristineTheorem

section EntrySetLemmas
variable {H : Type}

theorem BIT_HAS_bit_or_left (d msk : Bitset) (n x : Nat) (hx : BIT_HAS x d = true) :
    BIT_HAS x (bit_or d msk n) = true := by
  rw [BIT_HAS_bit_or]
  split
  · rw [hx]; rfl
  · exact hx

theorem BIT_HAS_bit_or_right (d msk : Bitset) (n x : Nat) (hn : x / 8 < n)
    (hx : BIT_HAS x msk = true) : BIT_HAS x (bit_or d msk n) = true := by
  rw [BIT_HAS_bit_or, if_pos hn, hx]
  simp

theorem BIT_HAS_BIT_SET_AT_mono (d : Bitset) (j x : Nat) (hx : BIT_HAS x d = true) :
    BIT_HAS x (BIT_SET_AT j d) = true := by
  rw [BIT_HAS_BIT_SET_AT, hx]
  simp

theorem ancestor_sweep_upto_succ (m : scxml_machine H) (k : Nat) (f : Frame H) :
    ancestor_sweep_upto m (k + 1) f =
      (if BIT_HAS k (ancestor_sweep_upto m k f).entry_set then
        { ancestor_sweep_upto m k f with
          entry_set := bit_or (ancestor_sweep_upto m k f).entry_set (m.states k).ancestors
            (nr_states_bytes m) }
      else ancestor_sweep_upto m k f) := by
  simp [ancestor_sweep_upto, upTo_succ, List.foldl_append]

theorem ancestor_sweep_upto_mono (m : scxml_machine H) (k x : Nat) (f : Frame H)
    (hx : BIT_HAS x f.entry_set = true) :
    BIT_HAS x (ancestor_sweep_upto m k f).entry_set = true := by
  induction k with
  | zero => exact hx
  | succ k ih =>
    rw [ancestor_sweep_upto_succ]
    split
    · exact BIT_HAS_bit_or_left _ _ _ _ ih
    · exact ih

/-- The ancestor sweep adds the ancestors of every state of the entry set. -/
theorem ancestor_sweep_adds (m : scxml_machine H) (k i a : Nat) (f : Frame H)
    (hi : i < k) (hin : BIT_HAS i f.entry_set = true)
    (ha : a / 8 < nr_states_bytes m) (hanc : BIT_HAS a (m.states i).ancestors = true) :
    BIT_HAS a (ancestor_sweep_upto m k f).entry_set = true := by
  induction k with
  | zero => omega
  | succ k ih =>
    rw [ancestor_sweep_upto_succ]
    by_cases hik : i = k
    · subst hik
      rw [if_pos (ancestor_sweep_upto_mono m i i f hin)]
      exact BIT_HAS_bit_or_right _ _ _ _ ha hanc
    · have := ih (by omega)
      split
      · exact BIT_HAS_bit_or_left _ _ _ _ this
      · exact this

theorem ancestor_sweep_eq_upto (m : scxml_machine H) (f : Frame H) :
    ancestor_sweep m f = ancestor_sweep_upto m m.nr_states f := rfl

theorem mask_ne_initial_of_proper (m : scxml_machine H) (i : Nat)
    (h : isPseudoState m i = false) :
    (SCXML_STATE_MASK (m.states i).type == SCXML_STATE_INITIAL) = false := by
  unfold isPseudoState at h
  simp only [Bool.or_eq_false_iff] at h
  exact h.2

/-- An iteration of the descendant sweep removes no state from `entry_set` except the initial
pseudo-state it expands. -/
theorem descend_body_entry_mono (m : scxml_machine H) (i x : Nat) (f : Frame H)
    (hx : BIT_HAS x f.entry_set = true)
    (hty : (SCXML_STATE_MASK (m.states x).type == SCXML_STATE_INITIAL) = false) :
    BIT_HAS x (descend_body m i f).entry_set = true := by
  unfold descend_body
  split
  · split
    · exact BIT_HAS_bit_or_left _ _ _ _ hx
    · split
      · unfold descend_history
        split
        · unfold descend_history_default
          split
          · exact hx
          · simp only []
            split
            · split
              · exact BIT_HAS_bit_or_left _ _ _ _ (BIT_HAS_bit_or_left _ _ _ _ hx)
              · exact BIT_HAS_bit_or_left _ _ _ _ hx
            · exact BIT_HAS_bit_or_left _ _ _ _ hx
        · unfold descend_history_restore
          simp only []
          have hbase : BIT_HAS x (bit_or f.entry_set
              (bit_and (bit_copy f.tmp_states (m.states i).completion (nr_states_bytes m))
                f.ctx.history (nr_states_bytes m)) (nr_states_bytes m)) = true :=
            BIT_HAS_bit_or_left _ _ _ _ hx
          split
          · apply foldl_invariant (fun es : Bitset => BIT_HAS x es = true)
            · intro es j hes
              split
              · apply foldl_invariant (fun es : Bitset => BIT_HAS x es = true)
                · intro es' k hes'
                  split
                  · exact BIT_HAS_BIT_SET_AT_mono _ _ _ hes'
                  · exact hes'
                · exact hes
              · exact hes
            · exact hbase
          · exact hbase
      · split
        · rename_i hini
          have hxi : x ≠ i := by
            intro e
            rw [e, hini] at hty
            exact Bool.noConfusion hty
          unfold descend_initial
          apply foldl_invariant (fun g : Frame H => BIT_HAS x g.entry_set = true)
          · intro g j hg
            simp only []
            split
            · simp only []
              apply foldl_invariant (fun es : Bitset => BIT_HAS x es = true)
              · intro es k hes
                split
                · exact BIT_HAS_bit_or_left _ _ _ _ hes
                · exact hes
              · apply BIT_HAS_bit_or_left
                rw [BIT_HAS_BIT_CLEAR, hg]
                simp [hxi]
            · exact hg
          · exact hx
        · split
          · unfold descend_compound
            split
            · simp only []
              split
              · split
                · exact BIT_HAS_bit_or_left _ _ _ _ (BIT_HAS_bit_or_left _ _ _ _ hx)
                · exact BIT_HAS_bit_or_left _ _ _ _ hx
              · exact BIT_HAS_bit_or_left _ _ _ _ hx
            · exact hx
          · exact hx
  · exact hx

theorem descendant_sweep_range {P : Frame H → Prop} (m : scxml_machine H) (k n : Nat)
    (hkn : k ≤ n) (f : Frame H)
    (hb : ∀ i g, k ≤ i → i < n → P g → P (descend_body m i g))
    (h0 : P (descendant_sweep m k f)) : P (descendant_sweep m n f) := by
  induction n with
  | zero =>
    have : k = 0 := by omega
    rw [this] at h0
    exact h0
  | succ n ih =>
    by_cases hk : k = n + 1
    · rw [hk] at h0; exact h0
    · rw [descendant_sweep_succ]
      apply hb n _ (by omega) (by omega)
      exact ih (by omega) (fun i g h1 h2 hp => hb i g h1 (by omega) hp)

end EntrySetLemmas

section RestoreLemmas
variable {H : Type}

/-- The frame at `REMEMBER_HISTORY` of a step that ran the selection. -/
theorem at_remember_spec (m : scxml_machine H) (cb : scxml_callbacks H) (stack : Locals)
    (ctx : scxml_ctx) (h : H) (hnp : (ctx.flags == SCXML_CTX_PRISTINE) = false) :
    (at_remember m cb stack ctx h).ctx.config = ctx.config ∧
    (at_remember m cb stack ctx h).ctx.history = ctx.history ∧
    (at_remember m cb stack ctx h).exit_set = (at_exit m cb stack ctx h).exit_set ∧
    before_entry_set m cb (Frame.start stack ctx h) =
      remember_history m (at_remember m cb stack ctx h) ∧
    (∀ i, i / 8 < nr_states_bytes m →
      (BIT_HAS i (at_remember m cb stack ctx h).target_set = true ↔
        ∃ t, t < m.nr_transitions ∧ selected m cb stack ctx h t = true ∧
          BIT_HAS i (m.transitions t).target = true)) ∧
    (∀ t, BIT_HAS t (at_remember m cb stack ctx h).trans_set = selected m cb stack ctx h t) := by
  obtain ⟨u1, u2, _, _, u5, u6, u7, _⟩ := update_flags_spec (selection m cb stack ctx h)
  have hbefore := before_entry_set_not_pristine m cb stack ctx h hnp
  refine ⟨?_, ?_, ?_, hbefore, ?_, ?_⟩
  · unfold at_remember
    rw [u1]
    exact (select_scan_config m cb _ _).1.trans (at_select_frame m cb stack ctx h).2.1
  · unfold at_remember
    rw [u2]
    exact (select_scan_config m cb _ _).2.2.1.trans (at_select_frame m cb stack ctx h).2.2.1
  · unfold at_exit
    rw [(establish_entry_set_entryStep m _).2.2.2.2.2, hbefore,
      (remember_history_histStep m _).2.2.2.2.2.2.2.2.2.2.1]
    rfl
  · intro i hi
    unfold at_remember
    rw [u7]
    show BIT_HAS i (select_scan m cb m.nr_transitions
      (at_select m cb stack ctx h)).target_set = true ↔ _
    rw [select_scan_target_set m cb _ i _ hi]
    constructor
    · rintro (h0 | ⟨u, hu, h1, h2⟩)
      · rw [(at_select_frame m cb stack ctx h).2.2.2.2.2, BIT_HAS_bit_clear_all, if_pos hi] at h0
        exact absurd h0 Bool.false_ne_true
      · refine ⟨u, hu, ?_, h2⟩
        rw [selected_eq_takes m cb stack ctx h hnp u hu]; exact h1
    · rintro ⟨u, hu, h1, h2⟩
      rw [selected_eq_takes m cb stack ctx h hnp u hu] at h1
      exact Or.inr ⟨u, hu, h1, h2⟩
  · intro t
    unfold at_remember
    rw [u5, selected_eq m cb stack ctx h hnp]
    rfl

end RestoreLemmas

section RoundTrip
variable {H : Type}

theorem step_history_final (m : scxml_machine H) (cb : scxml_callbacks H) (stack : Locals)
    (ctx : scxml_ctx) (h : H) (hnf : ctx.flags &&& SCXML_CTX_TOP_LEVEL_FINAL = 0) :
    (scxml_step m cb stack ctx h).frame.ctx.history =
      (before_entry_set m cb (Frame.start stack ctx h)).ctx.history ∧
    (scxml_step m cb stack ctx h).frame.trans_set = (at_exit m cb stack ctx h).trans_set := by
  rw [scxml_step_not_final m cb stack ctx h hnf]
  refine ⟨?_, (exit_take_enter_execStep m cb _).2.2.2.2.1⟩
  rw [(exit_take_enter_execStep m cb _).1]
  unfold at_exit
  rw [(establish_entry_set_entryStep m _).1]

end RoundTrip

section RoundTripWitness

end RoundTripWitness


section InvocationLemmas
variable {H : Type}

/-- One iteration of the `// manage invocations` loop: config is kept, bit `k` of invocations
becomes bit `k` of config, the other bits of invocations are kept, and the call made is
`invoke_call`. -/
theorem manage_invocations_body_spec (m : scxml_machine H) (cb : scxml_callbacks H) (k : Nat)
    (f : Frame H) :
    (manage_invocations_body m cb k f).ctx.config = f.ctx.config ∧
    (∀ i, BIT_HAS i (manage_invocations_body m cb k f).ctx.invocations =
      if i = k then BIT_HAS k f.ctx.config else BIT_HAS i f.ctx.invocations) ∧
    (manage_invocations_body m cb k f).log = f.log ++ invoke_call m f.ctx k := by
  unfold manage_invocations_body invoke_step uninvoke_step call_invoke invoke_call
  cases hc : BIT_HAS k f.ctx.config <;> cases hv : BIT_HAS k f.ctx.invocations <;>
    cases hp : (m.states k).invoke <;>
    simp [hc, hv, BIT_HAS_BIT_SET_AT, BIT_HAS_BIT_CLEAR] <;>
    intro i <;> by_cases hik : i = k <;> simp [hik, hc, hv]

end InvocationLemmas


section InvocationTheorem
variable {H : Type}

theorem invoke_call_congr (m : scxml_machine H) (c1 c2 : scxml_ctx) (k : Nat)
    (hc : BIT_HAS k c1.config = BIT_HAS k c2.config)
    (hv : BIT_HAS k c1.invocations = BIT_HAS k c2.invocations) :
    invoke_call m c1 k = invoke_call m c2 k := by
  unfold invoke_call
  rw [hc, hv]

/-- The `// manage invocations` loop over the first `k` states. -/
theorem manage_invocations_prefix (m : scxml_machine H) (cb : scxml_callbacks H) (f : Frame H)
    (k : Nat) :
    ((upTo k).foldl (fun f i => manage_invocations_body m cb i f) f).ctx.config =
      f.ctx.config ∧
    (∀ i, BIT_HAS i ((upTo k).foldl (fun f i => manage_invocations_body m cb i f)
        f).ctx.invocations =
      if i < k then BIT_HAS i f.ctx.config else BIT_HAS i f.ctx.invocations) ∧
    ((upTo k).foldl (fun f i => manage_invocations_body m cb i f) f).log =
      f.log ++ invoke_calls m f.ctx k := by
  induction k with
  | zero => simp [upTo, invoke_calls]
  | succ k ih =>
    obtain ⟨ihc, ihv, ihl⟩ := ih
    rw [upTo_succ, List.foldl_append]
    simp only [List.foldl_cons, List.foldl_nil]
    obtain ⟨bc, bv, bl⟩ := manage_invocations_body_spec m cb k
      ((upTo k).foldl (fun f i => manage_invocations_body m cb i f) f)
    refine ⟨bc.trans ihc, ?_, ?_⟩
    · intro i
      rw [bv i, ihc]
      by_cases hik : i = k
      · simp [hik]
      · rw [if_neg hik, ihv i]
        by_cases hlt : i < k
        · rw [if_pos hlt, if_pos (by omega)]
        · rw [if_neg hlt, if_neg (by omega)]
    · rw [bl, ihl, invoke_calls, List.append_assoc]
      congr 1
      congr 1
      apply invoke_call_congr
      · rw [ihc]
      · rw [ihv k, if_neg (Nat.lt_irrefl k)]

theorem mem_invoke_call (m : scxml_machine H) (ctx : scxml_ctx) (k i u : Nat) :
    Call.invoke i u ∈ invoke_call m ctx k ↔
      i = k ∧ (m.states i).invoke.isSome = true ∧
      ((u = 1 ∧ BIT_HAS i ctx.invocations = true ∧ BIT_HAS i ctx.config = false) ∨
       (u = 0 ∧ BIT_HAS i ctx.config = true ∧ BIT_HAS i ctx.invocations = false)) := by
  unfold invoke_call
  constructor
  · intro hmem
    cases hp : (m.states k).invoke with
    | none => simp [hp] at hmem
    | some p =>
      cases hc : BIT_HAS k ctx.config <;> cases hv : BIT_HAS k ctx.invocations <;>
        simp [hp, hc, hv] at hmem
      · obtain ⟨e1, e2⟩ := hmem
        subst e1; subst e2
        exact ⟨rfl, by simp [hp], Or.inl ⟨rfl, hv, hc⟩⟩
      · obtain ⟨e1, e2⟩ := hmem
        subst e1; subst e2
        exact ⟨rfl, by simp [hp], Or.inr ⟨rfl, hc, hv⟩⟩
  · rintro ⟨e, hs, hcase⟩
    subst e
    rw [if_pos hs]
    rcases hcase with ⟨hu, hv, hc⟩ | ⟨hu, hc, hv⟩
    · subst hu; simp [hc, hv]
    · subst hu; simp [hc, hv]

theorem mem_invoke_calls (m : scxml_machine H) (ctx : scxml_ctx) (k i u : Nat) :
    Call.invoke i u ∈ invoke_calls m ctx k ↔
      i < k ∧ (m.states i).invoke.isSome = true ∧
      ((u = 1 ∧ BIT_HAS i ctx.invocations = true ∧ BIT_HAS i ctx.config = false) ∨
       (u = 0 ∧ BIT_HAS i ctx.config = true ∧ BIT_HAS i ctx.invocations = false)) := by
  induction k with
  | zero => simp [invoke_calls]
  | succ k ih =>
    rw [invoke_calls, List.mem_append, ih, mem_invoke_call]
    constructor
    · rintro (⟨h1, h2⟩ | ⟨h1, h2⟩)
      · exact ⟨by omega, h2⟩
      · exact ⟨by omega, h2⟩
    · rintro ⟨h1, h2⟩
      by_cases hik : i = k
      · exact Or.inr ⟨hik, h2⟩
      · exact Or.inl ⟨by omega, h2⟩

end InvocationTheorem


section InvocationClaim
variable {H : Type}

/-- After `SELECT_TRANSITIONS` has been reached, a step writes `ctx->invocations` no more and
calls no `invoke` program and no dequeue callback. -/
theorem step_after_select (m : scxml_machine H) (cb : scxml_callbacks H) (stack : Locals)
    (ctx : scxml_ctx) (h : H) (hnf : ctx.flags &&& SCXML_CTX_TOP_LEVEL_FINAL = 0)
    (hnp : (ctx.flags == SCXML_CTX_PRISTINE) = false) :
    (scxml_step m cb stack ctx h).frame.ctx.invocations =
      (at_select m cb stack ctx h).ctx.invocations ∧
    ∃ L : List Call, (scxml_step m cb stack ctx h).frame.log =
        (at_select m cb stack ctx h).log ++ L ∧ ∀ c ∈ L, c.isAcquire = false := by
  rw [scxml_step_not_pristine m cb stack ctx h hnp hnf]
  obtain ⟨_, x2, _, _, _, _, _, _, _, lx, x10, x11⟩ := exit_take_enter_execStep m cb
    (establish_entry_set m (remember_history m (update_flags (selection m cb stack ctx h))))
  obtain ⟨e1, _, e3, _⟩ := establish_entry_set_entryStep m
    (remember_history m (update_flags (selection m cb stack ctx h)))
  obtain ⟨_, _, r3, _, _, _, r7, _⟩ :=
    remember_history_histStep m (update_flags (selection m cb stack ctx h))
  obtain ⟨ls, _, _, hls⟩ := select_scan_log m cb m.nr_transitions (at_select m cb stack ctx h)
  have hinv : (update_flags (selection m cb stack ctx h)).ctx.invocations =
      (at_select m cb stack ctx h).ctx.invocations := by
    have h1 : (update_flags (selection m cb stack ctx h)).ctx.invocations =
        (selection m cb stack ctx h).ctx.invocations := by
      unfold update_flags
      split <;> rfl
    rw [h1]
    exact (select_scan_config m cb m.nr_transitions (at_select m cb stack ctx h)).2.2.2.1
  have hlog : (update_flags (selection m cb stack ctx h)).log =
      (at_select m cb stack ctx h).log ++ ls.map Call.is_enabled := by
    rw [(update_flags_spec _).2.2.2.1]
    exact hls
  refine ⟨?_, ls.map Call.is_enabled ++ lx, ?_, ?_⟩
  · rw [x2, e1, r3, hinv]
  · rw [x10, e3, r7, hlog, List.append_assoc]
  · intro c hc
    rcases List.mem_append.1 hc with hc | hc
    · obtain ⟨u, _, hu⟩ := List.mem_map.1 hc
      rw [← hu]; rfl
    · have := x11 c hc
      cases c <;> simp [Call.isExec] at this <;> rfl

theorem invoke_calls_congr (m : scxml_machine H) (c1 c2 : scxml_ctx) (k : Nat)
    (hc : c1.config = c2.config) (hv : c1.invocations = c2.invocations) :
    invoke_calls m c1 k = invoke_calls m c2 k := by
  induction k with
  | zero => rfl
  | succ k ih =>
    rw [invoke_calls, invoke_calls, ih,
      invoke_call_congr m c1 c2 k (by rw [hc]) (by rw [hv])]

/-- The frame at `SELECT_TRANSITIONS` of a step that manages the invocations: SPONTANEOUS is
clear and the internal queue is empty. -/
theorem at_select_managed (m : scxml_machine H) (cb : scxml_callbacks H) (stack : Locals)
    (ctx : scxml_ctx) (h : H) (hns : ctx.flags &&& SCXML_CTX_SPONTANEOUS = 0)
    (hq : (cb.dequeue_internal ctx h).1 = none) :
    (∀ i, i < m.nr_states →
      BIT_HAS i (at_select m cb stack ctx h).ctx.invocations = BIT_HAS i ctx.config) ∧
    (at_select m cb stack ctx h).log =
      [Call.dequeue_internal] ++ invoke_calls m ctx m.nr_states ++ [Call.dequeue_external] := by
  have hs : ((clear_sets m (Frame.start stack ctx h)).ctx.flags &&& SCXML_CTX_SPONTANEOUS
      != 0) = false := by
    show (ctx.flags &&& SCXML_CTX_SPONTANEOUS != 0) = false
    simp [hns]
  have hq2 : (cb.dequeue_internal (clear_sets m (Frame.start stack ctx h)).ctx
      (clear_sets m (Frame.start stack ctx h)).host).1.isSome = false := by
    show (cb.dequeue_internal ctx h).1.isSome = false
    rw [hq]; rfl
  unfold at_select acquire_event
  rw [hs]
  simp only [Bool.false_eq_true, if_false, hq2]
  obtain ⟨pc, pv, pl⟩ := manage_invocations_prefix m cb
    { clear_sets m (Frame.start stack ctx h) with
      ctx := { (clear_sets m (Frame.start stack ctx h)).ctx with
        event := (cb.dequeue_internal (clear_sets m (Frame.start stack ctx h)).ctx
          (clear_sets m (Frame.start stack ctx h)).host).1 },
      host := (cb.dequeue_internal (clear_sets m (Frame.start stack ctx h)).ctx
          (clear_sets m (Frame.start stack ctx h)).host).2,
      log := (clear_sets m (Frame.start stack ctx h)).log ++ [Call.dequeue_internal] }
    m.nr_states
  constructor
  · intro i hi
    have := pv i
    rw [if_pos hi] at this
    exact this
  · show (manage_invocations m cb _).log ++ [Call.dequeue_external] = _
    unfold manage_invocations
    rw [pl]
    congr 1
    congr 1
    exact invoke_calls_congr m _ ctx m.nr_states rfl rfl

/-- C14: when a step reaches invocation management (context neither final nor pristine,
SPONTANEOUS clear, the internal queue empty), then afterwards -- at `SELECT_TRANSITIONS` and
still when the step returns -- the invocations bitset agrees with the config the step found on
every state index; the calls up to `SELECT_TRANSITIONS` are the internal dequeue, the `invoke`
calls of the loop in ascending state order and the external dequeue; and a state's `invoke`
program is called with `uninvoke = 1` exactly for the states that were in invocations and not
in config, and with `uninvoke = 0` exactly for the states that were in config and not in
invocations (a state without `invoke` program is only marked). -/
theorem manage_invocations_spec (m : scxml_machine H) (cb : scxml_callbacks H) (stack : Locals)
    (ctx : scxml_ctx) (h : H)
    (hnf : ctx.flags &&& SCXML_CTX_TOP_LEVEL_FINAL = 0)
    (hnp : ctx.flags ≠ SCXML_CTX_PRISTINE)
    (hns : ctx.flags &&& SCXML_CTX_SPONTANEOUS = 0)
    (hq : (cb.dequeue_internal ctx h).1 = none) :
    (∀ i, i < m.nr_states →
      BIT_HAS i (at_select m cb stack ctx h).ctx.invocations = BIT_HAS i ctx.config) ∧
    (∀ i, i < m.nr_states →
      BIT_HAS i (scxml_step m cb stack ctx h).frame.ctx.invocations = BIT_HAS i ctx.config) ∧
    (at_select m cb stack ctx h).log =
      [Call.dequeue_internal] ++ invoke_calls m ctx m.nr_states ++ [Call.dequeue_external] ∧
    (∀ i u, Call.invoke i u ∈ (scxml_step m cb stack ctx h).frame.log ↔
      i < m.nr_states ∧ (m.states i).invoke.isSome = true ∧
      ((u = 1 ∧ BIT_HAS i ctx.invocations = true ∧ BIT_HAS i ctx.config = false) ∨
       (u = 0 ∧ BIT_HAS i ctx.config = true ∧ BIT_HAS i ctx.invocations = false))) := by
  have hnp2 : (ctx.flags == SCXML_CTX_PRISTINE) = false := by simpa using hnp
  obtain ⟨hbits, hlog⟩ := at_select_managed m cb stack ctx h hns hq
  obtain ⟨hinv, L, hL, hLc⟩ := step_after_select m cb stack ctx h hnf hnp2
  refine ⟨hbits, ?_, hlog, ?_⟩
  · intro i hi
    rw [hinv]
    exact hbits i hi
  · intro i u
    rw [hL, hlog, ← mem_invoke_calls m ctx m.nr_states i u]
    simp only [List.mem_append, List.mem_singleton]
    constructor
    · rintro (((hc | hc) | hc) | hc)
      · exact absurd hc (by simp)
      · exact hc
      · exact absurd hc (by simp)
      · have := hLc _ hc
        simp [Call.isAcquire] at this
    · intro hc
      exact Or.inl (Or.inl (Or.inr hc))

end InvocationClaim


section InvocationWitness

/-- Instance of C14: the two-state machine with `invoke` programs in configuration {root, A}
with B still marked as invoked and no event queued; B is uninvoked, root and A are invoked. -/
theorem manage_invocations_spec_witness :
    (ctxInv 2 3 4).flags &&& SCXML_CTX_TOP_LEVEL_FINAL = 0 ∧
    (ctxInv 2 3 4).flags ≠ SCXML_CTX_PRISTINE ∧
    (ctxInv 2 3 4).flags &&& SCXML_CTX_SPONTANEOUS = 0 ∧
    ((listHost false []).dequeue_internal (ctxInv 2 3 4) []).1 = none ∧
    Call.invoke 2 1 ∈
      (scxml_step invokeMachine (listHost false []) junkStack (ctxInv 2 3 4) []).frame.log ∧
    (at_select invokeMachine (listHost false []) junkStack (ctxInv 2 3 4) []).log =
      [Call.dequeue_internal, Call.invoke 0 0, Call.invoke 1 0, Call.invoke 2 1,
        Call.dequeue_external] :=
  have h1 : (ctxInv 2 3 4).flags &&& SCXML_CTX_TOP_LEVEL_FINAL = 0 := by decide
  have h2 : (ctxInv 2 3 4).flags ≠ SCXML_CTX_PRISTINE := by decide
  have h3 : (ctxInv 2 3 4).flags &&& SCXML_CTX_SPONTANEOUS = 0 := by decide
  have h4 : ((listHost false []).dequeue_internal (ctxInv 2 3 4) []).1 = none := rfl
  ⟨h1, h2, h3, h4,
    ((manage_invocations_spec invokeMachine (listHost false []) junkStack (ctxInv 2 3 4) []
      h1 h2 h3 h4).2.2.2 2 1).2 ⟨by decide, rfl, Or.inl ⟨rfl, by decide, by decide⟩⟩,
    by decide⟩

end InvocationWitness


section TopLevelFinal
variable {H : Type}

/-- The block `// handle final states` writes the flags by the test
`states[i].ancestors[0] == 0x01` alone: it reads the first byte of the ancestors bitset. -/
theorem enter_final_flags (m : scxml_machine H) (cb : scxml_callbacks H) (i : Nat)
    (f : Frame H) :
    (enter_final m cb i f).ctx.flags =
      if SCXML_STATE_MASK (m.states i).type == SCXML_STATE_FINAL &&
          charValue cb.signedChar ((m.states i).ancestors 0) == 0x01 then
        f.ctx.flags ||| SCXML_CTX_TOP_LEVEL_FINAL
      else f.ctx.flags := by
  have hpar : ∀ (l : List Nat) (g : Frame H),
      (l.foldl (fun f j => enter_parallel_body m cb i j f) g).ctx.flags = g.ctx.flags := by
    intro l
    induction l with
    | nil => intro g; rfl
    | cons a l ih =>
      intro g
      rw [List.foldl_cons, ih]
      unfold enter_parallel_body
      split
      · simp only []
        split <;> rfl
      · rfl
  unfold enter_final
  cases ht : SCXML_STATE_MASK (m.states i).type == SCXML_STATE_FINAL
  · simp
  · simp only [if_true, Bool.true_and]
    rw [hpar]
    split <;> rfl

/-- C11, evaluation at the failing input: in the ten-state machine the final state F (9) has
the proper ancestors root (0) and S8 (8), yet the pristine step that enters F sets
`SCXML_CTX_TOP_LEVEL_FINAL` and raises no done event, because the first byte of
`ancestors[F]` is `0x01`. -/
theorem nested_final_sets_top_level_final :
    BIT_HAS 8 (nestedFinalMachine.states 9).ancestors = true ∧
    (nestedFinalMachine.states 9).parent = 8 ∧
    (scxml_step nestedFinalMachine (listHost false []) zeroStack (ctxOf 0 0) []).err =
      SCXML_ERR_OK ∧
    BIT_HAS 9 (scxml_step nestedFinalMachine (listHost false []) zeroStack
      (ctxOf 0 0) []).frame.ctx.config = true ∧
    (scxml_step nestedFinalMachine (listHost false []) zeroStack
      (ctxOf 0 0) []).frame.ctx.flags &&& SCXML_CTX_TOP_LEVEL_FINAL ≠ 0 ∧
    (scxml_step nestedFinalMachine (listHost false []) zeroStack
      (ctxOf 0 0) []).frame.log = [] := by
  decide

end TopLevelFinal


section DonedataLemmas
variable {H : Type}

theorem find_donedata_some (i : Nat) (l : List scxml_elem_donedata) (k0 k : Nat)
    (h : find_donedata i l k0 = some k) :
    k0 ≤ k ∧ ∃ d, l[k - k0]? = some d ∧ ELEM_DONEDATA_IS_SET d = true ∧ d.source = i ∧
      ∀ j, j < k - k0 →
        ∃ e, l[j]? = some e ∧ ELEM_DONEDATA_IS_SET e = true ∧ e.source ≠ i := by
  induction l generalizing k0 with
  | nil => simp [find_donedata] at h
  | cons d ds ih =>
    rw [find_donedata] at h
    by_cases hset : ELEM_DONEDATA_IS_SET d = true
    · rw [if_pos hset] at h
      by_cases hsrc : (d.source == i) = true
      · rw [if_pos hsrc] at h
        have hk : k0 = k := by simpa using h
        subst hk
        refine ⟨Nat.le_refl _, d, by simp, hset, by simpa using hsrc, ?_⟩
        intro j hj
        omega
      · rw [if_neg hsrc] at h
        obtain ⟨hle, e, he, hes, hei, hbefore⟩ := ih (k0 + 1) h
        have hidx : k - k0 = (k - (k0 + 1)) + 1 := by omega
        refine ⟨by omega, e, ?_, hes, hei, ?_⟩
        · rw [hidx, List.getElem?_cons_succ]; exact he
        · intro j hj
          cases j with
          | zero => exact ⟨d, by simp, hset, by simpa using hsrc⟩
          | succ j =>
            rw [List.getElem?_cons_succ]
            exact hbefore j (by omega)
    · rw [if_neg hset] at h
      simp at h

theorem find_donedata_none (i : Nat) (l : List scxml_elem_donedata) (k0 : Nat)
    (h : find_donedata i l k0 = none) :
    ∀ d ∈ l.takeWhile ELEM_DONEDATA_IS_SET, d.source ≠ i := by
  induction l generalizing k0 with
  | nil => simp
  | cons d ds ih =>
    rw [find_donedata] at h
    by_cases hset : ELEM_DONEDATA_IS_SET d = true
    · rw [if_pos hset] at h
      by_cases hsrc : (d.source == i) = true
      · rw [if_pos hsrc] at h
        simp at h
      · rw [if_neg hsrc] at h
        rw [List.takeWhile_cons_of_pos hset]
        intro e he
        rcases List.mem_cons.1 he with he | he
        · rw [he]; simpa using hsrc
        · exact ih (k0 + 1) h e he
    · rw [List.takeWhile_cons_of_neg hset]
      simp

/-- The calls of the parallel done detection for the entered state `i`: each is
`raise_done_event(ctx, &states[j], NULL)` for a parallel state `j` in `ancestors[i]`. -/
theorem enter_parallel_log (m : scxml_machine H) (cb : scxml_callbacks H) (i : Nat)
    (l : List Nat) (g : Frame H) :
    ∃ P : List Call,
      (l.foldl (fun f j => enter_parallel_body m cb i j f) g).log = g.log ++ P ∧
      ∀ c ∈ P, ∃ j, j ∈ l ∧ c = Call.raise_done_event j none ∧
        SCXML_STATE_MASK (m.states j).type = SCXML_STATE_PARALLEL ∧
        BIT_HAS j (m.states i).ancestors = true := by
  induction l generalizing g with
  | nil => exact ⟨[], by simp, by simp⟩
  | cons a l ih =>
    rw [List.foldl_cons]
    obtain ⟨P, hP, hPc⟩ := ih (enter_parallel_body m cb i a g)
    have hlift : ∀ c ∈ P, ∃ j, j ∈ a :: l ∧ c = Call.raise_done_event j none ∧
        SCXML_STATE_MASK (m.states j).type = SCXML_STATE_PARALLEL ∧
        BIT_HAS j (m.states i).ancestors = true := by
      intro c hc
      obtain ⟨j, hj, rest⟩ := hPc c hc
      exact ⟨j, List.mem_cons_of_mem a hj, rest⟩
    by_cases hcond : (SCXML_STATE_MASK (m.states a).type == SCXML_STATE_PARALLEL &&
        BIT_HAS a (m.states i).ancestors) = true
    · by_cases hany : bit_has_any cb.signedChar (parallel_remaining m a g)
          (nr_states_bytes m) = true
      · have hb : (enter_parallel_body m cb i a g).log = g.log := by
          unfold enter_parallel_body
          rw [if_pos hcond]
          simp [hany]
        exact ⟨P, by rw [hP, hb], hlift⟩
      · have hb : (enter_parallel_body m cb i a g).log =
            g.log ++ [Call.raise_done_event a none] := by
          unfold enter_parallel_body
          rw [if_pos hcond]
          simp [hany]
        refine ⟨Call.raise_done_event a none :: P, by rw [hP, hb]; simp, ?_⟩
        intro c hc
        rcases List.mem_cons.1 hc with hc | hc
        · simp only [Bool.and_eq_true, beq_iff_eq] at hcond
          exact ⟨a, List.mem_cons_self a l, hc, hcond.1, hcond.2⟩
        · exact hlift c hc
    · have hb : enter_parallel_body m cb i a g = g := by
        unfold enter_parallel_body
        rw [if_neg hcond]
      exact ⟨P, by rw [hP, hb], hlift⟩

end DonedataLemmas


section DoneEvent
variable {H : Type}

theorem noDone_refl (f : Frame H) : f.noDone f := ⟨[], by simp, by simp⟩

theorem noDone_trans (a b c : Frame H) (h1 : a.noDone b) (h2 : b.noDone c) : a.noDone c := by
  obtain ⟨B1, l1, d1⟩ := h1
  obtain ⟨B2, l2, d2⟩ := h2
  refine ⟨B1 ++ B2, by rw [l2, l1, List.append_assoc], ?_⟩
  intro c hc
  rcases List.mem_append.1 hc with h | h
  · exact d1 c h
  · exact d2 c h

theorem enter_init_data_noDone (m : scxml_machine H) (cb : scxml_callbacks H) (i : Nat)
    (f : Frame H) : f.noDone (enter_init_data m cb i f) := by
  unfold enter_init_data
  split
  · split
    · exact ⟨[Call.exec_content_init i], rfl, by simp [Call.isDone]⟩
    · exact ⟨[], by simp, by simp⟩
  · exact noDone_refl f

theorem enter_on_entry_noDone (m : scxml_machine H) (cb : scxml_callbacks H) (i : Nat)
    (f : Frame H) : f.noDone (enter_on_entry m cb i f).state := by
  rcases (enter_on_entry_spec m cb i f).2.2.2 with h | h
  · exact ⟨[], by rw [h]; simp, by simp⟩
  · exact ⟨[Call.on_entry i], h, by simp [Call.isDone]⟩

theorem enter_trans_body_noDone (m : scxml_machine H) (cb : scxml_callbacks H) (i j : Nat)
    (f : Frame H) : f.noDone (enter_trans_body m cb i j f).state := by
  unfold enter_trans_body
  split
  · split
    · simp only []
      split
      · exact ⟨[Call.on_transition j i], rfl, by simp [Call.isDone]⟩
      · exact ⟨[Call.on_transition j i], rfl, by simp [Call.isDone]⟩
    · exact noDone_refl f
  · exact noDone_refl f

/-- An iteration of `ENTER_STATES` that enters state `i` and does not return reaches the block
`// handle final states`; no done event has been raised in the iteration before it. -/
theorem enter_body_reaches_final (m : scxml_machine H) (cb : scxml_callbacks H) (i : Nat)
    (f g : Frame H) (hen : enters_now m f i = true)
    (hg : enter_body m cb i f = Flow.next g) :
    ∃ f4 : Frame H, g = enter_final m cb i f4 ∧ f.noDone f4 := by
  unfold enters_now at hen
  simp only [Bool.and_eq_true, Bool.not_eq_true'] at hen
  obtain ⟨⟨he, hc⟩, hps⟩ := hen
  unfold enter_body at hg
  rw [if_pos (by simp [he, hc]), if_neg (by simp [hps])] at hg
  simp only [] at hg
  have n1 : f.noDone (enter_init_data m cb i
      { f with ctx := { f.ctx with config := BIT_SET_AT i f.ctx.config } }) :=
    noDone_trans _ _ _ ⟨[], by simp, by simp⟩ (enter_init_data_noDone m cb i _)
  generalize enter_init_data m cb i
      { f with ctx := { f.ctx with config := BIT_SET_AT i f.ctx.config } } = f2 at hg n1
  have n2 := enter_on_entry_noDone m cb i f2
  cases h3 : enter_on_entry m cb i f2 with
  | ret e f3 => rw [h3] at hg; simp [Flow.andThen] at hg
  | next f3 =>
    rw [h3] at hg n2
    simp only [Flow.andThen, Flow.state] at hg n2
    have n3 := loop_preserves Frame.noDone noDone_refl noDone_trans
      (enter_trans_body m cb i) (fun j s => enter_trans_body_noDone m cb i j s)
      (upTo m.nr_transitions) f3
    cases h4 : loop (enter_trans_body m cb i) (upTo m.nr_transitions) f3 with
    | ret e f4 => rw [h4] at hg; simp at hg
    | next f4 =>
      rw [h4] at hg n3
      simp only [Flow.state] at n3
      simp only [Flow.next.injEq] at hg
      exact ⟨f4, hg.symm, noDone_trans _ _ _ (noDone_trans _ _ _ n1 n2) n3⟩

/-- The block `// handle final states` for a final state that fails the test
`ancestors[0] == 0x01`: it calls `raise_done_event` for the parent with the result of the
donedata scan, then runs the parallel done detection. -/
theorem enter_final_nested (m : scxml_machine H) (cb : scxml_callbacks H) (i : Nat)
    (f : Frame H) (hfin : SCXML_STATE_MASK (m.states i).type = SCXML_STATE_FINAL)
    (hnt : charValue cb.signedChar ((m.states i).ancestors 0) ≠ 0x01) :
    ∃ P : List Call,
      (enter_final m cb i f).log = f.log ++
        [Call.raise_done_event (m.states i).parent (find_donedata i m.donedata 0)] ++ P ∧
      ∀ c ∈ P, ∃ j, j < m.nr_states ∧ c = Call.raise_done_event j none ∧
        SCXML_STATE_MASK (m.states j).type = SCXML_STATE_PARALLEL ∧
        BIT_HAS j (m.states i).ancestors = true := by
  unfold enter_final
  rw [if_pos (by simp [hfin]), if_neg (by simpa using hnt)]
  obtain ⟨P, hP, hPc⟩ := enter_parallel_log m cb i (upTo m.nr_states)
    { f with
      host := (cb.raise_done_event f.ctx (m.states i).parent
        (find_donedata i m.donedata 0) f.host).2
      log := f.log ++ [Call.raise_done_event (m.states i).parent
        (find_donedata i m.donedata 0)] }
  refine ⟨P, hP, ?_⟩
  intro c hc
  obtain ⟨j, hj, rest⟩ := hPc c hc
  exact ⟨j, mem_upTo.1 hj, rest⟩

end DoneEvent


section DoneEventTheorem
variable {H : Type}

theorem mem_takeWhile_of_prefix {α : Type} (p : α → Bool) (l : List α) (k : Nat) (d : α)
    (hk : l[k]? = some d) (hd : p d = true)
    (hbefore : ∀ j, j < k → ∃ e, l[j]? = some e ∧ p e = true) :
    d ∈ l.takeWhile p := by
  induction l generalizing k with
  | nil => simp at hk
  | cons a l ih =>
    cases k with
    | zero =>
      have : a = d := by simpa using hk
      subst this
      rw [List.takeWhile_cons_of_pos hd]
      exact List.mem_cons_self _ _
    | succ k =>
      obtain ⟨e, he, hpe⟩ := hbefore 0 (by omega)
      have : a = e := by simpa using he
      subst this
      rw [List.takeWhile_cons_of_pos hpe]
      refine List.mem_cons_of_mem _ (ih k (by simpa using hk) ?_)
      intro j hj
      obtain ⟨e', he', hpe'⟩ := hbefore (j + 1) (by omega)
      exact ⟨e', by simpa using he', hpe'⟩

/-- Where the top-level test of the stepper (`ancestors[0] == 0x01`) fails for a final state
`i`: when `i` is entered and the iteration does not return with an error, the iteration
calls `raise_done_event` for `i`'s parent state, after the calls of data
initialisation, `on_entry` and pseudo transitions (none of which raises a done event) and
before the parallel done detection (whose calls are for parallel states in `ancestors[i]`
with `NULL` donedata); so the parent's done event is raised once when the parent is no parallel
state.  The donedata argument is the result of the table scan: the index `k` of the first
record with `source == i` among the records that precede the zeroed end record, and `NULL`
when no such record has `source == i`. -/
theorem raise_done_event_spec (m : scxml_machine H) (cb : scxml_callbacks H) (i : Nat)
    (f g : Frame H) (hen : enters_now m f i = true)
    (hg : enter_body m cb i f = Flow.next g)
    (hfin : SCXML_STATE_MASK (m.states i).type = SCXML_STATE_FINAL)
    (hnt : charValue cb.signedChar ((m.states i).ancestors 0) ≠ 0x01) :
    (∃ B P : List Call,
      g.log = f.log ++ B ++
        [Call.raise_done_event (m.states i).parent (find_donedata i m.donedata 0)] ++ P ∧
      (∀ c ∈ B, c.isDone = false) ∧
      (∀ c ∈ P, ∃ j, j < m.nr_states ∧ c = Call.raise_done_event j none ∧
        SCXML_STATE_MASK (m.states j).type = SCXML_STATE_PARALLEL ∧
        BIT_HAS j (m.states i).ancestors = true) ∧
      (SCXML_STATE_MASK (m.states (m.states i).parent).type ≠ SCXML_STATE_PARALLEL →
        ∀ c ∈ B ++ P, ∀ dd, c ≠ Call.raise_done_event (m.states i).parent dd)) ∧
    (∀ k, find_donedata i m.donedata 0 = some k →
      ∃ d, m.donedata[k]? = some d ∧ d ∈ donedata_records m ∧ d.source = i ∧
        ∀ j, j < k → ∃ e, m.donedata[j]? = some e ∧ e.source ≠ i) ∧
    (find_donedata i m.donedata 0 = none → ∀ d ∈ donedata_records m, d.source ≠ i) := by
  obtain ⟨f4, hf4, B, hB, hBd⟩ := enter_body_reaches_final m cb i f g hen hg
  obtain ⟨P, hP, hPc⟩ := enter_final_nested m cb i f4 hfin hnt
  refine ⟨⟨B, P, ?_, hBd, hPc, ?_⟩, ?_, ?_⟩
  · rw [hf4, hP, hB]
  · intro hpar c hc dd hcd
    rcases List.mem_append.1 hc with h | h
    · have := hBd c h
      rw [hcd] at this
      simp [Call.isDone] at this
    · obtain ⟨j, _, hcj, hty, _⟩ := hPc c h
      rw [hcd] at hcj
      simp only [Call.raise_done_event.injEq] at hcj
      rw [hcj.1] at hpar
      exact hpar hty
  · intro k hk
    obtain ⟨_, d, hd, hset, hsrc, hbefore⟩ := find_donedata_some i m.donedata 0 k hk
    simp only [Nat.sub_zero] at hd hbefore
    refine ⟨d, hd, ?_, hsrc, ?_⟩
    · apply mem_takeWhile_of_prefix ELEM_DONEDATA_IS_SET m.donedata k d hd hset
      intro j hj
      obtain ⟨e, he, hes, _⟩ := hbefore j hj
      exact ⟨e, he, hes⟩
    · intro j hj
      obtain ⟨e, he, _, hei⟩ := hbefore j hj
      exact ⟨e, he, hei⟩
  · intro hnone
    exact find_donedata_none i m.donedata 0 hnone

/-- Instance on `donedataMachine`: entering the final state F raises the done event of
its parent C once, with the donedata record 0, whose source is F. -/
theorem raise_done_event_spec_witness :
    enters_now donedataMachine donedataFrame 2 = true ∧
    SCXML_STATE_MASK (donedataMachine.states 2).type = SCXML_STATE_FINAL ∧
    charValue (listHost false []).signedChar ((donedataMachine.states 2).ancestors 0) ≠ 0x01 ∧
    (enter_body donedataMachine (listHost false []) 2 donedataFrame).state.log =
      [Call.raise_done_event 1 (some 0)] ∧
    (∃ d, donedataMachine.donedata[0]? = some d ∧ d.source = 2) :=
  have h1 : enters_now donedataMachine donedataFrame 2 = true := by decide
  have h2 : SCXML_STATE_MASK (donedataMachine.states 2).type = SCXML_STATE_FINAL := by decide
  have h3 : charValue (listHost false []).signedChar
      ((donedataMachine.states 2).ancestors 0) ≠ 0x01 := by decide
  have h4 : enter_body donedataMachine (listHost false []) 2 donedataFrame =
      Flow.next (enter_body donedataMachine (listHost false []) 2 donedataFrame).state := rfl
  have h5 : find_donedata 2 donedataMachine.donedata 0 = some 0 := by decide
  have hthm := raise_done_event_spec donedataMachine (listHost false []) 2 donedataFrame _
    h1 h4 h2 h3
  ⟨h1, h2, h3, by decide,
    (hthm.2.1 0 h5).elim fun d hd => ⟨d, hd.1, hd.2.2.1⟩⟩

end DoneEventTheorem


section ParallelDone

/-- C13, evaluation at the failing input: three steps of `regionMachine` from a pristine
context where plain `char` is signed, the third with the event that takes X → F.  When F is
entered the active descendants of P are R1, F, R2, F2 and A; removing the ancestors of the
final ones leaves A (state 7, not final), so `tmp_states` is the byte `0x80`; `bit_has_any`
reads it as -128 and answers 0, and `raise_done_event(P, NULL)` is called although A remains
active.  Where plain `char` is unsigned the same run raises only the done event of R1. -/
theorem parallel_done_with_state_seven :
    SCXML_STATE_MASK (regionMachine.states 7).type = SCXML_STATE_ATOMIC ∧
    BIT_HAS 1 (regionMachine.states 7).ancestors = true ∧
    (run regionMachine (listHost false [7]) [zeroStack, zeroStack, zeroStack]
      pristineCtx []).errs = [0, 0, 0] ∧
    BIT_HAS 7 (run regionMachine (listHost false [7]) [zeroStack, zeroStack, zeroStack]
      pristineCtx []).ctx.config = true ∧
    (run regionMachine (listHost false [7]) [zeroStack, zeroStack, zeroStack]
      pristineCtx []).log =
      [Call.raise_done_event 5 none, Call.is_enabled 0,
        Call.dequeue_internal, Call.dequeue_external, Call.is_enabled 0,
        Call.raise_done_event 2 none, Call.raise_done_event 1 none] ∧
    (run regionMachine (unsignedHost [7]) [zeroStack, zeroStack, zeroStack]
      pristineCtx []).log =
      [Call.raise_done_event 5 none, Call.is_enabled 0,
        Call.dequeue_internal, Call.dequeue_external, Call.is_enabled 0,
        Call.raise_done_event 2 none] := by
  decide

/-- Scenario 4 of the specification: in the step that takes X → F and M → F2 the done event
of P is raised once, after F2, the second final state, has been entered. -/
theorem two_region_done_once :
    (run twoRegionMachine (listHost false [7]) [zeroStack, zeroStack, zeroStack]
      pristineCtx []).log =
      [Call.is_enabled 0, Call.is_enabled 1,
        Call.dequeue_internal, Call.dequeue_external, Call.is_enabled 0, Call.is_enabled 1,
        Call.raise_done_event 2 none, Call.raise_done_event 5 none,
        Call.raise_done_event 1 none] ∧
    (run twoRegionMachine (listHost false [7]) [zeroStack, zeroStack, zeroStack]
      pristineCtx []).errs = [0, 0, 0] := by
  decide

end ParallelDone


section InitData
variable {H : Type}

theorem initKeep_refl (f : Frame H) : f.initKeep f := ⟨rfl, rfl, [], by simp, by simp⟩

theorem initKeep_trans (a b c : Frame H) (h1 : a.initKeep b) (h2 : b.initKeep c) :
    a.initKeep c := by
  obtain ⟨i1, e1, B1, l1, n1⟩ := h1
  obtain ⟨i2, e2, B2, l2, n2⟩ := h2
  refine ⟨i2.trans i1, e2.trans e1, B1 ++ B2, by rw [l2, l1, List.append_assoc], ?_⟩
  intro c hc
  rcases List.mem_append.1 hc with h | h
  · exact n1 c h
  · exact n2 c h

theorem exit_body_initKeep (m : scxml_machine H) (cb : scxml_callbacks H) (i : Nat)
    (f : Frame H) : f.initKeep (exit_body m cb i f).state := by
  unfold exit_body
  split
  · split
    · simp only []
      split
      · exact ⟨rfl, rfl, [Call.on_exit i], rfl, by simp [Call.initIdx]⟩
      · exact ⟨rfl, rfl, [Call.on_exit i], rfl, by simp [Call.initIdx]⟩
    · exact ⟨rfl, rfl, [], by simp [Flow.state], by simp⟩
  · exact initKeep_refl f

theorem take_body_initKeep (m : scxml_machine H) (cb : scxml_callbacks H) (i : Nat)
    (f : Frame H) : f.initKeep (take_body m cb i f).state := by
  unfold take_body
  split
  · split
    · simp only []
      split
      · exact ⟨rfl, rfl, [_], rfl, by simp [Call.initIdx]⟩
      · exact ⟨rfl, rfl, [_], rfl, by simp [Call.initIdx]⟩
    · exact initKeep_refl f
  · exact initKeep_refl f

theorem enter_on_entry_initKeep (m : scxml_machine H) (cb : scxml_callbacks H) (i : Nat)
    (f : Frame H) : f.initKeep (enter_on_entry m cb i f).state := by
  unfold enter_on_entry
  split
  · simp only []
    split
    · exact ⟨rfl, rfl, [Call.on_entry i], rfl, by simp [Call.initIdx]⟩
    · exact ⟨rfl, rfl, [Call.on_entry i], rfl, by simp [Call.initIdx]⟩
  · exact initKeep_refl f

theorem enter_trans_body_initKeep (m : scxml_machine H) (cb : scxml_callbacks H) (i j : Nat)
    (f : Frame H) : f.initKeep (enter_trans_body m cb i j f).state := by
  unfold enter_trans_body
  split
  · split
    · simp only []
      split
      · exact ⟨rfl, rfl, [Call.on_transition j i], rfl, by simp [Call.initIdx]⟩
      · exact ⟨rfl, rfl, [Call.on_transition j i], rfl, by simp [Call.initIdx]⟩
    · exact initKeep_refl f
  · exact initKeep_refl f

theorem enter_parallel_body_initKeep (m : scxml_machine H) (cb : scxml_callbacks H)
    (i j : Nat) (f : Frame H) : f.initKeep (enter_parallel_body m cb i j f) := by
  unfold enter_parallel_body
  split
  · simp only []
    split
    · exact ⟨rfl, rfl, [Call.raise_done_event j none], rfl, by simp [Call.initIdx]⟩
    · exact ⟨rfl, rfl, [], by simp, by simp⟩
  · exact initKeep_refl f

theorem enter_final_initKeep (m : scxml_machine H) (cb : scxml_callbacks H) (i : Nat)
    (f : Frame H) : f.initKeep (enter_final m cb i f) := by
  unfold enter_final
  split
  · apply initKeep_trans f _ _ _
      (foldl_preserves Frame.initKeep initKeep_refl initKeep_trans _
        (fun s a => enter_parallel_body_initKeep m cb i a s) _ _)
    split
    · exact ⟨rfl, rfl, [], by simp, by simp⟩
    · exact ⟨rfl, rfl, [_], rfl, by simp [Call.initIdx]⟩
  · exact initKeep_refl f

end InitData


section InitStep
variable {H : Type}

theorem filterMap_initIdx_none (B : List Call) (hB : ∀ c ∈ B, c.initIdx = none) :
    B.filterMap Call.initIdx = [] := by
  induction B with
  | nil => rfl
  | cons c B ih =>
    rw [List.filterMap_cons, hB c (List.mem_cons_self c B)]
    exact ih (fun c' hc' => hB c' (List.mem_cons_of_mem c hc'))

theorem initStep_refl (m : scxml_machine H) (cb : scxml_callbacks H) (f : Frame H) :
    f.initStep m cb f :=
  ⟨rfl, fun _ h => h, fun _ h => h, [], by simp, by simp, by simp⟩

theorem initStep_trans (m : scxml_machine H) (cb : scxml_callbacks H) (a b c : Frame H)
    (h1 : a.initStep m cb b) (h2 : b.initStep m cb c) : a.initStep m cb c := by
  obtain ⟨e1, c1, i1, E1, l1, n1, p1⟩ := h1
  obtain ⟨e2, c2, i2, E2, l2, n2, p2⟩ := h2
  refine ⟨e2.trans e1, fun j hj => c2 j (c1 j hj), fun j hj => i2 j (i1 j hj), E1 ++ E2,
    by rw [l2, l1, List.append_assoc], ?_, ?_⟩
  · rw [List.filterMap_append, List.nodup_append]
    refine ⟨n1, n2, ?_⟩
    intro x hx1 hx2
    have t1 := (p1 x hx1).2.2.1
    have t2 := (p2 x hx2).2.1
    rw [t1] at t2
    exact Bool.noConfusion t2
  · intro x hx
    rw [List.filterMap_append] at hx
    rcases List.mem_append.1 hx with hx | hx
    · obtain ⟨q1, q2, q3, q4, q5⟩ := p1 x hx
      exact ⟨q1, q2, i2 x q3, q4, q5⟩
    · obtain ⟨q1, q2, q3, q4, q5⟩ := p2 x hx
      refine ⟨?_, ?_, q3, q4, q5⟩
      · unfold enters_now at q1 ⊢
        rw [e1] at q1
        cases hc : BIT_HAS x a.ctx.config
        · cases hb : BIT_HAS x b.ctx.config
          · rw [hb] at q1; exact q1
          · rw [hb] at q1; simp at q1
        · rw [c1 x hc] at q1; simp at q1
      · cases hi : BIT_HAS x a.ctx.initialized_data
        · rfl
        · rw [i1 x hi] at q2; exact Bool.noConfusion q2

/-- A phase that keeps `initialized_data`, `entry_set` and config and logs no
`exec_content_init` call. -/
theorem initStep_of_keep (m : scxml_machine H) (cb : scxml_callbacks H) (f g : Frame H)
    (hk : f.initKeep g) (hc : ∀ j, BIT_HAS j f.ctx.config = true → BIT_HAS j g.ctx.config = true) :
    f.initStep m cb g := by
  obtain ⟨ki, ke, B, kl, kn⟩ := hk
  refine ⟨ke, hc, fun j hj => by rw [ki]; exact hj, B, kl, ?_, ?_⟩
  · rw [filterMap_initIdx_none B kn]; exact List.nodup_nil
  · rw [filterMap_initIdx_none B kn]; simp

/-- The part of an iteration of `ENTER_STATES` after `// initialize data`. -/
theorem enter_rest_initKeep (m : scxml_machine H) (cb : scxml_callbacks H) (i : Nat)
    (f2 : Frame H) :
    f2.initKeep ((enter_on_entry m cb i f2).andThen fun f3 =>
      (loop (enter_trans_body m cb i) (upTo m.nr_transitions) f3).andThen fun f4 =>
        Flow.next (enter_final m cb i f4)).state := by
  apply andThen_preserves Frame.initKeep initKeep_trans
  · exact enter_on_entry_initKeep m cb i f2
  · intro f3
    apply andThen_preserves Frame.initKeep initKeep_trans
    · exact loop_preserves Frame.initKeep initKeep_refl initKeep_trans
        (enter_trans_body m cb i) (fun j s => enter_trans_body_initKeep m cb i j s) _ f3
    · intro f4
      exact enter_final_initKeep m cb i f4

end InitStep


section InitEnter
variable {H : Type}

/-- The block `// initialize data` of `ENTER_STATES`: the bit of `i` ends up set, no other bit
changes, and `exec_content_init` is called at most once, only when the bit was clear and both
the data block and the callback are present. -/
theorem enter_init_data_spec (m : scxml_machine H) (cb : scxml_callbacks H) (i : Nat)
    (f : Frame H) :
    (enter_init_data m cb i f).entry_set = f.entry_set ∧
    (enter_init_data m cb i f).ctx.config = f.ctx.config ∧
    (∀ j, BIT_HAS j (enter_init_data m cb i f).ctx.initialized_data =
      (decide (j = i) || BIT_HAS j f.ctx.initialized_data)) ∧
    ((enter_init_data m cb i f).log = f.log ∨
     ((enter_init_data m cb i f).log = f.log ++ [Call.exec_content_init i] ∧
      BIT_HAS i f.ctx.initialized_data = false ∧ (m.states i).data.isSome = true ∧
      cb.exec_content_init.isSome = true)) := by
  cases hb : BIT_HAS i f.ctx.initialized_data
  · unfold enter_init_data
    cases hd : (m.states i).data <;> cases hc : cb.exec_content_init <;>
      simp [hb, BIT_HAS_BIT_SET_AT]
  · have heq : enter_init_data m cb i f = f := by
      unfold enter_init_data
      simp [hb]
    rw [heq]
    refine ⟨rfl, rfl, ?_, Or.inl rfl⟩
    intro j
    by_cases hji : j = i
    · subst hji; simp [hb]
    · simp [hji]

/-- One iteration of `ENTER_STATES` as a step on `initialized_data`. -/
theorem enter_body_initStep (m : scxml_machine H) (cb : scxml_callbacks H) (i : Nat)
    (f : Frame H) : f.initStep m cb (enter_body m cb i f).state := by
  obtain ⟨hes, _, hcj, hci, _⟩ := enter_body_spec m cb i f
  have hmono : ∀ j, BIT_HAS j f.ctx.config = true →
      BIT_HAS j (enter_body m cb i f).state.ctx.config = true := by
    intro j hj
    by_cases hji : j = i
    · subst hji; rw [hci, hj]; rfl
    · rw [hcj j hji]; exact hj
  by_cases hen : enters_now m f i = true
  · have hen' := hen
    unfold enters_now at hen'
    simp only [Bool.and_eq_true, Bool.not_eq_true'] at hen'
    obtain ⟨⟨he, hc⟩, hps⟩ := hen'
    have heq : enter_body m cb i f =
        ((enter_on_entry m cb i (enter_init_data m cb i
          { f with ctx := { f.ctx with config := BIT_SET_AT i f.ctx.config } })).andThen
          fun f3 => (loop (enter_trans_body m cb i) (upTo m.nr_transitions) f3).andThen
            fun f4 => Flow.next (enter_final m cb i f4)) := by
      unfold enter_body
      rw [if_pos (by simp [he, hc]), if_neg (by simp [hps])]
    obtain ⟨ki, _, B, kl, kn⟩ := enter_rest_initKeep m cb i (enter_init_data m cb i
      { f with ctx := { f.ctx with config := BIT_SET_AT i f.ctx.config } })
    obtain ⟨_, _, dbits, dlog⟩ := enter_init_data_spec m cb i
      { f with ctx := { f.ctx with config := BIT_SET_AT i f.ctx.config } }
    rw [← heq] at ki kl
    have hbits : ∀ j, BIT_HAS j (enter_body m cb i f).state.ctx.initialized_data =
        (decide (j = i) || BIT_HAS j f.ctx.initialized_data) := by
      intro j
      rw [ki]
      exact dbits j
    have hB := filterMap_initIdx_none B kn
    refine ⟨hes, hmono, ?_, ?_⟩
    · intro j hj
      rw [hbits j, hj]
      simp
    · rcases dlog with dlog | ⟨dlog, dclear, ddata, dcb⟩
      · refine ⟨B, by rw [kl, dlog], ?_, ?_⟩
        · rw [hB]; exact List.nodup_nil
        · rw [hB]; simp
      · refine ⟨Call.exec_content_init i :: B, by rw [kl, dlog]; simp, ?_, ?_⟩
        · rw [List.filterMap_cons]
          simp [Call.initIdx, hB]
        · intro x hx
          rw [List.filterMap_cons] at hx
          simp only [Call.initIdx, hB, List.mem_singleton] at hx
          subst hx
          refine ⟨hen, dclear, ?_, ddata, dcb⟩
          rw [hbits x]
          simp
  · have heq : enter_body m cb i f = Flow.next f := by
      unfold enters_now at hen
      unfold enter_body
      by_cases h1 : (BIT_HAS i f.entry_set && !BIT_HAS i f.ctx.config) = true
      · rw [if_pos h1]
        have : isPseudoState m i = true := by
          rw [h1] at hen
          simpa using hen
        rw [if_pos this]
      · rw [if_neg h1]
    rw [heq]
    exact initStep_refl m cb f

end InitEnter


section InitRun
variable {H : Type}

theorem mem_initIdx {l : List Call} {i : Nat} :
    i ∈ l.filterMap Call.initIdx ↔ Call.exec_content_init i ∈ l := by
  rw [List.mem_filterMap]
  constructor
  · rintro ⟨c, hc, hi⟩
    cases c <;> simp [Call.initIdx] at hi
    subst hi
    exact hc
  · intro h
    exact ⟨_, h, rfl⟩

theorem count_init_eq (l : List Call) (i : Nat) :
    l.count (Call.exec_content_init i) = (l.filterMap Call.initIdx).count i := by
  induction l with
  | nil => rfl
  | cons c l ih =>
    cases c <;> simp [List.filterMap_cons, Call.initIdx, List.count_cons, ih]

/-- The three execution loops as a step on `initialized_data`, from the frame at
`ENTER_STATES`. -/
theorem exit_take_enter_initStep (m : scxml_machine H) (cb : scxml_callbacks H)
    (f : Frame H) :
    f.initKeep ((exit_states m cb f).andThen fun f1 => take_transitions m cb f1).state ∧
    Frame.initStep m cb
      ((exit_states m cb f).andThen fun f1 => take_transitions m cb f1).state
      (exit_take_enter m cb f).frame := by
  constructor
  · apply andThen_preserves Frame.initKeep initKeep_trans
    · exact loop_preserves Frame.initKeep initKeep_refl initKeep_trans _
        (fun i s => exit_body_initKeep m cb i s) _ f
    · intro f1
      exact loop_preserves Frame.initKeep initKeep_refl initKeep_trans _
        (fun i s => take_body_initKeep m cb i s) _ f1
  · unfold exit_take_enter
    cases h1 : exit_states m cb f with
    | ret e s => simp only [Flow.andThen, Flow.state]; exact initStep_refl m cb s
    | next f1 =>
      simp only [Flow.andThen]
      cases h2 : take_transitions m cb f1 with
      | ret e s => simp only [Flow.andThen, Flow.state]; exact initStep_refl m cb s
      | next f2 =>
        simp only [Flow.andThen, Flow.state]
        have h3 := loop_preserves (Frame.initStep m cb) (initStep_refl m cb)
          (initStep_trans m cb) (enter_body m cb)
          (fun i s => enter_body_initStep m cb i s) (upTo m.nr_states) f2
        unfold enter_states
        cases h4 : loop (enter_body m cb) (upTo m.nr_states) f2 with
        | ret e s => rw [h4] at h3; exact h3
        | next s => rw [h4] at h3; exact h3

/-- One call of `scxml_step` as a step on `initialized_data`: no bit is cleared, every
`exec_content_init` call is for a different state, and a state for which it is called is
entered at `ENTER_STATES`, has a data block, had its bit clear before the call and has it set
at the return. -/
theorem step_init_data (m : scxml_machine H) (cb : scxml_callbacks H) (stack : Locals)
    (ctx : scxml_ctx) (h : H) :
    (∀ j, BIT_HAS j ctx.initialized_data = true →
      BIT_HAS j (scxml_step m cb stack ctx h).frame.ctx.initialized_data = true) ∧
    ((scxml_step m cb stack ctx h).frame.log.filterMap Call.initIdx).Nodup ∧
    ∀ i ∈ (scxml_step m cb stack ctx h).frame.log.filterMap Call.initIdx,
      enters_now m (at_enter m cb stack ctx h) i = true ∧
      BIT_HAS i ctx.initialized_data = false ∧
      BIT_HAS i (scxml_step m cb stack ctx h).frame.ctx.initialized_data = true ∧
      (m.states i).data.isSome = true ∧ cb.exec_content_init.isSome = true := by
  by_cases hnf : ctx.flags &&& SCXML_CTX_TOP_LEVEL_FINAL = 0
  · rw [scxml_step_not_final m cb stack ctx h hnf]
    obtain ⟨⟨ki, _, B, kl, kn⟩, _, _, si, E, sl, sn, sp⟩ :=
      exit_take_enter_initStep m cb (at_exit m cb stack ctx h)
    obtain ⟨_, ainit, alog⟩ := at_exit_ctx m cb stack ctx h
    have hpre : (at_exit m cb stack ctx h).log.filterMap Call.initIdx = [] := by
      apply filterMap_initIdx_none
      intro c hc
      have := alog c hc
      cases c <;> simp [Call.isPre] at this <;> rfl
    have hidx : (exit_take_enter m cb (at_exit m cb stack ctx h)).frame.log.filterMap
        Call.initIdx = E.filterMap Call.initIdx := by
      rw [sl, kl, List.filterMap_append, List.filterMap_append, hpre,
        filterMap_initIdx_none B kn]
      rfl
    have hinit : ((exit_states m cb (at_exit m cb stack ctx h)).andThen
        fun f1 => take_transitions m cb f1).state.ctx.initialized_data =
        ctx.initialized_data := ki.trans ainit
    refine ⟨?_, ?_, ?_⟩
    · intro j hj
      apply si
      rw [hinit]
      exact hj
    · rw [hidx]; exact sn
    · intro i hi
      rw [hidx] at hi
      obtain ⟨q1, q2, q3, q4, q5⟩ := sp i hi
      rw [hinit] at q2
      exact ⟨q1, q2, q3, q4, q5⟩
  · rw [scxml_step_final m cb stack ctx h hnf]
    refine ⟨fun j hj => hj, List.nodup_nil, ?_⟩
    intro i hi
    exact absurd hi (List.not_mem_nil i)

end InitRun


section InitTheorem
variable {H : Type}

theorem run_cons (m : scxml_machine H) (cb : scxml_callbacks H) (s : Locals)
    (ss : List Locals) (ctx : scxml_ctx) (h : H) :
    run m cb (s :: ss) ctx h =
      ⟨(run m cb ss (scxml_step m cb s ctx h).frame.ctx
          (scxml_step m cb s ctx h).frame.host).ctx,
        (run m cb ss (scxml_step m cb s ctx h).frame.ctx
          (scxml_step m cb s ctx h).frame.host).host,
        (scxml_step m cb s ctx h).frame.log ++
          (run m cb ss (scxml_step m cb s ctx h).frame.ctx
            (scxml_step m cb s ctx h).frame.host).log,
        (scxml_step m cb s ctx h).err ::
          (run m cb ss (scxml_step m cb s ctx h).frame.ctx
            (scxml_step m cb s ctx h).frame.host).errs⟩ := rfl

/-- A run of `scxml_step` calls as a step on `initialized_data`. -/
theorem run_init_data (m : scxml_machine H) (cb : scxml_callbacks H) (scratch : List Locals)
    (ctx : scxml_ctx) (h : H) :
    (∀ j, BIT_HAS j ctx.initialized_data = true →
      BIT_HAS j (run m cb scratch ctx h).ctx.initialized_data = true) ∧
    ((run m cb scratch ctx h).log.filterMap Call.initIdx).Nodup ∧
    ∀ i ∈ (run m cb scratch ctx h).log.filterMap Call.initIdx,
      BIT_HAS i ctx.initialized_data = false ∧
      BIT_HAS i (run m cb scratch ctx h).ctx.initialized_data = true ∧
      (m.states i).data.isSome = true ∧ cb.exec_content_init.isSome = true := by
  induction scratch generalizing ctx h with
  | nil =>
    refine ⟨fun j hj => hj, List.nodup_nil, ?_⟩
    intro i hi
    exact absurd hi (List.not_mem_nil i)
  | cons s ss ih =>
    obtain ⟨m1, n1, p1⟩ := step_init_data m cb s ctx h
    obtain ⟨m2, n2, p2⟩ := ih (scxml_step m cb s ctx h).frame.ctx
      (scxml_step m cb s ctx h).frame.host
    rw [run_cons]
    simp only [List.filterMap_append]
    refine ⟨fun j hj => m2 j (m1 j hj), ?_, ?_⟩
    · rw [List.nodup_append]
      refine ⟨n1, n2, ?_⟩
      intro x hx1 hx2
      have t1 := (p1 x hx1).2.2.1
      have t2 := (p2 x hx2).1
      rw [t1] at t2
      exact Bool.noConfusion t2
    · intro x hx
      rcases List.mem_append.1 hx with hx | hx
      · obtain ⟨_, q2, q3, q4, q5⟩ := p1 x hx
        exact ⟨q2, m2 x q3, q4, q5⟩
      · obtain ⟨q1, q2, q3, q4⟩ := p2 x hx
        refine ⟨?_, q2, q3, q4⟩
        cases hi : BIT_HAS x ctx.initialized_data
        · rfl
        · rw [m1 x hi] at q1; exact Bool.noConfusion q1

/-- C15: over any sequence of calls of `scxml_step` on a context (a pristine one included),
`exec_content_init` is invoked at most once for every state `i`; if it is invoked, the bit of
`i` in `initialized_data` was clear at the start of the sequence and is set at its end, the
state has a data block and the callback is present; no bit of `initialized_data` is ever
cleared; and within each single call the state for which `exec_content_init` is invoked is
entered by `ENTER_STATES` (in `entry_set`, not in config, no pseudo-state) with its bit clear,
and has the bit set when the call returns. -/
theorem exec_content_init_once (m : scxml_machine H) (cb : scxml_callbacks H)
    (scratch : List Locals) (ctx : scxml_ctx) (h : H) (i : Nat) :
    (run m cb scratch ctx h).log.count (Call.exec_content_init i) ≤ 1 ∧
    (Call.exec_content_init i ∈ (run m cb scratch ctx h).log →
      BIT_HAS i ctx.initialized_data = false ∧
      BIT_HAS i (run m cb scratch ctx h).ctx.initialized_data = true ∧
      (m.states i).data.isSome = true ∧ cb.exec_content_init.isSome = true) ∧
    (∀ j, BIT_HAS j ctx.initialized_data = true →
      BIT_HAS j (run m cb scratch ctx h).ctx.initialized_data = true) ∧
    (∀ (s : Locals) (c : scxml_ctx) (x : H),
      Call.exec_content_init i ∈ (scxml_step m cb s c x).frame.log →
        enters_now m (at_enter m cb s c x) i = true ∧
        BIT_HAS i c.initialized_data = false ∧
        BIT_HAS i (scxml_step m cb s c x).frame.ctx.initialized_data = true ∧
        (m.states i).data.isSome = true) := by
  obtain ⟨hm, hn, hp⟩ := run_init_data m cb scratch ctx h
  refine ⟨?_, ?_, hm, ?_⟩
  · rw [count_init_eq]
    exact List.nodup_iff_count_le_one.1 hn i
  · intro hi
    exact hp i (mem_initIdx.2 hi)
  · intro s c x hi
    obtain ⟨q1, q2, q3, q4, _⟩ := (step_init_data m cb s c x).2.2 i (mem_initIdx.2 hi)
    exact ⟨q1, q2, q3, q4⟩

end InitTheorem


section ErrorPropagation
variable {H : Type}

theorem loop_stops {σ : Type} (body : Nat → σ → Flow σ) (l : List Nat) (s : σ) (i : Nat)
    (s1 s2 : σ) (e : Int) (hr : loop_reaches body l s i s1)
    (hb : body i s1 = Flow.ret e s2) : loop body l s = Flow.ret e s2 := by
  obtain ⟨l1, l2, hl, h1⟩ := hr
  subst hl
  induction l1 generalizing s with
  | nil =>
    simp only [loop] at h1
    cases h1
    simp only [List.nil_append, loop, hb]
  | cons a l1 ih =>
    rw [loop] at h1
    rw [List.cons_append, loop]
    cases ha : body a s with
    | ret e' s' => rw [ha] at h1; cases h1
    | next s' =>
      rw [ha] at h1
      exact ih s' h1

theorem exit_body_fails (m : scxml_machine H) (cb : scxml_callbacks H) (i : Nat)
    (f : Frame H) (prog : exec_content_t H) (hx : exits_now f i = true)
    (hp : (m.states i).on_exit = some prog)
    (he : (prog cb f.ctx i f.ctx.event f.host).1 ≠ SCXML_ERR_OK) :
    exit_body m cb i f = Flow.ret (prog cb f.ctx i f.ctx.event f.host).1
      (f.called (Call.on_exit i) (prog cb f.ctx i f.ctx.event f.host).2) := by
  unfold exits_now at hx
  unfold exit_body
  rw [if_pos hx, hp]
  simp only []
  rw [if_pos (by simpa using he)]
  rfl

theorem take_body_fails (m : scxml_machine H) (cb : scxml_callbacks H) (t : Nat)
    (f : Frame H) (prog : exec_content_t H) (hs : BIT_HAS t f.trans_set = true)
    (hn : isPseudoTrans m t = false) (hp : (m.transitions t).on_transition = some prog)
    (he : (prog cb f.ctx (m.transitions t).source f.ctx.event f.host).1 ≠ SCXML_ERR_OK) :
    take_body m cb t f =
      Flow.ret (prog cb f.ctx (m.transitions t).source f.ctx.event f.host).1
        (f.called (Call.on_transition t (m.transitions t).source)
          (prog cb f.ctx (m.transitions t).source f.ctx.event f.host).2) := by
  unfold take_body
  rw [if_pos (by simp [hs, hn]), hp]
  simp only []
  rw [if_pos (by simpa using he)]
  rfl

theorem enter_body_fails (m : scxml_machine H) (cb : scxml_callbacks H) (i : Nat)
    (f : Frame H) (prog : exec_content_t H) (hen : enters_now m f i = true)
    (hp : (m.states i).on_entry = some prog)
    (he : (prog cb (before_on_entry m cb i f).ctx i (before_on_entry m cb i f).ctx.event
      (before_on_entry m cb i f).host).1 ≠ SCXML_ERR_OK) :
    enter_body m cb i f =
      Flow.ret (prog cb (before_on_entry m cb i f).ctx i (before_on_entry m cb i f).ctx.event
          (before_on_entry m cb i f).host).1
        ((before_on_entry m cb i f).called (Call.on_entry i)
          (prog cb (before_on_entry m cb i f).ctx i (before_on_entry m cb i f).ctx.event
            (before_on_entry m cb i f).host).2) := by
  unfold enters_now at hen
  simp only [Bool.and_eq_true, Bool.not_eq_true'] at hen
  obtain ⟨⟨h1, h2⟩, h3⟩ := hen
  unfold enter_body
  rw [if_pos (by simp [h1, h2]), if_neg (by simp [h3])]
  simp only []
  have hoe : enter_on_entry m cb i (before_on_entry m cb i f) =
      Flow.ret (prog cb (before_on_entry m cb i f).ctx i (before_on_entry m cb i f).ctx.event
          (before_on_entry m cb i f).host).1
        ((before_on_entry m cb i f).called (Call.on_entry i)
          (prog cb (before_on_entry m cb i f).ctx i (before_on_entry m cb i f).ctx.event
            (before_on_entry m cb i f).host).2) := by
    unfold enter_on_entry
    rw [hp]
    simp only []
    rw [if_pos (by simpa using he)]
    rfl
  show (enter_on_entry m cb i (before_on_entry m cb i f)).andThen _ = _
  rw [hoe]
  rfl

end ErrorPropagation


section ErrorTheorem
variable {H : Type}

theorem enter_body_trans_fails (m : scxml_machine H) (cb : scxml_callbacks H) (i j : Nat)
    (f f3 f5 : Frame H) (prog : exec_content_t H) (hen : enters_now m f i = true)
    (h3 : enter_on_entry m cb i (before_on_entry m cb i f) = Flow.next f3)
    (hr : loop_reaches (enter_trans_body m cb i) (upTo m.nr_transitions) f3 j f5)
    (hs : BIT_HAS j f5.trans_set = true) (hps : isPseudoTrans m j = true)
    (hpar : (m.states (m.transitions j).source).parent = i)
    (hp : (m.transitions j).on_transition = some prog)
    (he : (prog cb f5.ctx i f5.ctx.event f5.host).1 ≠ SCXML_ERR_OK) :
    enter_body m cb i f = Flow.ret (prog cb f5.ctx i f5.ctx.event f5.host).1
      (f5.called (Call.on_transition j i) (prog cb f5.ctx i f5.ctx.event f5.host).2) := by
  unfold enters_now at hen
  simp only [Bool.and_eq_true, Bool.not_eq_true'] at hen
  obtain ⟨⟨h1, h2⟩, hnp⟩ := hen
  have hb : enter_trans_body m cb i j f5 =
      Flow.ret (prog cb f5.ctx i f5.ctx.event f5.host).1
        (f5.called (Call.on_transition j i) (prog cb f5.ctx i f5.ctx.event f5.host).2) := by
    unfold enter_trans_body
    rw [if_pos (by simp [hs, hps, hpar]), hp]
    simp only []
    rw [if_pos (by simpa using he)]
    rfl
  have hl := loop_stops _ _ _ _ _ _ _ hr hb
  unfold enter_body
  rw [if_pos (by simp [h1, h2]), if_neg (by simp [hnp])]
  simp only []
  show (enter_on_entry m cb i (before_on_entry m cb i f)).andThen _ = _
  rw [h3]
  simp only [Flow.andThen]
  rw [hl]

theorem exit_take_enter_of_exit (m : scxml_machine H) (cb : scxml_callbacks H)
    (f g : Frame H) (e : Int) (h : exit_states m cb f = Flow.ret e g) :
    exit_take_enter m cb f = ⟨e, g⟩ := by
  unfold exit_take_enter
  rw [h]
  rfl

theorem exit_take_enter_of_take (m : scxml_machine H) (cb : scxml_callbacks H)
    (f fx g : Frame H) (e : Int) (h1 : exit_states m cb f = Flow.next fx)
    (h2 : take_transitions m cb fx = Flow.ret e g) :
    exit_take_enter m cb f = ⟨e, g⟩ := by
  unfold exit_take_enter
  rw [h1]
  simp only [Flow.andThen]
  rw [h2]

theorem exit_take_enter_of_enter (m : scxml_machine H) (cb : scxml_callbacks H)
    (f fx ft g : Frame H) (e : Int) (h1 : exit_states m cb f = Flow.next fx)
    (h2 : take_transitions m cb fx = Flow.next ft)
    (h3 : enter_states m cb ft = Flow.ret e g) :
    exit_take_enter m cb f = ⟨e, g⟩ := by
  unfold exit_take_enter
  rw [h1]
  simp only [Flow.andThen]
  rw [h2]
  simp only []
  rw [h3]

end ErrorTheorem


section ErrorClaim
variable {H : Type}

/-- C16 as amended: in a step on a context that is not final, a code other than
`SCXML_ERR_OK` returned by an `on_exit`, `on_transition` or `on_entry` program is returned by
`scxml_step` at once, and the call of that program is the last call of the step.  The four
parts are: the `on_exit` program of a state that `EXIT_STATES` exits, the `on_transition`
program of a transition that `TAKE_TRANSITIONS` takes, the `on_entry` program of a state that
`ENTER_STATES` enters, and the `on_transition` program of a HISTORY or INITIAL transition run
by `ENTER_STATES`. -/
theorem step_error_propagation (m : scxml_machine H) (cb : scxml_callbacks H)
    (stack : Locals) (ctx : scxml_ctx) (h : H)
    (hnf : ctx.flags &&& SCXML_CTX_TOP_LEVEL_FINAL = 0) :
    (∀ (i : Nat) (f1 : Frame H) (prog : exec_content_t H),
      reaches_exit m cb (at_exit m cb stack ctx h) i f1 → exits_now f1 i = true →
      (m.states i).on_exit = some prog →
      (prog cb f1.ctx i f1.ctx.event f1.host).1 ≠ SCXML_ERR_OK →
      (scxml_step m cb stack ctx h).err = (prog cb f1.ctx i f1.ctx.event f1.host).1 ∧
      (scxml_step m cb stack ctx h).frame.log = f1.log ++ [Call.on_exit i]) ∧
    (∀ (t : Nat) (f1 : Frame H) (prog : exec_content_t H),
      reaches_take m cb (at_exit m cb stack ctx h) t f1 → BIT_HAS t f1.trans_set = true →
      isPseudoTrans m t = false → (m.transitions t).on_transition = some prog →
      (prog cb f1.ctx (m.transitions t).source f1.ctx.event f1.host).1 ≠ SCXML_ERR_OK →
      (scxml_step m cb stack ctx h).err =
        (prog cb f1.ctx (m.transitions t).source f1.ctx.event f1.host).1 ∧
      (scxml_step m cb stack ctx h).frame.log =
        f1.log ++ [Call.on_transition t (m.transitions t).source]) ∧
    (∀ (i : Nat) (f1 : Frame H) (prog : exec_content_t H),
      reaches_enter m cb (at_exit m cb stack ctx h) i f1 → enters_now m f1 i = true →
      (m.states i).on_entry = some prog →
      (prog cb (before_on_entry m cb i f1).ctx i (before_on_entry m cb i f1).ctx.event
        (before_on_entry m cb i f1).host).1 ≠ SCXML_ERR_OK →
      (scxml_step m cb stack ctx h).err =
        (prog cb (before_on_entry m cb i f1).ctx i (before_on_entry m cb i f1).ctx.event
          (before_on_entry m cb i f1).host).1 ∧
      (scxml_step m cb stack ctx h).frame.log =
        (before_on_entry m cb i f1).log ++ [Call.on_entry i]) ∧
    (∀ (i j : Nat) (f1 f3 f5 : Frame H) (prog : exec_content_t H),
      reaches_enter m cb (at_exit m cb stack ctx h) i f1 → enters_now m f1 i = true →
      enter_on_entry m cb i (before_on_entry m cb i f1) = Flow.next f3 →
      loop_reaches (enter_trans_body m cb i) (upTo m.nr_transitions) f3 j f5 →
      BIT_HAS j f5.trans_set = true → isPseudoTrans m j = true →
      (m.states (m.transitions j).source).parent = i →
      (m.transitions j).on_transition = some prog →
      (prog cb f5.ctx i f5.ctx.event f5.host).1 ≠ SCXML_ERR_OK →
      (scxml_step m cb stack ctx h).err = (prog cb f5.ctx i f5.ctx.event f5.host).1 ∧
      (scxml_step m cb stack ctx h).frame.log = f5.log ++ [Call.on_transition j i]) := by
  rw [scxml_step_not_final m cb stack ctx h hnf]
  refine ⟨?_, ?_, ?_, ?_⟩
  · intro i f1 prog hr hx hp he
    have hl := loop_stops _ _ _ _ _ _ _ hr (exit_body_fails m cb i f1 prog hx hp he)
    rw [exit_take_enter_of_exit m cb _ _ _ hl]
    exact ⟨rfl, rfl⟩
  · intro t f1 prog hr hs hn hp he
    obtain ⟨fx, hex, hr'⟩ := hr
    have hl := loop_stops _ _ _ _ _ _ _ hr' (take_body_fails m cb t f1 prog hs hn hp he)
    rw [exit_take_enter_of_take m cb _ fx _ _ hex hl]
    exact ⟨rfl, rfl⟩
  · intro i f1 prog hr hen hp he
    obtain ⟨fx, ft, hex, htk, hr'⟩ := hr
    have hl := loop_stops _ _ _ _ _ _ _ hr' (enter_body_fails m cb i f1 prog hen hp he)
    rw [exit_take_enter_of_enter m cb _ fx ft _ _ hex htk hl]
    exact ⟨rfl, rfl⟩
  · intro i j f1 f3 f5 prog hr hen h3 hin hs hps hpar hp he
    obtain ⟨fx, ft, hex, htk, hr'⟩ := hr
    have hl := loop_stops _ _ _ _ _ _ _ hr'
      (enter_body_trans_fails m cb i j f1 f3 f5 prog hen h3 hin hs hps hpar hp he)
    rw [exit_take_enter_of_enter m cb _ fx ft _ _ hex htk hl]
    exact ⟨rfl, rfl⟩

/-- Counterexample to C16 as stated: in the pristine step of `dataMachine` the host callbacks
`exec_content_init` and `raise_done_event` return `SCXML_ERR_EXEC_CONTENT` at every call, yet
the step goes on calling programs and callbacks and returns `SCXML_ERR_OK`. -/
theorem step_ignores_callback_codes :
    (∀ c s d x, (failingHost.raise_done_event c s d x).1 = SCXML_ERR_EXEC_CONTENT) ∧
    (∀ g, failingHost.exec_content_init = some g →
      ∀ c d x, (g c d x).1 = SCXML_ERR_EXEC_CONTENT) ∧
    SCXML_ERR_EXEC_CONTENT ≠ SCXML_ERR_OK ∧
    (scxml_step dataMachine failingHost zeroStack pristineCtx []).err = SCXML_ERR_OK ∧
    (scxml_step dataMachine failingHost zeroStack pristineCtx []).frame.log =
      [Call.exec_content_init 0, Call.on_entry 0, Call.exec_content_init 1, Call.on_entry 1,
        Call.exec_content_init 2, Call.on_entry 2, Call.raise_done_event 1 (some 0)] := by
  refine ⟨fun _ _ _ _ => rfl, ?_, by decide, by decide, by decide⟩
  intro g hg c d x
  have : g = fun _ _ h => (SCXML_ERR_EXEC_CONTENT, h) := by
    have h2 : failingHost.exec_content_init =
        some (fun _ _ h => (SCXML_ERR_EXEC_CONTENT, h)) := rfl
    rw [h2] at hg
    exact (Option.some.inj hg).symm
  rw [this]

/-- Instance of the amended C16: in `failingExitMachine`, configuration {root, A}, the event
takes A → B; the `on_exit` program of A returns `SCXML_ERR_EXEC_CONTENT`, which the step
returns with that call as its last one. -/
theorem step_error_propagation_witness :
    (ctxOf 2 3).flags &&& SCXML_CTX_TOP_LEVEL_FINAL = 0 ∧
    (scxml_step failingExitMachine (listHost false [7]) zeroStack (ctxOf 2 3) []).err =
      SCXML_ERR_EXEC_CONTENT ∧
    (scxml_step failingExitMachine (listHost false [7]) zeroStack (ctxOf 2 3) []).frame.log =
      [Call.dequeue_internal, Call.dequeue_external, Call.is_enabled 0, Call.on_exit 1] :=
  have h1 : (ctxOf 2 3).flags &&& SCXML_CTX_TOP_LEVEL_FINAL = 0 := by decide
  have hr : reaches_exit failingExitMachine (listHost false [7])
      (at_exit failingExitMachine (listHost false [7]) zeroStack (ctxOf 2 3) []) 1
      (loop (exit_body failingExitMachine (listHost false [7])) [2]
        (at_exit failingExitMachine (listHost false [7]) zeroStack (ctxOf 2 3) [])).state :=
    ⟨[2], [0], rfl, rfl⟩
  have hthm := (step_error_propagation failingExitMachine (listHost false [7]) zeroStack
    (ctxOf 2 3) [] h1).1 1 _ (fun _ _ _ _ h => (SCXML_ERR_EXEC_CONTENT, h ++ [1]))
    hr (by decide) rfl (by decide)
  ⟨h1, hthm.1, by decide⟩

end ErrorClaim


section LoweredContent
variable {H : Type}

/-- The emitted `_on_entry` and `_on_exit` functions return `SCXML_ERR_OK` whatever the
functions of the single `<onentry>` and `<onexit>` elements return. -/
theorem lowered_handlers_ok (fuel : Nat) (cb : scxml_callbacks H) (ctx : scxml_ctx)
    (blocks : List (List Action)) (h : H) (r : Int × H)
    (hr : lowered_handlers fuel cb ctx blocks h = some r) : r.1 = SCXML_ERR_OK := by
  induction blocks generalizing h with
  | nil =>
    simp only [lowered_handlers, Option.some.injEq] at hr
    rw [← hr]
  | cons b rest ih =>
    rw [lowered_handlers] at hr
    cases hb : lowered_block fuel b cb ctx h with
    | none => rw [hb] at hr; cases hr
    | some r1 =>
      rw [hb] at hr
      exact ih r1.2 hr

/-- C17, evaluation at failing inputs.  The host callbacks of the actions return
`SCXML_ERR_EXEC_CONTENT` (5).  The program of a `<transition>` (or `<finalize>`) that holds a
`log`, `raise`, `send`, `cancel`, `assign` or `foreach` element returns `SCXML_ERR_OK` (0):
the statement is `return err;` and `err` was never assigned.  Only with a `script` element
the program returns 5.  The `_on_entry` (`_on_exit`) program of a state returns 0 even for a
`script`, and goes on with the next `<onentry>` element. -/
theorem lowered_program_drops_code :
    lowered_block 3 [Action.log none (some "x")] (actionHost 5) pristineCtx [] =
      some (0, [1]) ∧
    lowered_block 3 [Action.raise (some "e")] (actionHost 5) pristineCtx [] = some (0, [2]) ∧
    lowered_block 3 [Action.send 0] (actionHost 5) pristineCtx [] = some (0, [3]) ∧
    lowered_block 3 [Action.cancel (some "s") none] (actionHost 5) pristineCtx [] =
      some (0, [8]) ∧
    lowered_block 3 [Action.assign (some "l") (some "x")] (actionHost 5) pristineCtx [] =
      some (0, [7]) ∧
    lowered_block 3 [Action.foreach 0 []] (actionHost 5) pristineCtx [] = some (0, [4]) ∧
    lowered_block 3 [Action.script none (some "x")] (actionHost 5) pristineCtx [] =
      some (5, [9]) ∧
    lowered_handlers 3 (actionHost 5) pristineCtx [[Action.script none (some "x")]] [] =
      some (0, [9]) ∧
    lowered_handlers 3 (actionHost 5) pristineCtx
      [[Action.script none (some "x")], [Action.script none (some "y")]] [] =
      some (0, [9, 9]) := by
  decide

/-- C18, evaluation at the failing input.  The host has no `exec_content_script` callback.
The function `_on_entry_0` of the `<onentry>` element returns
`SCXML_ERR_MISSING_CALLBACK` (3), as does the program of a `<transition>` with the same
content; but the program `_on_entry` that the state table references returns `SCXML_ERR_OK`
(0), and the pristine step of `scriptEntryMachine` enters A and returns `SCXML_ERR_OK`. -/
theorem wrapper_hides_missing_callback :
    (listHost false []).exec_content_script.isNone = true ∧
    lowered_block 3 [Action.script none (some "x")] (listHost false []) pristineCtx [] =
      some (3, []) ∧
    lowered_handlers 3 (listHost false []) pristineCtx [[Action.script none (some "x")]] [] =
      some (0, []) ∧
    (scxml_step scriptEntryMachine (listHost false []) zeroStack pristineCtx []).err =
      SCXML_ERR_OK ∧
    (scxml_step scriptEntryMachine (listHost false []) zeroStack pristineCtx []).frame.log =
      [Call.on_entry 1] ∧
    BIT_HAS 1 (scxml_step scriptEntryMachine (listHost false []) zeroStack
      pristineCtx []).frame.ctx.config = true := by
  decide

end LoweredContent


section CompoundExclusion

/-- C19, evaluation at the failing input: `ownHistoryMachine` run from a pristine context for
three steps, the third with the event of A → H.  All three steps return `SCXML_ERR_OK`.  After
the first, config is {root, C, A}.  In the third, A is exited; the history H of C is in
`entry_set`, nothing is recorded for it and its parent C is in config, so the sweep takes the
restore branch, which adds nothing; the compound state C stays in config with none of its
children H, A, B in config. -/
theorem compound_without_child :
    SCXML_STATE_MASK (ownHistoryMachine.states 1).type = SCXML_STATE_COMPOUND ∧
    (run ownHistoryMachine (triggerHost [1]) [zeroStack] pristineCtx []).ctx.config 0 = 0x0b ∧
    (run ownHistoryMachine (triggerHost [1]) [zeroStack, zeroStack, zeroStack]
      pristineCtx []).errs = [0, 0, 0] ∧
    (run ownHistoryMachine (triggerHost [1]) [zeroStack, zeroStack, zeroStack]
      pristineCtx []).ctx.config 0 = 0x03 ∧
    BIT_HAS 1 (run ownHistoryMachine (triggerHost [1]) [zeroStack, zeroStack, zeroStack]
      pristineCtx []).ctx.config = true ∧
    (∀ c, c < ownHistoryMachine.nr_states →
      BIT_HAS c (ownHistoryMachine.states 1).children = true →
      BIT_HAS c (run ownHistoryMachine (triggerHost [1]) [zeroStack, zeroStack, zeroStack]
        pristineCtx []).ctx.config = false) := by
  decide

end CompoundExclusion


section ParallelInclusion
variable {H : Type}

set_option synthInstance.maxSize 4000

theorem parallel_history_tables (c : Nat) (hc : c = 0x1c ∨ c = 0x18) :
    WellFormedTables (parallelHistoryMachine c) := by
  rcases hc with hc | hc <;> subst hc <;> constructor <;> decide

theorem firstIdx_unique (p : Nat → Bool) (l : List Nat) (x : Nat) (hx : x ∈ l)
    (hp : p x = true) (hu : ∀ y ∈ l, p y = true → y = x) : firstIdx p l = some x := by
  unfold firstIdx
  induction l with
  | nil => exact absurd hx (List.not_mem_nil x)
  | cons a l ih =>
    by_cases ha : p a = true
    · rw [List.find?_cons_of_pos _ ha, hu a (List.mem_cons_self a l) ha]
    · rw [List.find?_cons_of_neg _ ha]
      rcases List.mem_cons.1 hx with h | h
      · rw [h] at hp
        exact absurd hp ha
      · exact ih h (fun y hy => hu y (List.mem_cons_of_mem a hy))

theorem mem_fromTo {a n y : Nat} : y ∈ fromTo a n ↔ a ≤ y ∧ y < n := by
  unfold fromTo
  rw [List.mem_range'_1]
  omega

/-- The parallel states below `i + 1` are filled after an iteration of the sweep that keeps
the proper states, adds only states after `i` (or initial elements), and fills `i` itself. -/
theorem sweep_step_filled (m : scxml_machine H) (i : Nat) (es es' : Bitset)
    (hkeep : ∀ x, x < m.nr_states → BIT_HAS x es = true → isPseudoState m x = false →
      BIT_HAS x es' = true)
    (hnew : ∀ x, x < m.nr_states → BIT_HAS x es' = true →
      BIT_HAS x es = true ∨ i < x ∨ SCXML_STATE_MASK (m.states x).type = SCXML_STATE_INITIAL)
    (hpar : SCXML_STATE_MASK (m.states i).type = SCXML_STATE_PARALLEL →
      BIT_HAS i es = true → ∀ c, c < m.nr_states → BIT_HAS c (m.states i).children = true →
        isPseudoState m c = false → BIT_HAS c es' = true)
    (hfilled : parallelsFilled m i es) : parallelsFilled m (i + 1) es' := by
  intro p hp hlt hty hin c hc hch hps
  have hpes : BIT_HAS p es = true := by
    rcases hnew p hp hin with h | h | h
    · exact h
    · omega
    · rw [hty] at h
      exact absurd h (by decide)
  by_cases hpi : p = i
  · subst hpi
    exact hpar hty hpes c hc hch hps
  · exact hkeep c hc (hfilled p hp (by omega) hty hpes c hc hch hps) hps

/-- A set stays closed when proper states are kept and every new state comes with its
ancestors. -/
theorem ancestorClosed_extend (m : scxml_machine H) (hw : WellFormedTables m)
    (es es' : Bitset) (hcl : ancestorClosed m es)
    (hkeep : ∀ x, x < m.nr_states → BIT_HAS x es = true → isPseudoState m x = false →
      BIT_HAS x es' = true)
    (hadd : ∀ x, x < m.nr_states → BIT_HAS x es' = true →
      BIT_HAS x es = true ∨
        ∀ a, a < m.nr_states → BIT_HAS a (m.states x).ancestors = true →
          BIT_HAS a es' = true) :
    ancestorClosed m es' := by
  intro x hx hxe a ha hxa
  rcases hadd x hx hxe with h | h
  · exact hkeep a ha (hcl x hx h a ha hxa) (hw.ancestors_before x hx a ha hxa).2.1
  · exact h a ha hxa

/-- A child of a state of a closed set comes after the state, and its ancestors are all in the
set. -/
theorem child_ancestors_in (m : scxml_machine H) (hw : WellFormedTables m) (s c : Nat)
    (hs : s < m.nr_states) (hc : c < m.nr_states)
    (hch : BIT_HAS c (m.states s).children = true) (es : Bitset)
    (hcl : ancestorClosed m es) (hin : BIT_HAS s es = true) :
    s < c ∧ ∀ a, a < m.nr_states → BIT_HAS a (m.states c).ancestors = true →
      BIT_HAS a es = true := by
  have hanc := hw.children_ancestors s hs c hc hch
  refine ⟨(hw.ancestors_before c hc s hs ((hanc s hs).2 (Or.inl rfl))).1, ?_⟩
  intro a ha hca
  rcases (hanc a ha).1 hca with h | h
  · rw [h]; exact hin
  · exact hcl s hs hin a ha h

theorem descend_parallel_inv (m : scxml_machine H) (hw : WellFormedTables m) (i : Nat)
    (hi : i < m.nr_states) (f : Frame H) (hin : BIT_HAS i f.entry_set = true)
    (hty : SCXML_STATE_MASK (m.states i).type = SCXML_STATE_PARALLEL)
    (hcl : ancestorClosed m f.entry_set) :
    ancestorClosed m (descend_parallel m i f).entry_set ∧
    (∀ x, x < m.nr_states → BIT_HAS x (descend_parallel m i f).entry_set = true →
      BIT_HAS x f.entry_set = true ∨ i < x ∨
        SCXML_STATE_MASK (m.states x).type = SCXML_STATE_INITIAL) ∧
    (∀ c, c < m.nr_states → BIT_HAS c (m.states i).children = true →
      isPseudoState m c = false → BIT_HAS c (descend_parallel m i f).entry_set = true) := by
  have hbits : ∀ x, x < m.nr_states →
      (BIT_HAS x (descend_parallel m i f).entry_set = true ↔
        BIT_HAS x f.entry_set = true ∨ BIT_HAS x (m.states i).completion = true) := by
    intro x hx
    show BIT_HAS x (bit_or f.entry_set (m.states i).completion (nr_states_bytes m)) = true ↔ _
    rw [BIT_HAS_bit_or, if_pos (state_byte_lt m hx), Bool.or_eq_true]
  have hcomp : ∀ x, x < m.nr_states → BIT_HAS x (m.states i).completion = true →
      i < x ∧ ∀ a, a < m.nr_states → BIT_HAS a (m.states x).ancestors = true →
        BIT_HAS a f.entry_set = true := by
    intro x hx hxc
    exact child_ancestors_in m hw i x hi hx ((hw.parallel_completion i hi hty x hx).1 hxc)
      f.entry_set hcl hin
  refine ⟨?_, ?_, ?_⟩
  · apply ancestorClosed_extend m hw f.entry_set _ hcl
    · intro x hx hxe _
      exact (hbits x hx).2 (Or.inl hxe)
    · intro x hx hxe
      rcases (hbits x hx).1 hxe with h | h
      · exact Or.inl h
      · exact Or.inr (fun a ha hxa => (hbits a ha).2 (Or.inl ((hcomp x hx h).2 a ha hxa)))
  · intro x hx hxe
    rcases (hbits x hx).1 hxe with h | h
    · exact Or.inl h
    · exact Or.inr (Or.inl (hcomp x hx h).1)
  · intro c hc hch hps
    apply (hbits c hc).2
    right
    apply (hw.parallel_completion i hi hty c hc).2 hch
    unfold isPseudoState at hps
    unfold isHistoryType
    simp only [Bool.or_eq_false_iff] at hps ⊢
    exact ⟨hps.1.2, hps.1.1⟩

theorem state_bit_or (m : scxml_machine H) {x : Nat} (hx : x < m.nr_states) (a b : Bitset) :
    BIT_HAS x (bit_or a b (nr_states_bytes m)) = true ↔
      BIT_HAS x a = true ∨ BIT_HAS x b = true := by
  rw [BIT_HAS_bit_or, if_pos (state_byte_lt m hx), Bool.or_eq_true]

theorem descend_compound_entry (m : scxml_machine H) (i : Nat) (f : Frame H)
    (hc : compound_needs_completion m i f = true) :
    (descend_compound m i f).entry_set =
      (if bit_has_and (m.states i).completion (m.states i).children (nr_states_bytes m) then
        bit_or f.entry_set (m.states i).completion (nr_states_bytes m)
      else
        match firstIdx (fun j => BIT_HAS j (m.states i).completion)
            (fromTo (i + 1) m.nr_states) with
        | some j => bit_or (bit_or f.entry_set (m.states i).completion (nr_states_bytes m))
            (m.states j).ancestors (nr_states_bytes m)
        | none => bit_or f.entry_set (m.states i).completion (nr_states_bytes m)) := by
  unfold descend_compound
  rw [if_pos hc]
  cases bit_has_and (m.states i).completion (m.states i).children (nr_states_bytes m) <;> rfl

theorem descend_compound_inv (m : scxml_machine H) (hw : WellFormedTables m) (i : Nat)
    (hi : i < m.nr_states) (f : Frame H) (hin : BIT_HAS i f.entry_set = true)
    (hty : SCXML_STATE_MASK (m.states i).type = SCXML_STATE_COMPOUND)
    (hcl : ancestorClosed m f.entry_set) :
    ancestorClosed m (descend_compound m i f).entry_set ∧
    (∀ x, x < m.nr_states → BIT_HAS x (descend_compound m i f).entry_set = true →
      BIT_HAS x f.entry_set = true ∨ i < x ∨
        SCXML_STATE_MASK (m.states x).type = SCXML_STATE_INITIAL) := by
  by_cases hc : compound_needs_completion m i f = true
  swap
  · have : descend_compound m i f = f := by
      unfold descend_compound
      rw [if_neg hc]
    rw [this]
    exact ⟨hcl, fun x _ h => Or.inl h⟩
  have hentry := descend_compound_entry m i f hc
  have hchild : ∀ x, x < m.nr_states → BIT_HAS x (m.states i).children = true →
      i < x ∧ ∀ a, a < m.nr_states → BIT_HAS a (m.states x).ancestors = true →
        BIT_HAS a f.entry_set = true :=
    fun x hx hch => child_ancestors_in m hw i x hi hx hch f.entry_set hcl hin
  cases hb : bit_has_and (m.states i).completion (m.states i).children (nr_states_bytes m) with
  | true =>
    rw [hb] at hentry
    simp only [if_true] at hentry
    rw [hentry]
    have hcomp : ∀ x, x < m.nr_states → BIT_HAS x (m.states i).completion = true →
        BIT_HAS x (m.states i).children = true := by
      intro x hx hxc
      rcases hw.compound_completion i hi hty x hx hxc with h | h
      · exact h
      · rw [hb] at h
        exact absurd h.1 (by decide)
    refine ⟨?_, ?_⟩
    · apply ancestorClosed_extend m hw f.entry_set _ hcl
      · intro x hx hxe _
        exact (state_bit_or m hx _ _).2 (Or.inl hxe)
      · intro x hx hxe
        rcases (state_bit_or m hx _ _).1 hxe with h | h
        · exact Or.inl h
        · exact Or.inr (fun a ha hxa => (state_bit_or m ha _ _).2
            (Or.inl ((hchild x hx (hcomp x hx h)).2 a ha hxa)))
    · intro x hx hxe
      rcases (state_bit_or m hx _ _).1 hxe with h | h
      · exact Or.inl h
      · exact Or.inr (Or.inl (hchild x hx (hcomp x hx h)).1)
  | false =>
    rw [hb] at hentry
    simp only [Bool.false_eq_true, if_false] at hentry
    have hdeep : ∀ x, x < m.nr_states → BIT_HAS x (m.states i).completion = true →
        BIT_HAS i (m.states x).ancestors = true ∧
        ∀ y, y < m.nr_states → BIT_HAS y (m.states i).completion = true → y = x := by
      intro x hx hxc
      rcases hw.compound_completion i hi hty x hx hxc with h | h
      · have : bit_has_and (m.states i).completion (m.states i).children
            (nr_states_bytes m) = true :=
          (bit_has_and_iff _ _ _).2 ⟨x, state_byte_lt m hx, hxc, h⟩
        rw [hb] at this
        exact absurd this (by decide)
      · exact h.2
    cases hfi : firstIdx (fun j => BIT_HAS j (m.states i).completion)
        (fromTo (i + 1) m.nr_states) with
    | none =>
      have hnone : ∀ x, x < m.nr_states → BIT_HAS x (m.states i).completion = true →
          False := by
        intro x hx hxc
        obtain ⟨hix, hu⟩ := hdeep x hx hxc
        have hlt := (hw.ancestors_before x hx i hi hix).1
        have := firstIdx_unique (fun j => BIT_HAS j (m.states i).completion)
          (fromTo (i + 1) m.nr_states) x (mem_fromTo.2 ⟨by omega, hx⟩) hxc
          (fun y hy hyc => hu y (mem_fromTo.1 hy).2 hyc)
        rw [hfi] at this
        exact Option.noConfusion this
      rw [hfi] at hentry
      simp only [] at hentry
      rw [hentry]
      refine ⟨?_, ?_⟩
      · apply ancestorClosed_extend m hw f.entry_set _ hcl
        · intro x hx hxe _
          exact (state_bit_or m hx _ _).2 (Or.inl hxe)
        · intro x hx hxe
          rcases (state_bit_or m hx _ _).1 hxe with h | h
          · exact Or.inl h
          · exact (hnone x hx h).elim
      · intro x hx hxe
        rcases (state_bit_or m hx _ _).1 hxe with h | h
        · exact Or.inl h
        · exact (hnone x hx h).elim
    | some j =>
      obtain ⟨hjc, hjm⟩ := firstIdx_some hfi
      have hj : j < m.nr_states := (mem_fromTo.1 hjm).2
      obtain ⟨hij, hu⟩ := hdeep j hj hjc
      rw [hfi] at hentry
      simp only [] at hentry
      rw [hentry]
      have hbits : ∀ x, x < m.nr_states →
          (BIT_HAS x (bit_or (bit_or f.entry_set (m.states i).completion (nr_states_bytes m))
            (m.states j).ancestors (nr_states_bytes m)) = true ↔
            BIT_HAS x f.entry_set = true ∨ x = j ∨
              BIT_HAS x (m.states j).ancestors = true) := by
        intro x hx
        rw [state_bit_or m hx, state_bit_or m hx]
        constructor
        · rintro ((h | h) | h)
          · exact Or.inl h
          · exact Or.inr (Or.inl (hu x hx h))
          · exact Or.inr (Or.inr h)
        · rintro (h | h | h)
          · exact Or.inl (Or.inl h)
          · rw [h]; exact Or.inl (Or.inr hjc)
          · exact Or.inr h
      refine ⟨?_, ?_⟩
      · apply ancestorClosed_extend m hw f.entry_set _ hcl
        · intro x hx hxe _
          exact (hbits x hx).2 (Or.inl hxe)
        · intro x hx hxe
          rcases (hbits x hx).1 hxe with h | h | h
          · exact Or.inl h
          · right
            intro a ha hxa
            rw [h] at hxa
            exact (hbits a ha).2 (Or.inr (Or.inr hxa))
          · right
            intro a ha hxa
            exact (hbits a ha).2 (Or.inr (Or.inr
              ((hw.ancestors_before j hj x hx h).2.2 a ha hxa)))
      · intro x hx hxe
        rcases (hbits x hx).1 hxe with h | h | h
        · exact Or.inl h
        · rw [h]
          exact Or.inr (Or.inl (hw.ancestors_before j hj i hi hij).1)
        · rcases hw.ancestors_chain j hj x hx i hi h hij with e | e | e
          · rw [e]; exact Or.inl hin
          · exact Or.inr (Or.inl (hw.ancestors_before x hx i hi e).1)
          · exact Or.inl (hcl i hi hin x hx e)

/-- The two facts of the sweep invariant for an iteration that keeps the proper states and
adds only states after `i` (or initial elements), each with its ancestors. -/
theorem sweep_added (m : scxml_machine H) (hw : WellFormedTables m) (i : Nat)
    (es es' : Bitset) (hcl : ancestorClosed m es)
    (hkeep : ∀ x, x < m.nr_states → BIT_HAS x es = true → isPseudoState m x = false →
      BIT_HAS x es' = true)
    (hadd : ∀ x, x < m.nr_states → BIT_HAS x es' = true →
      BIT_HAS x es = true ∨
        ((i < x ∨ SCXML_STATE_MASK (m.states x).type = SCXML_STATE_INITIAL) ∧
          ∀ a, a < m.nr_states → BIT_HAS a (m.states x).ancestors = true →
            BIT_HAS a es' = true)) :
    ancestorClosed m es' ∧
    (∀ x, x < m.nr_states → BIT_HAS x es' = true →
      BIT_HAS x es = true ∨ i < x ∨
        SCXML_STATE_MASK (m.states x).type = SCXML_STATE_INITIAL) := by
  refine ⟨?_, ?_⟩
  · apply ancestorClosed_extend m hw es es' hcl hkeep
    intro x hx hxe
    rcases hadd x hx hxe with h | h
    · exact Or.inl h
    · exact Or.inr h.2
  · intro x hx hxe
    rcases hadd x hx hxe with h | h
    · exact Or.inl h
    · exact Or.inr h.1

/-- A history or initial element of a closed set has its parent and the ancestors of its parent
in the set. -/
theorem parent_in_entry (m : scxml_machine H) (hw : WellFormedTables m) (i : Nat)
    (hi : i < m.nr_states) (hp : (m.states i).parent < m.nr_states)
    (hch : BIT_HAS i (m.states (m.states i).parent).children = true) (es : Bitset)
    (hcl : ancestorClosed m es) (hin : BIT_HAS i es = true) :
    BIT_HAS (m.states i).parent es = true ∧
    ∀ a, a < m.nr_states → BIT_HAS a (m.states (m.states i).parent).ancestors = true →
      BIT_HAS a es = true := by
  have hanc := hw.children_ancestors _ hp i hi hch
  refine ⟨hcl i hi hin _ hp ((hanc _ hp).2 (Or.inl rfl)), ?_⟩
  intro a ha hpa
  exact hcl i hi hin a ha ((hanc a ha).2 (Or.inr hpa))

theorem descend_history_default_entry (m : scxml_machine H) (i j : Nat) (f : Frame H)
    (hfi : firstIdx (fun j => (m.transitions j).source == i) (upTo m.nr_transitions) =
      some j) :
    (descend_history_default m i f).entry_set =
      (if SCXML_STATE_MASK (m.states i).type == SCXML_STATE_HISTORY_DEEP &&
          !bit_has_and (m.transitions j).target (m.states i).children (nr_states_bytes m) then
        match firstIdx (fun k => BIT_HAS k (m.transitions j).target)
            (fromTo (i + 1) m.nr_states) with
        | some k => bit_or (bit_or f.entry_set (m.transitions j).target (nr_states_bytes m))
            (m.states k).ancestors (nr_states_bytes m)
        | none => bit_or f.entry_set (m.transitions j).target (nr_states_bytes m)
      else bit_or f.entry_set (m.transitions j).target (nr_states_bytes m)) := by
  unfold descend_history_default
  rw [hfi]

theorem descend_history_default_inv (m : scxml_machine H) (hw : WellFormedTables m) (i : Nat)
    (hi : i < m.nr_states) (f : Frame H) (hin : BIT_HAS i f.entry_set = true)
    (hty : isHistoryType m i = true) (hcl : ancestorClosed m f.entry_set) :
    ancestorClosed m (descend_history_default m i f).entry_set ∧
    (∀ x, x < m.nr_states → BIT_HAS x (descend_history_default m i f).entry_set = true →
      BIT_HAS x f.entry_set = true ∨ i < x ∨
        SCXML_STATE_MASK (m.states x).type = SCXML_STATE_INITIAL) := by
  cases hfi : firstIdx (fun j => (m.transitions j).source == i) (upTo m.nr_transitions) with
  | none =>
    have : descend_history_default m i f = f := by
      unfold descend_history_default
      rw [hfi]
    rw [this]
    exact ⟨hcl, fun x _ h => Or.inl h⟩
  | some j =>
    obtain ⟨hsrc0, hjm⟩ := firstIdx_some hfi
    have hsrc : (m.transitions j).source = i := by simpa using hsrc0
    have hj : j < m.nr_transitions := mem_upTo.1 hjm
    have hd := hw.history_default j hj
    rw [hsrc] at hd
    have hd := hd hi hty
    obtain ⟨hp, hch⟩ := hw.history_parent i hi hty
    obtain ⟨hpin, hpanc⟩ := parent_in_entry m hw i hi hp hch f.entry_set hcl hin
    have hchild : ∀ x, x < m.nr_states →
        BIT_HAS x (m.states (m.states i).parent).children = true →
        ∀ a, a < m.nr_states → BIT_HAS a (m.states x).ancestors = true →
          BIT_HAS a f.entry_set = true :=
      fun x hx hxc => (child_ancestors_in m hw _ x hp hx hxc f.entry_set hcl hpin).2
    rw [descend_history_default_entry m i j f hfi]
    apply sweep_added m hw i f.entry_set _ hcl
    · intro x hx hxe _
      split
      · split
        · exact BIT_HAS_bit_or_left _ _ _ _ (BIT_HAS_bit_or_left _ _ _ _ hxe)
        · exact BIT_HAS_bit_or_left _ _ _ _ hxe
      · exact BIT_HAS_bit_or_left _ _ _ _ hxe
    · intro x hx
      by_cases hcond : (SCXML_STATE_MASK (m.states i).type == SCXML_STATE_HISTORY_DEEP &&
          !bit_has_and (m.transitions j).target (m.states i).children (nr_states_bytes m))
          = true
      · rw [if_pos hcond]
        cases hfk : firstIdx (fun k => BIT_HAS k (m.transitions j).target)
            (fromTo (i + 1) m.nr_states) with
        | none =>
          simp only []
          intro hxe
          rcases (state_bit_or m hx _ _).1 hxe with h | h
          · exact Or.inl h
          · right
            obtain ⟨hlt, hc | hc⟩ := hd x hx h
            · exact ⟨Or.inl hlt, fun a ha hxa =>
                BIT_HAS_bit_or_left _ _ _ _ (hchild x hx hc a ha hxa)⟩
            · have := firstIdx_unique (fun k => BIT_HAS k (m.transitions j).target)
                (fromTo (i + 1) m.nr_states) x (mem_fromTo.2 ⟨by omega, hx⟩) h
                (fun y hy hyt => hc.2.2.2.2 y (mem_fromTo.1 hy).2 hyt)
              rw [hfk] at this
              exact Option.noConfusion this
        | some k =>
          simp only []
          obtain ⟨hkt, hkm⟩ := firstIdx_some hfk
          have hk : k < m.nr_states := (mem_fromTo.1 hkm).2
          intro hxe
          rcases (state_bit_or m hx _ _).1 hxe with h | h
          · rcases (state_bit_or m hx _ _).1 h with h | h
            · exact Or.inl h
            · right
              obtain ⟨hlt, hc | hc⟩ := hd x hx h
              · exact ⟨Or.inl hlt, fun a ha hxa => BIT_HAS_bit_or_left _ _ _ _
                  (BIT_HAS_bit_or_left _ _ _ _ (hchild x hx hc a ha hxa))⟩
              · have hkx : k = x := hc.2.2.2.2 k hk hkt
                rw [hkx]
                exact ⟨Or.inl hlt, fun a ha hxa =>
                  BIT_HAS_bit_or_right _ _ _ _ (state_byte_lt m ha) hxa⟩
          · obtain ⟨hlt, hc | hc⟩ := hd k hk hkt
            · exact Or.inl (hchild k hk hc x hx h)
            · rcases hw.ancestors_chain k hk x hx _ hp h hc.2.2.1 with e | e | e
              · rw [e]; exact Or.inl hpin
              · right
                exact ⟨Or.inl (hc.2.2.2.1 x hx h e), fun a ha hxa =>
                  BIT_HAS_bit_or_right _ _ _ _ (state_byte_lt m ha)
                    ((hw.ancestors_before k hk x hx h).2.2 a ha hxa)⟩
              · exact Or.inl (hpanc x hx e)
      · rw [if_neg hcond]
        intro hxe
        rcases (state_bit_or m hx _ _).1 hxe with h | h
        · exact Or.inl h
        · right
          obtain ⟨hlt, hc | hc⟩ := hd x hx h
          · exact ⟨Or.inl hlt, fun a ha hxa =>
              BIT_HAS_bit_or_left _ _ _ _ (hchild x hx hc a ha hxa)⟩
          · exfalso
            apply hcond
            rw [hc.1, hc.2.1]
            rfl

theorem foldl_invariant_mem {σ α : Type} (P : σ → Prop) (body : σ → α → σ) (l : List α)
    (hb : ∀ s a, a ∈ l → P s → P (body s a)) (s : σ) (h0 : P s) : P (l.foldl body s) := by
  induction l generalizing s with
  | nil => exact h0
  | cons a l ih =>
    exact ih (fun s b hb' hs => hb s b (List.mem_cons_of_mem a hb') hs) (body s a)
      (hb s a (List.mem_cons_self a l) h0)

theorem sweepGrown_set (m : scxml_machine H) (hw : WellFormedTables m) (i j k : Nat)
    (es cur : Bitset) (hg : sweepGrown m i es cur) (hij : i < j) (hjk : j < k)
    (hk : k < m.nr_states) (hjc : BIT_HAS j cur = true)
    (hkc : BIT_HAS k (m.states j).children = true) :
    sweepGrown m i es (BIT_SET_AT k cur) := by
  obtain ⟨g1, g2, g3⟩ := hg
  have hj : j < m.nr_states := by omega
  refine ⟨fun x hx hxe hps => BIT_HAS_BIT_SET_AT_mono _ _ _ (g1 x hx hxe hps), ?_, ?_⟩
  · intro x hx hxe a ha hxa
    apply BIT_HAS_BIT_SET_AT_mono
    rw [BIT_HAS_BIT_SET_AT, Bool.or_eq_true, decide_eq_true_eq] at hxe
    rcases hxe with e | e
    · rw [e] at hxa
      rcases (hw.children_ancestors j hj k hk hkc a ha).1 hxa with h | h
      · rw [h]; exact hjc
      · exact g2 j hj hjc a ha h
    · exact g2 x hx e a ha hxa
  · intro x hx hxe
    rw [BIT_HAS_BIT_SET_AT, Bool.or_eq_true, decide_eq_true_eq] at hxe
    rcases hxe with e | e
    · rw [e]; exact Or.inr (Or.inl (by omega))
    · exact g3 x hx e

theorem descend_history_restore_inv (m : scxml_machine H) (hw : WellFormedTables m) (i : Nat)
    (hi : i < m.nr_states) (f : Frame H) (hin : BIT_HAS i f.entry_set = true)
    (hty : isHistoryType m i = true) (hcl : ancestorClosed m f.entry_set)
    (hh : historyClosed m f.ctx.history) :
    sweepGrown m i f.entry_set (descend_history_restore m i f).entry_set := by
  obtain ⟨hp, hch⟩ := hw.history_parent i hi hty
  obtain ⟨hpin, hpanc⟩ := parent_in_entry m hw i hi hp hch f.entry_set hcl hin
  have hbits : ∀ x, x < m.nr_states →
      (BIT_HAS x (bit_or f.entry_set
        (bit_and (bit_copy f.tmp_states (m.states i).completion (nr_states_bytes m))
          f.ctx.history (nr_states_bytes m)) (nr_states_bytes m)) = true ↔
        BIT_HAS x f.entry_set = true ∨
          (BIT_HAS x (m.states i).completion = true ∧ BIT_HAS x f.ctx.history = true)) := by
    intro x hx
    rw [state_bit_or m hx, BIT_HAS_bit_and, if_pos (state_byte_lt m hx), BIT_HAS_bit_copy,
      if_pos (state_byte_lt m hx), Bool.and_eq_true]
  have hbase : sweepGrown m i f.entry_set (bit_or f.entry_set
      (bit_and (bit_copy f.tmp_states (m.states i).completion (nr_states_bytes m))
        f.ctx.history (nr_states_bytes m)) (nr_states_bytes m)) := by
    refine ⟨fun x _ hxe _ => BIT_HAS_bit_or_left _ _ _ _ hxe, ?_, ?_⟩
    · intro x hx hxe a ha hxa
      apply (hbits a ha).2
      rcases (hbits x hx).1 hxe with h | ⟨hc, hr⟩
      · exact Or.inl (hcl x hx h a ha hxa)
      · rcases (hw.history_completion i hi hty x hx hc).2 a ha hxa with e | e | e
        · rw [e]; exact Or.inl hpin
        · exact Or.inl (hpanc a ha e)
        · exact Or.inr ⟨e, hh i hi hty x hx hc hr a ha hxa e⟩
    · intro x hx hxe
      rcases (hbits x hx).1 hxe with h | ⟨hc, _⟩
      · exact Or.inl h
      · exact Or.inr (hw.history_completion i hi hty x hx hc).1
  unfold descend_history_restore
  simp only []
  split
  · apply foldl_invariant_mem (sweepGrown m i f.entry_set)
    · intro cur j hjm hcur
      have hij : i < j := by have := (mem_fromTo.1 hjm).1; omega
      split
      · rename_i hcond
        simp only [Bool.and_eq_true] at hcond
        have hjc : BIT_HAS j cur = true := hcond.1.2
        have hinner : sweepGrown m i f.entry_set
            ((fromTo (j + 1) m.nr_states).foldl
              (fun es k =>
                if (SCXML_STATE_MASK (m.states k).type == SCXML_STATE_HISTORY_DEEP ||
                    SCXML_STATE_MASK (m.states k).type == SCXML_STATE_HISTORY_SHALLOW) &&
                    BIT_HAS k (m.states j).children then
                  BIT_SET_AT k es
                else es) cur) ∧
            BIT_HAS j ((fromTo (j + 1) m.nr_states).foldl
              (fun es k =>
                if (SCXML_STATE_MASK (m.states k).type == SCXML_STATE_HISTORY_DEEP ||
                    SCXML_STATE_MASK (m.states k).type == SCXML_STATE_HISTORY_SHALLOW) &&
                    BIT_HAS k (m.states j).children then
                  BIT_SET_AT k es
                else es) cur) = true := by
          apply foldl_invariant_mem
            (fun e : Bitset => sweepGrown m i f.entry_set e ∧ BIT_HAS j e = true)
          · intro e k hkm he
            have hk := mem_fromTo.1 hkm
            split
            · rename_i hkcond
              simp only [Bool.and_eq_true] at hkcond
              exact ⟨sweepGrown_set m hw i j k f.entry_set e he.1 hij (by omega) hk.2 he.2
                hkcond.2, BIT_HAS_BIT_SET_AT_mono _ _ _ he.2⟩
            · exact he
          · exact ⟨hcur, hjc⟩
        exact hinner.1
      · exact hcur
    · exact hbase
  · exact hbase

theorem sweepGrown_refl (m : scxml_machine H) (i : Nat) (es : Bitset)
    (hcl : ancestorClosed m es) : sweepGrown m i es es :=
  ⟨fun _ _ h _ => h, hcl, fun _ _ h => Or.inl h⟩

/-- The inner loop of the initial case: the ancestors of the targets after `i` are added. -/
theorem fold_ancestors_bits (m : scxml_machine H) (tgt : Bitset) (l : List Nat) (base : Bitset)
    (x : Nat) (hx : x < m.nr_states) :
    BIT_HAS x (l.foldl (fun es k =>
      if BIT_HAS k tgt then bit_or es (m.states k).ancestors (nr_states_bytes m) else es)
      base) = true ↔
    (BIT_HAS x base = true ∨
      ∃ k, k ∈ l ∧ BIT_HAS k tgt = true ∧ BIT_HAS x (m.states k).ancestors = true) := by
  induction l generalizing base with
  | nil => simp
  | cons a l ih =>
    rw [List.foldl_cons, ih]
    by_cases ha : BIT_HAS a tgt = true
    · rw [if_pos ha, state_bit_or m hx]
      constructor
      · rintro ((h | h) | ⟨k, hk, h1, h2⟩)
        · exact Or.inl h
        · exact Or.inr ⟨a, List.mem_cons_self a l, ha, h⟩
        · exact Or.inr ⟨k, List.mem_cons_of_mem a hk, h1, h2⟩
      · rintro (h | ⟨k, hk, h1, h2⟩)
        · exact Or.inl (Or.inl h)
        · rcases List.mem_cons.1 hk with e | e
          · rw [e] at h2
            exact Or.inl (Or.inr h2)
          · exact Or.inr ⟨k, e, h1, h2⟩
    · rw [if_neg ha]
      constructor
      · rintro (h | ⟨k, hk, h1, h2⟩)
        · exact Or.inl h
        · exact Or.inr ⟨k, List.mem_cons_of_mem a hk, h1, h2⟩
      · rintro (h | ⟨k, hk, h1, h2⟩)
        · exact Or.inl h
        · rcases List.mem_cons.1 hk with e | e
          · rw [e] at h1
            exact absurd h1 ha
          · exact Or.inr ⟨k, e, h1, h2⟩

theorem descend_initial_inv (m : scxml_machine H) (hw : WellFormedTables m) (i : Nat)
    (hi : i < m.nr_states) (f : Frame H) (hin : BIT_HAS i f.entry_set = true)
    (hty : SCXML_STATE_MASK (m.states i).type = SCXML_STATE_INITIAL)
    (hcl : ancestorClosed m f.entry_set) :
    sweepGrown m i f.entry_set (descend_initial m i f).entry_set := by
  obtain ⟨hp, hch⟩ := hw.initial_parent i hi hty
  obtain ⟨hpin, hpanc⟩ := parent_in_entry m hw i hi hp hch f.entry_set hcl hin
  have hips : isPseudoState m i = true :=
    isPseudoState_of_initial m i (by rw [hty]; rfl)
  unfold descend_initial
  apply foldl_invariant_mem (fun g : Frame H => sweepGrown m i f.entry_set g.entry_set)
  swap
  · exact sweepGrown_refl m i f.entry_set hcl
  intro g t htm hg
  have ht : t < m.nr_transitions := mem_upTo.1 htm
  split
  swap
  · exact hg
  rename_i hsrc0
  have hsrc : (m.transitions t).source = i := by simpa using hsrc0
  have hd := hw.initial_target t ht
  rw [hsrc] at hd
  have hd := hd hi hty
  obtain ⟨g1, g2, g3⟩ := hg
  have hbits := fun x hx => fold_ancestors_bits m (m.transitions t).target
    (fromTo (i + 1) m.nr_states)
    (bit_or (BIT_CLEAR i g.entry_set) (m.transitions t).target (nr_states_bytes m)) x hx
  have hbase : ∀ x, x < m.nr_states →
      (BIT_HAS x (bit_or (BIT_CLEAR i g.entry_set) (m.transitions t).target
        (nr_states_bytes m)) = true ↔
        (x ≠ i ∧ BIT_HAS x g.entry_set = true) ∨
          BIT_HAS x (m.transitions t).target = true) := by
    intro x hx
    rw [state_bit_or m hx, BIT_HAS_BIT_CLEAR, Bool.and_eq_true, Bool.not_eq_true',
      decide_eq_false_iff_not]
  have hkeep : ∀ x, x < m.nr_states → BIT_HAS x g.entry_set = true →
      isPseudoState m x = false →
      BIT_HAS x ((fromTo (i + 1) m.nr_states).foldl (fun es k =>
        if BIT_HAS k (m.transitions t).target then
          bit_or es (m.states k).ancestors (nr_states_bytes m) else es)
        (bit_or (BIT_CLEAR i g.entry_set) (m.transitions t).target (nr_states_bytes m)))
        = true := by
    intro x hx hxe hps
    apply (hbits x hx).2
    left
    apply (hbase x hx).2
    left
    refine ⟨?_, hxe⟩
    intro e
    rw [e, hips] at hps
    exact absurd hps (by decide)
  refine ⟨fun x hx hxe hps => hkeep x hx (g1 x hx hxe hps) hps, ?_, ?_⟩
  · intro x hx hxe a ha hxa
    rcases (hbits x hx).1 hxe with h | ⟨k, hk, hkt, hkx⟩
    · rcases (hbase x hx).1 h with ⟨_, h2⟩ | h2
      · exact hkeep a ha (g2 x hx h2 a ha hxa) (hw.ancestors_before x hx a ha hxa).2.1
      · apply (hbits a ha).2
        right
        exact ⟨x, mem_fromTo.2 ⟨by have := (hd x hx h2).1; omega, hx⟩, h2, hxa⟩
    · apply (hbits a ha).2
      right
      have hk' := (mem_fromTo.1 hk).2
      exact ⟨k, hk, hkt, (hw.ancestors_before k hk' x hx hkx).2.2 a ha hxa⟩
  · intro x hx hxe
    rcases (hbits x hx).1 hxe with h | ⟨k, hk, hkt, hkx⟩
    · rcases (hbase x hx).1 h with ⟨_, h2⟩ | h2
      · exact g3 x hx h2
      · exact Or.inr (Or.inl (hd x hx h2).1)
    · have hk' := (mem_fromTo.1 hk).2
      rcases (hd k hk' hkt).2 x hx hkx with e | e | e
      · rw [e]; exact Or.inl hpin
      · exact Or.inl (hpanc x hx e)
      · exact Or.inr (Or.inl e)

/-- One iteration of the descendant sweep, for a state of the entry set. -/
theorem descend_body_grown (m : scxml_machine H) (hw : WellFormedTables m) (i : Nat)
    (hi : i < m.nr_states) (f : Frame H) (hin : BIT_HAS i f.entry_set = true)
    (hcl : ancestorClosed m f.entry_set) (hh : historyClosed m f.ctx.history) :
    sweepGrown m i f.entry_set (descend_body m i f).entry_set ∧
    (SCXML_STATE_MASK (m.states i).type = SCXML_STATE_PARALLEL →
      ∀ c, c < m.nr_states → BIT_HAS c (m.states i).children = true →
        isPseudoState m c = false → BIT_HAS c (descend_body m i f).entry_set = true) := by
  have hkeep : ∀ x, x < m.nr_states → BIT_HAS x f.entry_set = true →
      isPseudoState m x = false → BIT_HAS x (descend_body m i f).entry_set = true :=
    fun x _ hxe hps => descend_body_entry_mono m i x f hxe (mask_ne_initial_of_proper m x hps)
  have hnotpar : ∀ t, t ≠ SCXML_STATE_PARALLEL →
      SCXML_STATE_MASK (m.states i).type = t →
      (SCXML_STATE_MASK (m.states i).type = SCXML_STATE_PARALLEL →
        ∀ c, c < m.nr_states → BIT_HAS c (m.states i).children = true →
          isPseudoState m c = false → BIT_HAS c (descend_body m i f).entry_set = true) := by
    intro t ht h1 h2
    rw [h1] at h2
    exact absurd h2 ht
  by_cases h1 : SCXML_STATE_MASK (m.states i).type = SCXML_STATE_PARALLEL
  · have hd : descend_body m i f = descend_parallel m i f := by
      unfold descend_body
      rw [if_pos hin, h1]
      rfl
    rw [hd]
    obtain ⟨p1, p2, p3⟩ := descend_parallel_inv m hw i hi f hin h1 hcl
    rw [hd] at hkeep
    exact ⟨⟨hkeep, p1, p2⟩, fun _ => p3⟩
  have h1b : (SCXML_STATE_MASK (m.states i).type == SCXML_STATE_PARALLEL) = false := by
    simpa using h1
  by_cases h2 : isHistoryType m i = true
  · have h2' : (SCXML_STATE_MASK (m.states i).type == SCXML_STATE_HISTORY_SHALLOW ||
        SCXML_STATE_MASK (m.states i).type == SCXML_STATE_HISTORY_DEEP) = true := h2
    have hd : descend_body m i f = descend_history m i f := by
      unfold descend_body
      rw [if_pos hin, h1b]
      simp only [Bool.false_eq_true, if_false]
      rw [if_pos h2']
    refine ⟨?_, fun h => absurd h h1⟩
    rw [hd]
    rw [hd] at hkeep
    unfold descend_history
    unfold descend_history at hkeep
    split
    · rename_i hbr
      rw [if_pos hbr] at hkeep
      obtain ⟨p1, p2⟩ := descend_history_default_inv m hw i hi f hin h2 hcl
      exact ⟨hkeep, p1, p2⟩
    · exact descend_history_restore_inv m hw i hi f hin h2 hcl hh
  have h2b : (SCXML_STATE_MASK (m.states i).type == SCXML_STATE_HISTORY_SHALLOW ||
      SCXML_STATE_MASK (m.states i).type == SCXML_STATE_HISTORY_DEEP) = false := by
    simpa [isHistoryType] using h2
  by_cases h3 : SCXML_STATE_MASK (m.states i).type = SCXML_STATE_INITIAL
  · have hd : descend_body m i f = descend_initial m i f := by
      unfold descend_body
      rw [if_pos hin, h1b]
      simp only [Bool.false_eq_true, if_false]
      rw [h2b]
      simp only [Bool.false_eq_true, if_false]
      rw [h3]
      rfl
    refine ⟨?_, fun h => absurd h h1⟩
    rw [hd]
    exact descend_initial_inv m hw i hi f hin h3 hcl
  have h3b : (SCXML_STATE_MASK (m.states i).type == SCXML_STATE_INITIAL) = false := by
    simpa using h3
  by_cases h4 : SCXML_STATE_MASK (m.states i).type = SCXML_STATE_COMPOUND
  · have hd : descend_body m i f = descend_compound m i f := by
      unfold descend_body
      rw [if_pos hin, h1b]
      simp only [Bool.false_eq_true, if_false]
      rw [h2b]
      simp only [Bool.false_eq_true, if_false]
      rw [h3b]
      simp only [Bool.false_eq_true, if_false]
      rw [h4]
      rfl
    refine ⟨?_, fun h => absurd h h1⟩
    rw [hd]
    rw [hd] at hkeep
    obtain ⟨p1, p2⟩ := descend_compound_inv m hw i hi f hin h4 hcl
    exact ⟨hkeep, p1, p2⟩
  have h4b : (SCXML_STATE_MASK (m.states i).type == SCXML_STATE_COMPOUND) = false := by
    simpa using h4
  have hd : descend_body m i f = f := by
    unfold descend_body
    rw [if_pos hin, h1b]
    simp only [Bool.false_eq_true, if_false]
    rw [h2b]
    simp only [Bool.false_eq_true, if_false]
    rw [h3b]
    simp only [Bool.false_eq_true, if_false]
    rw [h4b]
    simp only [Bool.false_eq_true, if_false]
  rw [hd]
  exact ⟨sweepGrown_refl m i f.entry_set hcl, fun h => absurd h h1⟩

/-- One iteration of the descendant sweep keeps the entry set closed under ancestors and
fills the parallel states up to the state it examines. -/
theorem descend_body_inv (m : scxml_machine H) (hw : WellFormedTables m) (i : Nat)
    (hi : i < m.nr_states) (f : Frame H)
    (hcl : ancestorClosed m f.entry_set) (hh : historyClosed m f.ctx.history)
    (hfilled : parallelsFilled m i f.entry_set) :
    ancestorClosed m (descend_body m i f).entry_set ∧
    parallelsFilled m (i + 1) (descend_body m i f).entry_set := by
  by_cases hin : BIT_HAS i f.entry_set = true
  · obtain ⟨⟨g1, g2, g3⟩, gp⟩ := descend_body_grown m hw i hi f hin hcl hh
    exact ⟨g2, sweep_step_filled m i f.entry_set _ g1 g3 (fun h _ => gp h) hfilled⟩
  · have hd : descend_body m i f = f := by
      unfold descend_body
      rw [if_neg hin]
    rw [hd]
    exact ⟨hcl, sweep_step_filled m i f.entry_set _ (fun _ _ h _ => h)
      (fun _ _ h => Or.inl h) (fun _ h => absurd h hin) hfilled⟩

theorem ancestor_sweep_upto_closed (m : scxml_machine H) (hw : WellFormedTables m) (k : Nat)
    (hk : k ≤ m.nr_states) (f : Frame H) :
    ∀ x, x < k → BIT_HAS x (ancestor_sweep_upto m k f).entry_set = true →
      ∀ a, a < m.nr_states → BIT_HAS a (m.states x).ancestors = true →
        BIT_HAS a (ancestor_sweep_upto m k f).entry_set = true := by
  induction k with
  | zero => intro x hx; omega
  | succ k ih =>
    have ih := ih (by omega)
    have hkn : k < m.nr_states := by omega
    intro x hx hxe a ha hxa
    rw [ancestor_sweep_upto_succ] at hxe ⊢
    by_cases hin : BIT_HAS k (ancestor_sweep_upto m k f).entry_set = true
    · rw [if_pos hin] at hxe ⊢
      have hxn : x < m.nr_states := by omega
      rcases (state_bit_or m hxn _ _).1 hxe with h | h
      · by_cases hxk : x = k
        · rw [hxk] at hxa
          exact BIT_HAS_bit_or_right _ _ _ _ (state_byte_lt m ha) hxa
        · exact BIT_HAS_bit_or_left _ _ _ _ (ih x (by omega) h a ha hxa)
      · exact BIT_HAS_bit_or_right _ _ _ _ (state_byte_lt m ha)
          ((hw.ancestors_before k hkn x hxn h).2.2 a ha hxa)
    · rw [if_neg hin] at hxe ⊢
      by_cases hxk : x = k
      · rw [hxk] at hxe
        exact absurd hxe hin
      · exact ih x (by omega) hxe a ha hxa

/-- The entry set that `ESTABLISH_ENTRY_SET` computes is closed under ancestors and holds
the proper children of its parallel states. -/
theorem establish_entry_set_inv (m : scxml_machine H) (hw : WellFormedTables m) (f : Frame H)
    (hh : historyClosed m f.ctx.history) :
    ancestorClosed m (establish_entry_set m f).entry_set ∧
    parallelsFilled m m.nr_states (establish_entry_set m f).entry_set := by
  unfold establish_entry_set
  simp only []
  have hstart : ancestorClosed m (ancestor_sweep m
      { f with entry_set := bit_copy f.entry_set f.target_set (nr_states_bytes m) }).entry_set
      := by
    intro x hx
    rw [ancestor_sweep_eq_upto]
    exact ancestor_sweep_upto_closed m hw m.nr_states (Nat.le_refl _) _ x hx
  have hctx : ∀ k, (descendant_sweep m k (ancestor_sweep m
      { f with entry_set := bit_copy f.entry_set f.target_set (nr_states_bytes m) })).ctx
      = f.ctx := by
    intro k
    rw [(descendant_sweep_entryStep m k _).1, (ancestor_sweep_entryStep m _).1]
  have hall : ∀ k, k ≤ m.nr_states →
      ancestorClosed m (descendant_sweep m k (ancestor_sweep m
        { f with entry_set :=
          bit_copy f.entry_set f.target_set (nr_states_bytes m) })).entry_set ∧
      parallelsFilled m k (descendant_sweep m k (ancestor_sweep m
        { f with entry_set :=
          bit_copy f.entry_set f.target_set (nr_states_bytes m) })).entry_set := by
    intro k
    induction k with
    | zero =>
      intro _
      refine ⟨hstart, ?_⟩
      intro p _ hlt
      omega
    | succ k ih =>
      intro hk
      obtain ⟨c1, c2⟩ := ih (by omega)
      rw [descendant_sweep_succ]
      exact descend_body_inv m hw k (by omega) _ c1 (by rw [hctx k]; exact hh) c2
  exact hall m.nr_states (Nat.le_refl _)

/-- `REMEMBER_HISTORY` keeps the history bitset closed when config is closed under ancestors. -/
theorem remember_history_closed (m : scxml_machine H) (hw : WellFormedTables m) (f : Frame H)
    (hanc : ancestorClosed m f.ctx.config) (hh : historyClosed m f.ctx.history) :
    historyClosed m (remember_history m f).ctx.history := by
  have hcap : ∀ hs ks, isHistoryType m hs = true → captured m f ks = true →
      (m.states hs).parent = (m.states ks).parent → captured m f hs = true := by
    intro hs ks hty hk hpar
    unfold captured at hk ⊢
    rw [Bool.and_eq_true] at hk
    rw [hty, hpar, hk.2]
    rfl
  have hkty : ∀ ks, captured m f ks = true → isHistoryType m ks = true := by
    intro ks hk
    unfold captured at hk
    rw [Bool.and_eq_true] at hk
    exact hk.1
  intro hs hhs hty x hx hxc hxh a ha hxa hac
  by_cases hcov : ∃ k, k < m.nr_states ∧ captured m f k = true ∧ x / 8 < nr_states_bytes m ∧
      BIT_HAS x (m.states k).completion = true
  · have hxcfg : BIT_HAS x f.ctx.config = true := by
      rw [← (remember_history_bits m f x).1 hcov]
      exact hxh
    obtain ⟨k, hk, hkc, _, hkx⟩ := hcov
    have hpar := hw.history_disjoint hs hhs k hk hty (hkty k hkc) x hx hxc hkx
    rw [(remember_history_bits m f a).1
      ⟨hs, hhs, hcap hs k hty hkc hpar, state_byte_lt m ha, hac⟩]
    exact hanc x hx hxcfg a ha hxa
  · have hxold : BIT_HAS x f.ctx.history = true := by
      rw [← (remember_history_bits m f x).2 hcov]
      exact hxh
    by_cases hcova : ∃ k, k < m.nr_states ∧ captured m f k = true ∧
        a / 8 < nr_states_bytes m ∧ BIT_HAS a (m.states k).completion = true
    · exfalso
      obtain ⟨k, hk, hkc, _, hka⟩ := hcova
      have hpar := hw.history_disjoint hs hhs k hk hty (hkty k hkc) a ha hac hka
      exact hcov ⟨hs, hhs, hcap hs k hty hkc hpar, state_byte_lt m hx, hxc⟩
    · rw [(remember_history_bits m f a).2 hcova]
      exact hh hs hhs hty x hx hxc hxold a ha hxa hac

theorem testBit_initialized (x : Nat) :
    x &&& SCXML_CTX_INITIALIZED ≠ 0 ↔ x.testBit 1 = true := by
  have : SCXML_CTX_INITIALIZED = 2 ^ 1 := rfl
  rw [this, testBit_iff_land]

/-- The flag `SCXML_CTX_INITIALIZED` survives the scan and the flag update. -/
theorem update_flags_initialized (m : scxml_machine H) (cb : scxml_callbacks H)
    (stack : Locals) (ctx : scxml_ctx) (h : H)
    (hinit : ctx.flags &&& SCXML_CTX_INITIALIZED ≠ 0) :
    (update_flags (selection m cb stack ctx h)).ctx.flags.testBit 1 = true := by
  have h0 : ctx.flags.testBit 1 = true := (testBit_initialized _).1 hinit
  have hsel : (selection m cb stack ctx h).ctx.flags.testBit 1 = true := by
    rw [selection_flags]
    by_cases hex : ∃ u, u < m.nr_transitions ∧
        select_takes m cb u (select_scan m cb u (at_select m cb stack ctx h)) = true
    · rw [select_scan_flags_some m cb _ _ hex, (at_select_frame m cb stack ctx h).1,
        Nat.testBit_or, h0]
      rfl
    · rw [select_scan_flags_none m cb _ _ (fun u hu => by
          by_contra hne
          exact hex ⟨u, hu, by simpa using hne⟩), (at_select_frame m cb stack ctx h).1]
      exact h0
  have e1 : Nat.testBit (SCXML_CTX_TRANSITION_FOUND ^^^ 0xFF) 1 = true := by decide
  have e2 : Nat.testBit (SCXML_CTX_SPONTANEOUS ^^^ 0xFF) 1 = true := by decide
  unfold update_flags
  split
  · show Nat.testBit (((selection m cb stack ctx h).ctx.flags ||| SCXML_CTX_SPONTANEOUS) &&&
      (SCXML_CTX_TRANSITION_FOUND ^^^ 0xFF)) 1 = true
    rw [Nat.testBit_and, Nat.testBit_or, hsel, e1]
    rfl
  · show Nat.testBit ((selection m cb stack ctx h).ctx.flags &&&
      (SCXML_CTX_SPONTANEOUS ^^^ 0xFF)) 1 = true
    rw [Nat.testBit_and, hsel, e2]
    rfl

/-- After a step on a context that is not final the flags carry `SCXML_CTX_INITIALIZED`, if
the context was pristine or carried the flag. -/
theorem step_initialized (m : scxml_machine H) (cb : scxml_callbacks H) (stack : Locals)
    (ctx : scxml_ctx) (h : H)
    (hs : ctx.flags = SCXML_CTX_PRISTINE ∨ ctx.flags &&& SCXML_CTX_INITIALIZED ≠ 0)
    (hnf : ctx.flags &&& SCXML_CTX_TOP_LEVEL_FINAL = 0) :
    (scxml_step m cb stack ctx h).frame.ctx.flags &&& SCXML_CTX_INITIALIZED ≠ 0 := by
  rw [testBit_initialized]
  by_cases hp : ctx.flags = SCXML_CTX_PRISTINE
  · rw [scxml_step_not_final m cb stack ctx h hnf]
    have hf : (at_exit m cb stack ctx h).ctx.flags =
        ctx.flags ||| (SCXML_CTX_SPONTANEOUS ||| SCXML_CTX_INITIALIZED) := by
      unfold at_exit
      rw [(establish_entry_set_entryStep m _).1, before_entry_set_pristine m cb stack ctx h hp,
        (pristine_init_spec m cb _).2.2.2.1]
      rfl
    have hb : (at_exit m cb stack ctx h).ctx.flags.testBit 1 = true := by
      rw [hf, Nat.testBit_or]
      have : Nat.testBit (SCXML_CTX_SPONTANEOUS ||| SCXML_CTX_INITIALIZED) 1 = true := by
        decide
      rw [this, Bool.or_true]
    rcases (exit_take_enter_execStep m cb (at_exit m cb stack ctx h)).2.2.2.2.2.2.2.2.1
      with e | e
    · rw [e]; exact hb
    · rw [e, testBit_or_final _ 1 (by decide)]; exact hb
  · have hinit : ctx.flags &&& SCXML_CTX_INITIALIZED ≠ 0 := by
      rcases hs with e | e
      · exact absurd e hp
      · exact e
    have hb := update_flags_initialized m cb stack ctx h hinit
    rcases step_flags m cb stack ctx h (flags_ne_pristine hinit) hnf with e | e
    · rw [e]; exact hb
    · rw [e, testBit_or_final _ 1 (by decide)]; exact hb

/-- The proper ancestors of a target are in the entry set that `ESTABLISH_ENTRY_SET`
computes. -/
theorem establish_target_ancestor (m : scxml_machine H) (f : Frame H) (y s : Nat)
    (hy : y < m.nr_states) (hs : s < m.nr_states)
    (hyt : BIT_HAS y f.target_set = true)
    (hanc : BIT_HAS s (m.states y).ancestors = true)
    (hsty : (SCXML_STATE_MASK (m.states s).type == SCXML_STATE_INITIAL) = false) :
    BIT_HAS s (establish_entry_set m f).entry_set = true := by
  unfold establish_entry_set
  simp only []
  apply descendant_sweep_range (P := fun g : Frame H => BIT_HAS s g.entry_set = true) m 0
    m.nr_states (Nat.zero_le _)
  · intro i g _ _ hg
    exact descend_body_entry_mono m i s g hg hsty
  · show BIT_HAS s (ancestor_sweep m _).entry_set = true
    rw [ancestor_sweep_eq_upto]
    apply ancestor_sweep_adds m m.nr_states y s _ hy _ (state_byte_lt m hs) hanc
    show BIT_HAS y (bit_copy f.entry_set f.target_set (nr_states_bytes m)) = true
    rw [BIT_HAS_bit_copy, if_pos (state_byte_lt m hy)]
    exact hyt

/-- A step that returns `SCXML_ERR_OK` takes a legal context to a legal context. -/
theorem step_legal (m : scxml_machine H) (hw : WellFormedTables m) (cb : scxml_callbacks H)
    (stack : Locals) (ctx : scxml_ctx) (h : H) (hl : Legal m ctx)
    (hok : (scxml_step m cb stack ctx h).err = SCXML_ERR_OK) :
    Legal m (scxml_step m cb stack ctx h).frame.ctx := by
  have hnf : ctx.flags &&& SCXML_CTX_TOP_LEVEL_FINAL = 0 := by
    by_contra hne
    rw [scxml_step_final m cb stack ctx h hne] at hok
    have hcode : SCXML_ERR_DONE = SCXML_ERR_OK := hok
    exact absurd hcode (by decide)
  have hstep := scxml_step_not_final m cb stack ctx h hnf
  have hcfg0 := (at_exit_ctx m cb stack ctx h).1
  have hinit := step_initialized m cb stack ctx h hl.started hnf
  have hhist : historyClosed m
      (before_entry_set m cb (Frame.start stack ctx h)).ctx.history := by
    by_cases hp : ctx.flags = SCXML_CTX_PRISTINE
    · rw [before_entry_set_pristine m cb stack ctx h hp, (pristine_init_spec m cb _).2.1]
      exact hl.history_closed
    · have hnp : (ctx.flags == SCXML_CTX_PRISTINE) = false := by simpa using hp
      obtain ⟨r1, r2, _, r4, _, _⟩ := at_remember_spec m cb stack ctx h hnp
      rw [r4]
      apply remember_history_closed m hw
      · rw [r1]; exact hl.ancestors_active
      · rw [r2]; exact hl.history_closed
  obtain ⟨hecl, hefill⟩ :=
    establish_entry_set_inv m hw (before_entry_set m cb (Frame.start stack ctx h)) hhist
  have hexit : ∀ i, i < m.nr_states → BIT_HAS i ctx.config = true →
      BIT_HAS i (at_exit m cb stack ctx h).exit_set = true →
      ∃ t, t < m.nr_transitions ∧ BIT_HAS i (m.transitions t).exit_set = true ∧
        (∀ y, y < m.nr_states → BIT_HAS y ctx.config = true →
          BIT_HAS y (m.transitions t).exit_set = true →
            BIT_HAS y (at_exit m cb stack ctx h).exit_set = true) ∧
        (∀ y, y < m.nr_states → BIT_HAS y (m.transitions t).target = true →
          ∀ s, s < m.nr_states → BIT_HAS s (m.states y).ancestors = true →
            (SCXML_STATE_MASK (m.states s).type == SCXML_STATE_INITIAL) = false →
              BIT_HAS s (at_exit m cb stack ctx h).entry_set = true) := by
    intro i hi hic hix
    by_cases hp : ctx.flags = SCXML_CTX_PRISTINE
    · rw [hl.fresh hp i hi] at hic
      exact absurd hic (by decide)
    · have hnp : (ctx.flags == SCXML_CTX_PRISTINE) = false := by simpa using hp
      obtain ⟨_, t, ht, hsel, hit⟩ := (at_exit_exit_set m cb stack ctx h hnp i hi).1 hix
      refine ⟨t, ht, hit, fun y hy hyc hyt =>
        (at_exit_exit_set m cb stack ctx h hnp y hy).2 ⟨hyc, t, ht, hsel, hyt⟩, ?_⟩
      intro y hy hyt s hs hanc hsty
      obtain ⟨_, _, _, r4, r5, _⟩ := at_remember_spec m cb stack ctx h hnp
      unfold at_exit
      apply establish_target_ancestor m _ y s hy hs _ hanc hsty
      rw [r4, (remember_history_histStep m _).2.2.2.2.2.2.2.2.2.1]
      exact (r5 y (state_byte_lt m hy)).2 ⟨t, ht, hsel, hyt⟩
  have hbits : ∀ i, i < m.nr_states →
      (BIT_HAS i (scxml_step m cb stack ctx h).frame.ctx.config = true ↔
        (BIT_HAS i ctx.config = true ∧
          BIT_HAS i (at_exit m cb stack ctx h).exit_set = false) ∨
        (BIT_HAS i (at_exit m cb stack ctx h).entry_set = true ∧
          isPseudoState m i = false)) := by
    intro i hi
    rw [hstep] at hok ⊢
    rw [((exit_take_enter_spec m cb (at_exit m cb stack ctx h)).2 hok).2 i, hcfg0]
    simp only [hi, decide_True, Bool.true_and, Bool.or_eq_true, Bool.and_eq_true,
      Bool.not_eq_true']
  refine ⟨Or.inr hinit, ?_, ?_, ?_, ?_⟩
  · intro hp
    rw [hp] at hinit
    exact absurd rfl hinit
  · intro p hp _ hty hpc c hc hch hps
    apply (hbits c hc).2
    rcases (hbits p hp).1 hpc with ⟨h1, h2⟩ | ⟨h1, _⟩
    · have hcc := hl.parallel_children p hp hp hty h1 c hc hch hps
      by_cases hcx : BIT_HAS c (at_exit m cb stack ctx h).exit_set = true
      · obtain ⟨t, ht, hct, hback, htgt⟩ := hexit c hc hcc hcx
        right
        refine ⟨hefill p hp hp hty ?_ c hc hch hps, hps⟩
        rcases (hw.exit_set_closed t ht c hc hct).2 p hp hty hch with e | ⟨y, hy, hyt, hya⟩
        · have := hback p hp h1 e
          rw [h2] at this
          exact absurd this (by decide)
        · apply htgt y hy hyt p hp hya
          rw [hty]
          rfl
      · left
        exact ⟨hcc, by simpa using hcx⟩
    · right
      exact ⟨hefill p hp hp hty h1 c hc hch hps, hps⟩
  · intro x hx hxc a ha hxa
    apply (hbits a ha).2
    rcases (hbits x hx).1 hxc with ⟨h1, h2⟩ | ⟨h1, _⟩
    · left
      refine ⟨hl.ancestors_active x hx h1 a ha hxa, ?_⟩
      by_contra hne
      have hax : BIT_HAS a (at_exit m cb stack ctx h).exit_set = true := by simpa using hne
      obtain ⟨t, ht, hat, hback, _⟩ := hexit a ha (hl.ancestors_active x hx h1 a ha hxa) hax
      have := hback x hx h1 ((hw.exit_set_closed t ht a ha hat).1 x hx hxa)
      rw [h2] at this
      exact absurd this (by decide)
    · right
      exact ⟨hecl x hx h1 a ha hxa, (hw.ancestors_before x hx a ha hxa).2.1⟩
  · rw [(step_history_final m cb stack ctx h hnf).1]
    exact hhist

theorem run_legal (m : scxml_machine H) (hw : WellFormedTables m) (cb : scxml_callbacks H)
    (scratch : List Locals) (ctx : scxml_ctx) (h : H) (hl : Legal m ctx)
    (hok : ∀ e ∈ (run m cb scratch ctx h).errs, e = SCXML_ERR_OK) :
    Legal m (run m cb scratch ctx h).ctx := by
  induction scratch generalizing ctx h with
  | nil => exact hl
  | cons s ss ih =>
    have herrs : (run m cb (s :: ss) ctx h).errs =
        (scxml_step m cb s ctx h).err ::
          (run m cb ss (scxml_step m cb s ctx h).frame.ctx
            (scxml_step m cb s ctx h).frame.host).errs := rfl
    have hctx : (run m cb (s :: ss) ctx h).ctx =
        (run m cb ss (scxml_step m cb s ctx h).frame.ctx
          (scxml_step m cb s ctx h).frame.host).ctx := rfl
    rw [herrs] at hok
    rw [hctx]
    apply ih
    · exact step_legal m hw cb s ctx h hl (hok _ (List.mem_cons_self _ _))
    · intro e he
      exact hok e (List.mem_cons_of_mem _ he)

theorem legal_pristine (m : scxml_machine H) (ctx : scxml_ctx)
    (hp : ctx.flags = SCXML_CTX_PRISTINE)
    (hc : ∀ i, i < m.nr_states → BIT_HAS i ctx.config = false)
    (hh : ∀ i, i < m.nr_states → BIT_HAS i ctx.history = false) : Legal m ctx := by
  refine ⟨Or.inl hp, fun _ => hc, ?_, ?_, ?_⟩
  · intro p hp' _ _ hpc
    rw [hc p hp'] at hpc
    exact absurd hpc (by decide)
  · intro x hx hxc
    rw [hc x hx] at hxc
    exact absurd hxc (by decide)
  · intro hs _ _ x hx _ hxh
    rw [hh x hx] at hxh
    exact absurd hxh (by decide)

/-- C20, the claim as stated fails in two ways.  In `parallelHistoryMachine` (with either
completion byte for P) the first step of a run from a pristine context returns
`SCXML_ERR_OK` and leaves the parallel state P in config, while its child H, a history
pseudo-state named by `children[P]`, is not in config: `ENTER_STATES` never enters a
pseudo-state.  In `abortedEntryMachine` the first step enters P and R1, fails in the
`on_entry` program of R1 and returns the error with R2 not yet entered; the second step finds
nothing to do and returns `SCXML_ERR_OK` with P in config and its child state R2 not in
config. -/
theorem parallel_child_inactive :
    (∀ c, c = 0x1c ∨ c = 0x18 →
      (run (parallelHistoryMachine c) (listHost false []) [zeroStack] pristineCtx []).errs
        = [SCXML_ERR_OK] ∧
      SCXML_STATE_MASK ((parallelHistoryMachine c).states 1).type = SCXML_STATE_PARALLEL ∧
      BIT_HAS 1 (run (parallelHistoryMachine c) (listHost false []) [zeroStack]
        pristineCtx []).ctx.config = true ∧
      BIT_HAS 2 ((parallelHistoryMachine c).states 1).children = true ∧
      isHistoryType (parallelHistoryMachine c) 2 = true ∧
      BIT_HAS 2 (run (parallelHistoryMachine c) (listHost false []) [zeroStack]
        pristineCtx []).ctx.config = false) ∧
    (run abortedEntryMachine (listHost false []) [zeroStack, zeroStack] pristineCtx []).errs
      = [SCXML_ERR_EXEC_CONTENT, SCXML_ERR_OK] ∧
    SCXML_STATE_MASK (abortedEntryMachine.states 1).type = SCXML_STATE_PARALLEL ∧
    BIT_HAS 1 (run abortedEntryMachine (listHost false []) [zeroStack, zeroStack]
      pristineCtx []).ctx.config = true ∧
    BIT_HAS 3 (abortedEntryMachine.states 1).children = true ∧
    isPseudoState abortedEntryMachine 3 = false ∧
    BIT_HAS 3 (run abortedEntryMachine (listHost false []) [zeroStack, zeroStack]
      pristineCtx []).ctx.config = false := by
  refine ⟨?_, by decide, by decide, by decide, by decide, by decide, by decide⟩
  intro c hc
  rcases hc with hc | hc <;> subst hc <;> decide

/-- C20 (amended): parallel inclusion.  Take the tables of a compiled chart
(`WellFormedTables`; in particular the completion of a compound state and the targets of the
default transition of a history element name children or one single descendant) and a run of
steps, started from a pristine context with empty config and history, in which every step so
far returned `SCXML_ERR_OK`.  Then for every parallel state `s` in config, every state in
`children[s]` that is not a history pseudo-state is in config. -/
theorem parallel_inclusion (m : scxml_machine H) (hw : WellFormedTables m)
    (cb : scxml_callbacks H) (scratch : List Locals) (ctx : scxml_ctx) (h : H)
    (hp : ctx.flags = SCXML_CTX_PRISTINE)
    (hc : ∀ i, i < m.nr_states → BIT_HAS i ctx.config = false)
    (hh : ∀ i, i < m.nr_states → BIT_HAS i ctx.history = false)
    (hok : ∀ e ∈ (run m cb scratch ctx h).errs, e = SCXML_ERR_OK) :
    ∀ s, s < m.nr_states → SCXML_STATE_MASK (m.states s).type = SCXML_STATE_PARALLEL →
      BIT_HAS s (run m cb scratch ctx h).ctx.config = true →
      ∀ c, c < m.nr_states → BIT_HAS c (m.states s).children = true →
        isHistoryType m c = false →
        BIT_HAS c (run m cb scratch ctx h).ctx.config = true := by
  intro s hs hty hsc c hcn hch hnh
  have hl := run_legal m hw cb scratch ctx h (legal_pristine m ctx hp hc hh) hok
  apply hl.parallel_children s hs hs hty hsc c hcn hch
  have hni := hw.parallel_regions s hs hty c hcn hch
  unfold isHistoryType at hnh
  unfold isPseudoState
  simp only [Bool.or_eq_false_iff, beq_eq_false_iff_ne, ne_eq] at hnh ⊢
  exact ⟨⟨hnh.2, hnh.1⟩, hni⟩

/-- Instance of C20 (amended): `parallelHistoryMachine` run for two steps from the pristine
context; both steps return `SCXML_ERR_OK`, P is in config, and so is its child state R2. -/
theorem parallel_inclusion_witness :
    WellFormedTables (parallelHistoryMachine 0x1c) ∧
    pristineCtx.flags = SCXML_CTX_PRISTINE ∧
    (∀ e ∈ (run (parallelHistoryMachine 0x1c) (listHost false []) [zeroStack, zeroStack]
      pristineCtx []).errs, e = SCXML_ERR_OK) ∧
    BIT_HAS 1 (run (parallelHistoryMachine 0x1c) (listHost false []) [zeroStack, zeroStack]
      pristineCtx []).ctx.config = true ∧
    BIT_HAS 4 (run (parallelHistoryMachine 0x1c) (listHost false []) [zeroStack, zeroStack]
      pristineCtx []).ctx.config = true :=
  have hw : WellFormedTables (parallelHistoryMachine 0x1c) :=
    parallel_history_tables 0x1c (Or.inl rfl)
  have hok : ∀ e ∈ (run (parallelHistoryMachine 0x1c) (listHost false [])
      [zeroStack, zeroStack] pristineCtx []).errs, e = SCXML_ERR_OK := by decide
  have h1 : BIT_HAS 1 (run (parallelHistoryMachine 0x1c) (listHost false [])
      [zeroStack, zeroStack] pristineCtx []).ctx.config = true := by decide
  ⟨hw, rfl, hok, h1,
    parallel_inclusion (parallelHistoryMachine 0x1c) hw (listHost false [])
      [zeroStack, zeroStack] pristineCtx [] rfl (by decide) (by decide) hok
      1 (by decide) (by decide) h1 4 (by decide) (by decide) (by decide)⟩

/-- Why `WellFormedTables` asks the completion of a compound state to name children or one
single descendant: in `splitInitialMachine` the completion of C names the two states a and Q.
The deep completion of the sweep adds the ancestors of the first of them only (`break;
// completion of compound is single state`), so Q is in the entry set without its ancestors S
and T1; these are added when the sweep reaches Q, after the iteration for the parallel state S
has passed.  The first step returns `SCXML_ERR_OK` with S in config and its child state T2
not in config. -/
theorem deep_completion_misses_region :
    (run splitInitialMachine (listHost false []) [zeroStack] pristineCtx []).errs
      = [SCXML_ERR_OK] ∧
    (run splitInitialMachine (listHost false []) [zeroStack] pristineCtx []).ctx.config 0
      = 0xff ∧
    (run splitInitialMachine (listHost false []) [zeroStack] pristineCtx []).ctx.config 1
      = 0x0f ∧
    SCXML_STATE_MASK (splitInitialMachine.states 7).type = SCXML_STATE_PARALLEL ∧
    BIT_HAS 7 (run splitInitialMachine (listHost false []) [zeroStack]
      pristineCtx []).ctx.config = true ∧
    BIT_HAS 12 (splitInitialMachine.states 7).children = true ∧
    isPseudoState splitInitialMachine 12 = false ∧
    BIT_HAS 12 (run splitInitialMachine (listHost false []) [zeroStack]
      pristineCtx []).ctx.config = false := by
  decide

end ParallelInclusion


section SpontaneousChain
variable {H : Type}

set_option maxHeartbeats 4000000 in
/-- C22: the spontaneous chain.  For `chainMachine` and any host whose `is_enabled` reports
the two transitions enabled, whatever the scratch arrays hold: three successive calls of
`scxml_step` from the pristine context return `SCXML_ERR_OK`; the only calls through function
pointers are `is_enabled` for transition 0 (second step) and for transition 1 (third step), so
no dequeue callback is called; afterwards config is {root, S2} (byte `0x09`) and the flags are
`SPONTANEOUS | INITIALIZED | TOP_LEVEL_FINAL`; a fourth call returns `SCXML_ERR_DONE` and
makes no call. -/
theorem spontaneous_chain (cb : scxml_callbacks H)
    (hen : ∀ c t e x, t < 2 → 0 < (cb.is_enabled c t e x).1)
    (s1 s2 s3 s4 : Locals) (h : H) :
    (run (chainMachine H) cb [s1, s2, s3] pristineCtx h).errs =
      [SCXML_ERR_OK, SCXML_ERR_OK, SCXML_ERR_OK] ∧
    (run (chainMachine H) cb [s1, s2, s3] pristineCtx h).log =
      [Call.is_enabled 0, Call.is_enabled 1] ∧
    (run (chainMachine H) cb [s1, s2, s3] pristineCtx h).ctx.config 0 = 0x09 ∧
    (run (chainMachine H) cb [s1, s2, s3] pristineCtx h).ctx.flags =
      SCXML_CTX_SPONTANEOUS ||| SCXML_CTX_INITIALIZED ||| SCXML_CTX_TOP_LEVEL_FINAL ∧
    (run (chainMachine H) cb [s1, s2, s3, s4] pristineCtx h).errs =
      [SCXML_ERR_OK, SCXML_ERR_OK, SCXML_ERR_OK, SCXML_ERR_DONE] ∧
    (run (chainMachine H) cb [s1, s2, s3, s4] pristineCtx h).log =
      [Call.is_enabled 0, Call.is_enabled 1] := by
  have hen0 := fun c e x => hen c 0 e x (by decide)
  have hen1 := fun c e x => hen c 1 e x (by decide)
  simp +decide [run, pristineCtx, scxml_step, exit_take_enter, establish_entry_set,
    before_entry_set, pristine_init, clear_sets, Frame.start, chainMachine, bareState,
    bareTrans, nr_states_bytes, nr_trans_bytes, SCXML_CTX_TOP_LEVEL_FINAL, SCXML_CTX_PRISTINE,
    descendant_sweep, ancestor_sweep, upTo, List.range_succ, descend_body, bit_or, bit_copy,
    bit_clear_all, bit_and, bit_and_not, bytes, BIT_HAS, exit_states, take_transitions,
    enter_states, loop, downFrom, exit_body, take_body, enter_body, Flow.andThen,
    descend_compound, compound_needs_completion, bit_has_and, SCXML_STATE_MASK,
    SCXML_STATE_COMPOUND, SCXML_STATE_ATOMIC, SCXML_STATE_FINAL, SCXML_STATE_PARALLEL,
    SCXML_STATE_HISTORY_SHALLOW, SCXML_STATE_HISTORY_DEEP, SCXML_STATE_INITIAL, isPseudoState,
    isPseudoTrans, enter_on_entry, enter_init_data, enter_trans_body, enter_final, BIT_SET_AT,
    BIT_CLEAR, SCXML_CTX_SPONTANEOUS, SCXML_CTX_INITIALIZED, SCXML_ERR_OK, SCXML_ERR_DONE,
    Function.update_apply, SCXML_TRANS_SPONTANEOUS, SCXML_TRANS_HISTORY, SCXML_TRANS_INITIAL,
    hen0, hen1, acquire_event, select_transitions, select_scan, select_body, update_flags,
    remember_history, remember_body, isHistoryType, SCXML_CTX_TRANSITION_FOUND,
    enter_parallel_body, charValue, parallel_remaining]

/-- Instance of C22: the host `listHost true []`, which reports every transition enabled, and
scratch arrays full of junk. -/
theorem spontaneous_chain_witness :
    (run (chainMachine (List Nat)) (listHost true []) [junkStack, junkStack, junkStack]
      pristineCtx []).ctx.config 0 = 0x09 ∧
    (run (chainMachine (List Nat)) (listHost true []) [junkStack, junkStack, junkStack,
      zeroStack] pristineCtx []).errs =
      [SCXML_ERR_OK, SCXML_ERR_OK, SCXML_ERR_OK, SCXML_ERR_DONE] :=
  have hw := spontaneous_chain (listHost true [])
    (fun _ _ _ _ _ => by simp [listHost]) junkStack junkStack junkStack zeroStack []
  ⟨hw.2.2.1, hw.2.2.2.2.1⟩

end SpontaneousChain


section HelperTheorem

theorem byte_index_lt {i n : Nat} (hi : i < 8 * n) : i / 8 < n := by omega

/-- C24: the byte-wise helpers are the set operations on bit indices.  For arrays of `n`
bytes and every bit index `i < 8 * n`: after `bit_or`, `bit_and` and `bit_and_not` bit `i` of
`dest` is `dest_i ∨ mask_i`, `dest_i ∧ mask_i` and `dest_i ∧ ¬ mask_i`; after `bit_copy` bit
`i` of `dest` is bit `i` of `source` (the first `n` bytes of `dest` are those of `source`);
after `bit_clear_all` bit `i` is clear (the first `n` bytes are zero); and `bit_has_and`
returns nonzero exactly when some bit index below `8 * n` is set in both arguments. -/
theorem helpers_set_operations (dest mask : Bitset) (n i : Nat) (hi : i < 8 * n) :
    BIT_HAS i (bit_or dest mask n) = (BIT_HAS i dest || BIT_HAS i mask) ∧
    BIT_HAS i (bit_and dest mask n) = (BIT_HAS i dest && BIT_HAS i mask) ∧
    BIT_HAS i (bit_and_not dest mask n) = (BIT_HAS i dest && !BIT_HAS i mask) ∧
    BIT_HAS i (bit_copy dest mask n) = BIT_HAS i mask ∧
    (∀ j, j < n → bit_copy dest mask n j = mask j) ∧
    BIT_HAS i (bit_clear_all dest n) = false ∧
    (∀ j, j < n → bit_clear_all dest n j = 0) ∧
    (bit_has_and dest mask n = true ↔
      ∃ k, k < 8 * n ∧ BIT_HAS k dest = true ∧ BIT_HAS k mask = true) := by
  have hb := byte_index_lt hi
  refine ⟨?_, ?_, ?_, ?_, ?_, ?_, ?_, ?_⟩
  · rw [BIT_HAS_bit_or, if_pos hb]
  · rw [BIT_HAS_bit_and, if_pos hb]
  · rw [BIT_HAS_bit_and_not, if_pos hb]
  · rw [BIT_HAS_bit_copy, if_pos hb]
  · intro j hj
    rw [bit_copy_apply, if_pos hj]
  · rw [BIT_HAS_bit_clear_all, if_pos hb]
  · intro j hj
    rw [bit_clear_all_apply, if_pos hj]
  · rw [bit_has_and_iff]
    constructor
    · rintro ⟨k, hk, h1, h2⟩
      exact ⟨k, by omega, h1, h2⟩
    · rintro ⟨k, hk, h1, h2⟩
      exact ⟨k, byte_index_lt hk, h1, h2⟩

/-- Instance of C24: two arrays of two bytes and the bit index 9. -/
theorem helpers_set_operations_witness :
    9 < 8 * 2 ∧
    BIT_HAS 9 (bit_or (bytes [0x01, 0x02]) (bytes [0x80, 0x06]) 2) = true ∧
    BIT_HAS 9 (bit_and_not (bytes [0x01, 0x02]) (bytes [0x80, 0x06]) 2) = false ∧
    bit_has_and (bytes [0x01, 0x02]) (bytes [0x80, 0x06]) 2 = true :=
  have h9 : 9 < 8 * 2 := by decide
  have hs := helpers_set_operations (bytes [0x01, 0x02]) (bytes [0x80, 0x06]) 2 9 h9
  ⟨h9, hs.1.trans (by decide), hs.2.2.1.trans (by decide),
    hs.2.2.2.2.2.2.2.2 ⟨9, h9, by decide, by decide⟩⟩

end HelperTheorem


section BitsetEncoding

theorem testBit_mod_256 (x r : Nat) : (x % 256).testBit r = (decide (r < 8) && x.testBit r) := by
  have h256 : (256 : Nat) = 2 ^ 8 := by norm_num
  rw [h256, Nat.testBit_mod_two_pow]

theorem packInv_foldl (b : List Char) : PackInv b (b.foldl packStep ⟨[], 0, 0⟩) := by
  induction b using List.reverseRecOn with
  | nil =>
    refine ⟨rfl, rfl, ?_, ?_, ?_⟩
    · intro j r hj; exact absurd hj (Nat.not_lt_zero _)
    · intro j r hj; exact absurd hj (Nat.not_lt_zero _)
    · intro r; simp
  | append_singleton b c ih =>
    rw [List.foldl_append, List.foldl_cons, List.foldl_nil]
    generalize b.foldl packStep ⟨[], 0, 0⟩ = st at ih
    obtain ⟨hidx, hlen, hfull, hhigh, hcurr⟩ := ih
    have hlt : b.length % 8 < 8 := Nat.mod_lt _ (by decide)
    have hdm := Nat.div_add_mod b.length 8
    have hnew : ∀ r, ((if c = '1' then (st.currChar ||| (1 <<< st.index)) % 256
          else st.currChar)).testBit r =
        (decide (r < st.index + 1) &&
          decide ((b ++ [c]).getD (8 * (b.length / 8) + r) '0' = '1')) := by
      intro r
      by_cases hr : r < st.index
      · have hr8 : r < 8 := by omega
        have hlt2 : 8 * (b.length / 8) + r < b.length := by omega
        have hne : st.index ≠ r := by omega
        rw [List.getD_append _ _ _ _ hlt2]
        split
        · rw [testBit_mod_256, Nat.testBit_or, hcurr, Nat.one_shiftLeft, Nat.testBit_two_pow]
          simp [hr, hr8, hne, Nat.lt_succ_of_lt hr]
        · rw [hcurr]; simp [hr, Nat.lt_succ_of_lt hr]
      · by_cases hre : r = st.index
        · subst hre
          have hidx2 : 8 * (b.length / 8) + st.index = b.length := by omega
          have hr8 : st.index < 8 := by omega
          rw [hidx2, List.getD_append_right _ _ _ _ (le_refl _)]
          split
          · rename_i hc
            rw [testBit_mod_256, Nat.testBit_or, Nat.one_shiftLeft, Nat.testBit_two_pow]
            simp [hr8, hc]
          · rename_i hc
            rw [hcurr]; simp [hc]
        · have hgt : st.index < r := by omega
          have hne : st.index ≠ r := by omega
          split
          · rw [testBit_mod_256, Nat.testBit_or, hcurr, Nat.one_shiftLeft, Nat.testBit_two_pow]
            simp [hr, hne]
            intro _; omega
          · rw [hcurr]; simp [hr]; intro h; omega
    unfold packStep
    simp only []
    by_cases h8 : st.index + 1 = 8
    · rw [if_pos h8]
      have hlen2 : (b ++ [c]).length = 8 * (b.length / 8) + 8 := by
        rw [List.length_append, List.length_singleton]; omega
      refine ⟨?_, ?_, ?_, ?_, ?_⟩
      · show 0 = (b ++ [c]).length % 8
        rw [hlen2]; omega
      · show (st.charArray ++ [_]).length = (b ++ [c]).length / 8
        rw [List.length_append, List.length_singleton, hlen, hlen2]; omega
      · intro j r hj hr
        simp only [List.length_append, List.length_singleton] at hj
        by_cases hjl : j < st.charArray.length
        · rw [List.getD_append _ _ _ _ hjl, hfull j r hjl hr,
            List.getD_append _ _ _ _ (by omega)]
        · have hje : j = st.charArray.length := by omega
          subst hje
          rw [List.getD_append_right _ _ _ _ (le_refl _), Nat.sub_self]
          simp only [List.getD_cons_zero]
          rw [hnew r, hlen]
          simp [h8, hr]
      · intro j r hj hr
        simp only [List.length_append, List.length_singleton] at hj
        by_cases hjl : j < st.charArray.length
        · rw [List.getD_append _ _ _ _ hjl, hhigh j r hjl hr]
        · have hje : j = st.charArray.length := by omega
          subst hje
          rw [List.getD_append_right _ _ _ _ (le_refl _), Nat.sub_self]
          simp only [List.getD_cons_zero]
          rw [hnew r]
          simp; intro h; omega
      · intro r; simp
    · rw [if_neg h8]
      have hlen2 : (b ++ [c]).length = 8 * (b.length / 8) + (st.index + 1) := by
        rw [List.length_append, List.length_singleton]; omega
      have hdiv : (b ++ [c]).length / 8 = b.length / 8 := by rw [hlen2]; omega
      refine ⟨?_, ?_, ?_, ?_, ?_⟩
      · show st.index + 1 = (b ++ [c]).length % 8
        rw [hlen2]; omega
      · show st.charArray.length = (b ++ [c]).length / 8
        rw [hdiv, hlen]
      · intro j r hj hr
        have hj2 : j < st.charArray.length := hj
        rw [hfull j r hj2 hr, List.getD_append _ _ _ _ (by omega)]
      · intro j r hj hr
        exact hhigh j r hj hr
      · intro r
        show (if c = '1' then (st.currChar ||| (1 <<< st.index)) % 256
          else st.currChar).testBit r = _
        rw [hnew r, hdiv]

/-- Every bit of every byte of `charArrayOf b`. -/
theorem charArrayOf_testBit (b : List Char) (j r : Nat) :
    ((charArrayOf b).getD j 0).testBit r =
      (decide (r < 8) && decide (b.getD (8 * j + r) '0' = '1')) := by
  obtain ⟨hidx, hlen, hfull, hhigh, hcurr⟩ := packInv_foldl b
  unfold charArrayOf
  simp only []
  generalize b.foldl packStep ⟨[], 0, 0⟩ = st at hidx hlen hfull hhigh hcurr
  have hlt : b.length % 8 < 8 := Nat.mod_lt _ (by decide)
  have hdm := Nat.div_add_mod b.length 8
  have hout : ∀ k, b.length ≤ k → decide (b.getD k '0' = '1') = false := by
    intro k hk
    rw [List.getD_eq_default _ _ hk]; decide
  have hcur2 : st.currChar.testBit r =
      (decide (r < 8) && decide (b.getD (8 * (b.length / 8) + r) '0' = '1')) := by
    rw [hcurr]
    by_cases hr : r < st.index
    · simp [hr, show r < 8 by omega]
    · rw [hout _ (by omega)]; simp
  have hbeyond : ∀ k, b.length / 8 < k →
      (0 : Nat).testBit r = (decide (r < 8) && decide (b.getD (8 * k + r) '0' = '1')) := by
    intro k hk
    rw [hout _ (by omega)]; simp
  have hin : j < st.charArray.length → (st.charArray.getD j 0).testBit r =
      (decide (r < 8) && decide (b.getD (8 * j + r) '0' = '1')) := by
    intro hj
    by_cases hr : r < 8
    · rw [hfull j r hj hr]; simp [hr]
    · rw [hhigh j r hj (by omega)]; simp [hr]
  by_cases h0 : st.index ≠ 0
  · rw [if_pos h0]
    by_cases hj : j < st.charArray.length
    · rw [List.getD_append _ _ _ _ hj]; exact hin hj
    · by_cases hje : j = st.charArray.length
      · subst hje
        rw [List.getD_append_right _ _ _ _ (le_refl _), Nat.sub_self]
        simp only [List.getD_cons_zero]
        rw [hcur2, hlen]
      · rw [List.getD_eq_default _ _ (by
          rw [List.length_append, List.length_singleton]; omega)]
        exact hbeyond j (by omega)
  · rw [if_neg h0]
    by_cases hj : j < st.charArray.length
    · exact hin hj
    · rw [List.getD_eq_default _ _ (by omega)]
      rw [hout _ (by omega)]; simp

theorem charArrayOf_length (b : List Char) : (charArrayOf b).length = (b.length + 7) / 8 := by
  obtain ⟨hidx, hlen, -, -, -⟩ := packInv_foldl b
  unfold charArrayOf
  simp only []
  generalize b.foldl packStep ⟨[], 0, 0⟩ = st at hidx hlen
  by_cases h0 : st.index ≠ 0
  · rw [if_pos h0, List.length_append, List.length_singleton, hlen]; omega
  · rw [if_neg h0, hlen]; omega

/-- C23: bitset encoding round trip.  For every string `b` of length `n` the byte string built
by `writeCharArrayInitList` has `(n + 7) / 8` bytes, for every `i < n` the macro `BIT_HAS` finds
bit `i` set in it exactly when `b[i]` is the character 1, every bit at a position `≥ n` is
clear, and every byte is a pattern below 256 (printed as two hexadecimal digits). -/
theorem bitset_round_trip (b : List Char) :
    (charArrayOf b).length = (b.length + 7) / 8 ∧
    (∀ i, i < b.length → (BIT_HAS i (bytes (charArrayOf b)) = true ↔ b.getD i '0' = '1')) ∧
    (∀ i, b.length ≤ i → BIT_HAS i (bytes (charArrayOf b)) = false) ∧
    (∀ x, x ∈ charArrayOf b → x < 256) := by
  have hbit : ∀ i, BIT_HAS i (bytes (charArrayOf b)) = decide (b.getD i '0' = '1') := by
    intro i
    rw [BIT_HAS_eq_testBit]
    show ((charArrayOf b).getD (i / 8) 0).testBit (i % 8) = _
    rw [charArrayOf_testBit, Nat.div_add_mod]
    simp [Nat.mod_lt i (show 0 < 8 by decide)]
  refine ⟨charArrayOf_length b, ?_, ?_, ?_⟩
  · intro i _
    rw [hbit]; simp
  · intro i hi
    rw [hbit, List.getD_eq_default _ _ hi]; decide
  · intro x hx
    obtain ⟨j, hj, rfl⟩ := List.getElem_of_mem hx
    have h256 : (256 : Nat) = 2 ^ 8 := by norm_num
    rw [h256]
    apply Nat.lt_pow_two_of_testBit
    intro r hr
    have := charArrayOf_testBit b j r
    rw [List.getD_eq_getElem _ _ hj] at this
    rw [this]
    simp; intro h; omega

/-- Instance of C23: nine characters give two bytes, `0x0d` and `0x01`. -/
theorem bitset_round_trip_witness :
    charArrayOf "101100001".toList = [0x0d, 0x01] ∧
    writeCharArrayInitList "101100001".toList = "0x0d, 0x01" ∧
    BIT_HAS 8 (bytes (charArrayOf "101100001".toList)) = true ∧
    BIT_HAS 9 (bytes (charArrayOf "101100001".toList)) = false :=
  ⟨by decide, by decide,
    ((bitset_round_trip "101100001".toList).2.1 8 (by decide)).2 (by decide),
    (bitset_round_trip "101100001".toList).2.2.1 9 (by decide)⟩

end BitsetEncoding

section DocumentTree

theorem Node.induct (P : Node → Prop) (Q : List Node → Prop)
    (h1 : ∀ tag attrs cs, Q cs → P (Node.element tag attrs cs)) (h2 : P Node.other)
    (h3 : Q []) (h4 : ∀ c cs, P c → Q cs → Q (c :: cs)) : (∀ n, P n) ∧ (∀ cs, Q cs) :=
  ⟨@Node.rec P Q h1 h2 h3 h4, @Node.rec_1 P Q h1 h2 h3 h4⟩

theorem inDocumentOrder_mem (elements : List String) :
    (∀ n p r, r ∈ inDocumentOrderNode elements n p ↔
      ∃ q, r = p ++ q ∧ hasTagIn elements (descend n q) = true) ∧
    (∀ cs p i r, r ∈ inDocumentOrderList elements cs p i ↔
      ∃ k q, r = p ++ (i + k) :: q ∧
        hasTagIn elements ((cs.get? k).bind (fun c => descend c q)) = true) := by
  apply Node.induct
  · intro tag attrs cs ih p r
    rw [inDocumentOrderNode, List.mem_append, ih]
    constructor
    · rintro (h | ⟨k, q, rfl, h⟩)
      · split at h
        · rename_i ht
          rw [List.mem_singleton] at h
          exact ⟨[], by rw [h, List.append_nil], by simp [descend, hasTagIn, ht]⟩
        · exact absurd h (List.not_mem_nil _)
      · refine ⟨(0 + k) :: q, rfl, ?_⟩
        rw [Nat.zero_add]
        simp only [descend, Node.getChildNodes]
        cases hk : cs.get? k with
        | none => rw [hk] at h; simp [hasTagIn] at h
        | some c => rw [hk] at h; simpa using h
    · rintro ⟨q, rfl, h⟩
      cases q with
      | nil =>
        left
        simp only [descend, hasTagIn, decide_eq_true_eq] at h
        rw [if_pos h, List.append_nil]; exact List.mem_singleton_self _
      | cons k q =>
        right
        refine ⟨k, q, by rw [Nat.zero_add], ?_⟩
        simp only [descend, Node.getChildNodes] at h
        cases hk : cs.get? k with
        | none => rw [hk] at h; simp [hasTagIn] at h
        | some c => rw [hk] at h; simpa using h
  · intro p r
    rw [inDocumentOrderNode]
    constructor
    · intro h; exact absurd h (List.not_mem_nil _)
    · rintro ⟨q, -, h⟩
      cases q <;> simp [descend, hasTagIn, Node.getChildNodes] at h
  · intro p i r
    rw [inDocumentOrderList]
    constructor
    · intro h; exact absurd h (List.not_mem_nil _)
    · rintro ⟨k, q, -, h⟩
      simp [hasTagIn] at h
  · intro c cs ihc ihcs p i r
    rw [inDocumentOrderList, List.mem_append, ihc, ihcs]
    constructor
    · rintro (⟨q, rfl, h⟩ | ⟨k, q, rfl, h⟩)
      · exact ⟨0, q, by simp, by simpa using h⟩
      · exact ⟨k + 1, q, by simp [Nat.add_assoc, Nat.add_comm 1 k], by simpa using h⟩
    · rintro ⟨k, q, rfl, h⟩
      cases k with
      | zero => left; exact ⟨q, by simp, by simpa using h⟩
      | succ k =>
        right
        exact ⟨k, q, by simp [Nat.add_assoc, Nat.add_comm 1 k], by simpa using h⟩

end DocumentTree

section DocumentOrder

theorem inDocumentOrder_pairwise (elements : List String) :
    (∀ n p, (inDocumentOrderNode elements n p).Pairwise (fun a b => ¬ b <+: a)) ∧
    (∀ cs p i, (inDocumentOrderList elements cs p i).Pairwise (fun a b => ¬ b <+: a)) := by
  have hmem := inDocumentOrder_mem elements
  apply Node.induct
  · intro tag attrs cs ih p
    rw [inDocumentOrderNode, List.pairwise_append]
    refine ⟨?_, ih p 0, ?_⟩
    · split
      · exact List.pairwise_singleton _ _
      · exact List.Pairwise.nil
    · intro a ha b hb hpre
      obtain ⟨k, q, rfl, -⟩ := (hmem.2 cs p 0 b).1 hb
      have ha2 : a = p := by
        split at ha
        · exact List.mem_singleton.1 ha
        · exact absurd ha (List.not_mem_nil _)
      subst ha2
      have := hpre.length_le
      simp at this
  · intro p
    rw [inDocumentOrderNode]; exact List.Pairwise.nil
  · intro p i
    rw [inDocumentOrderList]; exact List.Pairwise.nil
  · intro c cs ihc ihcs p i
    rw [inDocumentOrderList, List.pairwise_append]
    refine ⟨ihc _, ihcs p (i + 1), ?_⟩
    intro a ha b hb hpre
    obtain ⟨q, rfl, -⟩ := (hmem.1 c (p ++ [i]) a).1 ha
    obtain ⟨k, q2, rfl, -⟩ := (hmem.2 cs p (i + 1) b).1 hb
    rw [List.append_assoc, List.prefix_append_right_inj, List.singleton_append,
      List.cons_prefix_cons] at hpre
    omega

theorem inPostFixOrder_perm (elements : List String) :
    (∀ n p, (inPostFixOrderNode elements n p).Perm (inDocumentOrderNode elements n p)) ∧
    (∀ cs p i, (inPostFixOrderList elements cs p i).Perm
      (inDocumentOrderList elements cs p i)) := by
  apply Node.induct
  · intro tag attrs cs ih p
    rw [inPostFixOrderNode, inDocumentOrderNode]
    exact List.perm_append_comm.trans (List.Perm.append_left _ (ih p 0))
  · intro p
    rw [inPostFixOrderNode, inDocumentOrderNode]
  · intro p i
    rw [inPostFixOrderList, inDocumentOrderList]
  · intro c cs ihc ihcs p i
    rw [inPostFixOrderList, inDocumentOrderList]
    exact List.Perm.append (ihc _) (ihcs p (i + 1))

theorem pairwise_nodup {l : List NodeRef} (h : l.Pairwise (fun a b => ¬ b <+: a)) : l.Nodup :=
  List.Pairwise.imp (fun {a b} (hab : ¬ b <+: a) (heq : a = b) =>
    hab (by rw [heq])) h

theorem BIT_HAS_charArrayOf (b : List Char) (i : Nat) :
    BIT_HAS i (bytes (charArrayOf b)) = decide (b.getD i '0' = '1') := by
  rw [BIT_HAS_eq_testBit]
  show ((charArrayOf b).getD (i / 8) 0).testBit (i % 8) = _
  rw [charArrayOf_testBit, Nat.div_add_mod]
  simp [Nat.mod_lt i (show 0 < 8 by decide)]

theorem boolString_getD (p : NodeRef → Bool) (l : List NodeRef) (i : Nat) :
    ((boolString p l).getD i '0' = '1') ↔ (i < l.length ∧ p (l.getD i []) = true) := by
  unfold boolString
  by_cases hi : i < l.length
  · rw [List.getD_eq_getElem _ _ (by rw [List.length_map]; exact hi), List.getElem_map,
      List.getD_eq_getElem _ _ hi]
    cases p l[i] <;> simp [hi]
  · rw [List.getD_eq_default _ _ (by rw [List.length_map]; omega)]
    simp [hi]

theorem BIT_HAS_boolString (p : NodeRef → Bool) (l : List NodeRef) (i : Nat) :
    BIT_HAS i (bytes (charArrayOf (boolString p l))) = true ↔
      (i < l.length ∧ p (l.getD i []) = true) := by
  rw [BIT_HAS_charArrayOf, decide_eq_true_eq, boolString_getD]

theorem boolString_congr (p q : NodeRef → Bool) (l : List NodeRef)
    (h : ∀ s, s ∈ l → p s = q s) : boolString p l = boolString q l := by
  unfold boolString
  apply List.map_congr_left
  intro s hs
  rw [h s hs]

theorem hasIntersection_comm (a b : List NodeRef) : hasIntersection a b = hasIntersection b a := by
  unfold hasIntersection
  rw [Bool.eq_iff_iff]
  simp only [List.any_eq_true, List.contains_iff_exists_mem_beq, beq_iff_eq]
  constructor
  · rintro ⟨x, hx, y, hy, rfl⟩
    exact ⟨x, hy, x, hx, rfl⟩
  · rintro ⟨x, hx, y, hy, rfl⟩
    exact ⟨x, hy, x, hx, rfl⟩

end DocumentOrder

section Conflicts

/-- C25: the conflicts relation of the emitted transition table is reflexive and symmetric.
For every document, whatever the absent helpers return, and all transitions `t`, `u` of the
table: bit `t` of `conflicts[t]` is set, and bit `u` of `conflicts[t]` is set exactly when bit
`t` of `conflicts[u]` is set. -/
theorem conflicts_reflexive_symmetric (hp : Helpers) (scxml : Node) (t u : Nat)
    (ht : t < (_transitions scxml).length) (hu : u < (_transitions scxml).length) :
    BIT_HAS t (bytes (transConflicts hp scxml t)) = true ∧
    (BIT_HAS u (bytes (transConflicts hp scxml t)) = true ↔
      BIT_HAS t (bytes (transConflicts hp scxml u)) = true) := by
  unfold transConflicts conflictBools
  simp only [BIT_HAS_boolString]
  refine ⟨⟨ht, ?_⟩, ?_⟩
  · simp
  · rw [hasIntersection_comm]
    simp only [ht, hu, true_and, Bool.or_eq_true, beq_iff_eq]
    constructor
    · rintro (((h | h) | h) | h)
      · exact Or.inl (Or.inl (Or.inl h))
      · exact Or.inl (Or.inl (Or.inr h.symm))
      · exact Or.inr h
      · exact Or.inl (Or.inr h)
    · rintro (((h | h) | h) | h)
      · exact Or.inl (Or.inl (Or.inl h))
      · exact Or.inl (Or.inl (Or.inr h.symm))
      · exact Or.inr h
      · exact Or.inl (Or.inr h)

/-- Instance of C25: the two transitions of `initialChart`. -/
theorem conflicts_reflexive_symmetric_witness :
    (_transitions initialChart).length = 2 ∧
    BIT_HAS 0 (bytes (transConflicts (tagHelpers initialChart) initialChart 0)) = true ∧
    (BIT_HAS 1 (bytes (transConflicts (tagHelpers initialChart) initialChart 0)) = true ↔
      BIT_HAS 0 (bytes (transConflicts (tagHelpers initialChart) initialChart 1)) = true) :=
  ⟨by decide, conflicts_reflexive_symmetric (tagHelpers initialChart) initialChart 0 1
    (by decide) (by decide)⟩

end Conflicts

section TreeFacts

theorem descend_append (n : Node) (q : List Nat) (i : Nat) :
    descend n (q ++ [i]) = (descend n q).bind (fun m => m.getChildNodes.get? i) := by
  induction q generalizing n with
  | nil =>
    simp only [List.nil_append, descend, Option.some_bind]
    cases n.getChildNodes.get? i <;> rfl
  | cons k q ih =>
    simp only [List.cons_append, descend]
    cases n.getChildNodes.get? k with
    | none => rfl
    | some c => exact ih c

theorem nodeAt_cons (scxml : Node) (q : List Nat) : nodeAt scxml (0 :: q) = descend scxml q := rfl

theorem nodeAt_some (scxml : Node) (r : NodeRef) (n : Node) (h : nodeAt scxml r = some n) :
    ∃ q, r = 0 :: q := by
  cases r with
  | nil => simp [nodeAt] at h
  | cons k q =>
    cases k with
    | zero => exact ⟨q, rfl⟩
    | succ k => simp [nodeAt] at h

theorem mem_states_iff (scxml : Node) (r : NodeRef) :
    r ∈ _states scxml ↔ hasTagIn stateElements (nodeAt scxml r) = true := by
  unfold _states inDocumentOrder
  rw [(inDocumentOrder_mem stateElements).1]
  constructor
  · rintro ⟨q, rfl, h⟩
    exact h
  · intro h
    cases hn : nodeAt scxml r with
    | none => rw [hn] at h; simp [hasTagIn] at h
    | some n =>
      obtain ⟨q, rfl⟩ := nodeAt_some scxml r n hn
      exact ⟨q, rfl, h⟩

theorem hasTagIn_iff_TAGNAME (scxml : Node) (r : NodeRef) (elements : List String)
    (hne : "" ∉ elements) :
    hasTagIn elements (nodeAt scxml r) = true ↔ TAGNAME scxml r ∈ elements := by
  unfold TAGNAME
  cases nodeAt scxml r with
  | none => simp [hasTagIn, hne]
  | some n =>
    cases n with
    | element tag attrs cs => simp [hasTagIn]
    | other => simp [hasTagIn, hne]

theorem mem_states_iff_TAGNAME (scxml : Node) (r : NodeRef) :
    r ∈ _states scxml ↔ TAGNAME scxml r ∈ stateElements := by
  rw [mem_states_iff, hasTagIn_iff_TAGNAME _ _ _ (by decide)]

theorem mem_getChildNodes (scxml : Node) (p c : NodeRef) :
    c ∈ getChildNodes scxml p ↔
      ∃ i n, c = p ++ [i] ∧ nodeAt scxml p = some n ∧ i < n.getChildNodes.length := by
  unfold getChildNodes
  cases hn : nodeAt scxml p with
  | none => simp
  | some n =>
    simp only [List.mem_map, List.mem_range, Option.some.injEq]
    constructor
    · rintro ⟨i, hi, rfl⟩
      exact ⟨i, n, rfl, rfl, hi⟩
    · rintro ⟨i, m, rfl, rfl, hi⟩
      exact ⟨i, hi, rfl⟩

theorem nodeAt_child (scxml : Node) (p : NodeRef) (i : Nat) (c : Node)
    (h : nodeAt scxml (p ++ [i]) = some c) (hp : p ≠ []) :
    ∃ n, nodeAt scxml p = some n ∧ i < n.getChildNodes.length := by
  obtain ⟨q, hq⟩ := nodeAt_some scxml _ c h
  cases p with
  | nil => exact absurd rfl hp
  | cons k p =>
    rw [List.cons_append, List.cons.injEq] at hq
    obtain ⟨rfl, -⟩ := hq
    rw [List.cons_append, nodeAt_cons, descend_append] at h
    rw [nodeAt_cons]
    cases hd : descend scxml p with
    | none => rw [hd] at h; simp at h
    | some n =>
      rw [hd, Option.some_bind] at h
      refine ⟨n, rfl, ?_⟩
      by_contra hlen
      rw [List.get?_eq_none.2 (by omega)] at h
      exact Option.noConfusion h

theorem states_ne_nil (scxml : Node) (r : NodeRef) (h : r ∈ _states scxml) : r ≠ [] := by
  rw [mem_states_iff] at h
  intro hr
  subst hr
  simp [nodeAt, hasTagIn] at h

theorem mem_getChildStates_iff (scxml : Node) (s p : NodeRef) (hs : s ∈ _states scxml)
    (hp : p ∈ _states scxml) : s ∈ getChildStates scxml p ↔ getParentNode s = p := by
  unfold getChildStates getParentNode
  rw [List.mem_filter, mem_getChildNodes]
  constructor
  · rintro ⟨⟨i, n, rfl, -, -⟩, -⟩
    exact List.dropLast_concat
  · intro hd
    have hne := states_ne_nil scxml s hs
    have hsplit := List.dropLast_append_getLast hne
    rw [hd] at hsplit
    have hs2 := (mem_states_iff scxml s).1 hs
    cases hn : nodeAt scxml s with
    | none => rw [hn] at hs2; simp [hasTagIn] at hs2
    | some c =>
      have hn2 := hn
      rw [← hsplit] at hn2
      obtain ⟨n, hnp, hlt⟩ := nodeAt_child scxml p _ c hn2 (states_ne_nil scxml p hp)
      refine ⟨⟨s.getLast hne, n, hsplit.symm, hnp, hlt⟩, ?_⟩
      rw [decide_eq_true_eq]
      exact (mem_states_iff_TAGNAME scxml s).1 hs

theorem isMember_iff (s : NodeRef) (l : List NodeRef) : isMember s l = true ↔ s ∈ l := by
  simp [isMember]

theorem getD_mem_states (scxml : Node) (i : Nat) (hi : i < (_states scxml).length) :
    (_states scxml).getD i [] ∈ _states scxml := by
  rw [List.getD_eq_getElem _ _ hi]
  exact List.getElem_mem _

end TreeFacts

section ParallelCompletion

/-- C27: for every parallel state `p` of the state table, the emitted `completion[p]` is the
same byte string as the emitted `children[p]`, whatever kinds of state-like children `p` has
(with `getChildStates` as modelled from the specification). -/
theorem parallel_completion_children (hp : Helpers) (scxml : Node) (i : Nat)
    (hi : i < (_states scxml).length)
    (hpar : isParallel scxml ((_states scxml).getD i []) = true) :
    (stateRow hp scxml i).completion = (stateRow hp scxml i).children := by
  have hmem := getD_mem_states scxml i hi
  have hnh : isHistory scxml ((_states scxml).getD i []) = false := by
    unfold isParallel at hpar
    unfold isHistory
    rw [beq_iff_eq] at hpar
    rw [hpar]; decide
  unfold stateRow
  simp only []
  unfold completionBools stateCompletion childBools
  rw [hnh, hpar]
  simp only [Bool.false_eq_true, if_false, if_true]
  congr 1
  apply boolString_congr
  intro s hs
  rw [Bool.eq_iff_iff]
  rw [isMember_iff, mem_getChildStates_iff scxml s _ hs hmem, beq_iff_eq]

/-- Instance of C27: the parallel state of `parallelChart`, which has a history child. -/
theorem parallel_completion_children_witness :
    isParallel parallelChart ((_states parallelChart).getD 1 []) = true ∧
    (stateRow (tagHelpers parallelChart) parallelChart 1).children = [0x1c] ∧
    (stateRow (tagHelpers parallelChart) parallelChart 1).completion =
      (stateRow (tagHelpers parallelChart) parallelChart 1).children :=
  ⟨by decide, by decide,
    parallel_completion_children (tagHelpers parallelChart) parallelChart 1 (by decide)
      (by decide)⟩

end ParallelCompletion

section HistoryFlag

theorem mem_inDocumentOrder_iff (elements : List String) (scxml : Node) (r : NodeRef) :
    r ∈ inDocumentOrder elements scxml ↔ hasTagIn elements (nodeAt scxml r) = true := by
  unfold inDocumentOrder
  rw [(inDocumentOrder_mem elements).1]
  constructor
  · rintro ⟨q, rfl, h⟩
    exact h
  · intro h
    cases hn : nodeAt scxml r with
    | none => rw [hn] at h; simp [hasTagIn] at h
    | some n =>
      obtain ⟨q, rfl⟩ := nodeAt_some scxml r n hn
      exact ⟨q, rfl, h⟩

theorem mem_inPostFixOrder_iff (elements : List String) (scxml : Node) (r : NodeRef) :
    r ∈ inPostFixOrder elements scxml ↔ hasTagIn elements (nodeAt scxml r) = true := by
  rw [← mem_inDocumentOrder_iff]
  exact ((inPostFixOrder_perm elements).1 scxml [0]).mem_iff

theorem mem_histories_iff (scxml : Node) (r : NodeRef) :
    r ∈ inPostFixOrder ["history"] scxml ↔ isHistory scxml r = true := by
  rw [mem_inPostFixOrder_iff, hasTagIn_iff_TAGNAME _ _ _ (by decide)]
  unfold isHistory
  simp

theorem foldl_hasHistoryChild (scxml : Node) (l : List NodeRef) (st : HistoryPass)
    (h : NodeRef) :
    h ∈ (l.foldl (historyStep scxml) st).hasHistoryChild ↔
      (h ∈ st.hasHistoryChild ∨ (h ∈ l ∧ nestedHistory scxml h = true)) := by
  induction l generalizing st with
  | nil => simp
  | cons a l ih =>
    rw [List.foldl_cons, ih]
    have hstep : h ∈ (historyStep scxml st a).hasHistoryChild ↔
        (h ∈ st.hasHistoryChild ∨ (h = a ∧ nestedHistory scxml h = true)) := by
      unfold historyStep nestedHistory
      simp only []
      split
      · rename_i hm
        rw [List.mem_append, List.mem_singleton]
        constructor
        · rintro (h1 | h1)
          · exact Or.inl h1
          · exact Or.inr ⟨h1, by rw [h1]; exact hm⟩
        · rintro (h1 | ⟨h1, -⟩)
          · exact Or.inl h1
          · exact Or.inr h1
      · rename_i hm
        constructor
        · intro h1; exact Or.inl h1
        · rintro (h1 | ⟨h1, h2⟩)
          · exact h1
          · rw [h1] at h2; exact absurd h2 hm
    rw [hstep, List.mem_cons]
    tauto

theorem mem_pass_hasHistoryChild (scxml : Node) (h : NodeRef) :
    isMember h (setHistoryCompletion scxml).hasHistoryChild = true ↔
      (isHistory scxml h = true ∧ nestedHistory scxml h = true) := by
  unfold setHistoryCompletion
  rw [isMember_iff, foldl_hasHistoryChild, mem_histories_iff]
  simp

theorem type_has_history_bit (base : Nat) (flag : Bool)
    (hb : base = SCXML_STATE_INITIAL ∨ base = SCXML_STATE_FINAL ∨
      base = SCXML_STATE_HISTORY_DEEP ∨ base = SCXML_STATE_HISTORY_SHALLOW ∨
      base = SCXML_STATE_ATOMIC ∨ base = SCXML_STATE_PARALLEL ∨ base = SCXML_STATE_COMPOUND) :
    ((base ||| (if flag = true then SCXML_STATE_HAS_HISTORY else 0)) &&&
      SCXML_STATE_HAS_HISTORY ≠ 0) ↔ flag = true := by
  rcases hb with h | h | h | h | h | h | h <;> subst h <;> cases flag <;> decide

theorem stateType_base (hp : Helpers) (scxml : Node) (state : NodeRef) :
    ∃ base, (base = SCXML_STATE_INITIAL ∨ base = SCXML_STATE_FINAL ∨
      base = SCXML_STATE_HISTORY_DEEP ∨ base = SCXML_STATE_HISTORY_SHALLOW ∨
      base = SCXML_STATE_ATOMIC ∨ base = SCXML_STATE_PARALLEL ∨ base = SCXML_STATE_COMPOUND) ∧
    stateType hp scxml state = base |||
      (if (hasHistoryChild scxml state ||
          isMember state (setHistoryCompletion scxml).hasHistoryChild) = true
       then SCXML_STATE_HAS_HISTORY else 0) := by
  unfold stateType
  refine ⟨_, ?_, rfl⟩
  split
  · exact Or.inl rfl
  · split
    · exact Or.inr (Or.inl rfl)
    · split
      · split
        · exact Or.inr (Or.inr (Or.inl rfl))
        · exact Or.inr (Or.inr (Or.inr (Or.inl rfl)))
      · split
        · exact Or.inr (Or.inr (Or.inr (Or.inr (Or.inl rfl))))
        · split
          · exact Or.inr (Or.inr (Or.inr (Or.inr (Or.inr (Or.inl rfl)))))
          · split <;> exact Or.inr (Or.inr (Or.inr (Or.inr (Or.inr (Or.inr rfl)))))

theorem any_states_iff (scxml : Node) (p : NodeRef → Bool) :
    (_states scxml).any p = true ↔
      ∃ j, j < (_states scxml).length ∧ p ((_states scxml).getD j []) = true := by
  rw [List.any_eq_true]
  constructor
  · rintro ⟨x, hx, hp⟩
    obtain ⟨j, hj, rfl⟩ := List.getElem_of_mem hx
    exact ⟨j, hj, by rw [List.getD_eq_getElem _ _ hj]; exact hp⟩
  · rintro ⟨j, hj, hp⟩
    exact ⟨_, getD_mem_states scxml j hj, hp⟩

end HistoryFlag

section HistoryFlagClaim

/-- C30, amended: in the emitted state table the bit `SCXML_STATE_HAS_HISTORY` of the type of
state `i` is set exactly when a history element has state `i` as its parent node, or state `i`
is itself a history element and another history element is a proper descendant of its parent
node. -/
theorem has_history_bit (hp : Helpers) (scxml : Node) (i : Nat)
    (hi : i < (_states scxml).length) :
    ((stateRow hp scxml i).type &&& SCXML_STATE_HAS_HISTORY ≠ 0) ↔
      ((∃ j, j < (_states scxml).length ∧
          getParentNode ((_states scxml).getD j []) = (_states scxml).getD i [] ∧
          isHistory scxml ((_states scxml).getD j []) = true) ∨
       (isHistory scxml ((_states scxml).getD i []) = true ∧
        ∃ j, j < (_states scxml).length ∧ j ≠ i ∧
          isDescendant ((_states scxml).getD j []) (getParentNode ((_states scxml).getD i []))
            = true ∧
          isHistory scxml ((_states scxml).getD j []) = true)) := by
  have hnd : (_states scxml).Nodup :=
    pairwise_nodup ((inDocumentOrder_pairwise stateElements).1 scxml [0])
  have hne : ∀ j, j < (_states scxml).length →
      ((_states scxml).getD j [] ≠ (_states scxml).getD i [] ↔ j ≠ i) := by
    intro j hj
    rw [List.getD_eq_getElem _ _ hj, List.getD_eq_getElem _ _ hi]
    exact not_congr (hnd.getElem_inj_iff)
  obtain ⟨base, hbase, htype⟩ := stateType_base hp scxml ((_states scxml).getD i [])
  show (stateType hp scxml ((_states scxml).getD i []) &&& SCXML_STATE_HAS_HISTORY ≠ 0) ↔ _
  rw [htype, type_has_history_bit base _ hbase, Bool.or_eq_true, mem_pass_hasHistoryChild]
  unfold hasHistoryChild nestedHistory
  rw [any_states_iff, any_states_iff]
  constructor
  · rintro (⟨j, hj, h⟩ | ⟨hh, j, hj, h⟩)
    · left
      simp only [Bool.and_eq_true, beq_iff_eq] at h
      exact ⟨j, hj, h.1, h.2⟩
    · right
      simp only [Bool.and_eq_true, bne_iff_ne, ne_eq] at h
      exact ⟨hh, j, hj, (hne j hj).1 h.1.1, h.1.2, h.2⟩
  · rintro (⟨j, hj, h1, h2⟩ | ⟨hh, j, hj, h0, h1, h2⟩)
    · left
      refine ⟨j, hj, ?_⟩
      rw [Bool.and_eq_true, beq_iff_eq]
      exact ⟨h1, h2⟩
    · right
      refine ⟨hh, j, hj, ?_⟩
      simp only [Bool.and_eq_true, bne_iff_ne, ne_eq]
      exact ⟨⟨(hne j hj).2 h0, h1⟩, h2⟩

/-- Counterexample to C30: in `twoHistoriesChart` the history element `H1` (state 2) has the
bit `SCXML_STATE_HAS_HISTORY` in its type and has no child at all. -/
theorem history_marked_without_child :
    _states twoHistoriesChart = [[0], [0, 0], [0, 0, 0], [0, 0, 1], [0, 0, 2]] ∧
    TAGNAME twoHistoriesChart [0, 0, 0] = "history" ∧
    (stateRow (tagHelpers twoHistoriesChart) twoHistoriesChart 2).type =
      (SCXML_STATE_HISTORY_SHALLOW ||| SCXML_STATE_HAS_HISTORY) ∧
    (stateRow (tagHelpers twoHistoriesChart) twoHistoriesChart 2).children = [0x00] := by
  decide

/-- Instance of C30, amended: state 2 of `twoHistoriesChart`, a history element with the other
history element, state 3, under its parent. -/
theorem has_history_bit_witness :
    (stateRow (tagHelpers twoHistoriesChart) twoHistoriesChart 2).type &&&
      SCXML_STATE_HAS_HISTORY ≠ 0 :=
  (has_history_bit (tagHelpers twoHistoriesChart) twoHistoriesChart 2 (by decide)).2
    (Or.inr ⟨by decide, 3, by decide, by decide, by decide, by decide⟩)

end HistoryFlagClaim

section CompletionFacts

theorem find_range_map (f : Nat → NodeRef) (p : NodeRef → Bool) (m : Nat) (c : NodeRef) :
    ((List.range m).map f).find? p = some c ↔
      ∃ k, k < m ∧ f k = c ∧ p (f k) = true ∧ ∀ k2, k2 < k → p (f k2) = false := by
  induction m generalizing c with
  | zero => simp
  | succ m ih =>
    rw [List.range_succ, List.map_append, List.find?_append, List.map_singleton]
    cases hf : ((List.range m).map f).find? p with
    | some d =>
      obtain ⟨k0, hk0, -, h02, -⟩ := (ih d).1 hf
      show some d = some c ↔ _
      rw [← hf, ih c]
      constructor
      · rintro ⟨k, hk, h1, h2, h3⟩
        exact ⟨k, Nat.lt_succ_of_lt hk, h1, h2, h3⟩
      · rintro ⟨k, hk, h1, h2, h3⟩
        by_cases hkm : k < m
        · exact ⟨k, hkm, h1, h2, h3⟩
        · have := h3 k0 (by omega)
          rw [h02] at this
          exact Bool.noConfusion this
    | none =>
      have hnone : ∀ k, k < m → p (f k) = false := by
        intro k hk
        rw [List.find?_eq_none] at hf
        have := hf (f k) (List.mem_map.2 ⟨k, List.mem_range.2 hk, rfl⟩)
        simpa using this
      show List.find? p [f m] = some c ↔ _
      simp only [List.find?_cons, List.find?_nil]
      constructor
      · intro h
        cases hp : p (f m) with
        | false => rw [hp] at h; exact Option.noConfusion h
        | true =>
          rw [hp] at h
          exact ⟨m, Nat.lt_succ_self m, Option.some.inj h, hp, hnone⟩
      · rintro ⟨k, hk, h1, h2, h3⟩
        by_cases hkm : k < m
        · rw [hnone k hkm] at h2
          exact Bool.noConfusion h2
        · have hkeq : k = m := by omega
          subst hkeq
          rw [h2, h1]

theorem getD_states_eq_iff (scxml : Node) (x : NodeRef) (hx : x ∈ _states scxml) :
    ∃ j, j < (_states scxml).length ∧ (_states scxml).getD j [] = x ∧
      ∀ b, (b < (_states scxml).length ∧ (_states scxml).getD b [] = x) ↔ b = j := by
  have hnd : (_states scxml).Nodup :=
    pairwise_nodup ((inDocumentOrder_pairwise stateElements).1 scxml [0])
  obtain ⟨j, hj, rfl⟩ := List.getElem_of_mem hx
  refine ⟨j, hj, List.getD_eq_getElem _ _ hj, ?_⟩
  intro b
  constructor
  · rintro ⟨hb, hbe⟩
    rw [List.getD_eq_getElem _ _ hb] at hbe
    exact hnd.getElem_inj_iff.1 hbe
  · rintro rfl
    exact ⟨hj, List.getD_eq_getElem _ _ hj⟩

theorem mem_filterChildElements (scxml : Node) (tagName : String) (node c : NodeRef)
    (h : c ∈ filterChildElements scxml tagName node) : TAGNAME scxml c = tagName := by
  unfold filterChildElements at h
  rw [List.mem_filter, Bool.and_eq_true, beq_iff_eq] at h
  exact h.2.2

/-- Completion of a state that is neither a history element nor a parallel state. -/
theorem completion_bits (hp : Helpers) (scxml : Node) (i : Nat)
    (hh : isHistory scxml ((_states scxml).getD i []) = false) (b : Nat) :
    BIT_HAS b (bytes (stateRow hp scxml i).completion) = true ↔
      (b < (_states scxml).length ∧
        (_states scxml).getD b [] ∈ stateCompletion hp scxml ((_states scxml).getD i [])) := by
  unfold stateRow
  simp only []
  unfold completionBools
  rw [hh]
  simp only [Bool.false_eq_true, if_false]
  rw [BIT_HAS_boolString, isMember_iff]

end CompletionFacts

section CompoundCompletion

/-- C28, amended: for a state that is neither a history element nor a parallel state,
`completion` is chosen by this priority.  With an `initial` attribute: the states that
`getStates` returns for the attribute.  Otherwise, when the first `initial` child element is
not marked `generated="true"`: that `initial` element itself, one bit.  Otherwise (no `initial`
child, or the first one marked generated): the first child element that `isState` accepts, in
document order, and nothing when there is none. -/
theorem compound_completion_priority (hp : Helpers) (scxml : Node) (i : Nat)
    (hi : i < (_states scxml).length)
    (hh : isHistory scxml ((_states scxml).getD i []) = false)
    (hpar : isParallel scxml ((_states scxml).getD i []) = false) :
    (HAS_ATTR scxml ((_states scxml).getD i []) "initial" = true →
      ∀ b, BIT_HAS b (bytes (stateRow hp scxml i).completion) = true ↔
        (b < (_states scxml).length ∧ (_states scxml).getD b [] ∈
          hp.getStates (hp.tokenizeIdRefs (ATTR scxml ((_states scxml).getD i []) "initial")))) ∧
    (HAS_ATTR scxml ((_states scxml).getD i []) "initial" = false →
      ∀ x rest, filterChildElements scxml "initial" ((_states scxml).getD i []) = x :: rest →
        iequals (ATTR scxml x "generated") "true" = false →
          ∃ j, j < (_states scxml).length ∧ (_states scxml).getD j [] = x ∧
            ∀ b, BIT_HAS b (bytes (stateRow hp scxml i).completion) = true ↔ b = j) ∧
    (HAS_ATTR scxml ((_states scxml).getD i []) "initial" = false →
      (filterChildElements scxml "initial" ((_states scxml).getD i []) = [] ∨
        ∃ x rest, filterChildElements scxml "initial" ((_states scxml).getD i []) = x :: rest ∧
          iequals (ATTR scxml x "generated") "true" = true) →
      ∀ b, BIT_HAS b (bytes (stateRow hp scxml i).completion) = true ↔
        (b < (_states scxml).length ∧
          ∃ k, (_states scxml).getD b [] = (_states scxml).getD i [] ++ [k] ∧
            (isElement scxml ((_states scxml).getD i [] ++ [k]) &&
              hp.isState ((_states scxml).getD i [] ++ [k])) = true ∧
            ∀ k2, k2 < k →
              (isElement scxml ((_states scxml).getD i [] ++ [k2]) &&
                hp.isState ((_states scxml).getD i [] ++ [k2])) = false)) := by
  have hmem := getD_mem_states scxml i hi
  have hbits := completion_bits hp scxml i hh
  generalize (_states scxml).getD i [] = state at hh hpar hmem hbits
  have hfirst : ∀ c, ((getChildNodes scxml state).find?
        (fun c => isElement scxml c && hp.isState c)) = some c ↔
      ∃ k, c = state ++ [k] ∧ (isElement scxml (state ++ [k]) && hp.isState (state ++ [k])) = true ∧
        ∀ k2, k2 < k → (isElement scxml (state ++ [k2]) && hp.isState (state ++ [k2])) = false := by
    intro c
    have hs2 := (mem_states_iff scxml state).1 hmem
    unfold getChildNodes
    cases hn : nodeAt scxml state with
    | none => rw [hn] at hs2; simp [hasTagIn] at hs2
    | some n =>
      simp only []
      rw [find_range_map (fun k => state ++ [k])]
      constructor
      · rintro ⟨k, -, h1, h2, h3⟩
        exact ⟨k, h1.symm, h2, h3⟩
      · rintro ⟨k, h1, h2, h3⟩
        refine ⟨k, ?_, h1.symm, h2, h3⟩
        rw [Bool.and_eq_true] at h2
        have hel := h2.1
        unfold isElement at hel
        cases hc : nodeAt scxml (state ++ [k]) with
        | none => rw [hc] at hel; exact Bool.noConfusion hel
        | some cn =>
          obtain ⟨n2, hn2, hlt⟩ := nodeAt_child scxml state k cn hc (states_ne_nil scxml state hmem)
          rw [hn] at hn2
          rw [Option.some.inj hn2]
          exact hlt
  refine ⟨?_, ?_, ?_⟩
  · intro hattr b
    rw [hbits]
    unfold stateCompletion
    rw [hpar, hattr]
    simp only [Bool.false_eq_true, if_false, if_true]
  · intro hattr x rest hx hgen
    have hxs : x ∈ _states scxml := by
      rw [mem_states_iff_TAGNAME,
        mem_filterChildElements scxml "initial" state x (by rw [hx]; exact List.mem_cons_self _ _)]
      decide
    obtain ⟨j, hj, hjx, huniq⟩ := getD_states_eq_iff scxml x hxs
    refine ⟨j, hj, hjx, ?_⟩
    intro b
    rw [hbits, ← huniq b]
    unfold stateCompletion
    rw [hpar, hattr, hx]
    simp only [Bool.false_eq_true, if_false, List.length_cons, Nat.zero_lt_succ, decide_True,
      List.getD_cons_zero, hgen, Bool.not_false, Bool.and_self, if_true, List.mem_singleton]
  · intro hattr hinit b
    rw [hbits]
    have hcomp : stateCompletion hp scxml state =
        ((getChildNodes scxml state).find?
          (fun c => isElement scxml c && hp.isState c)).toList := by
      unfold stateCompletion
      rw [hpar, hattr]
      rcases hinit with h0 | ⟨x, rest, hx, hgen⟩
      · rw [h0]
        simp
      · rw [hx]
        simp [hgen]
    rw [hcomp, Option.mem_toList, Option.mem_def, hfirst]

/-- Counterexample to C28: in `initialChart` the compound state `C` (state 1) has no `initial`
attribute and an `initial` child whose transition targets `B` (state 4); `completion[C]` is the
bit of the `initial` element (state 2), and the bit of `B` is clear. -/
theorem initial_element_in_completion :
    _states initialChart = [[0], [0, 0], [0, 0, 0], [0, 0, 2], [0, 0, 3]] ∧
    HAS_ATTR initialChart [0, 0] "initial" = false ∧
    TAGNAME initialChart [0, 0, 0] = "initial" ∧
    ATTR initialChart [0, 0, 0, 0] "target" = "B" ∧
    ATTR initialChart [0, 0, 3] "id" = "B" ∧
    (stateRow (tagHelpers initialChart) initialChart 1).completion = [0x04] ∧
    BIT_HAS 4 (bytes (stateRow (tagHelpers initialChart) initialChart 1).completion) = false := by
  decide

/-- Instance of C28, amended: state 1 of `initialChart`, whose completion is the one bit of its
`initial` child. -/
theorem compound_completion_priority_witness :
    ∃ j, j < (_states initialChart).length ∧ (_states initialChart).getD j [] = [0, 0, 0] ∧
      ∀ b, BIT_HAS b (bytes (stateRow (tagHelpers initialChart) initialChart 1).completion) = true
        ↔ b = j :=
  (compound_completion_priority (tagHelpers initialChart) initialChart 1 (by decide) (by decide)
    (by decide)).2.1 (by decide) [0, 0, 0] [] (by decide) (by decide)

end CompoundCompletion

section ParentFacts

theorem states_below_root (scxml : Node) (r : NodeRef) (h : r ∈ _states scxml) : [0] <+: r := by
  unfold _states inDocumentOrder at h
  obtain ⟨q, rfl, -⟩ := ((inDocumentOrder_mem stateElements).1 scxml [0] r).1 h
  exact List.prefix_append _ _

theorem states_pairwise (scxml : Node) :
    (_states scxml).Pairwise (fun a b => ¬ b <+: a) :=
  (inDocumentOrder_pairwise stateElements).1 scxml [0]

theorem states_index_lt (scxml : Node) (i j : Nat) (hi : i < (_states scxml).length)
    (hj : j < (_states scxml).length)
    (hpre : (_states scxml).getD j [] <+: (_states scxml).getD i [])
    (hne : (_states scxml).getD j [] ≠ (_states scxml).getD i []) : j < i := by
  rw [List.getD_eq_getElem _ _ hi, List.getD_eq_getElem _ _ hj] at hpre hne
  by_contra hge
  have hij : i < j := by
    rcases Nat.lt_or_ge i j with h | h
    · exact h
    · have : i = j := by omega
      subst this
      exact absurd rfl hne
  exact (List.pairwise_iff_getElem.1 (states_pairwise scxml) i j hi hj hij) hpre

theorem proper_dropLast {q r : NodeRef} (hpre : q <+: r) (hne : q ≠ r) : q <+: r.dropLast := by
  obtain ⟨z, rfl⟩ := hpre
  have hz : z ≠ [] := by
    intro hz
    subst hz
    exact hne (List.append_nil q).symm
  rw [List.dropLast_append_of_ne_nil _ hz]
  exact List.prefix_append _ _

theorem ancestors_mem_states (scxml : Node) (hwn : WellNested scxml) :
    ∀ (d : Nat) (r q : NodeRef), r ∈ _states scxml → [0] <+: q → q <+: r →
      r.length - q.length = d → q ∈ _states scxml := by
  intro d
  induction d with
  | zero =>
    intro r q hr h0 hqr hd
    have hlen := hqr.length_le
    have : q = r := List.IsPrefix.eq_of_length hqr (by omega)
    rw [this]; exact hr
  | succ d ih =>
    intro r q hr h0 hqr hd
    have hne : q ≠ r := by
      intro h; rw [h] at hd; omega
    have hr0 : r ≠ [0] := by
      intro h
      rw [h] at hqr hne
      have h1 := hqr.length_le
      have h2 := h0.length_le
      exact hne (List.IsPrefix.eq_of_length hqr (by simp at h1 h2 ⊢; omega))
    have hpar := hwn r hr hr0
    unfold getParentNode at hpar
    have hq2 := proper_dropLast hqr hne
    have hrl : 0 < r.length := by
      have := h0.length_le
      have := hqr.length_le
      simp at *; omega
    exact ih r.dropLast q hpar h0 hq2 (by rw [List.length_dropLast]; omega)

theorem root_first (scxml : Node) (hwn : WellNested scxml) (h : 0 < (_states scxml).length) :
    (_states scxml).getD 0 [] = [0] := by
  have hmem0 := getD_mem_states scxml 0 h
  have hroot : [0] ∈ _states scxml :=
    ancestors_mem_states scxml hwn _ _ [0] hmem0 (List.prefix_refl _)
      (states_below_root scxml _ hmem0) rfl
  obtain ⟨k, hk, hke⟩ := List.getElem_of_mem hroot
  by_contra hne
  have hk0 : k < 0 := by
    apply states_index_lt scxml 0 k h hk
    · rw [List.getD_eq_getElem _ _ hk, hke]
      exact states_below_root scxml _ hmem0
    · rw [List.getD_eq_getElem _ _ hk, hke]
      exact fun h2 => hne h2.symm
  exact Nat.not_lt_zero _ hk0

theorem indexIn_mem (r : NodeRef) (l : List NodeRef) (hr : r ∈ l) :
    ∃ k, indexIn r l = some k ∧ k < l.length ∧ l.getD k [] = r := by
  induction l with
  | nil => exact absurd hr (List.not_mem_nil _)
  | cons x xs ih =>
    unfold indexIn
    by_cases hx : x = r
    · rw [if_pos hx]
      exact ⟨0, rfl, Nat.zero_lt_succ _, by rw [List.getD_cons_zero, hx]⟩
    · rw [if_neg hx]
      have hr2 : r ∈ xs := by
        rcases List.mem_cons.1 hr with h | h
        · exact absurd h.symm hx
        · exact h
      obtain ⟨k, hk, hlt, hget⟩ := ih hr2
      refine ⟨k + 1, by rw [hk]; rfl, by rw [List.length_cons]; omega, ?_⟩
      rw [List.getD_cons_succ]; exact hget

theorem stateParent_spec (hp : Helpers) (scxml : Node) (hwn : WellNested scxml) (s : Nat)
    (hs : s < (_states scxml).length) :
    stateParent hp scxml s < (_states scxml).length ∧
    (_states scxml).getD (stateParent hp scxml s) [] = upward ((_states scxml).getD s []) ∧
    (0 < s → (stateRow hp scxml s).parent = some (stateParent hp scxml s) ∧
      stateParent hp scxml s < s) := by
  have hpos : 0 < (_states scxml).length := by omega
  have hroot := root_first scxml hwn hpos
  by_cases hs0 : s = 0
  · subst hs0
    have hp0 : stateParent hp scxml 0 = 0 := by
      unfold stateParent stateRow
      simp
    rw [hp0, hroot]
    exact ⟨hpos, by unfold upward; rw [if_pos rfl], fun h => absurd h (Nat.lt_irrefl 0)⟩
  · have hmem := getD_mem_states scxml s hs
    have hne0 : (_states scxml).getD s [] ≠ [0] := by
      intro h
      have hnd := pairwise_nodup (states_pairwise scxml)
      rw [← hroot, List.getD_eq_getElem _ _ hs, List.getD_eq_getElem _ _ hpos] at h
      exact hs0 (hnd.getElem_inj_iff.1 h)
    have hpar := hwn _ hmem hne0
    obtain ⟨k, hk, hlt, hget⟩ := indexIn_mem _ _ hpar
    have hrow : (stateRow hp scxml s).parent = some k := by
      unfold stateRow documentOrder
      simp only []
      rw [if_neg hs0, hk]
    have hsp : stateParent hp scxml s = k := by
      unfold stateParent
      rw [hrow]; rfl
    rw [hsp]
    refine ⟨hlt, ?_, fun _ => ⟨hrow, ?_⟩⟩
    · rw [hget]
      unfold upward getParentNode
      rw [if_neg hne0]
    · apply states_index_lt scxml s _ hs hlt
      · rw [hget]; exact List.dropLast_prefix _
      · rw [hget]
        unfold getParentNode
        intro h
        have := congrArg List.length h
        rw [List.length_dropLast] at this
        have hl : 0 < ((_states scxml).getD s []).length :=
          List.length_pos.2 (states_ne_nil scxml _ hmem)
        omega

end ParentFacts

section ParentAncestors

theorem upward_le (r : NodeRef) : upward r <+: r := by
  unfold upward
  split
  · rename_i h; rw [h]
  · exact List.dropLast_prefix _

theorem upward_iterate_le (t : Nat) (r : NodeRef) : upward^[t] r <+: r := by
  induction t generalizing r with
  | zero => exact List.prefix_refl _
  | succ t ih =>
    rw [Function.iterate_succ_apply]
    exact (ih (upward r)).trans (upward_le r)

theorem upward_iterate_ne (t : Nat) (r : NodeRef) (ht : 0 < t) (hr : r ≠ [0]) (h0 : [0] <+: r) :
    upward^[t] r ≠ r := by
  obtain ⟨t, rfl⟩ : ∃ u, t = u + 1 := ⟨t - 1, by omega⟩
  rw [Function.iterate_succ_apply]
  intro h
  have h1 := (upward_iterate_le t (upward r)).length_le
  rw [h] at h1
  unfold upward at h1
  rw [if_neg hr, List.length_dropLast] at h1
  have := h0.length_le
  simp at this
  omega

theorem upward_iterate_reach (d : Nat) :
    ∀ (r q : NodeRef), [0] <+: q → q <+: r → r.length - q.length = d → upward^[d] r = q := by
  induction d with
  | zero =>
    intro r q h0 hqr hd
    have hlen := hqr.length_le
    exact (List.IsPrefix.eq_of_length hqr (by omega)).symm
  | succ d ih =>
    intro r q h0 hqr hd
    have hne : q ≠ r := by
      intro h; rw [h] at hd; omega
    have hr0 : r ≠ [0] := by
      intro h
      rw [h] at hqr hne
      have h1 := hqr.length_le
      have h2 := h0.length_le
      exact hne (List.IsPrefix.eq_of_length hqr (by simp at h1 h2 ⊢; omega))
    rw [Function.iterate_succ_apply]
    have hup : upward r = r.dropLast := by
      unfold upward; rw [if_neg hr0]
    rw [hup]
    have h2 := h0.length_le
    have h3 := hqr.length_le
    exact ih r.dropLast q h0 (proper_dropLast hqr hne)
      (by rw [List.length_dropLast]; simp at h2; omega)

theorem stateParent_iterate (hp : Helpers) (scxml : Node) (hwn : WellNested scxml) (t s : Nat)
    (hs : s < (_states scxml).length) :
    (stateParent hp scxml)^[t] s < (_states scxml).length ∧
    (_states scxml).getD ((stateParent hp scxml)^[t] s) [] =
      upward^[t] ((_states scxml).getD s []) := by
  induction t with
  | zero => exact ⟨hs, rfl⟩
  | succ t ih =>
    rw [Function.iterate_succ_apply', Function.iterate_succ_apply']
    obtain ⟨h1, h2, -⟩ := stateParent_spec hp scxml hwn _ ih.1
    exact ⟨h1, by rw [h2, ih.2]⟩

theorem isDescendant_iff (s1 s2 : NodeRef) :
    isDescendant s1 s2 = true ↔ (s2 <+: s1 ∧ s2 ≠ s1) := by
  unfold isDescendant
  rw [Bool.and_eq_true, List.isPrefixOf_iff_prefix, bne_iff_ne]

theorem states_getD_inj (scxml : Node) (i j : Nat) (hi : i < (_states scxml).length)
    (hj : j < (_states scxml).length)
    (h : (_states scxml).getD i [] = (_states scxml).getD j []) : i = j := by
  rw [List.getD_eq_getElem _ _ hi, List.getD_eq_getElem _ _ hj] at h
  exact (pairwise_nodup (states_pairwise scxml)).getElem_inj_iff.1 h

/-- C26: for every chart in which the state-like elements are nested in state-like elements
and every state `s` other than the root, the emitted parent index is less than `s`, and bit `a`
of `ancestors[s]` is set exactly when `a` is reached from `s` by one or more steps to the
parent, that is `ancestors[s] = {parent(s), parent(parent(s)), …, 0}`. -/
theorem parent_and_ancestors (hp : Helpers) (scxml : Node) (hwn : WellNested scxml) (s : Nat)
    (hs0 : 0 < s) (hs : s < (_states scxml).length) :
    (∃ p, (stateRow hp scxml s).parent = some p ∧ p < s) ∧
    ∀ a, BIT_HAS a (bytes (stateRow hp scxml s).ancestors) = true ↔
      ∃ t, 0 < t ∧ (stateParent hp scxml)^[t] s = a := by
  obtain ⟨-, -, hpar⟩ := stateParent_spec hp scxml hwn s hs
  refine ⟨⟨_, (hpar hs0).1, (hpar hs0).2⟩, ?_⟩
  intro a
  have hnd := pairwise_nodup (states_pairwise scxml)
  have hmem := getD_mem_states scxml s hs
  have hroot := root_first scxml hwn (by omega)
  have hne0 : (_states scxml).getD s [] ≠ [0] := by
    intro h
    rw [← hroot, List.getD_eq_getElem _ _ hs,
      List.getD_eq_getElem _ _ (show 0 < (_states scxml).length by omega)] at h
    have := hnd.getElem_inj_iff.1 h
    omega
  show BIT_HAS a (bytes (charArrayOf (ancBools scxml ((_states scxml).getD s [])))) = true ↔ _
  unfold ancBools
  rw [BIT_HAS_boolString, isDescendant_iff]
  constructor
  · rintro ⟨ha, hpre, hne⟩
    have hmema := getD_mem_states scxml a ha
    have h0a := states_below_root scxml _ hmema
    have hreach := upward_iterate_reach _ _ _ h0a hpre rfl
    have hlen : ((_states scxml).getD a []).length < ((_states scxml).getD s []).length := by
      rcases Nat.lt_or_ge ((_states scxml).getD a []).length
        ((_states scxml).getD s []).length with h | h
      · exact h
      · exact absurd (List.IsPrefix.eq_of_length hpre (by have := hpre.length_le; omega)) hne
    refine ⟨_, Nat.sub_pos_of_lt hlen, ?_⟩
    obtain ⟨hlt, hget⟩ := stateParent_iterate hp scxml hwn
      (((_states scxml).getD s []).length - ((_states scxml).getD a []).length) s hs
    rw [hreach] at hget
    exact states_getD_inj scxml _ _ hlt ha hget
  · rintro ⟨t, ht, rfl⟩
    obtain ⟨hlt, hget⟩ := stateParent_iterate hp scxml hwn t s hs
    refine ⟨hlt, ?_, ?_⟩
    · rw [hget]; exact upward_iterate_le t _
    · rw [hget]
      exact upward_iterate_ne t _ ht hne0 (states_below_root scxml _ hmem)

/-- Instance of C26: state 3 of `initialChart`, with parent 1 and ancestors 0 and 1. -/
theorem parent_and_ancestors_witness :
    WellNested initialChart ∧
    (stateRow (tagHelpers initialChart) initialChart 3).parent = some 1 ∧
    (stateRow (tagHelpers initialChart) initialChart 3).ancestors = [0x03] ∧
    BIT_HAS 0 (bytes (stateRow (tagHelpers initialChart) initialChart 3).ancestors) = true :=
  have hw : WellNested initialChart := by decide
  have h := parent_and_ancestors (tagHelpers initialChart) initialChart hw 3 (by decide) (by decide)
  ⟨hw, by decide, by decide, (h.2 0).2 ⟨2, by decide, by decide⟩⟩

end ParentAncestors

section HistoryPassFacts

theorem passAt_succ (scxml : Node) (hs : List NodeRef) (m : Nat) (hm : m < hs.length) :
    passAt scxml hs (m + 1) = historyStep scxml (passAt scxml hs m) (hs.getD m []) := by
  unfold passAt
  rw [List.take_succ, List.foldl_append, List.getD_eq_getElem _ _ hm,
    List.getElem?_eq_getElem hm]
  rfl

theorem passAt_succ_covered (scxml : Node) (hs : List NodeRef) (m : Nat) (hm : m < hs.length) :
    (passAt scxml hs (m + 1)).covered = coveredAt scxml hs m ∧
    (passAt scxml hs (m + 1)).parent = some (getParentNode (hs.getD m [])) ∧
    (passAt scxml hs (m + 1)).perParentcovered =
      (if (passAt scxml hs m).parent != some (getParentNode (hs.getD m [])) then []
        else (passAt scxml hs m).perParentcovered) ++ completionAt scxml hs m := by
  rw [passAt_succ scxml hs m hm]
  exact ⟨rfl, rfl, rfl⟩

theorem separated_step (hs : List NodeRef) (j k : Nat) (hk : 0 < k)
    (hsame : getParentNode (hs.getD (k - 1) []) = getParentNode (hs.getD k [])) :
    separated hs j (k - 1) ↔ separated hs j k := by
  unfold separated
  constructor
  · rintro ⟨x, h1, h2, h3⟩
    exact ⟨x, h1, by omega, by rw [← hsame]; exact h3⟩
  · rintro ⟨x, h1, h2, h3⟩
    have hx : x ≠ k - 1 := by
      intro h; rw [h] at h3; exact h3 hsame
    exact ⟨x, h1, by omega, by rw [hsame]; exact h3⟩

theorem separated_moved (hs : List NodeRef) (j k : Nat) (hjk : j < k)
    (hdiff : getParentNode (hs.getD (k - 1) []) ≠ getParentNode (hs.getD k [])) :
    separated hs j k :=
  ⟨k - 1, by omega, by omega, hdiff⟩

theorem not_separated_self (hs : List NodeRef) (k : Nat) : ¬ separated hs k k := by
  rintro ⟨x, h1, h2, -⟩
  omega

theorem coveredAt_of_inv (scxml : Node) (hs : List NodeRef) (k : Nat)
    (hinv : PassInv scxml hs k) (s : NodeRef) :
    s ∈ coveredAt scxml hs k ↔
      ∃ j, j < k ∧ separated hs j k ∧ s ∈ completionAt scxml hs j := by
  unfold coveredAt
  by_cases hk : k = 0
  · obtain ⟨h1, h2, h3⟩ := hinv.start hk
    rw [h1, h2, h3]
    subst hk
    simp
  · have hkpos : 0 < k := Nat.pos_of_ne_zero hk
    rw [hinv.parent_eq hkpos]
    by_cases hsame : getParentNode (hs.getD (k - 1) []) = getParentNode (hs.getD k [])
    · rw [hsame]
      simp only [bne_self_eq_false, Bool.false_eq_true, if_false]
      rw [hinv.covered_iff hkpos]
      constructor
      · rintro ⟨j, hj, hsep, hmem⟩
        exact ⟨j, hj, (separated_step hs j k hkpos hsame).1 hsep, hmem⟩
      · rintro ⟨j, hj, hsep, hmem⟩
        exact ⟨j, hj, (separated_step hs j k hkpos hsame).2 hsep, hmem⟩
    · have hb : (some (getParentNode (hs.getD (k - 1) [])) !=
          some (getParentNode (hs.getD k []))) = true := by
        rw [bne_iff_ne]
        intro h
        exact hsame (Option.some.inj h)
      rw [hb]
      simp only [if_true]
      rw [List.mem_append, hinv.covered_iff hkpos, hinv.per_parent_iff hkpos]
      constructor
      · rintro (⟨j, hj, -, hmem⟩ | ⟨j, hj, -, hmem⟩)
        · exact ⟨j, hj, separated_moved hs j k hj hsame, hmem⟩
        · exact ⟨j, hj, separated_moved hs j k hj hsame, hmem⟩
      · rintro ⟨j, hj, -, hmem⟩
        by_cases hsep : separated hs j (k - 1)
        · exact Or.inl ⟨j, hj, hsep, hmem⟩
        · exact Or.inr ⟨j, hj, hsep, hmem⟩

end HistoryPassFacts

section HistoryPassInvariant

theorem passInv_all (scxml : Node) (hs : List NodeRef) (m : Nat) (hm : m ≤ hs.length) :
    PassInv scxml hs m := by
  induction m with
  | zero =>
    refine ⟨fun _ => ⟨rfl, rfl, rfl⟩, ?_, ?_, ?_⟩ <;> intro h <;> exact absurd h (Nat.lt_irrefl 0)
  | succ m ih =>
    have hinv := ih (by omega)
    have hlt : m < hs.length := by omega
    obtain ⟨hcov, hpar, hper⟩ := passAt_succ_covered scxml hs m hlt
    refine ⟨fun h => absurd h (Nat.succ_ne_zero m), fun _ => ?_, fun _ s => ?_, fun _ s => ?_⟩
    · rw [hpar, Nat.add_sub_cancel]
    · rw [hcov, coveredAt_of_inv scxml hs m hinv, Nat.add_sub_cancel]
      constructor
      · rintro ⟨j, hj, hsep, hmem⟩
        exact ⟨j, by omega, hsep, hmem⟩
      · rintro ⟨j, hj, hsep, hmem⟩
        have hjm : j ≠ m := by
          intro h; rw [h] at hsep; exact not_separated_self hs m hsep
        exact ⟨j, by omega, hsep, hmem⟩
    · rw [hper, Nat.add_sub_cancel, List.mem_append]
      by_cases hm0 : m = 0
      · obtain ⟨h1, -, h3⟩ := hinv.start hm0
        rw [h1, h3]
        subst hm0
        simp only [if_true, List.not_mem_nil, false_or, ite_self]
        constructor
        · intro hmem
          exact ⟨0, by omega, not_separated_self hs 0, hmem⟩
        · rintro ⟨j, hj, -, hmem⟩
          have : j = 0 := by omega
          rw [this] at hmem; exact hmem
      · have hmpos : 0 < m := Nat.pos_of_ne_zero hm0
        rw [hinv.parent_eq hmpos]
        by_cases hsame : getParentNode (hs.getD (m - 1) []) = getParentNode (hs.getD m [])
        · rw [hsame]
          simp only [bne_self_eq_false, Bool.false_eq_true, if_false]
          rw [hinv.per_parent_iff hmpos]
          constructor
          · rintro (⟨j, hj, hsep, hmem⟩ | hmem)
            · exact ⟨j, by omega, fun h => hsep ((separated_step hs j m hmpos hsame).2 h), hmem⟩
            · exact ⟨m, by omega, not_separated_self hs m, hmem⟩
          · rintro ⟨j, hj, hsep, hmem⟩
            by_cases hjm : j = m
            · rw [hjm] at hmem; exact Or.inr hmem
            · exact Or.inl ⟨j, by omega,
                fun h => hsep ((separated_step hs j m hmpos hsame).1 h), hmem⟩
        · have hb : (some (getParentNode (hs.getD (m - 1) [])) !=
              some (getParentNode (hs.getD m []))) = true := by
            rw [bne_iff_ne]
            intro h
            exact hsame (Option.some.inj h)
          rw [hb]
          simp only [if_true, List.not_mem_nil, false_or]
          constructor
          · intro hmem
            exact ⟨m, by omega, not_separated_self hs m, hmem⟩
          · rintro ⟨j, hj, hsep, hmem⟩
            by_cases hjm : j = m
            · rw [hjm] at hmem; exact hmem
            · exact absurd (separated_moved hs j m (by omega) hsame) hsep

theorem lookup_append_single (l : List (NodeRef × List Char)) (r x : NodeRef) (v : List Char) :
    (l ++ [(x, v)]).lookup r =
      match l.lookup r with
      | some w => some w
      | none => if r = x then some v else none := by
  induction l with
  | nil =>
    simp only [List.nil_append, List.lookup_nil]
    by_cases h : r = x
    · subst h; simp [List.lookup]
    · rw [if_neg h]
      have hb : (r == x) = false := by rw [beq_eq_false_iff_ne]; exact h
      simp only [List.lookup, hb]
  | cons a l ih =>
    obtain ⟨a1, a2⟩ := a
    rw [List.cons_append]
    by_cases h : r = a1
    · subst h; simp [List.lookup]
    · have hb : (r == a1) = false := by rw [beq_eq_false_iff_ne]; exact h
      simp only [List.lookup, hb]
      exact ih

theorem passAt_lookup (scxml : Node) (hs : List NodeRef) (hnd : hs.Nodup) (m : Nat)
    (hm : m ≤ hs.length) :
    (∀ k, k < m → (passAt scxml hs m).completionBools.lookup (hs.getD k []) =
      some (boolString (fun s => isMember s (completionAt scxml hs k)) (_states scxml))) ∧
    (∀ r, (∀ k, k < m → hs.getD k [] ≠ r) →
      (passAt scxml hs m).completionBools.lookup r = none) := by
  induction m with
  | zero =>
    exact ⟨fun k hk => absurd hk (Nat.not_lt_zero k), fun r _ => rfl⟩
  | succ m ih =>
    obtain ⟨ih1, ih2⟩ := ih (by omega)
    have hlt : m < hs.length := by omega
    have hcb : (passAt scxml hs (m + 1)).completionBools =
        (passAt scxml hs m).completionBools ++ [(hs.getD m [],
          boolString (fun s => isMember s (completionAt scxml hs m)) (_states scxml))] := by
      rw [passAt_succ scxml hs m hlt]
      rfl
    rw [hcb]
    constructor
    · intro k hk
      rw [lookup_append_single]
      by_cases hkm : k < m
      · rw [ih1 k hkm]
      · have hkeq : k = m := by omega
        subst hkeq
        rw [ih2 (hs.getD k []) (fun j hj h => by
          rw [List.getD_eq_getElem _ _ (by omega), List.getD_eq_getElem _ _ hlt] at h
          have := hnd.getElem_inj_iff.1 h
          omega)]
        simp
    · intro r hr
      rw [lookup_append_single, ih2 r (fun k hk => hr k (by omega))]
      simp only []
      rw [if_neg (fun h => hr m (by omega) h.symm)]

theorem histories_nodup (scxml : Node) : (inPostFixOrder ["history"] scxml).Nodup :=
  ((inPostFixOrder_perm ["history"]).1 scxml [0]).nodup_iff.2
    (pairwise_nodup ((inDocumentOrder_pairwise ["history"]).1 scxml [0]))

theorem setHistoryCompletion_eq (scxml : Node) :
    setHistoryCompletion scxml =
      passAt scxml (inPostFixOrder ["history"] scxml) (inPostFixOrder ["history"] scxml).length := by
  unfold setHistoryCompletion passAt
  rw [List.take_length]

end HistoryPassInvariant

section HistoryRows

theorem mem_historyCompletion (scxml : Node) (covered : List NodeRef) (h s : NodeRef) :
    s ∈ historyCompletion scxml covered h ↔
      (s ∈ _states scxml ∧ s ≠ h ∧ s ∉ covered ∧ isHistory scxml s = false ∧
        (if isDeep scxml h = true then isDescendant s (getParentNode h) = true
          else getParentNode s = getParentNode h)) := by
  unfold historyCompletion
  rw [List.mem_filter]
  constructor
  · rintro ⟨hs, hc⟩
    rw [Bool.and_eq_true, Bool.and_eq_true, bne_iff_ne, Bool.not_eq_true', ← Bool.not_eq_true,
      isMember_iff] at hc
    refine ⟨hs, hc.1.1, hc.1.2, ?_⟩
    split at hc <;> rename_i hd
    · rw [if_pos hd]
      simp only [Bool.and_eq_true, Bool.not_eq_true'] at hc
      exact ⟨hc.2.2, hc.2.1⟩
    · rw [if_neg hd]
      simp only [Bool.and_eq_true, Bool.not_eq_true', beq_iff_eq] at hc
      exact ⟨hc.2.2, hc.2.1⟩
  · rintro ⟨hs, hne, hcov, hnh, hc⟩
    refine ⟨hs, ?_⟩
    rw [Bool.and_eq_true, Bool.and_eq_true, bne_iff_ne, Bool.not_eq_true', ← Bool.not_eq_true,
      isMember_iff]
    refine ⟨⟨hne, hcov⟩, ?_⟩
    split <;> rename_i hd
    · rw [if_pos hd] at hc
      simp [hc, hnh]
    · rw [if_neg hd] at hc
      simp [hc, hnh]

theorem history_row_bits (hp : Helpers) (scxml : Node) (i k : Nat)
    (hk : k < (inPostFixOrder ["history"] scxml).length)
    (hik : (_states scxml).getD i [] = (inPostFixOrder ["history"] scxml).getD k []) (b : Nat) :
    BIT_HAS b (bytes (stateRow hp scxml i).completion) = true ↔
      (b < (_states scxml).length ∧ (_states scxml).getD b [] ∈
        completionAt scxml (inPostFixOrder ["history"] scxml) k) := by
  have hh : isHistory scxml ((_states scxml).getD i []) = true := by
    rw [hik, ← mem_histories_iff, List.getD_eq_getElem _ _ hk]
    exact List.getElem_mem _
  unfold stateRow
  simp only []
  unfold completionBools
  rw [hh, if_pos rfl, setHistoryCompletion_eq, hik,
    (passAt_lookup scxml _ (histories_nodup scxml) _ (le_refl _)).1 k hk]
  simp only [Option.getD_some]
  rw [BIT_HAS_boolString, isMember_iff]

end HistoryRows

section HistoryCompletionClaim

/-- C29, amended: for the history element at position `k` of the post-fix order, which is
state `i`, bit `b` of `completion[i]` is set exactly when state `b` is no history element, is a
proper descendant of the parent of `i` (deep history) or a child of that parent (shallow
history), and is in no `completion` of a history element at an earlier position `k2` that is
separated from `k` by a change of parent (see `separated`). -/
theorem history_completion_covered (hp : Helpers) (scxml : Node) (i k : Nat)
    (hk : k < (inPostFixOrder ["history"] scxml).length)
    (hik : (_states scxml).getD i [] = (inPostFixOrder ["history"] scxml).getD k []) (b : Nat) :
    BIT_HAS b (bytes (stateRow hp scxml i).completion) = true ↔
      (b < (_states scxml).length ∧
        isHistory scxml ((_states scxml).getD b []) = false ∧
        (if isDeep scxml ((_states scxml).getD i []) = true then
          isDescendant ((_states scxml).getD b []) (getParentNode ((_states scxml).getD i [])) = true
         else getParentNode ((_states scxml).getD b []) =
          getParentNode ((_states scxml).getD i [])) ∧
        ∀ i2 k2, i2 < (_states scxml).length → k2 < k →
          (_states scxml).getD i2 [] = (inPostFixOrder ["history"] scxml).getD k2 [] →
          separated (inPostFixOrder ["history"] scxml) k2 k →
            BIT_HAS b (bytes (stateRow hp scxml i2).completion) = false) := by
  have hinv := passInv_all scxml (inPostFixOrder ["history"] scxml) k (by omega)
  have hh : isHistory scxml ((_states scxml).getD i []) = true := by
    rw [hik, ← mem_histories_iff, List.getD_eq_getElem _ _ hk]
    exact List.getElem_mem _
  rw [history_row_bits hp scxml i k hk hik b]
  unfold completionAt
  rw [mem_historyCompletion, coveredAt_of_inv scxml _ k hinv, ← hik]
  constructor
  · rintro ⟨hb, -, -, hcov, hnh, hcond⟩
    refine ⟨hb, hnh, hcond, ?_⟩
    intro i2 k2 hi2 hk2 hik2 hsep
    rw [← Bool.not_eq_true, history_row_bits hp scxml i2 k2 (by omega) hik2 b]
    rintro ⟨-, hmem⟩
    exact hcov ⟨k2, hk2, hsep, hmem⟩
  · rintro ⟨hb, hnh, hcond, hprev⟩
    refine ⟨hb, getD_mem_states scxml b hb, ?_, ?_, hnh, hcond⟩
    · intro h
      rw [h, hh] at hnh
      exact Bool.noConfusion hnh
    · rintro ⟨k2, hk2, hsep, hmem⟩
      have hk2len : k2 < (inPostFixOrder ["history"] scxml).length := by omega
      have hmem2 : (inPostFixOrder ["history"] scxml).getD k2 [] ∈ _states scxml := by
        rw [mem_states_iff_TAGNAME]
        have : isHistory scxml ((inPostFixOrder ["history"] scxml).getD k2 []) = true := by
          rw [← mem_histories_iff, List.getD_eq_getElem _ _ hk2len]
          exact List.getElem_mem _
        unfold isHistory at this
        rw [beq_iff_eq] at this
        rw [this]; decide
      obtain ⟨i2, hi2, hget⟩ := List.getElem_of_mem hmem2
      have hget2 : (_states scxml).getD i2 [] =
          (inPostFixOrder ["history"] scxml).getD k2 [] := by
        rw [List.getD_eq_getElem _ _ hi2]; exact hget
      have hfalse := hprev i2 k2 hi2 hk2 hget2 hsep
      rw [← Bool.not_eq_true, history_row_bits hp scxml i2 k2 hk2len hget2 b] at hfalse
      exact hfalse ⟨hb, hmem⟩

/-- Counterexample to C29: in `nestedHistoryChart` the shallow history `H2` (state 4) has the
parent `A` (state 3), whose children `B` and `C` (states 5 and 6) are no history elements; its
completion is empty, because the deep history `H1` of `P`, which comes first in post-fix order,
has them in its completion. -/
theorem inner_history_loses_states :
    _states nestedHistoryChart =
      [[0], [0, 0], [0, 0, 0], [0, 0, 1], [0, 0, 1, 0], [0, 0, 1, 1], [0, 0, 1, 2]] ∧
    inPostFixOrder ["history"] nestedHistoryChart = [[0, 0, 0], [0, 0, 1, 0]] ∧
    (stateRow (tagHelpers nestedHistoryChart) nestedHistoryChart 2).completion = [0x68] ∧
    isDeep nestedHistoryChart [0, 0, 1, 0] = false ∧
    (stateRow (tagHelpers nestedHistoryChart) nestedHistoryChart 4).parent = some 3 ∧
    (stateRow (tagHelpers nestedHistoryChart) nestedHistoryChart 3).children = [0x70] ∧
    isHistory nestedHistoryChart [0, 0, 1, 1] = false ∧
    isHistory nestedHistoryChart [0, 0, 1, 2] = false ∧
    (stateRow (tagHelpers nestedHistoryChart) nestedHistoryChart 4).completion = [0x00] := by
  decide

/-- Instance of C29, amended: state 5 of `nestedHistoryChart` is in the completion of the deep
history (state 2) and, being there, not in that of the shallow history (state 4). -/
theorem history_completion_covered_witness :
    BIT_HAS 5 (bytes (stateRow (tagHelpers nestedHistoryChart) nestedHistoryChart 2).completion)
      = true ∧
    BIT_HAS 5 (bytes (stateRow (tagHelpers nestedHistoryChart) nestedHistoryChart 4).completion)
      = false :=
  ⟨(history_completion_covered (tagHelpers nestedHistoryChart) nestedHistoryChart 2 0
      (by decide) (by decide) 5).2
      ⟨by decide, by decide, by decide, fun i2 k2 _ hk2 => absurd hk2 (Nat.not_lt_zero k2)⟩,
   by
    rw [← Bool.not_eq_true]
    intro h
    have h2 := ((history_completion_covered (tagHelpers nestedHistoryChart) nestedHistoryChart
      4 1 (by decide) (by decide) 5).1 h).2.2.2 2 0 (by decide) (by decide) (by decide)
      ⟨0, by decide, by decide, by decide⟩
    exact absurd h2 (by decide)⟩

end HistoryCompletionClaim

section ScratchIndependence0
variable {H : Type}

theorem agree_refl (n : Nat) (a : Bitset) : agree n a a := fun _ _ => rfl

theorem agree_bit_or {n : Nat} {a b : Bitset} (mask : Bitset) (h : agree n a b) :
    agree n (bit_or a mask n) (bit_or b mask n) := by
  intro j hj
  rw [bit_or_apply, bit_or_apply, if_pos hj, if_pos hj, h j hj]

theorem agree_bit_or_mask {n : Nat} {a b c d : Bitset} (h : agree n a b) (hm : agree n c d) :
    agree n (bit_or a c n) (bit_or b d n) := by
  intro j hj
  rw [bit_or_apply, bit_or_apply, if_pos hj, if_pos hj, h j hj, hm j hj]

theorem agree_bit_and {n : Nat} {a b : Bitset} (mask : Bitset) (h : agree n a b) :
    agree n (bit_and a mask n) (bit_and b mask n) := by
  intro j hj
  rw [bit_and_apply, bit_and_apply, if_pos hj, if_pos hj, h j hj]

theorem agree_bit_copy (n : Nat) (a b src : Bitset) :
    agree n (bit_copy a src n) (bit_copy b src n) := by
  intro j hj
  rw [bit_copy_apply, bit_copy_apply, if_pos hj, if_pos hj]

theorem agree_bit_copy_src {n : Nat} (a b : Bitset) {c d : Bitset} (h : agree n c d) :
    agree n (bit_copy a c n) (bit_copy b d n) := by
  intro j hj
  rw [bit_copy_apply, bit_copy_apply, if_pos hj, if_pos hj, h j hj]

theorem agree_bit_clear_all (n : Nat) (a b : Bitset) :
    agree n (bit_clear_all a n) (bit_clear_all b n) := by
  intro j hj
  rw [bit_clear_all_apply, bit_clear_all_apply, if_pos hj, if_pos hj]

theorem agree_bit_and_not {n : Nat} {a b : Bitset} (mask : Bitset) (h : agree n a b) :
    agree n (bit_and_not a mask n) (bit_and_not b mask n) := by
  intro j hj
  rw [bit_and_not_apply, bit_and_not_apply, if_pos hj, if_pos hj, h j hj]

theorem agree_BIT_SET_AT {n : Nat} {a b : Bitset} (i : Nat) (h : agree n a b) :
    agree n (BIT_SET_AT i a) (BIT_SET_AT i b) := by
  intro j hj
  unfold BIT_SET_AT
  by_cases hij : j = i >>> 3
  · subst hij
    rw [Function.update_same, Function.update_same, h _ hj]
  · rw [Function.update_noteq hij, Function.update_noteq hij, h j hj]

theorem agree_BIT_CLEAR {n : Nat} {a b : Bitset} (i : Nat) (h : agree n a b) :
    agree n (BIT_CLEAR i a) (BIT_CLEAR i b) := by
  intro j hj
  unfold BIT_CLEAR
  by_cases hij : j = i >>> 3
  · subst hij
    rw [Function.update_same, Function.update_same, h _ hj]
  · rw [Function.update_noteq hij, Function.update_noteq hij, h j hj]

theorem BIT_HAS_agree {n : Nat} {a b : Bitset} (h : agree n a b) {i : Nat} (hi : i / 8 < n) :
    BIT_HAS i a = BIT_HAS i b := by
  rw [BIT_HAS_eq_testBit, BIT_HAS_eq_testBit, h _ hi]

theorem bit_has_and_agree {n : Nat} {a b : Bitset} (mask : Bitset) (h : agree n a b) :
    bit_has_and a mask n = bit_has_and b mask n := by
  rw [Bool.eq_iff_iff, bit_has_and_iff, bit_has_and_iff]
  constructor
  · rintro ⟨i, hi, h1, h2⟩
    exact ⟨i, hi, by rw [← BIT_HAS_agree h hi]; exact h1, h2⟩
  · rintro ⟨i, hi, h1, h2⟩
    exact ⟨i, hi, by rw [BIT_HAS_agree h hi]; exact h1, h2⟩

theorem bit_has_any_agree (sc : Bool) {n : Nat} {a b : Bitset} (h : agree n a b) :
    bit_has_any sc a n = bit_has_any sc b n := by
  induction n with
  | zero => rfl
  | succ n ih =>
    unfold bit_has_any
    rw [h n (Nat.lt_succ_self n), ih (fun j hj => h j (Nat.lt_succ_of_lt hj))]

/-- Writing into `dest` the first `n` bytes of a mask gives the same array for masks that hold
the same first `n` bytes. -/
theorem bit_or_congr {n : Nat} (dest : Bitset) {c d : Bitset} (h : agree n c d) :
    bit_or dest c n = bit_or dest d n := by
  funext j
  rw [bit_or_apply, bit_or_apply]
  by_cases hj : j < n
  · rw [if_pos hj, if_pos hj, h j hj]
  · rw [if_neg hj, if_neg hj]

theorem foldl_rel {σ α : Type} (R : σ → σ → Prop) (body : σ → α → σ)
    (l : List α)
    (hb : ∀ a, a ∈ l → ∀ s s2, R s s2 → R (body s a) (body s2 a)) :
    ∀ s s2, R s s2 → R (l.foldl body s) (l.foldl body s2) := by
  induction l with
  | nil => intro s s2 h; exact h
  | cons a l ih =>
    intro s s2 h
    rw [List.foldl_cons, List.foldl_cons]
    exact ih (fun b hb2 => hb b (List.mem_cons_of_mem _ hb2)) _ _
      (hb a (List.mem_cons_self _ _) s s2 h)

theorem loop_rel (R : Frame H → Frame H → Prop) (body : Nat → Frame H → Flow (Frame H))
    (l : List Nat)
    (hb : ∀ i, i ∈ l → ∀ s s2, R s s2 → FlowRel R (body i s) (body i s2)) :
    ∀ s s2, R s s2 → FlowRel R (loop body l s) (loop body l s2) := by
  induction l with
  | nil => intro s s2 h; exact h
  | cons a l ih =>
    intro s s2 h
    have h1 := hb a (List.mem_cons_self _ _) s s2 h
    rw [loop, loop]
    cases hr : body a s with
    | next t =>
      cases hr2 : body a s2 with
      | next t2 =>
        rw [hr, hr2] at h1
        exact ih (fun b hb2 => hb b (List.mem_cons_of_mem _ hb2)) t t2 h1
      | ret e2 t2 => rw [hr, hr2] at h1; exact h1.elim
    | ret e t =>
      cases hr2 : body a s2 with
      | next t2 => rw [hr, hr2] at h1; exact h1.elim
      | ret e2 t2 => rw [hr, hr2] at h1; exact h1

theorem andThen_rel (R R2 : Frame H → Frame H → Prop) (r r2 : Flow (Frame H))
    (k k2 : Frame H → Flow (Frame H)) (h : FlowRel R r r2)
    (hk : ∀ s s2, R s s2 → FlowRel R2 (k s) (k2 s2)) :
    FlowRel R2 (r.andThen k) (r2.andThen k2) := by
  cases r with
  | next t =>
    cases r2 with
    | next t2 => exact hk t t2 h
    | ret e2 t2 => exact h.elim
  | ret e t =>
    cases r2 with
    | next t2 => exact h.elim
    | ret e2 t2 => exact h

end ScratchIndependence0

section ScratchIndependence1
variable {H : Type}

theorem call_invoke_core (m : scxml_machine H) (cb : scxml_callbacks H) (i u : Nat)
    (f g : Frame H) (h : SameCore f g) :
    SameCore (call_invoke m cb i u f) (call_invoke m cb i u g) := by
  obtain ⟨hc, hh, hl⟩ := h
  unfold call_invoke
  cases (m.states i).invoke with
  | none => exact ⟨hc, hh, hl⟩
  | some inv => exact ⟨hc, by simp only [hc, hh], by simp only [hl]⟩

theorem uninvoke_step_core (m : scxml_machine H) (cb : scxml_callbacks H) (i : Nat)
    (f g : Frame H) (h : SameCore f g) :
    SameCore (uninvoke_step m cb i f) (uninvoke_step m cb i g) := by
  have h2 := call_invoke_core m cb i 1 f g h
  unfold uninvoke_step
  rw [h.ctx_eq]
  split
  · exact ⟨by simp only [h2.ctx_eq], h2.host_eq, h2.log_eq⟩
  · exact h

theorem invoke_step_core (m : scxml_machine H) (cb : scxml_callbacks H) (i : Nat)
    (f g : Frame H) (h : SameCore f g) :
    SameCore (invoke_step m cb i f) (invoke_step m cb i g) := by
  have h2 := call_invoke_core m cb i 0 f g h
  unfold invoke_step
  rw [h.ctx_eq]
  split
  · exact ⟨by simp only [h2.ctx_eq], h2.host_eq, h2.log_eq⟩
  · exact h

theorem manage_invocations_core (m : scxml_machine H) (cb : scxml_callbacks H)
    (f g : Frame H) (h : SameCore f g) :
    SameCore (manage_invocations m cb f) (manage_invocations m cb g) := by
  unfold manage_invocations
  apply foldl_rel SameCore _ _ _ f g h
  intro i _ s s2 hs
  unfold manage_invocations_body
  exact invoke_step_core m cb i _ _ (uninvoke_step_core m cb i s s2 hs)

theorem acquire_event_core (m : scxml_machine H) (cb : scxml_callbacks H)
    (f g : Frame H) (h : SameCore f g) :
    SameCore (acquire_event m cb f) (acquire_event m cb g) := by
  obtain ⟨hc, hh, hl⟩ := h
  unfold acquire_event
  simp only [hc, hh, hl]
  split
  · exact ⟨rfl, rfl, rfl⟩
  · split
    · exact ⟨rfl, rfl, rfl⟩
    · have hm := manage_invocations_core m cb
        { f with ctx := { g.ctx with event := (cb.dequeue_internal g.ctx g.host).1 },
                 host := (cb.dequeue_internal g.ctx g.host).2,
                 log := g.log ++ [Call.dequeue_internal] }
        { g with ctx := { g.ctx with event := (cb.dequeue_internal g.ctx g.host).1 },
                 host := (cb.dequeue_internal g.ctx g.host).2,
                 log := g.log ++ [Call.dequeue_internal] } ⟨rfl, rfl, rfl⟩
      exact ⟨by simp only [hm.ctx_eq, hm.host_eq], by simp only [hm.ctx_eq, hm.host_eq],
        by simp only [hm.log_eq]⟩

theorem clear_sets_simA (m : scxml_machine H) (f g : Frame H) (h : SameCore f g) :
    SimA m (clear_sets m f) (clear_sets m g) :=
  ⟨⟨h.ctx_eq, h.host_eq, h.log_eq⟩, agree_bit_clear_all _ _ _, agree_bit_clear_all _ _ _⟩

theorem pristine_init_simA (m : scxml_machine H) (cb : scxml_callbacks H) (f g : Frame H)
    (h : SimA m f g) : SimA m (pristine_init m cb f) (pristine_init m cb g) := by
  obtain ⟨⟨hc, hh, hl⟩, ht, htg⟩ := h
  unfold pristine_init
  cases m.script with
  | none =>
    exact ⟨⟨by simp only [hc], hh, hl⟩, ht, agree_bit_or _ htg⟩
  | some prog =>
    exact ⟨⟨by simp only [hc], by simp only [hc, hh], by simp only [hl]⟩, ht,
      agree_bit_or _ htg⟩

theorem pristine_init_config (m : scxml_machine H) (cb : scxml_callbacks H) (f : Frame H) :
    (pristine_init m cb f).ctx.config = f.ctx.config := by
  unfold pristine_init
  cases m.script <;> rfl

theorem acquire_event_simA (m : scxml_machine H) (cb : scxml_callbacks H) (f g : Frame H)
    (h : SimA m f g) : SimA m (acquire_event m cb f) (acquire_event m cb g) := by
  obtain ⟨-, -, -, -, -, ht1, htg1, -⟩ := acquire_event_frame m cb f
  obtain ⟨-, -, -, -, -, ht2, htg2, -⟩ := acquire_event_frame m cb g
  refine ⟨acquire_event_core m cb f g h.core, ?_, ?_⟩
  · rw [ht1, ht2]; exact h.trans
  · rw [htg1, htg2]; exact h.target

theorem select_body_simB (m : scxml_machine H) (cb : scxml_callbacks H) (i : Nat)
    (hi : i < m.nr_transitions) (f g : Frame H) (h : SimB m f g) :
    SimB m (select_body m cb i f) (select_body m cb i g) := by
  obtain ⟨⟨⟨hc, hh, hl⟩, ht, htg⟩, hcf, hex⟩ := h
  have hbit : BIT_HAS i f.conflicts = BIT_HAS i g.conflicts :=
    BIT_HAS_agree hcf (trans_byte_lt m hi)
  unfold select_body
  simp only [hc, hh, hl, hbit]
  split
  · exact ⟨⟨⟨hc, hh, hl⟩, ht, htg⟩, hcf, hex⟩
  · split
    · split
      · split
        · exact ⟨⟨⟨rfl, rfl, rfl⟩, agree_BIT_SET_AT i ht, agree_bit_or _ htg⟩,
            agree_bit_or _ hcf, agree_bit_or _ hex⟩
        · exact ⟨⟨⟨rfl, rfl, rfl⟩, ht, htg⟩, hcf, hex⟩
      · exact ⟨⟨⟨hc, hh, hl⟩, ht, htg⟩, hcf, hex⟩
    · exact ⟨⟨⟨hc, hh, hl⟩, ht, htg⟩, hcf, hex⟩

theorem select_scan_simB (m : scxml_machine H) (cb : scxml_callbacks H) (f g : Frame H)
    (h : SimA m f g) :
    SimB m (select_scan m cb m.nr_transitions f) (select_scan m cb m.nr_transitions g) := by
  unfold select_scan
  apply foldl_rel (SimB m)
  · intro i hi s s2 hs
    exact select_body_simB m cb i (mem_upTo.1 hi) s s2 hs
  · exact ⟨⟨⟨h.core.ctx_eq, h.core.host_eq, h.core.log_eq⟩, h.trans, h.target⟩,
      agree_bit_clear_all _ _ _, agree_bit_clear_all _ _ _⟩

theorem select_transitions_simC (m : scxml_machine H) (cb : scxml_callbacks H) (f g : Frame H)
    (h : SimA m f g) :
    SimC m (select_transitions m cb f) (select_transitions m cb g) := by
  obtain ⟨⟨⟨hc, hh, hl⟩, ht, htg⟩, -, hex⟩ := select_scan_simB m cb f g h
  unfold select_transitions
  exact ⟨⟨⟨hc, hh, hl⟩, ht, htg⟩, by
    show agree _ (bit_and _ _ _) (bit_and _ _ _)
    rw [hc]; exact agree_bit_and _ hex⟩

theorem update_flags_simC (m : scxml_machine H) (f g : Frame H) (h : SimC m f g) :
    SimC m (update_flags f) (update_flags g) := by
  obtain ⟨⟨⟨hc, hh, hl⟩, ht, htg⟩, hex⟩ := h
  unfold update_flags
  simp only [hc]
  split
  · exact ⟨⟨⟨rfl, hh, hl⟩, ht, htg⟩, hex⟩
  · exact ⟨⟨⟨rfl, hh, hl⟩, ht, htg⟩, hex⟩

end ScratchIndependence1

section ScratchIndependence2
variable {H : Type}

theorem remember_body_simC (m : scxml_machine H) (i : Nat)
    (hpar : isHistoryType m i = true → (m.states i).parent < m.nr_states)
    (f g : Frame H) (h : SimC m f g) :
    SimC m (remember_body m i f) (remember_body m i g) := by
  obtain ⟨⟨⟨hc, hh, hl⟩, ht, htg⟩, hex⟩ := h
  unfold remember_body
  split
  · rename_i hty
    rw [BIT_HAS_agree hex (state_byte_lt m (hpar hty))]
    split
    · refine ⟨⟨⟨?_, hh, hl⟩, ht, htg⟩, hex⟩
      dsimp only
      rw [hc, bit_or_congr _ (agree_bit_and _ (agree_bit_copy _ f.tmp_states g.tmp_states _))]
    · exact ⟨⟨⟨hc, hh, hl⟩, ht, htg⟩, hex⟩
  · exact ⟨⟨⟨hc, hh, hl⟩, ht, htg⟩, hex⟩

theorem remember_history_simC (m : scxml_machine H)
    (hpar : ∀ i, i < m.nr_states → isHistoryType m i = true →
      (m.states i).parent < m.nr_states)
    (f g : Frame H) (h : SimC m f g) :
    SimC m (remember_history m f) (remember_history m g) := by
  unfold remember_history
  apply foldl_rel (SimC m) _ _ _ f g h
  intro i hi s s2 hs
  exact remember_body_simC m i (hpar i (mem_upTo.1 hi)) s s2 hs

theorem before_entry_set_simD (m : scxml_machine H) (cb : scxml_callbacks H)
    (hpar : ∀ i, i < m.nr_states → isHistoryType m i = true →
      (m.states i).parent < m.nr_states)
    (f g : Frame H) (h : SameCore f g)
    (hpr : f.ctx.flags = SCXML_CTX_PRISTINE → ∀ j, j < nr_states_bytes m → f.ctx.config j = 0) :
    SimD m (before_entry_set m cb f) (before_entry_set m cb g) := by
  unfold before_entry_set
  rw [← h.ctx_eq]
  split
  · rename_i hp
    refine ⟨pristine_init_simA m cb _ _ (clear_sets_simA m f g h), Or.inr ?_⟩
    rw [pristine_init_config]
    exact hpr (by simpa using hp)
  · have hC := remember_history_simC m hpar _ _ (update_flags_simC m _ _
      (select_transitions_simC m cb _ _ (acquire_event_simA m cb _ _ (clear_sets_simA m f g h))))
    exact ⟨hC.base, Or.inl hC.exit⟩

theorem bit_has_and_empty {n : Nat} {a : Bitset} (mask : Bitset)
    (h : ∀ j, j < n → a j = 0) : bit_has_and a mask n = false := by
  rw [← Bool.not_eq_true, bit_has_and_iff]
  rintro ⟨i, hi, h1, -⟩
  rw [BIT_HAS_eq_testBit, h _ hi, Nat.zero_testBit] at h1
  exact Bool.noConfusion h1

theorem BIT_HAS_empty {n : Nat} {a : Bitset} (h : ∀ j, j < n → a j = 0) {i : Nat}
    (hi : i / 8 < n) : BIT_HAS i a = false := by
  rw [BIT_HAS_eq_testBit, h _ hi, Nat.zero_testBit]

theorem ancestor_sweep_simE (m : scxml_machine H) (f g : Frame H) (h : SimE m f g) :
    SimE m (ancestor_sweep m f) (ancestor_sweep m g) := by
  unfold ancestor_sweep
  apply foldl_rel (SimE m) _ _ _ f g h
  intro i hi s s2 hs
  obtain ⟨⟨hc, hh, hl⟩, ht, hen, hex⟩ := hs
  rw [BIT_HAS_agree hen (state_byte_lt m (mem_upTo.1 hi))]
  split
  · exact ⟨⟨hc, hh, hl⟩, ht, agree_bit_or _ hen, hex⟩
  · exact ⟨⟨hc, hh, hl⟩, ht, hen, hex⟩

theorem descend_parallel_simE (m : scxml_machine H) (i : Nat) (f g : Frame H)
    (h : SimE m f g) : SimE m (descend_parallel m i f) (descend_parallel m i g) := by
  obtain ⟨⟨hc, hh, hl⟩, ht, hen, hex⟩ := h
  exact ⟨⟨hc, hh, hl⟩, ht, agree_bit_or _ hen, hex⟩

theorem descend_history_default_simE (m : scxml_machine H) (i : Nat) (f g : Frame H)
    (h : SimE m f g) :
    SimE m (descend_history_default m i f) (descend_history_default m i g) := by
  obtain ⟨⟨hc, hh, hl⟩, ht, hen, hex⟩ := h
  unfold descend_history_default
  cases firstIdx (fun j => (m.transitions j).source == i) (upTo m.nr_transitions) with
  | none => exact ⟨⟨hc, hh, hl⟩, ht, hen, hex⟩
  | some j =>
    refine ⟨⟨hc, hh, hl⟩, agree_BIT_SET_AT j ht, ?_, hex⟩
    dsimp only
    split
    · cases firstIdx (fun k => BIT_HAS k (m.transitions j).target)
          (fromTo (i + 1) m.nr_states) with
      | none => exact agree_bit_or _ hen
      | some k => exact agree_bit_or _ (agree_bit_or _ hen)
    · exact agree_bit_or _ hen

theorem nested_histories_agree (m : scxml_machine H) (i : Nat) {a b : Bitset}
    (h : agree (nr_states_bytes m) a b) :
    agree (nr_states_bytes m)
      ((fromTo (i + 1) m.nr_states).foldl
        (fun es j =>
          if BIT_HAS j (m.states i).completion && BIT_HAS j es &&
              ((m.states j).type &&& SCXML_STATE_HAS_HISTORY != 0) then
            (fromTo (j + 1) m.nr_states).foldl
              (fun es k =>
                if (SCXML_STATE_MASK (m.states k).type == SCXML_STATE_HISTORY_DEEP ||
                    SCXML_STATE_MASK (m.states k).type == SCXML_STATE_HISTORY_SHALLOW) &&
                    BIT_HAS k (m.states j).children then
                  BIT_SET_AT k es
                else es) es
          else es) a)
      ((fromTo (i + 1) m.nr_states).foldl
        (fun es j =>
          if BIT_HAS j (m.states i).completion && BIT_HAS j es &&
              ((m.states j).type &&& SCXML_STATE_HAS_HISTORY != 0) then
            (fromTo (j + 1) m.nr_states).foldl
              (fun es k =>
                if (SCXML_STATE_MASK (m.states k).type == SCXML_STATE_HISTORY_DEEP ||
                    SCXML_STATE_MASK (m.states k).type == SCXML_STATE_HISTORY_SHALLOW) &&
                    BIT_HAS k (m.states j).children then
                  BIT_SET_AT k es
                else es) es
          else es) b) := by
  apply foldl_rel (agree (nr_states_bytes m)) _ _ _ a b h
  intro j hj s s2 hs
  rw [BIT_HAS_agree hs (state_byte_lt m (mem_fromTo.1 hj).2)]
  split
  · apply foldl_rel (agree (nr_states_bytes m)) _ _ _ s s2 hs
    intro k _ u u2 hu
    split
    · exact agree_BIT_SET_AT k hu
    · exact hu
  · exact hs

end ScratchIndependence2

section ScratchIndependence3
variable {H : Type}

theorem descend_history_restore_simE (m : scxml_machine H) (i : Nat) (f g : Frame H)
    (h : SimE m f g) :
    SimE m (descend_history_restore m i f) (descend_history_restore m i g) := by
  obtain ⟨⟨hc, hh, hl⟩, ht, hen, hex⟩ := h
  have hes : agree (nr_states_bytes m)
      (bit_or f.entry_set (bit_and (bit_copy f.tmp_states (m.states i).completion
        (nr_states_bytes m)) f.ctx.history (nr_states_bytes m)) (nr_states_bytes m))
      (bit_or g.entry_set (bit_and (bit_copy g.tmp_states (m.states i).completion
        (nr_states_bytes m)) g.ctx.history (nr_states_bytes m)) (nr_states_bytes m)) := by
    rw [hc]
    exact agree_bit_or_mask hen (agree_bit_and _ (agree_bit_copy _ _ _ _))
  unfold descend_history_restore
  refine ⟨⟨hc, hh, hl⟩, ht, ?_, hex⟩
  dsimp only
  split
  · exact nested_histories_agree m i hes
  · exact hes

theorem descend_history_simE (m : scxml_machine H) (i : Nat) (f g : Frame H)
    (h : SimE m f g) : SimE m (descend_history m i f) (descend_history m i g) := by
  unfold descend_history
  rw [h.core.ctx_eq]
  split
  · exact descend_history_default_simE m i f g h
  · exact descend_history_restore_simE m i f g h

theorem descend_initial_simE (m : scxml_machine H) (i : Nat) (f g : Frame H)
    (h : SimE m f g) : SimE m (descend_initial m i f) (descend_initial m i g) := by
  unfold descend_initial
  apply foldl_rel (SimE m) _ _ _ f g h
  intro j _ s s2 hs
  obtain ⟨⟨hc, hh, hl⟩, ht, hen, hex⟩ := hs
  simp only []
  split
  · refine ⟨⟨hc, hh, hl⟩, agree_BIT_SET_AT j ht, ?_, hex⟩
    apply foldl_rel (agree (nr_states_bytes m))
    · intro k _ u u2 hu
      split
      · exact agree_bit_or _ hu
      · exact hu
    · exact agree_bit_or _ (agree_BIT_CLEAR i hen)
  · exact ⟨⟨hc, hh, hl⟩, ht, hen, hex⟩

theorem compound_needs_completion_simE (m : scxml_machine H) (i : Nat) (f g : Frame H)
    (h : SimE m f g) :
    compound_needs_completion m i f = compound_needs_completion m i g := by
  obtain ⟨⟨hc, hh, hl⟩, ht, hen, hex⟩ := h
  unfold compound_needs_completion
  rw [bit_has_and_agree _ hen, ← hc]
  rcases hex with hex | hempty
  · rw [bit_has_and_agree _ hex]
  · rw [bit_has_and_empty _ hempty]
    simp

theorem descend_compound_simE (m : scxml_machine H) (i : Nat) (f g : Frame H)
    (h : SimE m f g) : SimE m (descend_compound m i f) (descend_compound m i g) := by
  have hn := compound_needs_completion_simE m i f g h
  obtain ⟨⟨hc, hh, hl⟩, ht, hen, hex⟩ := h
  unfold descend_compound
  rw [hn]
  split
  · refine ⟨⟨hc, hh, hl⟩, ht, ?_, hex⟩
    dsimp only
    split
    · cases firstIdx (fun j => BIT_HAS j (m.states i).completion)
          (fromTo (i + 1) m.nr_states) with
      | none => exact agree_bit_or _ hen
      | some j => exact agree_bit_or _ (agree_bit_or _ hen)
    · exact agree_bit_or _ hen
  · exact ⟨⟨hc, hh, hl⟩, ht, hen, hex⟩

theorem descend_body_simE (m : scxml_machine H) (i : Nat) (hi : i < m.nr_states)
    (f g : Frame H) (h : SimE m f g) :
    SimE m (descend_body m i f) (descend_body m i g) := by
  unfold descend_body
  rw [BIT_HAS_agree h.entry (state_byte_lt m hi)]
  split
  · split
    · exact descend_parallel_simE m i f g h
    · split
      · exact descend_history_simE m i f g h
      · split
        · exact descend_initial_simE m i f g h
        · split
          · exact descend_compound_simE m i f g h
          · exact h
  · exact h

theorem establish_entry_set_simE (m : scxml_machine H) (f g : Frame H) (h : SimD m f g) :
    SimE m (establish_entry_set m f) (establish_entry_set m g) := by
  obtain ⟨⟨⟨hc, hh, hl⟩, ht, htg⟩, hex⟩ := h
  unfold establish_entry_set descendant_sweep
  apply foldl_rel (SimE m)
  · intro i hi s s2 hs
    exact descend_body_simE m i (mem_upTo.1 hi) s s2 hs
  · apply ancestor_sweep_simE
    exact ⟨⟨hc, hh, hl⟩, ht, agree_bit_copy_src _ _ htg, hex⟩

theorem FlowRel_mono (R R2 : Frame H → Frame H → Prop) (r r2 : Flow (Frame H))
    (h : FlowRel R r r2) (hm : ∀ s s2, R s s2 → R2 s s2) : FlowRel R2 r r2 := by
  cases r with
  | next t =>
    cases r2 with
    | next t2 => exact hm t t2 h
    | ret e2 t2 => exact h.elim
  | ret e t =>
    cases r2 with
    | next t2 => exact h.elim
    | ret e2 t2 => exact h

theorem BIT_CLEAR_empty {n : Nat} {a : Bitset} (i : Nat) (h : ∀ j, j < n → a j = 0) :
    ∀ j, j < n → BIT_CLEAR i a j = 0 := by
  intro j hj
  unfold BIT_CLEAR
  by_cases hij : j = i >>> 3
  · subst hij
    rw [Function.update_same, h _ hj, Nat.zero_and]
  · rw [Function.update_noteq hij, h j hj]

end ScratchIndependence3

section ScratchIndependence4
variable {H : Type}

theorem exit_body_simE (m : scxml_machine H) (cb : scxml_callbacks H) (i : Nat)
    (hi : i < m.nr_states) (f g : Frame H) (h : SimE m f g) :
    FlowRel (SimE m) (exit_body m cb i f) (exit_body m cb i g) := by
  obtain ⟨⟨hc, hh, hl⟩, ht, hen, hex⟩ := h
  have hcond : (BIT_HAS i f.exit_set && BIT_HAS i f.ctx.config) =
      (BIT_HAS i g.exit_set && BIT_HAS i g.ctx.config) := by
    rw [← hc]
    rcases hex with hex | hempty
    · rw [BIT_HAS_agree hex (state_byte_lt m hi)]
    · rw [BIT_HAS_empty hempty (state_byte_lt m hi), Bool.and_false, Bool.and_false]
  have hex2 : ∀ (c : scxml_ctx) (x1 x2 : H) (l1 l2 : List Call),
      exitOrEmpty m
        { f with ctx := { c with config := BIT_CLEAR i f.ctx.config }, host := x1, log := l1 }
        { g with ctx := { c with config := BIT_CLEAR i g.ctx.config }, host := x2, log := l2 } := by
    intro c x1 x2 l1 l2
    rcases hex with hex | hempty
    · exact Or.inl hex
    · exact Or.inr (BIT_CLEAR_empty i hempty)
  unfold exit_body
  rw [hcond]
  split
  · simp only [hc, hh, hl]
    cases (m.states i).on_exit with
    | none =>
      exact ⟨⟨rfl, rfl, rfl⟩, ht, hen, by
        have := hex2 g.ctx g.host g.host g.log g.log
        rw [hc] at this
        exact this⟩
    | some prog =>
      dsimp only
      split
      · exact ⟨rfl, rfl, rfl, rfl⟩
      · exact ⟨⟨rfl, rfl, rfl⟩, ht, hen, by
          have := hex2 g.ctx (prog cb g.ctx i g.ctx.event g.host).2
            (prog cb g.ctx i g.ctx.event g.host).2 (g.log ++ [Call.on_exit i])
            (g.log ++ [Call.on_exit i])
          rw [hc] at this
          exact this⟩
  · exact ⟨⟨hc, hh, hl⟩, ht, hen, hex⟩

theorem exit_states_simX (m : scxml_machine H) (cb : scxml_callbacks H) (f g : Frame H)
    (h : SimE m f g) : FlowRel (SimX m) (exit_states m cb f) (exit_states m cb g) := by
  unfold exit_states
  apply FlowRel_mono (SimE m) (SimX m)
  · apply loop_rel (SimE m) _ _ _ f g h
    intro i hi s s2 hs
    exact exit_body_simE m cb i (mem_downFrom.1 hi) s s2 hs
  · intro s s2 hs
    exact ⟨hs.core, hs.trans, hs.entry⟩

theorem take_body_simX (m : scxml_machine H) (cb : scxml_callbacks H) (i : Nat)
    (hi : i < m.nr_transitions) (f g : Frame H) (h : SimX m f g) :
    FlowRel (SimX m) (take_body m cb i f) (take_body m cb i g) := by
  obtain ⟨⟨hc, hh, hl⟩, ht, hen⟩ := h
  unfold take_body
  rw [BIT_HAS_agree ht (trans_byte_lt m hi)]
  split
  · simp only [hc, hh, hl]
    cases (m.transitions i).on_transition with
    | none => exact ⟨⟨hc, hh, hl⟩, ht, hen⟩
    | some prog =>
      dsimp only
      split
      · exact ⟨rfl, rfl, rfl, rfl⟩
      · exact ⟨⟨rfl, rfl, rfl⟩, ht, hen⟩
  · exact ⟨⟨hc, hh, hl⟩, ht, hen⟩

theorem take_transitions_simX (m : scxml_machine H) (cb : scxml_callbacks H) (f g : Frame H)
    (h : SimX m f g) :
    FlowRel (SimX m) (take_transitions m cb f) (take_transitions m cb g) := by
  unfold take_transitions
  apply loop_rel (SimX m) _ _ _ f g h
  intro i hi s s2 hs
  exact take_body_simX m cb i (mem_upTo.1 hi) s s2 hs

theorem enter_init_data_simX (m : scxml_machine H) (cb : scxml_callbacks H) (i : Nat)
    (f g : Frame H) (h : SimX m f g) :
    SimX m (enter_init_data m cb i f) (enter_init_data m cb i g) := by
  obtain ⟨⟨hc, hh, hl⟩, ht, hen⟩ := h
  unfold enter_init_data
  rw [hc]
  split
  · cases (m.states i).data with
    | none =>
      cases cb.exec_content_init with
      | none => exact ⟨⟨by simp only [hc], hh, hl⟩, ht, hen⟩
      | some init => exact ⟨⟨by simp only [hc], hh, hl⟩, ht, hen⟩
    | some d =>
      cases cb.exec_content_init with
      | none => exact ⟨⟨by simp only [hc], hh, hl⟩, ht, hen⟩
      | some init =>
        exact ⟨⟨by simp only [hc], by simp only [hc, hh], by simp only [hl]⟩, ht, hen⟩
  · exact ⟨⟨hc, hh, hl⟩, ht, hen⟩

theorem enter_on_entry_simX (m : scxml_machine H) (cb : scxml_callbacks H) (i : Nat)
    (f g : Frame H) (h : SimX m f g) :
    FlowRel (SimX m) (enter_on_entry m cb i f) (enter_on_entry m cb i g) := by
  obtain ⟨⟨hc, hh, hl⟩, ht, hen⟩ := h
  unfold enter_on_entry
  simp only [hc, hh, hl]
  cases (m.states i).on_entry with
  | none => exact ⟨⟨hc, hh, hl⟩, ht, hen⟩
  | some prog =>
    dsimp only
    split
    · exact ⟨rfl, rfl, rfl, rfl⟩
    · exact ⟨⟨rfl, rfl, rfl⟩, ht, hen⟩

theorem enter_trans_body_simX (m : scxml_machine H) (cb : scxml_callbacks H) (i j : Nat)
    (hj : j < m.nr_transitions) (f g : Frame H) (h : SimX m f g) :
    FlowRel (SimX m) (enter_trans_body m cb i j f) (enter_trans_body m cb i j g) := by
  obtain ⟨⟨hc, hh, hl⟩, ht, hen⟩ := h
  unfold enter_trans_body
  rw [BIT_HAS_agree ht (trans_byte_lt m hj)]
  split
  · simp only [hc, hh, hl]
    cases (m.transitions j).on_transition with
    | none => exact ⟨⟨hc, hh, hl⟩, ht, hen⟩
    | some prog =>
      dsimp only
      split
      · exact ⟨rfl, rfl, rfl, rfl⟩
      · exact ⟨⟨rfl, rfl, rfl⟩, ht, hen⟩
  · exact ⟨⟨hc, hh, hl⟩, ht, hen⟩

theorem parallel_remaining_agree (m : scxml_machine H) (j : Nat) (f g : Frame H)
    (hc : f.ctx = g.ctx) :
    agree (nr_states_bytes m) (parallel_remaining m j f) (parallel_remaining m j g) := by
  unfold parallel_remaining
  rw [hc]
  apply foldl_rel (agree (nr_states_bytes m))
  · intro k _ u u2 hu
    split
    · split
      · exact agree_bit_and_not _ hu
      · exact agree_BIT_SET_AT k hu
    · exact hu
  · exact agree_bit_clear_all _ _ _

end ScratchIndependence4

section ScratchIndependence5
variable {H : Type}

theorem enter_parallel_body_simX (m : scxml_machine H) (cb : scxml_callbacks H) (i j : Nat)
    (f g : Frame H) (h : SimX m f g) :
    SimX m (enter_parallel_body m cb i j f) (enter_parallel_body m cb i j g) := by
  obtain ⟨⟨hc, hh, hl⟩, ht, hen⟩ := h
  have hany := bit_has_any_agree cb.signedChar (parallel_remaining_agree m j f g hc)
  unfold enter_parallel_body
  split
  · dsimp only
    rw [hany]
    split
    · exact ⟨⟨hc, by simp only [hc, hh], by simp only [hl]⟩, ht, hen⟩
    · exact ⟨⟨hc, hh, hl⟩, ht, hen⟩
  · exact ⟨⟨hc, hh, hl⟩, ht, hen⟩

theorem enter_final_simX (m : scxml_machine H) (cb : scxml_callbacks H) (i : Nat)
    (f g : Frame H) (h : SimX m f g) :
    SimX m (enter_final m cb i f) (enter_final m cb i g) := by
  obtain ⟨⟨hc, hh, hl⟩, ht, hen⟩ := h
  unfold enter_final
  split
  · apply foldl_rel (SimX m)
    · intro j _ s s2 hs
      exact enter_parallel_body_simX m cb i j s s2 hs
    · split
      · exact ⟨⟨by simp only [hc], hh, hl⟩, ht, hen⟩
      · exact ⟨⟨hc, by simp only [hc, hh], by simp only [hl]⟩, ht, hen⟩
  · exact ⟨⟨hc, hh, hl⟩, ht, hen⟩

theorem enter_body_simX (m : scxml_machine H) (cb : scxml_callbacks H) (i : Nat)
    (hi : i < m.nr_states) (f g : Frame H) (h : SimX m f g) :
    FlowRel (SimX m) (enter_body m cb i f) (enter_body m cb i g) := by
  have h0 := h
  obtain ⟨⟨hc, hh, hl⟩, ht, hen⟩ := h
  unfold enter_body
  rw [BIT_HAS_agree hen (state_byte_lt m hi), hc]
  split
  · split
    · exact h0
    · apply andThen_rel (SimX m) (SimX m)
      · apply enter_on_entry_simX
        apply enter_init_data_simX
        exact ⟨⟨rfl, hh, hl⟩, ht, hen⟩
      · intro s s2 hs
        apply andThen_rel (SimX m) (SimX m)
        · apply loop_rel (SimX m) _ _ _ s s2 hs
          intro j hj u u2 hu
          exact enter_trans_body_simX m cb i j (mem_upTo.1 hj) u u2 hu
        · intro u u2 hu
          exact enter_final_simX m cb i u u2 hu
  · exact h0

theorem enter_states_simX (m : scxml_machine H) (cb : scxml_callbacks H) (f g : Frame H)
    (h : SimX m f g) :
    FlowRel (SimX m) (enter_states m cb f) (enter_states m cb g) := by
  unfold enter_states
  apply loop_rel (SimX m) _ _ _ f g h
  intro i hi s s2 hs
  exact enter_body_simX m cb i (mem_upTo.1 hi) s s2 hs

theorem exit_take_enter_core (m : scxml_machine H) (cb : scxml_callbacks H) (f g : Frame H)
    (h : SimE m f g) :
    (exit_take_enter m cb f).err = (exit_take_enter m cb g).err ∧
    SameCore (exit_take_enter m cb f).frame (exit_take_enter m cb g).frame := by
  have hrel : FlowRel (SimX m)
      ((exit_states m cb f).andThen fun f1 =>
        (take_transitions m cb f1).andThen fun f2 => enter_states m cb f2)
      ((exit_states m cb g).andThen fun f1 =>
        (take_transitions m cb f1).andThen fun f2 => enter_states m cb f2) := by
    apply andThen_rel (SimX m) (SimX m) _ _ _ _ (exit_states_simX m cb f g h)
    intro s s2 hs
    apply andThen_rel (SimX m) (SimX m) _ _ _ _ (take_transitions_simX m cb s s2 hs)
    intro u u2 hu
    exact enter_states_simX m cb u u2 hu
  unfold exit_take_enter
  cases hr : ((exit_states m cb f).andThen fun f1 =>
      (take_transitions m cb f1).andThen fun f2 => enter_states m cb f2) with
  | next t =>
    cases hr2 : ((exit_states m cb g).andThen fun f1 =>
        (take_transitions m cb f1).andThen fun f2 => enter_states m cb f2) with
    | next t2 =>
      rw [hr, hr2] at hrel
      exact ⟨rfl, hrel.core⟩
    | ret e2 t2 => rw [hr, hr2] at hrel; exact hrel.elim
  | ret e t =>
    cases hr2 : ((exit_states m cb g).andThen fun f1 =>
        (take_transitions m cb f1).andThen fun f2 => enter_states m cb f2) with
    | next t2 => rw [hr, hr2] at hrel; exact hrel.elim
    | ret e2 t2 =>
      rw [hr, hr2] at hrel
      exact ⟨hrel.1, hrel.2⟩

/-- A step does not depend on what it finds in its scratch arrays. -/
theorem scxml_step_scratch (m : scxml_machine H) (cb : scxml_callbacks H)
    (hpar : ∀ i, i < m.nr_states → isHistoryType m i = true →
      (m.states i).parent < m.nr_states)
    (ctx : scxml_ctx) (h : H)
    (hpr : ctx.flags = SCXML_CTX_PRISTINE → ∀ j, j < nr_states_bytes m → ctx.config j = 0)
    (s s2 : Locals) :
    (scxml_step m cb s ctx h).err = (scxml_step m cb s2 ctx h).err ∧
    SameCore (scxml_step m cb s ctx h).frame (scxml_step m cb s2 ctx h).frame := by
  unfold scxml_step
  split
  · exact ⟨rfl, rfl, rfl, rfl⟩
  · apply exit_take_enter_core
    apply establish_entry_set_simE
    apply before_entry_set_simD m cb hpar
    · exact ⟨rfl, rfl, rfl⟩
    · exact hpr

end ScratchIndependence5

section ScratchIndependence6
variable {H : Type}

theorem run_scratch (m : scxml_machine H) (cb : scxml_callbacks H)
    (hpar : ∀ i, i < m.nr_states → isHistoryType m i = true →
      (m.states i).parent < m.nr_states)
    (ss : List Locals) :
    ∀ (ss2 : List Locals) (ctx : scxml_ctx) (h : H), ss.length = ss2.length →
      ((ctx.flags = SCXML_CTX_PRISTINE ∧ ∀ j, j < nr_states_bytes m → ctx.config j = 0) ∨
        ctx.flags &&& SCXML_CTX_INITIALIZED ≠ 0) →
      run m cb ss ctx h = run m cb ss2 ctx h := by
  induction ss with
  | nil =>
    intro ss2 ctx h hlen _
    cases ss2 with
    | nil => rfl
    | cons s2 ss2 => exact absurd hlen (by simp)
  | cons s ss ih =>
    intro ss2 ctx h hlen hstart
    cases ss2 with
    | nil => exact absurd hlen (by simp)
    | cons s2 ss2 =>
      have hpr : ctx.flags = SCXML_CTX_PRISTINE →
          ∀ j, j < nr_states_bytes m → ctx.config j = 0 := by
        intro hp
        rcases hstart with h1 | h1
        · exact h1.2
        · rw [hp] at h1
          exact absurd rfl h1
      obtain ⟨herr, hc, hh, hl⟩ := scxml_step_scratch m cb hpar ctx h hpr s s2
      have hnext : ((scxml_step m cb s ctx h).frame.ctx.flags = SCXML_CTX_PRISTINE ∧
          ∀ j, j < nr_states_bytes m → (scxml_step m cb s ctx h).frame.ctx.config j = 0) ∨
          (scxml_step m cb s ctx h).frame.ctx.flags &&& SCXML_CTX_INITIALIZED ≠ 0 := by
        by_cases hfin : ctx.flags &&& SCXML_CTX_TOP_LEVEL_FINAL = 0
        · exact Or.inr (step_initialized m cb s ctx h
            (hstart.imp (fun h1 => h1.1) (fun h1 => h1)) hfin)
        · have hsame : (scxml_step m cb s ctx h).frame.ctx = ctx := by
            unfold scxml_step
            rw [if_pos (by simpa using hfin)]
            rfl
          rw [hsame]
          exact hstart
      have hrest := ih ss2 (scxml_step m cb s ctx h).frame.ctx (scxml_step m cb s ctx h).frame.host
        (by simpa using hlen) hnext
      show RunState.mk _ _ _ _ = RunState.mk _ _ _ _
      rw [← herr, ← hl, ← hc, ← hh, hrest]

/-- C21: determinism.  For tables in which the parent of every history pseudo-state
is a state index, and a context that is pristine with an empty config or already initialized:
the code a step returns, the context it leaves, the host state and the calls it makes are the
same whatever the six scratch arrays held before; two sequences of steps with the same host
give the same result, and the same config after every number of steps, whatever the scratch
arrays held before each step. -/
theorem step_deterministic (m : scxml_machine H) (cb : scxml_callbacks H)
    (hpar : ∀ i, i < m.nr_states → isHistoryType m i = true →
      (m.states i).parent < m.nr_states)
    (ctx : scxml_ctx) (h : H)
    (hstart : (ctx.flags = SCXML_CTX_PRISTINE ∧
        ∀ j, j < nr_states_bytes m → ctx.config j = 0) ∨
      ctx.flags &&& SCXML_CTX_INITIALIZED ≠ 0) :
    (∀ s s2 : Locals,
      (scxml_step m cb s ctx h).err = (scxml_step m cb s2 ctx h).err ∧
      (scxml_step m cb s ctx h).frame.ctx = (scxml_step m cb s2 ctx h).frame.ctx ∧
      (scxml_step m cb s ctx h).frame.host = (scxml_step m cb s2 ctx h).frame.host ∧
      (scxml_step m cb s ctx h).frame.log = (scxml_step m cb s2 ctx h).frame.log) ∧
    (∀ ss ss2 : List Locals, ss.length = ss2.length →
      run m cb ss ctx h = run m cb ss2 ctx h) ∧
    (∀ (ss ss2 : List Locals) (k : Nat), ss.length = ss2.length →
      (run m cb (ss.take k) ctx h).ctx.config = (run m cb (ss2.take k) ctx h).ctx.config) := by
  refine ⟨?_, ?_, ?_⟩
  · intro s s2
    have hpr : ctx.flags = SCXML_CTX_PRISTINE →
        ∀ j, j < nr_states_bytes m → ctx.config j = 0 := by
      intro hp
      rcases hstart with h1 | h1
      · exact h1.2
      · rw [hp] at h1
        exact absurd rfl h1
    obtain ⟨herr, hc, hh, hl⟩ := scxml_step_scratch m cb hpar ctx h hpr s s2
    exact ⟨herr, hc, hh, hl⟩
  · intro ss ss2 hlen
    exact run_scratch m cb hpar ss ss2 ctx h hlen hstart
  · intro ss ss2 k hlen
    rw [run_scratch m cb hpar (ss.take k) (ss2.take k) ctx h
      (by rw [List.length_take, List.length_take, hlen]) hstart]

/-- Instance of C21: three steps over `chainMachine` from the pristine context, with
scratch arrays full of ones and with cleared scratch arrays. -/
theorem step_deterministic_witness :
    run (chainMachine (List Nat)) (listHost true []) [junkStack, junkStack, junkStack]
        pristineCtx [] =
      run (chainMachine (List Nat)) (listHost true []) [zeroStack, zeroStack, zeroStack]
        pristineCtx [] :=
  (step_deterministic (chainMachine (List Nat)) (listHost true []) (by decide) pristineCtx []
    (Or.inl ⟨rfl, fun _ _ => rfl⟩)).2.1 [junkStack, junkStack, junkStack]
    [zeroStack, zeroStack, zeroStack] rfl

/-- The start condition of the determinism theorem is needed.  Take a context, which no step
produces, whose flags are `SCXML_CTX_PRISTINE` while state 4 is in config.  The pristine path does not clear `exit_set`; with scratch arrays full of ones the
step completes the compound state 1, exits state 4 and ends with config {0, 1, 3}, with cleared
scratch arrays it ends with config {0, 1, 4}. -/
theorem stale_config_in_pristine_context :
    (scxml_step (historyMachine SCXML_STATE_HISTORY_SHALLOW) (listHost false []) junkStack
      { pristineCtx with config := bytes [0x10] } []).frame.ctx.config 0 = 0x0b ∧
    (scxml_step (historyMachine SCXML_STATE_HISTORY_SHALLOW) (listHost false []) zeroStack
      { pristineCtx with config := bytes [0x10] } []).frame.ctx.config 0 = 0x13 := by
  decide

end ScratchIndependence6

section CounterTypes

/-- C35 on the code: the line that defines `SCXML_NR_TRANS_TYPE` is written from
`_stateDataType`, for every number of states and of transitions, so the number of transitions
has no part in it; `_transDataType`, which `prepare` computes from the number of transitions
and which can hold it, is not written.  For a machine with 2 states and 256 transitions the
macro is `uint8_t`, a type of 256 values, although `_transDataType` is `uint16_t`; the loop
variables `i, j, k` are declared with that macro. -/
theorem trans_type_follows_state_count :
    (∀ s t, (writeMacros s t).getD 5 "" =
      "#  define SCXML_NR_TRANS_TYPE " ++ _stateDataType s) ∧
    (writeMacros 2 256).getD 5 "" = "#  define SCXML_NR_TRANS_TYPE uint8_t" ∧
    _transDataType 256 = "uint16_t" ∧
    256 < typeRange (_transDataType 256) ∧
    typeRange (_stateDataType 2) = 256 ∧
    ¬ 256 < typeRange (_stateDataType 2) ∧
    loopVariableType 2 256 = "SCXML_NR_TRANS_TYPE" :=
  ⟨fun _ _ => rfl, by decide, by decide, by decide, by decide, by decide, by decide⟩

end CounterTypes

section DocExamples

/-- C36 on the code: the bytes that `writeCharArrayInitList` writes for the four strings of
its doc comment.  `"0111"` gives `0x0e` (the comment says `0x08`) and `"111111111110"` gives
`0xff, 0x07` (the comment says `0x0f, 0xfd`); `"1111"` gives `0x0f` and `"11111111"` gives
`0xff` as the comment says.  Character `k` of the string is bit `k % 8` of byte `k / 8`. -/
theorem doc_comment_examples :
    charArrayOf "0111".toList = [0x0e] ∧
    charArrayOf "1111".toList = [0x0f] ∧
    charArrayOf "11111111".toList = [0xff] ∧
    charArrayOf "111111111110".toList = [0xff, 0x07] ∧
    writeCharArrayInitList "0111".toList = "0x0e" ∧
    writeCharArrayInitList "1111".toList = "0x0f" ∧
    writeCharArrayInitList "11111111".toList = "0xff" ∧
    writeCharArrayInitList "111111111110".toList = "0xff, 0x07" ∧
    writeCharArrayInitList "0111".toList ≠ "0x08" ∧
    writeCharArrayInitList "111111111110".toList ≠ "0x0f, 0xfd" := by
  decide

end DocExamples

section AnyBit

theorem bit_has_any_iff (sc : Bool) (a : Bitset) (n : Nat) :
    bit_has_any sc a n = true ↔ ∃ j, j < n ∧ 0 < charValue sc (a j) := by
  induction n with
  | zero => simp [bit_has_any]
  | succ k ih =>
    unfold bit_has_any
    by_cases hk : charValue sc (a k) > 0
    · rw [if_pos hk]
      exact ⟨fun _ => ⟨k, Nat.lt_succ_self k, hk⟩, fun _ => rfl⟩
    · rw [if_neg hk, ih]
      constructor
      · rintro ⟨j, hj, h⟩
        exact ⟨j, Nat.lt_succ_of_lt hj, h⟩
      · rintro ⟨j, hj, h⟩
        rcases Nat.lt_succ_iff_lt_or_eq.1 hj with h1 | h1
        · exact ⟨j, h1, h⟩
        · rw [h1] at h
          exact absurd h hk

/-- C38 on the code: `bit_has_any(a, n)` answers 1 exactly when some byte `a[j]`, `j < n`,
read through the type `char`, is greater than 0.  On the one-byte array `0x80` bit 7 is set;
where plain `char` is signed the byte reads as -128 and `bit_has_any` answers 0, where it is
unsigned the answer is 1.  A byte with any of the bits 0 to 6 and bit 7 clear is found for
either signedness (`0x40`). -/
theorem bit_has_any_misses_bit_seven :
    (∀ (sc : Bool) (a : Bitset) (n : Nat),
      bit_has_any sc a n = true ↔ ∃ j, j < n ∧ 0 < charValue sc (a j)) ∧
    BIT_HAS 7 (bytes [0x80]) = true ∧
    charValue true (bytes [0x80] 0) = -128 ∧
    bit_has_any true (bytes [0x80]) 1 = false ∧
    bit_has_any false (bytes [0x80]) 1 = true ∧
    bit_has_any true (bytes [0x40]) 1 = true ∧
    BIT_HAS 15 (bytes [0x00, 0x80]) = true ∧
    bit_has_any true (bytes [0x00, 0x80]) 2 = false :=
  ⟨bit_has_any_iff, by decide, by decide, by decide, by decide, by decide, by decide,
    by decide⟩

end AnyBit

section UnselectedStep
variable {H : Type}

/-- With no history pseudo-state whose parent is in `exit_set`, `REMEMBER_HISTORY` changes
nothing. -/
theorem remember_history_idle (m : scxml_machine H) (f : Frame H)
    (hx : ∀ i, i < m.nr_states → isHistoryType m i = true →
      BIT_HAS (m.states i).parent f.exit_set = false) :
    remember_history m f = f := by
  unfold remember_history
  apply foldl_invariant_mem (fun g : Frame H => g = f) _ (upTo m.nr_states) _ f rfl
  intro s a ha hs
  rw [hs]
  unfold remember_body
  by_cases hty : isHistoryType m a = true
  · rw [if_pos hty, hx a (mem_upTo.1 ha) hty]
    rfl
  · rw [if_neg hty]

theorem isPre_not_isExec (c : Call) (h : c.isPre = true) : c.isExec = false := by
  cases c <;> first | rfl | exact absurd h Bool.false_ne_true

/-- C40: a step on an initialized, non-final context that selects no transition leaves
config, history and initialized_data as they were, calls no program of the three execution
loops (no `on_exit`, `on_transition`, `on_entry`, nor `exec_content_init` or
`raise_done_event`) and returns `SCXML_ERR_OK`.  The tables are those of a compiled chart in
that the parent of every history pseudo-state is a state index. -/
theorem step_without_selection (m : scxml_machine H) (cb : scxml_callbacks H)
    (stack : Locals) (ctx : scxml_ctx) (h : H)
    (hpar : ∀ i, i < m.nr_states → isHistoryType m i = true →
      (m.states i).parent < m.nr_states)
    (hinit : ctx.flags &&& SCXML_CTX_INITIALIZED ≠ 0)
    (hnf : ctx.flags &&& SCXML_CTX_TOP_LEVEL_FINAL = 0)
    (hnone : ∀ t, t < m.nr_transitions → selected m cb stack ctx h t = false) :
    (scxml_step m cb stack ctx h).frame.ctx.config = ctx.config ∧
    (scxml_step m cb stack ctx h).frame.ctx.history = ctx.history ∧
    (scxml_step m cb stack ctx h).frame.ctx.initialized_data = ctx.initialized_data ∧
    (∀ c ∈ (scxml_step m cb stack ctx h).frame.log, c.isExec = false) ∧
    (scxml_step m cb stack ctx h).err = SCXML_ERR_OK := by
  have hnp := flags_ne_pristine hinit
  have hstep := step_none_selected m cb stack ctx h hnp hnf hnone
  obtain ⟨hx, _, _⟩ := selection_none m cb stack ctx h hnp hnone
  obtain ⟨u1, u2, u3, u4, _, u6, _, _⟩ := update_flags_spec (selection m cb stack ctx h)
  have hrem : remember_history m (update_flags (selection m cb stack ctx h)) =
      update_flags (selection m cb stack ctx h) := by
    apply remember_history_idle
    intro i hi hty
    rw [u6]
    exact hx _ (hpar i hi hty)
  obtain ⟨e1, _, e3, _, _, _⟩ := establish_entry_set_entryStep m
    (remember_history m (update_flags (selection m cb stack ctx h)))
  rw [hstep]
  show (establish_entry_set m _).ctx.config = ctx.config ∧
    (establish_entry_set m _).ctx.history = ctx.history ∧
    (establish_entry_set m _).ctx.initialized_data = ctx.initialized_data ∧
    (∀ c ∈ (establish_entry_set m _).log, c.isExec = false) ∧ SCXML_ERR_OK = SCXML_ERR_OK
  rw [e1, e3, hrem, u1, u2, u3, u4]
  refine ⟨?_, ?_, ?_, ?_, rfl⟩
  · exact (select_scan_config m cb _ _).1.trans (at_select_frame m cb stack ctx h).2.1
  · exact (select_scan_config m cb _ _).2.2.1.trans (at_select_frame m cb stack ctx h).2.2.1
  · exact (select_scan_config m cb _ _).2.2.2.2.1.trans
      (at_select_frame m cb stack ctx h).2.2.2.1
  · intro c hc
    exact isPre_not_isExec c (selection_log m cb stack ctx h c hc)

/-- Instance of C40: the two-state machine in configuration {root, A}, initialized, with both
queues empty and its transition not enabled. -/
theorem step_without_selection_witness :
    (scxml_step twoStateMachine (listHost false []) zeroStack (ctxOf 2 3) []).frame.ctx.config
      = (ctxOf 2 3).config ∧
    (scxml_step twoStateMachine (listHost false []) zeroStack (ctxOf 2 3) []).frame.ctx.history
      = (ctxOf 2 3).history ∧
    (scxml_step twoStateMachine (listHost false []) zeroStack
      (ctxOf 2 3) []).frame.ctx.initialized_data = (ctxOf 2 3).initialized_data ∧
    (∀ c ∈ (scxml_step twoStateMachine (listHost false []) zeroStack
      (ctxOf 2 3) []).frame.log, c.isExec = false) ∧
    (scxml_step twoStateMachine (listHost false []) zeroStack (ctxOf 2 3) []).err =
      SCXML_ERR_OK :=
  step_without_selection twoStateMachine (listHost false []) zeroStack (ctxOf 2 3) []
    (by decide) (by decide) (by decide) (by decide)

end UnselectedStep

section ProperConfig
variable {H : Type}

theorem pseudoStep_refl (m : scxml_machine H) (f : Frame H) : f.pseudoStep m f :=
  fun _ _ h => h

theorem pseudoStep_trans (m : scxml_machine H) (a b c : Frame H) (h1 : a.pseudoStep m b)
    (h2 : b.pseudoStep m c) : a.pseudoStep m c :=
  fun i hp hc => h1 i hp (h2 i hp hc)

theorem pseudoStep_of_config (m : scxml_machine H) (f g : Frame H)
    (h : g.ctx.config = f.ctx.config) : f.pseudoStep m g := by
  intro i _ hc
  rw [h] at hc
  exact hc

theorem exit_body_pseudoStep (m : scxml_machine H) (cb : scxml_callbacks H) (i : Nat)
    (f : Frame H) : f.pseudoStep m (exit_body m cb i f).state := by
  intro j _ hc
  by_cases hj : j = i
  · by_cases hx : (BIT_HAS i f.exit_set && BIT_HAS i f.ctx.config) = true
    · rw [hj]
      exact (Bool.and_eq_true _ _ ▸ hx).2
    · unfold exit_body at hc
      rw [if_neg hx] at hc
      exact hc
  · rw [(exit_body_spec m cb i f).2.1 j hj] at hc
    exact hc

theorem take_body_pseudoStep (m : scxml_machine H) (cb : scxml_callbacks H) (i : Nat)
    (f : Frame H) : f.pseudoStep m (take_body m cb i f).state := by
  apply pseudoStep_of_config
  unfold take_body
  split
  · split
    · simp only []
      split <;> rfl
    · rfl
  · rfl

theorem enter_body_pseudoStep (m : scxml_machine H) (cb : scxml_callbacks H) (i : Nat)
    (f : Frame H) : f.pseudoStep m (enter_body m cb i f).state := by
  intro j hp hc
  obtain ⟨_, _, h3, h4, _⟩ := enter_body_spec m cb i f
  by_cases hj : j = i
  · rw [hj] at hc hp ⊢
    rw [h4] at hc
    unfold enters_now at hc
    rw [hp] at hc
    simpa using hc
  · rw [h3 j hj] at hc
    exact hc

/-- The three execution loops put no history or initial pseudo-state into config, whatever
code they return. -/
theorem exit_take_enter_pseudoStep (m : scxml_machine H) (cb : scxml_callbacks H)
    (f : Frame H) : f.pseudoStep m (exit_take_enter m cb f).frame := by
  have h : f.pseudoStep m ((exit_states m cb f).andThen fun f1 =>
      (take_transitions m cb f1).andThen fun f2 => enter_states m cb f2).state := by
    apply andThen_preserves (Frame.pseudoStep m) (pseudoStep_trans m)
    · exact loop_preserves (Frame.pseudoStep m) (pseudoStep_refl m) (pseudoStep_trans m) _
        (fun i s => exit_body_pseudoStep m cb i s) _ f
    · intro f1
      apply andThen_preserves (Frame.pseudoStep m) (pseudoStep_trans m)
      · exact loop_preserves (Frame.pseudoStep m) (pseudoStep_refl m) (pseudoStep_trans m) _
          (fun i s => take_body_pseudoStep m cb i s) _ f1
      · intro f2
        exact loop_preserves (Frame.pseudoStep m) (pseudoStep_refl m) (pseudoStep_trans m) _
          (fun i s => enter_body_pseudoStep m cb i s) _ f2
  unfold exit_take_enter
  cases hr : ((exit_states m cb f).andThen fun f1 =>
      (take_transitions m cb f1).andThen fun f2 => enter_states m cb f2) with
  | next f3 => rw [hr] at h; exact h
  | ret e f3 => rw [hr] at h; exact h

/-- A step, whatever it returns, leaves no history or initial pseudo-state in config that was
not there before. -/
theorem step_adds_no_pseudo_state (m : scxml_machine H) (cb : scxml_callbacks H)
    (stack : Locals) (ctx : scxml_ctx) (h : H) (i : Nat) (hp : isPseudoState m i = true)
    (hc : BIT_HAS i (scxml_step m cb stack ctx h).frame.ctx.config = true) :
    BIT_HAS i ctx.config = true := by
  by_cases hnf : ctx.flags &&& SCXML_CTX_TOP_LEVEL_FINAL = 0
  · rw [scxml_step_not_final m cb stack ctx h hnf] at hc
    have := exit_take_enter_pseudoStep m cb (at_exit m cb stack ctx h) i hp hc
    rw [(at_exit_ctx m cb stack ctx h).1] at this
    exact this
  · rw [scxml_step_final m cb stack ctx h hnf] at hc
    exact hc

/-- C37: in the context that any sequence of steps leaves, started on a context with an empty
config (a pristine context in particular) and whatever codes the steps return, no history
(deep or shallow) and no initial pseudo-state is in config. -/
theorem config_holds_proper_states (m : scxml_machine H) (cb : scxml_callbacks H)
    (scratch : List Locals) (ctx : scxml_ctx) (h : H)
    (hempty : ∀ i, i < m.nr_states → BIT_HAS i ctx.config = false) :
    ∀ i, i < m.nr_states → isPseudoState m i = true →
      BIT_HAS i (run m cb scratch ctx h).ctx.config = false := by
  intro i hi hp
  have hgen : ∀ (l : List Locals) (c : scxml_ctx) (x : H),
      BIT_HAS i c.config = false → BIT_HAS i (run m cb l c x).ctx.config = false := by
    intro l
    induction l with
    | nil => intro c x hc; exact hc
    | cons s ss ih =>
      intro c x hc
      show BIT_HAS i (run m cb ss (scxml_step m cb s c x).frame.ctx
        (scxml_step m cb s c x).frame.host).ctx.config = false
      apply ih
      by_contra hne
      have h1 := step_adds_no_pseudo_state m cb s c x i hp (by simpa using hne)
      rw [hc] at h1
      exact Bool.false_ne_true h1
  exact hgen scratch ctx h (hempty i hi)

/-- Instance of C37: the history scenario run for three steps from the pristine context with
events 2 and 3 queued; the history pseudo-state H (state 2) is not in config, while its
default target is. -/
theorem config_holds_proper_states_witness :
    (pristineCtx.flags = SCXML_CTX_PRISTINE ∧
      ∀ i, i < (historyMachine SCXML_STATE_HISTORY_SHALLOW).nr_states →
        BIT_HAS i pristineCtx.config = false) ∧
    isPseudoState (historyMachine SCXML_STATE_HISTORY_SHALLOW) 2 = true ∧
    BIT_HAS 2 (run (historyMachine SCXML_STATE_HISTORY_SHALLOW) (triggerHost [2, 3])
      [junkStack, junkStack, junkStack] pristineCtx []).ctx.config = false :=
  have h0 : ∀ i, i < (historyMachine SCXML_STATE_HISTORY_SHALLOW).nr_states →
      BIT_HAS i pristineCtx.config = false := by decide
  ⟨⟨rfl, h0⟩, by decide,
    config_holds_proper_states (historyMachine SCXML_STATE_HISTORY_SHALLOW) (triggerHost [2, 3])
      [junkStack, junkStack, junkStack] pristineCtx [] h0 2 (by decide) (by decide)⟩

end ProperConfig

section ParamTable

/-- C39 on the code: for the chart with three `send` elements of one `param` each the table
`_elem_params` is a, NULL, b, NULL, c, NULL, since a `{ NULL, NULL, NULL }` entry is written
before the params of every element but the first.  `paramIndex` is the number of params
written before, without these entries: 0, 1 and 2.  The pointer of the first `send` addresses
its param; the pointer of the second addresses the `NULL` entry at 1 (its param is at 2), so
it reads as an empty list; the pointer of the third addresses position 2, the param of the
second (its own is at 4). -/
theorem param_index_ignores_terminators :
    elem_params threeSendsChart =
      [⟨some "a", some "1", none⟩, nullParam, ⟨some "b", some "2", none⟩, nullParam,
        ⟨some "c", some "3", none⟩, nullParam] ∧
    paramsPointer threeSendsChart [0, 0, 0, 0] = some 0 ∧
    paramsFrom (elem_params threeSendsChart) 0 = ownParams threeSendsChart [0, 0, 0, 0] ∧
    ownParams threeSendsChart [0, 0, 0, 1] = [⟨some "b", some "2", none⟩] ∧
    paramsPointer threeSendsChart [0, 0, 0, 1] = some 1 ∧
    paramsFrom (elem_params threeSendsChart) 1 = [] ∧
    paramsFrom (elem_params threeSendsChart) 2 = ownParams threeSendsChart [0, 0, 0, 1] ∧
    ownParams threeSendsChart [0, 0, 0, 2] = [⟨some "c", some "3", none⟩] ∧
    paramsPointer threeSendsChart [0, 0, 0, 2] = some 2 ∧
    paramsFrom (elem_params threeSendsChart) 2 = [⟨some "b", some "2", none⟩] ∧
    paramsFrom (elem_params threeSendsChart) 4 = ownParams threeSendsChart [0, 0, 0, 2] := by
  decide

end ParamTable

section Resort

theorem passLoop_eq (R : Node → Node) (test : Node → Bool) (todo front kept : List Node) :
    passLoop R test front kept todo =
      ((todo.map R).filter test).reverse ++ front ++ kept ++
        (todo.map R).filter (fun c => !test c) := by
  induction todo generalizing front kept with
  | nil => simp [passLoop]
  | cons c todo ih =>
    rw [passLoop]
    by_cases h : test (R c) = true
    · rw [if_pos h, ih]
      simp [List.filter_cons, h]
    · rw [if_neg h, ih]
      simp [List.filter_cons, h]

theorem passLoop_start (R : Node → Node) (test : Node → Bool) (cs : List Node) :
    passLoop R test [] [] cs = toFront test (cs.map R) := by
  rw [passLoop_eq]
  simp [toFront]

theorem mem_toFront (test : Node → Bool) (l : List Node) (x : Node) :
    x ∈ toFront test l ↔ x ∈ l := by
  unfold toFront
  rw [List.mem_append, List.mem_reverse, List.mem_filter, List.mem_filter]
  cases test x <;> simp

theorem mem_arrange (attrs : List (String × String)) (l : List Node) (x : Node) :
    x ∈ arrange attrs l ↔ x ∈ l := by
  unfold arrange
  rw [mem_toFront, mem_toFront, mem_toFront]

theorem toFront_perm (test : Node → Bool) (l : List Node) : (toFront test l).Perm l := by
  unfold toFront
  exact ((List.reverse_perm _).append_right _).trans (List.filter_append_perm test l)

theorem arrange_perm (attrs : List (String × String)) (l : List Node) :
    (arrange attrs l).Perm l := by
  unfold arrange
  exact (toFront_perm _ _).trans ((toFront_perm _ _).trans (toFront_perm _ _))

theorem toFront_map (test : Node → Bool) (f : Node → Node) (hf : ∀ x, test (f x) = test x)
    (l : List Node) : toFront test (l.map f) = (toFront test l).map f := by
  unfold toFront
  have e1 : (test ∘ f) = test := funext hf
  have e2 : ((fun c => !test c) ∘ f) = (fun c => !test c) := by
    funext x
    show (!test (f x)) = !test x
    rw [hf]
  rw [List.filter_map, List.filter_map, e1, e2, List.map_append, List.map_reverse]

theorem toFront_never (l : List Node) : toFront (fun _ => false) l = l := by
  simp [toFront]

/-- Two loops with tests that exclude one another: the children passing the later test in
reverse order, then those passing the earlier test in reverse order, then the rest. -/
theorem toFront_toFront (i h : Node → Bool) (hd : ∀ x, i x = true → h x = false)
    (l : List Node) :
    toFront i (toFront h l) =
      (l.filter i).reverse ++ (l.filter h).reverse ++
        l.filter (fun c => !i c && !h c) := by
  have e1 : ((l.filter h).reverse).filter i = [] := by
    rw [List.filter_eq_nil_iff]
    intro a ha
    rw [List.mem_reverse, List.mem_filter] at ha
    intro hia
    rw [hd a hia] at ha
    exact Bool.false_ne_true ha.2
  have e2 : ((l.filter h).reverse).filter (fun c => !i c) = (l.filter h).reverse := by
    rw [List.filter_eq_self]
    intro a ha
    rw [List.mem_reverse, List.mem_filter] at ha
    cases hia : i a with
    | false => rfl
    | true =>
      rw [hd a hia] at ha
      exact absurd ha.2 Bool.false_ne_true
  have e3 : (l.filter (fun c => !h c)).filter i = l.filter i := by
    rw [List.filter_filter]
    congr 1
    funext a
    cases hia : i a with
    | false => rfl
    | true => simp [hd a hia]
  have e4 : (l.filter (fun c => !h c)).filter (fun c => !i c) =
      l.filter (fun c => !i c && !h c) := by
    rw [List.filter_filter]
  unfold toFront
  rw [List.filter_append, List.filter_append, e1, e2, e3, e4, List.nil_append,
    List.append_assoc]

theorem iequals_shallow_deep (s : String) (h1 : iequals s "shallow" = true)
    (h2 : iequals s "deep" = true) : False := by
  unfold iequals at h1 h2
  rw [beq_iff_eq] at h1 h2
  rw [h1] at h2
  exact absurd h2 (by decide)

/-- The first two loops of `resortStates` are one loop with the test `historyTest`. -/
theorem toFront_history (attrs : List (String × String)) (l : List Node) :
    toFront (deepTest attrs) (toFront (shallowTest attrs) l) =
      toFront (historyTest attrs) l := by
  by_cases hs : (!(attrs.lookup "type").isSome ||
      iequals ((attrs.lookup "type").getD "") "shallow") = true
  · have hdp : ((attrs.lookup "type").isSome &&
        iequals ((attrs.lookup "type").getD "") "deep") = false := by
      by_contra hne
      have hne' : ((attrs.lookup "type").isSome &&
        iequals ((attrs.lookup "type").getD "") "deep") = true := by simpa using hne
      rw [Bool.and_eq_true] at hne'
      rw [Bool.or_eq_true] at hs
      rcases hs with h1 | h1
      · rw [hne'.1] at h1
        exact absurd h1 (by decide)
      · exact iequals_shallow_deep _ h1 hne'.2
    have e1 : deepTest attrs = fun _ => false := by
      funext c
      unfold deepTest
      rw [hdp, Bool.and_false]
    have e2 : shallowTest attrs = historyTest attrs := by
      funext c
      unfold shallowTest historyTest hoistsHistories
      rw [hs, Bool.true_or]
    rw [e1, e2, toFront_never]
  · have hs' : (!(attrs.lookup "type").isSome ||
        iequals ((attrs.lookup "type").getD "") "shallow") = false := by simpa using hs
    have e1 : shallowTest attrs = fun _ => false := by
      funext c
      unfold shallowTest
      rw [hs', Bool.and_false]
    have hsome : (attrs.lookup "type").isSome = true := by
      rw [Bool.or_eq_false_iff] at hs'
      simpa using hs'.1
    have e2 : deepTest attrs = historyTest attrs := by
      funext c
      unfold deepTest historyTest hoistsHistories
      rw [hs', hsome, Bool.true_and, Bool.false_or]
    rw [e1, e2, toFront_never]

theorem initial_not_history (attrs : List (String × String)) (x : Node)
    (h : isTagged "initial" x = true) : historyTest attrs x = false := by
  cases x with
  | other => exact absurd h Bool.false_ne_true
  | element tag a cs =>
    unfold historyTest
    have ht : tag = "initial" := by simpa [isTagged] using h
    have : isTagged "history" (Node.element tag a cs) = false := by
      rw [ht]
      show ("initial" == "history") = false
      decide
    rw [this, Bool.false_and]

/-- The children after the three loops: the `initial` children in reverse order, the
`history` children moved by the first or second loop in reverse order, then the others. -/
theorem arrange_eq (attrs : List (String × String)) (l : List Node) :
    arrange attrs l =
      (l.filter (isTagged "initial")).reverse ++ (l.filter (historyTest attrs)).reverse ++
        l.filter (fun c => !isTagged "initial" c && !historyTest attrs c) := by
  unfold arrange
  rw [toFront_history, toFront_toFront _ _ (initial_not_history attrs)]

theorem arrange_map (attrs : List (String × String)) (f : Node → Node)
    (hf : ∀ t x, isTagged t (f x) = isTagged t x) (l : List Node) :
    arrange attrs (l.map f) = (arrange attrs l).map f := by
  unfold arrange
  rw [toFront_map _ f (fun x => by unfold shallowTest; rw [hf]),
    toFront_map _ f (fun x => by unfold deepTest; rw [hf]),
    toFront_map _ f (fun x => hf _ x)]

/-- The closed form on a list already in three groups. -/
theorem arrange_groups (attrs : List (String × String)) (a b c : List Node)
    (ha : ∀ x ∈ a, isTagged "initial" x = true)
    (hb : ∀ x ∈ b, historyTest attrs x = true)
    (hc : ∀ x ∈ c, isTagged "initial" x = false ∧ historyTest attrs x = false) :
    arrange attrs (a ++ b ++ c) = a.reverse ++ b.reverse ++ c := by
  have hbi : ∀ x ∈ b, isTagged "initial" x = false := by
    intro x hx
    cases hi : isTagged "initial" x with
    | false => rfl
    | true =>
      have := initial_not_history attrs x hi
      rw [hb x hx] at this
      exact absurd this (by decide)
  have f1 : (a ++ b ++ c).filter (isTagged "initial") = a := by
    rw [List.filter_append, List.filter_append, List.filter_eq_self.2 ha,
      List.filter_eq_nil_iff.2 (fun x hx => by rw [hbi x hx]; exact Bool.false_ne_true),
      List.filter_eq_nil_iff.2 (fun x hx => by rw [(hc x hx).1]; exact Bool.false_ne_true),
      List.append_nil, List.append_nil]
  have f2 : (a ++ b ++ c).filter (historyTest attrs) = b := by
    rw [List.filter_append, List.filter_append, List.filter_eq_self.2 hb,
      List.filter_eq_nil_iff.2 (fun x hx => by
        rw [initial_not_history attrs x (ha x hx)]; exact Bool.false_ne_true),
      List.filter_eq_nil_iff.2 (fun x hx => by rw [(hc x hx).2]; exact Bool.false_ne_true),
      List.nil_append, List.append_nil]
  have f3 : (a ++ b ++ c).filter
      (fun x => !isTagged "initial" x && !historyTest attrs x) = c := by
    rw [List.filter_append, List.filter_append,
      List.filter_eq_nil_iff.2 (fun x hx => by rw [ha x hx]; simp),
      List.filter_eq_nil_iff.2 (fun x hx => by rw [hb x hx]; simp),
      List.filter_eq_self.2 (fun x hx => by rw [(hc x hx).1, (hc x hx).2]; rfl),
      List.nil_append, List.nil_append]
  rw [arrange_eq, f1, f2, f3]

/-- The three loops run twice put the children into the three groups in their original
order. -/
theorem arrange_twice (attrs : List (String × String)) (l : List Node) :
    arrange attrs (arrange attrs l) =
      l.filter (isTagged "initial") ++ l.filter (historyTest attrs) ++
        l.filter (fun c => !isTagged "initial" c && !historyTest attrs c) := by
  rw [arrange_eq attrs l, arrange_groups, List.reverse_reverse, List.reverse_reverse]
  · intro x hx
    rw [List.mem_reverse, List.mem_filter] at hx
    exact hx.2
  · intro x hx
    rw [List.mem_reverse, List.mem_filter] at hx
    exact hx.2
  · intro x hx
    rw [List.mem_filter] at hx
    simpa using hx.2

theorem arrange_thrice (attrs : List (String × String)) (l : List Node) :
    arrange attrs (arrange attrs (arrange attrs l)) = arrange attrs l := by
  rw [arrange_twice attrs l, arrange_groups, ← arrange_eq]
  · intro x hx
    rw [List.mem_filter] at hx
    exact hx.2
  · intro x hx
    rw [List.mem_filter] at hx
    exact hx.2
  · intro x hx
    rw [List.mem_filter] at hx
    simpa using hx.2

theorem reverse_short (l : List Node) (h : l.length ≤ 1) : l.reverse = l := by
  match l, h with
  | [], _ => rfl
  | [_], _ => rfl

theorem hoistRevList_eq (cs : List Node) : hoistRevList cs = cs.map hoistRev := by
  induction cs with
  | nil => rfl
  | cons c cs ih => rw [hoistRevList, ih, List.map_cons]

theorem hoistRev_element (tag : String) (attrs : List (String × String)) (cs : List Node) :
    hoistRev (Node.element tag attrs cs) =
      Node.element tag attrs (arrange attrs (cs.map hoistRev)) := by
  rw [hoistRev, hoistRevList_eq]

theorem isTagged_hoistRev (t : String) (n : Node) :
    isTagged t (hoistRev n) = isTagged t n := by
  cases n with
  | other => rfl
  | element tag attrs cs => rw [hoistRev_element]; rfl

theorem depthList_le (l : List Node) (f : Nat) :
    depthList l ≤ f ↔ ∀ c ∈ l, c.depth ≤ f := by
  induction l with
  | nil => simp [depthList]
  | cons c cs ih =>
    rw [depthList, Nat.max_le, ih]
    simp

theorem depth_hoistRev :
    (∀ n : Node, ∀ f, n.depth ≤ f → (hoistRev n).depth ≤ f) ∧
    (∀ cs : List Node, ∀ c ∈ cs, ∀ f, c.depth ≤ f → (hoistRev c).depth ≤ f) := by
  apply Node.induct
  · intro tag attrs cs ih f hf
    rw [hoistRev_element, Node.depth]
    rw [Node.depth] at hf
    cases f with
    | zero => exact absurd hf (Nat.not_succ_le_zero _)
    | succ g =>
      apply Nat.succ_le_succ
      rw [depthList_le]
      intro c hc
      rw [mem_arrange, List.mem_map] at hc
      obtain ⟨d, hd, rfl⟩ := hc
      exact ih d hd g ((depthList_le cs g).1 (Nat.le_of_succ_le_succ hf) d hd)
  · intro f _
    rw [hoistRev, Node.depth]
    exact Nat.zero_le f
  · intro c hc
    exact absurd hc (List.not_mem_nil c)
  · intro c cs hP hQ d hd
    rcases List.mem_cons.1 hd with h | h
    · rw [h]; exact hP
    · exact hQ d h

/-- Resorting a resorted tree twice more gives the resorted tree. -/
theorem hoistRev_thrice :
    (∀ n : Node, hoistRev (hoistRev (hoistRev n)) = hoistRev n) ∧
    (∀ cs : List Node, ∀ c ∈ cs, hoistRev (hoistRev (hoistRev c)) = hoistRev c) := by
  apply Node.induct
  · intro tag attrs cs ih
    have comm : ∀ l : List Node, (arrange attrs l).map hoistRev =
        arrange attrs (l.map hoistRev) :=
      fun l => (arrange_map attrs hoistRev (fun t x => isTagged_hoistRev t x) l).symm
    rw [hoistRev_element, hoistRev_element, hoistRev_element]
    simp only [comm, List.map_map]
    rw [arrange_thrice]
    congr 2
    apply List.map_congr_left
    intro c hc
    exact ih c hc
  · rfl
  · intro c hc
    exact absurd hc (List.not_mem_nil c)
  · intro c cs hP hQ d hd
    rcases List.mem_cons.1 hd with h | h
    · rw [h]; exact hP
    · exact hQ d h

/-- With fuel for the depth of the tree the function `resortFuel` computes `hoistRev`. -/
theorem resortFuel_eq (f : Nat) : ∀ n : Node, n.depth ≤ f → resortFuel f n = hoistRev n := by
  induction f with
  | zero =>
    intro n hn
    cases n with
    | other => rfl
    | element tag attrs cs =>
      rw [Node.depth] at hn
      exact absurd hn (Nat.not_succ_le_zero _)
  | succ g ih =>
    intro n hn
    cases n with
    | other => rfl
    | element tag attrs cs =>
      rw [Node.depth] at hn
      have hcs : ∀ c ∈ cs, c.depth ≤ g :=
        (depthList_le cs g).1 (Nat.le_of_succ_le_succ hn)
      have hmap : ∀ l : List Node, (∀ c ∈ l, c.depth ≤ g) →
          l.map (resortFuel g) = l.map hoistRev := by
        intro l hl
        apply List.map_congr_left
        intro c hc
        exact ih c (hl c hc)
      have hdep : ∀ l : List Node, (∀ c ∈ l, c.depth ≤ g) →
          ∀ c ∈ l.map hoistRev, c.depth ≤ g := by
        intro l hl c hc
        rw [List.mem_map] at hc
        obtain ⟨d, hd, rfl⟩ := hc
        exact depth_hoistRev.1 d g (hl d hd)
      have h1 : ∀ c ∈ toFront (shallowTest attrs) (cs.map hoistRev), c.depth ≤ g := by
        intro c hc
        rw [mem_toFront] at hc
        exact hdep cs hcs c hc
      have h2 : ∀ c ∈ toFront (deepTest attrs)
          ((toFront (shallowTest attrs) (cs.map hoistRev)).map hoistRev), c.depth ≤ g := by
        intro c hc
        rw [mem_toFront] at hc
        exact hdep _ h1 c hc
      have t1 : ∀ x, shallowTest attrs (hoistRev x) = shallowTest attrs x := by
        intro x; unfold shallowTest; rw [isTagged_hoistRev]
      have t2 : ∀ x, deepTest attrs (hoistRev x) = deepTest attrs x := by
        intro x; unfold deepTest; rw [isTagged_hoistRev]
      have t3 : ∀ x, isTagged "initial" (hoistRev x) = isTagged "initial" x :=
        fun x => isTagged_hoistRev _ x
      rw [resortFuel, hoistRev_element]
      simp only [passLoop_start]
      rw [hmap cs hcs, hmap _ h1, hmap _ h2]
      congr 1
      rw [← toFront_map _ hoistRev t1, ← toFront_map _ hoistRev t2,
        ← toFront_map _ hoistRev t1, List.map_map, List.map_map]
      have h3 : cs.map (hoistRev ∘ hoistRev ∘ hoistRev) = cs.map hoistRev := by
        apply List.map_congr_left
        intro c _
        exact hoistRev_thrice.1 c
      unfold arrange
      rw [← h3]
      rfl

theorem resortStates_eq (n : Node) : resortStates n = hoistRev n :=
  resortFuel_eq n.depth n (Nat.le_refl _)

theorem historyTest_of_hoists (attrs : List (String × String))
    (h : hoistsHistories attrs = true) : historyTest attrs = isTagged "history" := by
  funext c
  unfold historyTest
  rw [h, Bool.and_true]

theorem historyTest_of_not (attrs : List (String × String))
    (h : hoistsHistories attrs = false) : historyTest attrs = fun _ => false := by
  funext c
  unfold historyTest
  rw [h, Bool.and_false]

theorem filter_map_resort (test : Node → Bool) (ht : ∀ x, test (hoistRev x) = test x)
    (cs : List Node) : (cs.map hoistRev).filter test = (cs.filter test).map hoistRev := by
  rw [List.filter_map]
  congr 2
  funext x
  exact ht x

/-- Counterexample to C31 as stated: in `<state id="S"> <history id="H1"/> <history id="H2"/>
<state id="A"/> </state>` the two history children come out as H2, H1: the first loop puts
every history child before the first child, so a later one lands before an earlier one. -/
theorem resort_reverses_histories :
    idsOf twoHistoriesChart = ["", "S", "H1", "H2", "A"] ∧
    resortStates twoHistoriesChart =
      Node.element "scxml" [] [
        Node.element "state" [("id", "S")] [
          Node.element "history" [("id", "H2")] [],
          Node.element "history" [("id", "H1")] [],
          stateElem "A" []]] ∧
    idsOf (resortStates twoHistoriesChart) = ["", "S", "H2", "H1", "A"] :=
  ⟨by decide, rfl, by decide⟩

end Resort

section ResortTwice

theorem filter_historyTest_length (attrs : List (String × String)) (l : List Node) :
    (l.filter (historyTest attrs)).length ≤ (l.filter (isTagged "history")).length := by
  cases hb : hoistsHistories attrs with
  | true => rw [historyTest_of_hoists attrs hb]
  | false =>
    rw [historyTest_of_not attrs hb, List.filter_eq_nil_iff.2 (fun _ _ => Bool.false_ne_true)]
    exact Nat.zero_le _

/-- With at most one `initial` and at most one `history` child the three loops run twice give
what they give run once. -/
theorem arrange_twice_single (attrs : List (String × String)) (l : List Node)
    (hi : (l.filter (isTagged "initial")).length ≤ 1)
    (hh : (l.filter (isTagged "history")).length ≤ 1) :
    arrange attrs (arrange attrs l) = arrange attrs l := by
  rw [arrange_twice, arrange_eq, reverse_short _ hi,
    reverse_short _ (Nat.le_trans (filter_historyTest_length attrs l) hh)]

theorem hoistRev_twice :
    (∀ n : Node, singleHoists n = true → hoistRev (hoistRev n) = hoistRev n) ∧
    (∀ cs : List Node, singleHoistsList cs = true →
      ∀ c ∈ cs, hoistRev (hoistRev c) = hoistRev c) := by
  apply Node.induct
  · intro tag attrs cs ih h
    rw [singleHoists, Bool.and_eq_true, Bool.and_eq_true, decide_eq_true_iff,
      decide_eq_true_iff] at h
    obtain ⟨⟨hi, hh⟩, hl⟩ := h
    have comm : ∀ l : List Node, (arrange attrs l).map hoistRev =
        arrange attrs (l.map hoistRev) :=
      fun l => (arrange_map attrs hoistRev (fun t x => isTagged_hoistRev t x) l).symm
    have hmap : cs.map (hoistRev ∘ hoistRev) = cs.map hoistRev := by
      apply List.map_congr_left
      intro c hc
      exact ih hl c hc
    rw [hoistRev_element, hoistRev_element]
    simp only [comm, List.map_map]
    rw [hmap, arrange_twice_single]
    · rw [filter_map_resort _ (fun x => isTagged_hoistRev _ x), List.length_map]
      exact hi
    · rw [filter_map_resort _ (fun x => isTagged_hoistRev _ x), List.length_map]
      exact hh
  · intro _
    rfl
  · intro _ c hc
    exact absurd hc (List.not_mem_nil c)
  · intro c cs hP hQ h d hd
    rw [singleHoistsList, Bool.and_eq_true] at h
    rcases List.mem_cons.1 hd with e | e
    · rw [e]; exact hP h.1
    · exact hQ h.2 d e

/-- C32, amended: for every tree in which no element has more than one `initial` child or
more than one `history` child, `resortStates` applied to the result of `resortStates` gives
the same tree as `resortStates` applied once. -/
theorem resort_twice_single (n : Node) (h : singleHoists n = true) :
    resortStates (resortStates n) = resortStates n := by
  rw [resortStates_eq n, resortStates_eq (hoistRev n)]
  exact hoistRev_twice.1 n h

/-- Counterexample to C32 as stated: on `lateHistoriesChart` the first application gives the
children initial, H2, H1, A, B of S and the second gives initial, H1, H2, A, B: every
application reverses the history children once more. -/
theorem resort_twice_differs :
    idsOf (resortStates lateHistoriesChart) = ["", "S", "", "H2", "H1", "A", "B"] ∧
    idsOf (resortStates (resortStates lateHistoriesChart)) =
      ["", "S", "", "H1", "H2", "A", "B"] ∧
    resortStates (resortStates lateHistoriesChart) ≠ resortStates lateHistoriesChart := by
  refine ⟨by decide, by decide, ?_⟩
  intro h
  have h2 := congrArg idsOf h
  revert h2
  decide

/-- Instance of the amended C32: `initialChart`, whose state C has one `initial` child. -/
theorem resort_twice_single_witness :
    singleHoists initialChart = true ∧
    resortStates (resortStates initialChart) = resortStates initialChart :=
  ⟨rfl, resort_twice_single initialChart rfl⟩

end ResortTwice

section NestedMachines

theorem invoke_induction (P : Invoke → Prop) (Q : List Invoke → Prop)
    (h1 : ∀ type, P (Invoke.bare type))
    (h2 : ∀ type md5 invokes, Q invokes → P (Invoke.document type md5 invokes))
    (h3 : Q []) (h4 : ∀ c cs, P c → Q cs → Q (c :: cs)) : (∀ n, P n) ∧ (∀ cs, Q cs) :=
  ⟨@Invoke.rec P Q h1 h2 h3 h4, @Invoke.rec_1 P Q h1 h2 h3 h4⟩

theorem length_writeObject (heap : List Machine) (i : Nat) (f : Machine → Machine) :
    (writeObject heap i f).length = heap.length :=
  List.length_modify f i heap

theorem top_writeObject_field (heap : List Machine) (i : Nat) (f : Machine → Machine)
    (hf : ∀ m, (f m)._topMostMachine = m._topMostMachine) :
    (objectAt (writeObject heap i f) 0)._topMostMachine =
      (objectAt heap 0)._topMostMachine := by
  cases heap with
  | nil => cases i <;> rfl
  | cons a l =>
    cases i with
    | zero => exact hf a
    | succ k => rfl

theorem top_writeObject_other (heap : List Machine) (i : Nat) (f : Machine → Machine)
    (hi : i ≠ 0) : objectAt (writeObject heap i f) 0 = objectAt heap 0 := by
  cases heap with
  | nil => cases i <;> rfl
  | cons a l =>
    cases i with
    | zero => exact absurd rfl hi
    | succ k => rfl

theorem topMost_linkNested (this i c2c : Nat) (heap : List Machine) (hc : c2c ≠ 0)
    (h : TopMost heap) : TopMost (linkNested this i c2c heap) := by
  obtain ⟨hl, ht⟩ := h
  unfold linkNested
  dsimp only
  refine ⟨?_, ?_⟩
  · rw [length_writeObject, length_writeObject, length_writeObject, length_writeObject]
    exact hl
  · refine (top_writeObject_field _ _ _ ?_).trans ((top_writeObject_field _ _ _ ?_).trans
      ((congrArg Machine._topMostMachine (top_writeObject_other _ _ _ hc)).trans
        ((top_writeObject_field _ _ _ ?_).trans ht)))
    · intro m; rfl
    · intro m; rfl
    · intro m; rfl

theorem topMost_alloc (heap : List Machine) (x : Machine) (h : TopMost heap) :
    TopMost (heap ++ [x]) := by
  obtain ⟨hl, ht⟩ := h
  refine ⟨by rw [List.length_append]; exact Nat.le_add_right_of_le hl, ?_⟩
  cases heap with
  | nil => exact absurd hl (by decide)
  | cons a l => exact ht

/-- The construction of nested machines never sets `_topMostMachine` of the top-level
object. -/
theorem topMost_kept :
    (∀ inv : Invoke, ∀ heap, TopMost heap → TopMost (newChartToC inv heap)) ∧
    (∀ invs : List Invoke, ∀ this i heap, TopMost heap →
      TopMost (findNestedLoop this invs i heap)) := by
  apply invoke_induction
  · intro type heap h
    rw [newChartToC]
    exact h
  · intro type md5 invokes ih heap h
    rw [newChartToC]
    exact ih _ _ _ (topMost_alloc heap _ h)
  · intro this i heap h
    rw [findNestedLoop]
    exact h
  · intro c cs hP hQ this i heap h
    cases c with
    | bare type =>
      rw [findNestedLoop]
      exact hQ _ _ _ h
    | document type md5 invokes =>
      rw [findNestedLoop]
      split
      · exact hQ _ _ _ h
      · apply hQ
        apply topMost_linkNested _ _ _ _ (Nat.pos_iff_ne_zero.1 h.1) (hP heap h)

theorem topMost_compileChart (md5 : String) (invokes : List Invoke) :
    TopMost (compileChart md5 invokes) := by
  unfold compileChart
  rw [newChartToC]
  apply topMost_kept.2
  exact ⟨Nat.le_refl 1, rfl⟩

/-- C33 on the code: a top-level document t that invokes a document a that invokes a document
b.  Three objects are made: 0 for t, 1 for a and 2 for b.  Object 2 is made inside the
constructor of object 1, where `_topMostMachine` of object 1 is still `NULL`, so it is pushed
onto the `_allMachines` of object 1 and has object 1 as its top-most machine; object 1 is
linked to object 0 after its constructor has returned.  The table `scxml_machines` written by
the top-level object has the records of t and a and one closing record; the machine b, nested
in a, is not in it, and `writeTo` writes no tables for it.  Object 1 writes no table
(`_topMostMachine != NULL`).  For every document the table of the top-level object ends with
one closing record, and no record before it is zeroed. -/
theorem nested_machine_missing_from_table :
    (∀ md5 invokes, ∃ rows, writeMachineInfo (compileChart md5 invokes) 0 =
      some (rows ++ [zeroRow]) ∧ ∀ r ∈ rows, r ≠ zeroRow) ∧
    (compileChart "t" chainInvokes).map (fun m => m._md5) = ["t", "a", "b"] ∧
    (compileChart "t" chainInvokes).map (fun m => m._nestedMachines) = [[1], [2], []] ∧
    (compileChart "t" chainInvokes).map (fun m => m._topMostMachine) =
      [none, some 0, some 1] ∧
    (compileChart "t" chainInvokes).map (fun m => m._allMachines) = [[0, 1], [1, 2], [2]] ∧
    writeMachineInfo (compileChart "t" chainInvokes) 0 =
      some [⟨some "t", none, some 0⟩, ⟨some "a", some 0, some 1⟩, zeroRow] ∧
    writeMachineInfo (compileChart "t" chainInvokes) 1 = none ∧
    writtenMachines (compileChart "t" chainInvokes) 0 = [0, 1] ∧
    2 ∉ writtenMachines (compileChart "t" chainInvokes) 0 := by
  refine ⟨?_, by decide⟩
  intro md5 invokes
  have ht := (topMost_compileChart md5 invokes).2
  unfold writeMachineInfo
  rw [ht]
  refine ⟨_, rfl, ?_⟩
  intro r hr
  rw [List.mem_map] at hr
  obtain ⟨m, _, rfl⟩ := hr
  intro he
  have := congrArg MachineRow.uuid he
  exact absurd this (by simp [zeroRow])

end NestedMachines

section InvokePointer

/-- C34 on the code: in the chain t, a, b the descriptor of the invoke in the top-level
document points at record 1 of `scxml_machines`, the record of a, the machine compiled from
it.  The descriptor of the invoke in a, which was resolved to b (attribute `md5sum` is the
hash of b, object 2), is written with the index of object 2 in the `_allMachines` of object
1, again 1: in the emitted table, the one of the top-level object, record 1 is a itself, and
no record is written from object 2. -/
theorem nested_invoke_points_at_own_machine :
    machinePointer (compileChart "t" chainInvokes) 0 0 = some 1 ∧
    (objectAt (compileChart "t" chainInvokes) 0).md5sum = [(0, "a")] ∧
    (objectAt (compileChart "t" chainInvokes) 1).md5sum = [(0, "b")] ∧
    (objectAt (compileChart "t" chainInvokes) 1)._nestedMachines = [2] ∧
    (objectAt (compileChart "t" chainInvokes) 1)._allMachines = [1, 2] ∧
    machinePointer (compileChart "t" chainInvokes) 1 0 = some 1 ∧
    (writeMachineInfo (compileChart "t" chainInvokes) 0).map (fun rows => rows.get? 1) =
      some (some ⟨some "a", some 0, some 1⟩) ∧
    (writeMachineInfo (compileChart "t" chainInvokes) 0).map
      (fun rows => rows.map (fun r => r.source)) = some [some 0, some 1, none] := by
  decide

end InvokePointer

section ResortOrder

theorem deepHistory_tagged (c : Node) (h : deepHistory c = true) :
    isTagged "history" c = true := by
  cases c with
  | other => exact absurd h Bool.false_ne_true
  | element tag attrs cs =>
    rw [deepHistory, Bool.and_eq_true] at h
    exact h.1

theorem shallowHistory_tagged (c : Node) (h : shallowHistory c = true) :
    isTagged "history" c = true := by
  cases c with
  | other => exact absurd h Bool.false_ne_true
  | element tag attrs cs =>
    rw [shallowHistory, Bool.and_eq_true] at h
    exact h.1

theorem deep_not_shallow (c : Node) (h1 : deepHistory c = true)
    (h2 : shallowHistory c = true) : False := by
  cases c with
  | other => exact absurd h1 Bool.false_ne_true
  | element tag attrs cs =>
    rw [deepHistory, Bool.and_eq_true, Bool.and_eq_true] at h1
    rw [shallowHistory, Bool.and_eq_true, Bool.or_eq_true] at h2
    rcases h2.2 with h | h
    · rw [h1.2.1] at h
      exact absurd h (by decide)
    · exact iequals_shallow_deep _ h h1.2.2

/-- The `history` children split into the deep and the shallow ones when they are all of one
kind. -/
theorem histories_one_kind (cs : List Node)
    (h : (∀ c ∈ cs, isTagged "history" c = true → shallowHistory c = true) ∨
      (∀ c ∈ cs, isTagged "history" c = true → deepHistory c = true)) :
    cs.filter (isTagged "history") = cs.filter deepHistory ++ cs.filter shallowHistory := by
  rcases h with h | h
  · have e1 : cs.filter deepHistory = [] := by
      rw [List.filter_eq_nil_iff]
      intro c hc hd
      exact deep_not_shallow c hd (h c hc (deepHistory_tagged c hd))
    have e2 : cs.filter shallowHistory = cs.filter (isTagged "history") := by
      apply List.filter_congr
      intro c hc
      cases ht : isTagged "history" c with
      | true => exact h c hc ht
      | false =>
        cases hs : shallowHistory c with
        | false => rfl
        | true =>
          rw [shallowHistory_tagged c hs] at ht
          exact absurd ht (by decide)
    rw [e1, e2, List.nil_append]
  · have e1 : cs.filter shallowHistory = [] := by
      rw [List.filter_eq_nil_iff]
      intro c hc hs
      exact deep_not_shallow c (h c hc (shallowHistory_tagged c hs)) hs
    have e2 : cs.filter deepHistory = cs.filter (isTagged "history") := by
      apply List.filter_congr
      intro c hc
      cases ht : isTagged "history" c with
      | true => exact h c hc ht
      | false =>
        cases hd : deepHistory c with
        | false => rfl
        | true =>
          rw [deepHistory_tagged c hd] at ht
          exact absurd ht (by decide)
    rw [e1, e2, List.append_nil]

theorem historyTest_tagged (attrs : List (String × String)) (c : Node)
    (h : historyTest attrs c = true) : isTagged "history" c = true := by
  unfold historyTest at h
  rw [Bool.and_eq_true] at h
  exact h.1

/-- What follows the `initial` children after the three loops holds no `initial` child, and
its children that are no `history` elements are those of the list, in their order. -/
theorem arrange_rest (attrs : List (String × String)) (l : List Node) :
    ((l.filter (historyTest attrs)).reverse ++
        l.filter (fun c => !isTagged "initial" c && !historyTest attrs c)).filter
      (isTagged "initial") = [] ∧
    ((l.filter (historyTest attrs)).reverse ++
        l.filter (fun c => !isTagged "initial" c && !historyTest attrs c)).filter
      (fun c => !isTagged "initial" c && !isTagged "history" c) =
      l.filter (fun c => !isTagged "initial" c && !isTagged "history" c) := by
  constructor
  · rw [List.filter_eq_nil_iff]
    intro c hc hi
    rcases List.mem_append.1 hc with h | h
    · rw [List.mem_reverse, List.mem_filter] at h
      rw [initial_not_history attrs c hi] at h
      exact Bool.false_ne_true h.2
    · rw [List.mem_filter, hi] at h
      exact Bool.false_ne_true h.2
  · rw [List.filter_append]
    have e1 : (l.filter (historyTest attrs)).reverse.filter
        (fun c => !isTagged "initial" c && !isTagged "history" c) = [] := by
      rw [List.filter_eq_nil_iff]
      intro c hc
      rw [List.mem_reverse, List.mem_filter] at hc
      rw [historyTest_tagged attrs c hc.2]
      simp
    have e2 : (l.filter (fun c => !isTagged "initial" c && !historyTest attrs c)).filter
        (fun c => !isTagged "initial" c && !isTagged "history" c) =
        l.filter (fun c => !isTagged "initial" c && !isTagged "history" c) := by
      rw [List.filter_filter]
      apply List.filter_congr
      intro c _
      cases hi : isTagged "initial" c with
      | true => rfl
      | false =>
        cases hh : isTagged "history" c with
        | true => rfl
        | false =>
          have : historyTest attrs c = false := by
            unfold historyTest
            rw [hh, Bool.false_and]
          rw [this]
          rfl
    rw [e1, e2, List.nil_append]

/-- C31, amended.  At every element the children after `resortStates` are the children
before, each resorted, in another order (the multiset of children is unchanged): first the
`initial` children in the reverse of their original order, and among what follows them the
children that are neither `initial` nor `history` elements in their original order.  At an
element without attribute `type` whose `history` children are all shallow or all deep the
children are: the `initial` children, then the deep `history` children, then the shallow
`history` children, each of these groups in the reverse of its original order, then all other
children in their original order.  A node that is no element is left alone. -/
theorem resort_children_order (tag : String) (attrs : List (String × String))
    (cs : List Node) :
    (∃ rest, resortStates (Node.element tag attrs cs) =
        Node.element tag attrs
          (((cs.filter (isTagged "initial")).map resortStates).reverse ++ rest) ∧
      rest.filter (isTagged "initial") = [] ∧
      rest.filter (fun c => !isTagged "initial" c && !isTagged "history" c) =
        (cs.filter (fun c => !isTagged "initial" c && !isTagged "history" c)).map
          resortStates) ∧
    (attrs.lookup "type" = none →
      ((∀ c ∈ cs, isTagged "history" c = true → shallowHistory c = true) ∨
        (∀ c ∈ cs, isTagged "history" c = true → deepHistory c = true)) →
      resortStates (Node.element tag attrs cs) =
        Node.element tag attrs
          (((cs.filter (isTagged "initial")).map resortStates).reverse ++
            ((cs.filter deepHistory).map resortStates).reverse ++
            ((cs.filter shallowHistory).map resortStates).reverse ++
            (cs.filter (fun c => !isTagged "initial" c && !isTagged "history" c)).map
              resortStates)) ∧
    (∃ cs', resortStates (Node.element tag attrs cs) = Node.element tag attrs cs' ∧
      cs'.Perm (cs.map resortStates)) ∧
    resortStates Node.other = Node.other := by
  have hR : resortStates = hoistRev := funext resortStates_eq
  rw [hR]
  refine ⟨?_, ?_, ⟨_, hoistRev_element tag attrs cs, arrange_perm attrs _⟩, rfl⟩
  · refine ⟨_, ?_, (arrange_rest attrs (cs.map hoistRev)).1, ?_⟩
    · rw [hoistRev_element, arrange_eq, List.append_assoc,
        filter_map_resort _ (fun x => isTagged_hoistRev _ x)]
    · rw [(arrange_rest attrs (cs.map hoistRev)).2,
        filter_map_resort _ (fun x => by rw [isTagged_hoistRev, isTagged_hoistRev])]
  · intro htype hkind
    have hh : hoistsHistories attrs = true := by
      unfold hoistsHistories
      rw [htype]
      rfl
    rw [hoistRev_element, arrange_eq, historyTest_of_hoists attrs hh,
      filter_map_resort _ (fun x => isTagged_hoistRev _ x),
      filter_map_resort _ (fun x => isTagged_hoistRev _ x),
      filter_map_resort _ (fun x => by rw [isTagged_hoistRev, isTagged_hoistRev]),
      histories_one_kind cs hkind, List.map_append, List.reverse_append]
    rcases hkind with h | h
    · have e1 : cs.filter deepHistory = [] := by
        rw [List.filter_eq_nil_iff]
        intro c hc hd
        exact deep_not_shallow c hd (h c hc (deepHistory_tagged c hd))
      rw [e1]
      simp
    · have e1 : cs.filter shallowHistory = [] := by
        rw [List.filter_eq_nil_iff]
        intro c hc hs
        exact deep_not_shallow c (h c hc (shallowHistory_tagged c hs)) hs
      rw [e1]
      simp

/-- Instance of the amended C31: a state S with the children A, H1, B, H2 (two shallow
`history` elements) and an `initial` element; the result is initial, H2, H1, A, B. -/
theorem resort_children_order_witness :
    List.lookup "type" [("id", "S")] = none ∧
    resortStates (Node.element "state" [("id", "S")] [
        stateElem "A" [],
        Node.element "history" [("id", "H1")] [],
        stateElem "B" [],
        Node.element "history" [("id", "H2"), ("type", "shallow")] [],
        Node.element "initial" [] []]) =
      Node.element "state" [("id", "S")] [
        Node.element "initial" [] [],
        Node.element "history" [("id", "H2"), ("type", "shallow")] [],
        Node.element "history" [("id", "H1")] [],
        stateElem "A" [],
        stateElem "B" []] :=
  ⟨rfl, (resort_children_order "state" [("id", "S")] [
        stateElem "A" [],
        Node.element "history" [("id", "H1")] [],
        stateElem "B" [],
        Node.element "history" [("id", "H2"), ("type", "shallow")] [],
        Node.element "initial" [] []]).2.1 rfl (Or.inl (by decide))⟩

end ResortOrder


section NestedDone

/-- C12, evaluation at the failing input: in the ten-state machine the final state F (9) has
the parent S8 (8) and the proper ancestors root and S8, so it is no top-level final state, and
the donedata table has a record with source F.  The pristine step enters root, S8 and F and
returns `SCXML_ERR_OK`, but makes no call of `raise_done_event`: the first byte of
`ancestors[F]` is `0x01`, the stepper takes F for a top-level final state and sets
`SCXML_CTX_TOP_LEVEL_FINAL` instead.  In `donedataMachine`, where the parent of the final
state has an index below 8, the same step calls `raise_done_event` for the parent with the
record. -/
theorem nested_final_raises_no_done_event :
    SCXML_STATE_MASK (nestedDonedataMachine.states 9).type = SCXML_STATE_FINAL ∧
    (nestedDonedataMachine.states 9).parent = 8 ∧
    BIT_HAS 8 (nestedDonedataMachine.states 9).ancestors = true ∧
    find_donedata 9 nestedDonedataMachine.donedata 0 = some 0 ∧
    BIT_HAS 9 (ctxOf 0 0).config = false ∧
    (scxml_step nestedDonedataMachine (listHost false []) zeroStack (ctxOf 0 0) []).err =
      SCXML_ERR_OK ∧
    BIT_HAS 9 (scxml_step nestedDonedataMachine (listHost false []) zeroStack
      (ctxOf 0 0) []).frame.ctx.config = true ∧
    (scxml_step nestedDonedataMachine (listHost false []) zeroStack
      (ctxOf 0 0) []).frame.log = [] ∧
    (scxml_step nestedDonedataMachine (listHost false []) zeroStack
      (ctxOf 0 0) []).frame.ctx.flags &&& SCXML_CTX_TOP_LEVEL_FINAL ≠ 0 ∧
    (scxml_step donedataMachine (listHost false []) zeroStack (ctxOf 0 0) []).frame.log =
      [Call.raise_done_event 1 (some 0)] := by
  decide

end NestedDone

end ChartToC
